import Mathlib

/-!
# argparse: a shallow embedding of `argparse.c` / `argparse.h`

The C program keeps its argument records in two singly linked lists and mutates
caller-owned storage through `void *` pointers.  The embedding represents

* a C string by the list of its characters before the terminating NUL (`CStr`);
* a possibly-NULL pointer to a string by `Option CStr`;
* each linked list by a Lean `List` of records (`next_` is the list order), a
  pointer to a record by the list it lives in and its index (`ArgRef`);
* the caller's memory by a map from addresses to typed objects (`Memory`); two
  records may hold the same address in `value_`;
* the pair `argc_` / `argv_` by one list of tokens (`argc_` is its length);
* the outcome of running C code by `Comp`: a normal return, a call of `exit`, or
  undefined behaviour (a NULL dereference, an object read through the wrong type).

`long` is 64 bits wide (LP64).  The occurrence counter `count_` is an unbounded
integer: reaching `INT_MAX` matches needs more than 2^31 characters of arguments.
A `float` is its 32-bit pattern.  The functions of the parse take the two
operations the program performs on floats (`strtof` and the `WITHIN` comparison)
as a parameter (`FloatOps`); `ieee` is their interpretation in IEEE 754 arithmetic
(`float` is binary32, `double` is binary64, expressions of type `double` are
evaluated in `double`, rounding is to nearest).  The format string `error_msg` of
an error and all printing are left out.
-/

namespace Argparse

/-- A C string: the characters before the terminating NUL. -/
abbrev CStr := List Char

/-- The outcome of running a piece of the C program. -/
inductive Comp (α : Type) where
  /-- the code ran to its end and produced `a` -/
  | ok (a : α)
  /-- the code called `exit(status)` -/
  | exit (status : Nat)
  /-- the code has undefined behaviour -/
  | undef
  /-- the loop bound of the embedding was used up (never the case, see `scan_loop`) -/
  | diverge
  deriving DecidableEq, Repr

/-! ## `argparse.h` -/

/-- The enum `argparse_error_val`. -/
inductive argparse_error_val where
  | ARGPARSE_NO_ERROR
  | ARGPARSE_INVALID_FLAG_OR_NAME_ERROR
  | ARGPARSE_INVALID_TYPE_ERROR
  | ARGPARSE_INVALID_ACTION_ERROR
  | ARGPARSE_UNSUPPORTED_CHOICES_ERROR
  | ARGPARSE_UNSUPPORTED_ACTION_ERROR
  | ARGPARSE_CONFLICTING_OPTIONS_ERROR
  | ARGPARSE_UNSUPPORTED_REQUIRE_ERROR
  | ARGPARSE_ARGUMENT_UNKNOWN_ERROR
  | ARGPARSE_ARGUMENT_MISSING_VALUE_ERROR
  | ARGPARSE_INT_RANGE_EXCEEDED_ERROR
  | ARGPARSE_INVALID_CHOICE_ERROR
  | ARGPARSE_MISSING_ARGUMENT_ERROR
  deriving DecidableEq, Repr

open argparse_error_val

/-- The struct `argparse_error_t` (without `error_msg`). -/
structure argparse_error_t where
  error_val : argparse_error_val
  arg_name : Option CStr
  arg_flag : Char
  deriving DecidableEq, Repr

/-- The enum `argparse_action_t`; `other c` is an object of the enum type that holds a
value `c` outside the enumeration. -/
inductive argparse_action_t where
  | ARGPARSE_STORE_ACTION
  | ARGPARSE_STORE_TRUE_ACTION
  | ARGPARSE_STORE_FALSE_ACTION
  | ARGPARSE_COUNT_ACTION
  | ARGPARSE_BOOLEAN_OPTIONAL_ACTION
  | other (c : Nat)
  deriving DecidableEq, Repr

/-- The enum `argparse_type_t`; `other c` is an object of the enum type that holds a
value `c` outside the enumeration. -/
inductive argparse_type_t where
  | ARGPARSE_INT_TYPE
  | ARGPARSE_FLOAT_TYPE
  | ARGPARSE_BOOL_TYPE
  | ARGPARSE_STRING_TYPE
  | other (c : Nat)
  deriving DecidableEq, Repr

open argparse_action_t argparse_type_t

/-- The array behind `choices_`: its element type is fixed by the caller. -/
inductive Choices where
  | ints (l : List Int)
  | floats (l : List Nat)
  | strs (l : List CStr)
  deriving DecidableEq, Repr

/-- The struct `argparse_arg_t`.  `next_` is the order of the list the record is in;
`value_` is the address of the caller's storage. -/
structure argparse_arg_t where
  type_ : argparse_type_t
  count_ : Int
  flag_ : Char
  name_ : Option CStr
  value_ : Nat
  action_ : argparse_action_t
  help_ : Option CStr
  required_ : Bool
  choices_ : Option Choices
  num_choices_ : Nat
  deriving DecidableEq, Repr

/-- The struct `argument_parser_t`; `argc_` is the length of `argv_`. -/
structure argument_parser_t where
  argv_ : List CStr
  prog_ : Option CStr
  description_ : Option CStr
  epilog_ : Option CStr
  options_ : List argparse_arg_t
  positional_args_ : List argparse_arg_t
  deriving DecidableEq, Repr

/-- The field `argc_`. -/
def argument_parser_t.argc_ (parser : argument_parser_t) : Nat := parser.argv_.length

/-- `NO_FLAG` is the NUL character. -/
def NO_FLAG : Char := Char.ofNat 0

/-! ## Memory -/

/-- An object in the caller's memory. -/
inductive Val where
  | int (n : Int)
  | float (bits : Nat)
  | bool (b : Bool)
  | str (s : CStr)
  deriving DecidableEq, Repr

/-- The caller's memory: the object stored at each address. -/
abbrev Memory := Nat → Val

/-- Store `v` at address `a`. -/
def Memory.write (m : Memory) (a : Nat) (v : Val) : Memory :=
  fun x => if x = a then v else m x

/-- The floating-point operations the program uses, on 32-bit patterns:
`strtof(s, NULL)` and the macro `WITHIN(val, tar)`. -/
structure FloatOps where
  strtof : CStr → Nat
  within : Nat → Nat → Bool

/-! ## `strtol(s, NULL, 0)` -/

def INT32_MAX : Int := 2147483647
def INT32_MIN : Int := -2147483648
def LONG_MAX : Int := 9223372036854775807
def LONG_MIN : Int := -9223372036854775808

/-- `isspace` in the C locale. -/
def isspace (c : Char) : Bool :=
  c = ' ' || c = '\t' || c = '\n' || c = Char.ofNat 11 || c = Char.ofNat 12 || c = '\r'

/-- The value of a character as a digit of `strtol` (letters count from 10). -/
def digitVal (c : Char) : Option Nat :=
  if '0' ≤ c ∧ c ≤ '9' then some (c.toNat - 48)
  else if 'a' ≤ c ∧ c ≤ 'z' then some (c.toNat - 97 + 10)
  else if 'A' ≤ c ∧ c ≤ 'Z' then some (c.toNat - 65 + 10)
  else none

/-- Accumulate the longest run of digits of `base` at the head of the string. -/
def strtol_accum (base : Nat) : CStr → Nat → Nat
  | [], acc => acc
  | c :: cs, acc =>
    match digitVal c with
    | some d => if d < base then strtol_accum base cs (acc * base + d) else acc
    | none => acc

/-- The magnitude read by `strtol` with base 0 after blanks and sign: `0x`/`0X` before
a hexadecimal digit selects base 16, another leading `0` base 8, anything else base
10.  A string without digits gives 0. -/
def strtol_magnitude : CStr → Nat
  | '0' :: 'x' :: c :: cs =>
    match digitVal c with
    | some d => if d < 16 then strtol_accum 16 (c :: cs) 0 else 0
    | none => 0
  | '0' :: 'X' :: c :: cs =>
    match digitVal c with
    | some d => if d < 16 then strtol_accum 16 (c :: cs) 0 else 0
    | none => 0
  | '0' :: cs => strtol_accum 8 cs 0
  | cs => strtol_accum 10 cs 0

/-- The sign and magnitude part of `strtol`, after the leading blanks. -/
def strtol_signed : CStr → Int
  | '-' :: cs => - (strtol_magnitude cs : Int)
  | '+' :: cs => (strtol_magnitude cs : Int)
  | cs => (strtol_magnitude cs : Int)

/-- `strtol(s, NULL, 0)` called with `errno = 0`: the result and whether `errno` is
`ERANGE` afterwards.  Out-of-range values are clamped to `LONG_MAX` / `LONG_MIN`. -/
def strtol (s : CStr) : Int × Bool :=
  let v := strtol_signed (s.dropWhile isspace)
  if v > LONG_MAX then (LONG_MAX, true)
  else if v < LONG_MIN then (LONG_MIN, true)
  else (v, false)

/-! ## Floating point: `strtof(s, NULL)` and the macro `WITHIN` -/

/-- A floating-point datum: a NaN, an infinity, or the number `m * 2 ^ e` with the sign
`neg`. -/
inductive FP where
  | nan
  | inf (neg : Bool)
  | fin (neg : Bool) (m : Nat) (e : Int)
  deriving DecidableEq, Repr

/-- A binary format of IEEE 754: the precision `p` in bits, the exponent `qmin` of the
least positive number, and the largest exponent `emax` of a finite number. -/
structure Format where
  p : Nat
  qmin : Int
  emax : Int

/-- The format of `float`. -/
def binary32 : Format := ⟨24, -149, 127⟩

/-- The format of `double`. -/
def binary64 : Format := ⟨53, -1074, 1023⟩

/-- The number of binary digits of `n`, counted with `fuel` steps at most. -/
def bit_length_aux : Nat → Nat → Nat
  | 0, _ => 0
  | fuel + 1, n => if n = 0 then 0 else bit_length_aux fuel (n / 2) + 1

/-- The number of binary digits of `n` (0 for 0). -/
def bit_length (n : Nat) : Nat := bit_length_aux n n

/-- `2 ^ k` for `k ≥ 0`, and 1 for a negative `k`. -/
def pow2 (k : Int) : Nat := 2 ^ k.toNat

/-- The quotient `N / D` rounded to the nearest integer, a tie to the even one. -/
def rne_div (N D : Nat) : Nat :=
  if 2 * (N % D) > D ∨ (2 * (N % D) = D ∧ (N / D) % 2 = 1) then N / D + 1 else N / D

/-- The datum for the rounded number `n * 2 ^ q` with `n ≠ 0`: an infinity when it is
`2 ^ (emax + 1)` or more. -/
def FP.finish (f : Format) (neg : Bool) (n : Nat) (q : Int) : FP :=
  if q + (bit_length n : Int) - 1 > f.emax then .inf neg else .fin neg n q

/-- The number `m * 2 ^ e` rounded to the format, to nearest with ties to even.  The
result has the exponent `q` of the unit in the last place of the number. -/
def round_dyadic (f : Format) (neg : Bool) (m : Nat) (e : Int) : FP :=
  if m = 0 then .fin neg 0 f.qmin
  else
    let q := max (e + (bit_length m : Int) - f.p) f.qmin
    FP.finish f neg (rne_div (m * pow2 (e - q)) (pow2 (q - e))) q

/-- The number `num / den` (with `den ≠ 0`) rounded to the format, to nearest with ties
to even. -/
def round_ratio (f : Format) (neg : Bool) (num den : Nat) : FP :=
  if num = 0 then .fin neg 0 f.qmin
  else
    let k : Int := (bit_length num : Int) - (bit_length den : Int)
    let e : Int := if den * pow2 k ≤ num * pow2 (-k) then k else k - 1
    let q := max (e + 1 - f.p) f.qmin
    FP.finish f neg (rne_div (num * pow2 (-q)) (den * pow2 q)) q

/-- The datum that a 32-bit pattern encodes in binary32. -/
def decode32 (bits : Nat) : FP :=
  let neg : Bool := bits / 2 ^ 31 % 2 = 1
  if bits / 2 ^ 23 % 256 = 255 then
    if bits % 2 ^ 23 = 0 then .inf neg else .nan
  else if bits / 2 ^ 23 % 256 = 0 then .fin neg (bits % 2 ^ 23) (-149)
  else .fin neg (2 ^ 23 + bits % 2 ^ 23) ((bits / 2 ^ 23 % 256 : Nat) - 150)

/-- The 32-bit pattern of a datum that was rounded to binary32; a NaN is the one with
the first bit of the fraction alone. -/
def encode32 : FP → Nat
  | .nan => 0x7FC00000
  | .inf neg => (if neg then 2 ^ 31 else 0) + 0x7F800000
  | .fin neg m e => (if neg then 2 ^ 31 else 0) + ((e + 149).toNat * 2 ^ 23 + m)

/-- The operand with its sign changed. -/
def FP.negate : FP → FP
  | .nan => .nan
  | .inf neg => .inf (!neg)
  | .fin neg m e => .fin (!neg) m e

/-- The integer `k` with `m * 2 ^ e = k * 2 ^ q` and the sign `neg`, for `q ≤ e`. -/
def FP.scaled (neg : Bool) (m : Nat) (e q : Int) : Int :=
  if neg then - ((m * pow2 (e - q) : Nat) : Int) else ((m * pow2 (e - q) : Nat) : Int)

/-- The sum of two `double`s, rounded to nearest. -/
def f64_add : FP → FP → FP
  | .nan, _ => .nan
  | _, .nan => .nan
  | .inf s, .inf t => if s = t then .inf s else .nan
  | .inf s, .fin _ _ _ => .inf s
  | .fin _ _ _, .inf t => .inf t
  | .fin s m e, .fin t n g =>
    let x : Int := FP.scaled s m e (min e g) + FP.scaled t n g (min e g)
    if x = 0 then .fin (s && t) 0 binary64.qmin
    else round_dyadic binary64 (decide (x < 0)) x.natAbs (min e g)

/-- The difference of two `double`s, rounded to nearest. -/
def f64_sub (a b : FP) : FP := f64_add a b.negate

/-- The comparison `a <= b` of two `double`s (false when one is a NaN). -/
def f64_le : FP → FP → Bool
  | .nan, _ => false
  | _, .nan => false
  | .inf s, .inf t => s || !t
  | .inf s, .fin _ _ _ => s
  | .fin _ _ _, .inf t => !t
  | .fin s m e, .fin t n g =>
    decide (FP.scaled s m e (min e g) ≤ FP.scaled t n g (min e g))

/-- The comparison `a >= b` of two `double`s. -/
def f64_ge (a b : FP) : Bool := f64_le b a

/-- `EPSILON_FLOAT`: the constant `1e-5` of type `double`. -/
def EPSILON_FLOAT : FP := round_ratio binary64 false 1 100000

/-- `WITHIN(val, tar)` for two `float`s: they are converted to `double` (which keeps
their value), the bounds `tar - EPSILON_FLOAT` and `tar + EPSILON_FLOAT` are computed in
`double`. -/
def WITHIN (val tar : Nat) : Bool :=
  f64_ge (decode32 val) (f64_sub (decode32 tar) EPSILON_FLOAT) &&
    f64_le (decode32 val) (f64_add (decode32 tar) EPSILON_FLOAT)

/-- The longest run of digits of `base` at the head of the string: the number read so
far, the count of the digits, and the rest of the string. -/
def read_digits (base : Nat) : CStr → Nat → Nat → Nat × Nat × CStr
  | [], acc, n => (acc, n, [])
  | c :: cs, acc, n =>
    match digitVal c with
    | some d => if d < base then read_digits base cs (acc * base + d) (n + 1) else (acc, n, c :: cs)
    | none => (acc, n, c :: cs)

/-- The digits of a number with an optional point: the number that the digits alone
spell, how many digits there are, how many of them follow the point, and the rest. -/
def read_mantissa (base : Nat) (s : CStr) : Nat × Nat × Nat × CStr :=
  match read_digits base s 0 0 with
  | (a, n, '.' :: cs) =>
    match read_digits base cs a 0 with
    | (a2, n2, rest) => (a2, n + n2, n2, rest)
  | (a, n, rest) => (a, n, 0, rest)

/-- The exponent after the letter `e` or `p`: an optional sign and decimal digits; 0
when there is no digit (the letter is then not part of the number). -/
def read_exponent : CStr → Int
  | '-' :: cs => - ((read_digits 10 cs 0 0).1 : Int)
  | '+' :: cs => ((read_digits 10 cs 0 0).1 : Int)
  | cs => ((read_digits 10 cs 0 0).1 : Int)

/-- The exponent part of a number, when the rest of the string starts with one of the
two letters. -/
def exponent_part (lower upper : Char) : CStr → Int
  | c :: cs => if c = lower ∨ c = upper then read_exponent cs else 0
  | [] => 0

/-- The magnitude that `strtof` reads after blanks and sign, as a `float`: `inf` and
`nan` in any case of letters, a hexadecimal number after `0x`, or a decimal number,
rounded to nearest; 0 when the string starts with none of them. -/
def strtof_magnitude (s : CStr) : FP :=
  if (s.take 3).map Char.toLower = "inf".toList then .inf false
  else if (s.take 3).map Char.toLower = "nan".toList then .nan
  else
    let hex : Option (Nat × Nat × Nat × CStr) :=
      match s with
      | '0' :: x :: cs =>
        if (x = 'x' ∨ x = 'X') ∧ (read_mantissa 16 cs).2.1 ≠ 0 then some (read_mantissa 16 cs)
        else none
      | _ => none
    match hex with
    | some (a, _, frac, rest) =>
      round_dyadic binary32 false a (exponent_part 'p' 'P' rest - 4 * (frac : Int))
    | none =>
      match read_mantissa 10 s with
      | (a, n, frac, rest) =>
        if n = 0 then .fin false 0 binary32.qmin
        else
          let x : Int := exponent_part 'e' 'E' rest - (frac : Int)
          round_ratio binary32 false (a * 10 ^ x.toNat) (10 ^ (-x).toNat)

/-- `strtof(s, NULL)`, as the bit pattern of the `float` (round to nearest; a NaN is
returned with an empty payload). -/
def strtof (s : CStr) : Nat :=
  match s.dropWhile isspace with
  | '-' :: cs => 2 ^ 31 + encode32 (strtof_magnitude cs)
  | '+' :: cs => encode32 (strtof_magnitude cs)
  | cs => encode32 (strtof_magnitude cs)

/-- The floating-point operations of the program in IEEE 754 arithmetic. -/
def ieee : FloatOps := ⟨strtof, WITHIN⟩

/-- The `float` nearest to `num / den`. -/
def float_of (num den : Nat) : Nat := encode32 (round_ratio binary32 false num den)

/-! ## `argparse.h`: the macros that build records -/

/-- `ARGPARSE_ARG`: `next_` is NULL and `count_` is 0. -/
def ARGPARSE_ARG (type : argparse_type_t) (flag : Char) (name : Option CStr) (res : Nat)
    (action : argparse_action_t) (help : Option CStr) (required : Bool)
    (choices : Option Choices) (num_choices : Nat) : argparse_arg_t :=
  { type_ := type, count_ := 0, flag_ := flag, name_ := name, value_ := res,
    action_ := action, help_ := help, required_ := required, choices_ := choices,
    num_choices_ := num_choices }

/-- `ARGPARSE_POSITIONAL`. -/
def ARGPARSE_POSITIONAL (type : argparse_type_t) (name : Option CStr) (res : Nat)
    (help : Option CStr) : argparse_arg_t :=
  ARGPARSE_ARG type NO_FLAG name res ARGPARSE_STORE_ACTION help true none 0

/-- `ARGPARSE_POSITIONAL_WITH_CHOICES`. -/
def ARGPARSE_POSITIONAL_WITH_CHOICES (type : argparse_type_t) (name : Option CStr) (res : Nat)
    (help : Option CStr) (choices : Option Choices) (num_choices : Nat) : argparse_arg_t :=
  ARGPARSE_ARG type NO_FLAG name res ARGPARSE_STORE_ACTION help true choices num_choices

/-- `ARGPARSE_OPTION`. -/
def ARGPARSE_OPTION (type : argparse_type_t) (flag : Char) (name : Option CStr) (res : Nat)
    (help : Option CStr) : argparse_arg_t :=
  ARGPARSE_ARG type flag name res ARGPARSE_STORE_ACTION help false none 0

/-- `ARGPARSE_OPTION_REQUIRED`. -/
def ARGPARSE_OPTION_REQUIRED (type : argparse_type_t) (flag : Char) (name : Option CStr)
    (res : Nat) (help : Option CStr) : argparse_arg_t :=
  ARGPARSE_ARG type flag name res ARGPARSE_STORE_ACTION help true none 0

/-- `ARGPARSE_OPTION_WITH_CHOICES`. -/
def ARGPARSE_OPTION_WITH_CHOICES (type : argparse_type_t) (flag : Char) (name : Option CStr)
    (res : Nat) (help : Option CStr) (choices : Option Choices) (num_choices : Nat) :
    argparse_arg_t :=
  ARGPARSE_ARG type flag name res ARGPARSE_STORE_ACTION help false choices num_choices

/-- `ARGPARSE_COUNT`. -/
def ARGPARSE_COUNT (flag : Char) (name : Option CStr) (res : Nat) (help : Option CStr) :
    argparse_arg_t :=
  ARGPARSE_ARG ARGPARSE_INT_TYPE flag name res ARGPARSE_COUNT_ACTION help false none 0

/-- `ARGPARSE_TOGGLE`. -/
def ARGPARSE_TOGGLE (flag : Char) (name : Option CStr) (res : Nat) (help : Option CStr) :
    argparse_arg_t :=
  ARGPARSE_ARG ARGPARSE_BOOL_TYPE flag name res ARGPARSE_BOOLEAN_OPTIONAL_ACTION help false
    none 0

/-- `ARGPARSE_FLAG_TRUE`. -/
def ARGPARSE_FLAG_TRUE (flag : Char) (name : Option CStr) (res : Nat) (help : Option CStr) :
    argparse_arg_t :=
  ARGPARSE_ARG ARGPARSE_BOOL_TYPE flag name res ARGPARSE_STORE_TRUE_ACTION help false none 0

/-- `ARGPARSE_FLAG_FALSE`. -/
def ARGPARSE_FLAG_FALSE (flag : Char) (name : Option CStr) (res : Nat) (help : Option CStr) :
    argparse_arg_t :=
  ARGPARSE_ARG ARGPARSE_BOOL_TYPE flag name res ARGPARSE_STORE_FALSE_ACTION help false none 0

/-! ## `argparse.c`: error values -/

def ARGPARSE_NO_ERROR_ : argparse_error_t :=
  ⟨ARGPARSE_NO_ERROR, none, NO_FLAG⟩

def ARGPARSE_ARGUMENT_UNKNOWN_ERROR_ (name : Option CStr) : argparse_error_t :=
  ⟨ARGPARSE_ARGUMENT_UNKNOWN_ERROR, name, NO_FLAG⟩

def ARGPARSE_INT_RANGE_EXCEEDED_ERROR_ (name : Option CStr) (flag : Char) : argparse_error_t :=
  ⟨ARGPARSE_INT_RANGE_EXCEEDED_ERROR, name, flag⟩

def ARGPARSE_ARGUMENT_MISSING_VALUE_ERROR_ (name : Option CStr) (flag : Char) :
    argparse_error_t :=
  ⟨ARGPARSE_ARGUMENT_MISSING_VALUE_ERROR, name, flag⟩

def ARGPARSE_INVALID_CHOICE_ERROR_ (name : Option CStr) (flag : Char) : argparse_error_t :=
  ⟨ARGPARSE_INVALID_CHOICE_ERROR, name, flag⟩

def ARGPARSE_MISSING_ARGUMENT_ERROR_ (name : Option CStr) (flag : Char) : argparse_error_t :=
  ⟨ARGPARSE_MISSING_ARGUMENT_ERROR, name, flag⟩

/-- The test of `CHECK_ERROR`: `error.error_val` is non-zero. -/
def is_error (error : argparse_error_t) : Bool :=
  error.error_val != ARGPARSE_NO_ERROR

/-- Sequencing of `Comp`. -/
def Comp.bind {α β : Type} (x : Comp α) (f : α → Comp β) : Comp β :=
  match x with
  | .ok a => f a
  | .exit status => .exit status
  | .undef => .undef
  | .diverge => .diverge

/-! ## `argparse.c`: registration -/

def ARGPARSE_INVALID_FLAG_OR_NAME_ERROR_ (name : Option CStr) : argparse_error_t :=
  ⟨ARGPARSE_INVALID_FLAG_OR_NAME_ERROR, name, NO_FLAG⟩

def ARGPARSE_INVALID_TYPE_ERROR_ (type : Nat) : argparse_error_t :=
  ⟨ARGPARSE_INVALID_TYPE_ERROR, none, Char.ofNat (type % 256)⟩

def ARGPARSE_INVALID_ACTION_ERROR_ (action : Nat) : argparse_error_t :=
  ⟨ARGPARSE_INVALID_ACTION_ERROR, none, Char.ofNat (action % 256)⟩

def ARGPARSE_UNSUPPORTED_CHOICES_ERROR_ (name : Option CStr) (flag : Char) : argparse_error_t :=
  ⟨ARGPARSE_UNSUPPORTED_CHOICES_ERROR, name, flag⟩

def ARGPARSE_UNSUPPORTED_ACTION_ERROR_ (name : Option CStr) (flag : Char) : argparse_error_t :=
  ⟨ARGPARSE_UNSUPPORTED_ACTION_ERROR, name, flag⟩

def ARGPARSE_CONFLICTING_OPTIONS_ERROR_ (name : Option CStr) (flag : Char) : argparse_error_t :=
  ⟨ARGPARSE_CONFLICTING_OPTIONS_ERROR, name, flag⟩

def ARGPARSE_UNSUPPORTED_REQUIRE_ERROR_ (name : Option CStr) (flag : Char) : argparse_error_t :=
  ⟨ARGPARSE_UNSUPPORTED_REQUIRE_ERROR, name, flag⟩

/-- `starts_with`: `strncmp(string, pfx, strlen(pfx)) == 0`. -/
def starts_with (string pfx : CStr) : Bool :=
  pfx.isPrefixOf string

/-- `argparse_init` on an argument vector (`argc` is its length): the error returned
and the parser. -/
def argparse_init (argv : List CStr) (description epilog : Option CStr) :
    argparse_error_t × argument_parser_t :=
  (ARGPARSE_NO_ERROR_,
    { argv_ := argv.tail, prog_ := argv.head?, description_ := description,
      epilog_ := epilog, options_ := [], positional_args_ := [] })

/-- `check_added`.  When `arg` has a name and `added` has none, `strcmp` is passed
NULL. -/
def check_added (added arg : argparse_arg_t) : Comp argparse_error_t :=
  if arg.flag_ ≠ NO_FLAG ∧ arg.flag_ = added.flag_ then
    .ok (ARGPARSE_CONFLICTING_OPTIONS_ERROR_ none arg.flag_)
  else
    match arg.name_ with
    | none => .ok ARGPARSE_NO_ERROR_
    | some name =>
      match added.name_ with
      | none => .undef
      | some added_name =>
        if name = added_name then .ok (ARGPARSE_CONFLICTING_OPTIONS_ERROR_ arg.name_ NO_FLAG)
        else .ok ARGPARSE_NO_ERROR_

/-- The `while (added)` loop of `argparse_add_argument`: the first error of
`check_added` along the list. -/
def check_added_list (arg : argparse_arg_t) : List argparse_arg_t → Comp argparse_error_t
  | [] => .ok ARGPARSE_NO_ERROR_
  | added :: rest =>
    (check_added added arg).bind fun error =>
      if is_error error then .ok error else check_added_list arg rest

/-- The `switch (arg->action_)` of `argparse_add_argument`: the error it returns, if
any.  `positional` is the local of that name. -/
def check_action (arg : argparse_arg_t) (positional : Bool) : Option argparse_error_t :=
  let remaining (bool_action : Bool) : Option argparse_error_t :=
    if arg.choices_.isSome then
      some (ARGPARSE_UNSUPPORTED_CHOICES_ERROR_ arg.name_ arg.flag_)
    else if positional then some (ARGPARSE_UNSUPPORTED_ACTION_ERROR_ arg.name_ NO_FLAG)
    else if arg.required_ then some (ARGPARSE_UNSUPPORTED_REQUIRE_ERROR_ arg.name_ arg.flag_)
    else if !bool_action && arg.type_ == ARGPARSE_BOOL_TYPE then
      some (ARGPARSE_UNSUPPORTED_ACTION_ERROR_ arg.name_ arg.flag_)
    else none
  let boolean : Option argparse_error_t :=
    if arg.type_ ≠ ARGPARSE_BOOL_TYPE then
      some (ARGPARSE_UNSUPPORTED_ACTION_ERROR_ arg.name_ arg.flag_)
    else remaining true
  match arg.action_ with
  | ARGPARSE_STORE_TRUE_ACTION => boolean
  | ARGPARSE_STORE_FALSE_ACTION => boolean
  | ARGPARSE_BOOLEAN_OPTIONAL_ACTION => boolean
  | ARGPARSE_COUNT_ACTION =>
    if arg.type_ ≠ ARGPARSE_INT_TYPE then
      some (ARGPARSE_UNSUPPORTED_ACTION_ERROR_ arg.name_ arg.flag_)
    else remaining false
  | ARGPARSE_STORE_ACTION =>
    if arg.type_ == ARGPARSE_BOOL_TYPE then
      some (ARGPARSE_UNSUPPORTED_ACTION_ERROR_ arg.name_ arg.flag_)
    else none
  | .other c => some (ARGPARSE_INVALID_ACTION_ERROR_ c)

/-- `argparse_add_argument`: the error returned and the parser afterwards.  The new
record is linked behind the last node of its list (its own `next_` is NULL, as the
macros of `argparse.h` set it). -/
def argparse_add_argument (parser : argument_parser_t) (arg : argparse_arg_t) :
    Comp (argparse_error_t × argument_parser_t) :=
  if arg.flag_ = NO_FLAG ∧ (arg.name_ = none ∨ arg.name_ = some []) then
    .ok (ARGPARSE_INVALID_FLAG_OR_NAME_ERROR_ none, parser)
  else
    match arg.type_ with
    | .other c => .ok (ARGPARSE_INVALID_TYPE_ERROR_ c, parser)
    | _ =>
      let positional : Bool :=
        match arg.name_ with
        | some name => !starts_with name "-".toList
        | none => false
      match check_action arg positional with
      | some error => .ok (error, parser)
      | none =>
        if positional ∧ arg.flag_ ≠ NO_FLAG then
          .ok (ARGPARSE_INVALID_FLAG_OR_NAME_ERROR_ arg.name_, parser)
        else if (arg.name_.map List.length) = some 2 ∧ ¬ positional then
          .ok (ARGPARSE_INVALID_FLAG_OR_NAME_ERROR_ none, parser)
        else if arg.flag_ = 'h' then
          .ok (ARGPARSE_CONFLICTING_OPTIONS_ERROR_ none NO_FLAG, parser)
        else if arg.name_ = some "--help".toList then
          .ok (ARGPARSE_CONFLICTING_OPTIONS_ERROR_ none NO_FLAG, parser)
        else
          let added := if positional then parser.positional_args_ else parser.options_
          (check_added_list arg added).bind fun error =>
            if is_error error then .ok (error, parser)
            else if positional then
              .ok (ARGPARSE_NO_ERROR_,
                { parser with positional_args_ := parser.positional_args_ ++ [arg] })
            else .ok (ARGPARSE_NO_ERROR_, { parser with options_ := parser.options_ ++ [arg] })

/-- `argparse_add_arguments` on the array `args` (`num_args` is its length). -/
def argparse_add_arguments (parser : argument_parser_t) :
    List argparse_arg_t → Comp (argparse_error_t × argument_parser_t)
  | [] => .ok (ARGPARSE_NO_ERROR_, parser)
  | arg :: args =>
    (argparse_add_argument parser arg).bind fun (error, parser1) =>
      if is_error error then .ok (error, parser1) else argparse_add_arguments parser1 args

/-! ## `argparse.c`: lookup -/

/-- The struct `arg_to_find`: the tag with the member of the union it selects. -/
inductive arg_to_find where
  | FLAG_TO_FIND (flag : Char)
  | NAME_TO_FIND (name : CStr) (pfx : Option CStr)
  | INDEX_TO_FIND (index : Nat)
  deriving DecidableEq, Repr

open arg_to_find

/-- The loop of `find_arg` from a node of the list, `i` being the index of that node.
The result is the index of the record found, `none` for NULL.  Comparing a name
with a record whose `name_` is NULL passes NULL to `strncmp` / `strcmp`. -/
def find_arg_from (arg : arg_to_find) : List argparse_arg_t → Nat → Comp (Option Nat)
  | [], _ => .ok none
  | curr_arg :: rest, i =>
    match arg with
    | FLAG_TO_FIND flag =>
      if flag = curr_arg.flag_ then .ok (some i) else find_arg_from arg rest (i + 1)
    | NAME_TO_FIND name pfx =>
      match curr_arg.name_ with
      | none => .undef
      | some curr_name =>
        match pfx with
        | some p =>
          if starts_with curr_name p && name == curr_name.drop p.length then .ok (some i)
          else find_arg_from arg rest (i + 1)
        | none =>
          if name == curr_name then .ok (some i) else find_arg_from arg rest (i + 1)
    | INDEX_TO_FIND index =>
      if index = i then .ok (some i) else find_arg_from arg rest (i + 1)

/-- `find_arg`. -/
def find_arg (arg_list : List argparse_arg_t) (arg : arg_to_find) : Comp (Option Nat) :=
  find_arg_from arg arg_list 0

/-! ## `argparse.c`: value binding -/

/-- What the `void *value` argument of `update_value` points to. -/
inductive CValue where
  /-- a token of `argv_` -/
  | text (s : CStr)
  /-- the local `tmp_bool` -/
  | tmp_bool (b : Bool)
  /-- the field `count_` of the record -/
  | count (n : Int)
  deriving DecidableEq, Repr

/-- `update_value`.  Reading `value` through a type other than that of the object it
points to is undefined (this needs a record that registration rejects). -/
def update_value (fp : FloatOps) (arg : argparse_arg_t) (mem : Memory) (value : CValue)
    (string : Bool) : Comp (argparse_error_t × Memory) :=
  match arg.type_ with
  | ARGPARSE_INT_TYPE =>
    let read : Option (Int × Bool) :=
      match string, value with
      | true, .text s => some (strtol s)
      | false, .count n => some (n, false)
      | _, _ => none
    match read with
    | none => .undef
    | some (res, erange) =>
      if erange || res > INT32_MAX || res < INT32_MIN then
        .ok (ARGPARSE_INT_RANGE_EXCEEDED_ERROR_ arg.name_ arg.flag_, mem)
      else .ok (ARGPARSE_NO_ERROR_, mem.write arg.value_ (.int res))
  | ARGPARSE_FLOAT_TYPE =>
    match string, value with
    | true, .text s => .ok (ARGPARSE_NO_ERROR_, mem.write arg.value_ (.float (fp.strtof s)))
    | _, _ => .undef
  | ARGPARSE_BOOL_TYPE =>
    match value with
    | .tmp_bool b => .ok (ARGPARSE_NO_ERROR_, mem.write arg.value_ (.bool b))
    | _ => .undef
  | ARGPARSE_STRING_TYPE =>
    match value with
    | .text s => .ok (ARGPARSE_NO_ERROR_, mem.write arg.value_ (.str s))
    | _ => .undef
  | .other _ => .exit 1

/-- A pointer to a registered record: the list it is in and its index there. -/
inductive ArgRef where
  | option (k : Nat)
  | positional (k : Nat)
  deriving DecidableEq, Repr

/-- The record a pointer points to. -/
def argument_parser_t.deref (parser : argument_parser_t) : ArgRef → Option argparse_arg_t
  | .option k => parser.options_[k]?
  | .positional k => parser.positional_args_[k]?

/-- Overwrite the record a pointer points to. -/
def argument_parser_t.assign (parser : argument_parser_t) (ref : ArgRef)
    (arg : argparse_arg_t) : argument_parser_t :=
  match ref with
  | .option k => { parser with options_ := parser.options_.set k arg }
  | .positional k => { parser with positional_args_ := parser.positional_args_.set k arg }

/-- The mutable world of a parse: the records (inside the parser) and the memory. -/
structure State where
  parser : argument_parser_t
  mem : Memory

/-- The loop over the choices in `get_and_update_value`, from index `j`, with `n`
iterations left.  The result is an error returned from inside the loop or the final
value of `tmp_bool`. -/
def choices_loop (fp : FloatOps) (arg : argparse_arg_t) (value : CStr) :
    Nat → Nat → Bool → Comp (Except argparse_error_t Bool)
  | 0, _, tmp_bool => .ok (.ok tmp_bool)
  | n + 1, j, tmp_bool =>
    match arg.type_ with
    | ARGPARSE_INT_TYPE =>
      let (res, erange) := strtol value
      if erange || res > INT32_MAX || res < INT32_MIN then
        .ok (.error (ARGPARSE_INT_RANGE_EXCEEDED_ERROR_ arg.name_ arg.flag_))
      else
        match arg.choices_ with
        | some (.ints l) =>
          match l[j]? with
          | some c => if c == res then .ok (.ok true) else choices_loop fp arg value n (j + 1) false
          | none => .undef
        | _ => .undef
    | ARGPARSE_FLOAT_TYPE =>
      match arg.choices_ with
      | some (.floats l) =>
        match l[j]? with
        | some c =>
          if fp.within (fp.strtof value) c then .ok (.ok true)
          else choices_loop fp arg value n (j + 1) false
        | none => .undef
      | _ => .undef
    | ARGPARSE_BOOL_TYPE =>
      if tmp_bool then .ok (.ok true) else choices_loop fp arg value n (j + 1) tmp_bool
    | ARGPARSE_STRING_TYPE =>
      match arg.choices_ with
      | some (.strs l) =>
        match l[j]? with
        | some c => if c == value then .ok (.ok true) else choices_loop fp arg value n (j + 1) false
        | none => .undef
      | _ => .undef
    | .other _ => .exit 1

/-- `get_and_update_value`: the error returned, the new state and the new value of
`*i`. -/
def get_and_update_value (fp : FloatOps) (st : State) (ref : ArgRef) (i : Nat)
    (positional negated : Bool) : Comp (argparse_error_t × State × Nat) :=
  match st.parser.deref ref with
  | none => .undef
  | some arg0 =>
    let arg : argparse_arg_t := { arg0 with count_ := arg0.count_ + 1 }
    let st1 : State := { st with parser := st.parser.assign ref arg }
    let finish (value : CValue) (i1 : Nat) : Comp (argparse_error_t × State × Nat) :=
      (update_value fp arg st1.mem value (arg.action_ == ARGPARSE_STORE_ACTION)).bind
        fun (error, mem1) => .ok (error, { st1 with mem := mem1 }, i1)
    match arg.action_ with
    | ARGPARSE_STORE_ACTION =>
      if !positional && i + 1 == st.parser.argc_ then
        .ok (ARGPARSE_ARGUMENT_MISSING_VALUE_ERROR_ st.parser.argv_[i]? NO_FLAG, st1, i)
      else
        let i1 := if positional then i else i + 1
        match st.parser.argv_[i1]? with
        | none => .undef
        | some value =>
          (choices_loop fp arg value arg.num_choices_ 0 (arg.num_choices_ == 0)).bind
            fun r =>
              match r with
              | .error error => .ok (error, st1, i1)
              | .ok tmp_bool =>
                if !tmp_bool then
                  .ok (ARGPARSE_INVALID_CHOICE_ERROR_
                    st.parser.argv_[i1 - (if positional then 0 else 1)]? NO_FLAG, st1, i1)
                else finish (.text value) i1
    | ARGPARSE_STORE_TRUE_ACTION => finish (.tmp_bool true) i
    | ARGPARSE_STORE_FALSE_ACTION => finish (.tmp_bool false) i
    | ARGPARSE_BOOLEAN_OPTIONAL_ACTION => finish (.tmp_bool (!negated)) i
    | ARGPARSE_COUNT_ACTION => .ok (ARGPARSE_NO_ERROR_, st1, i)
    | .other _ => .exit 1

/-- `finalise_arg`. -/
def finalise_arg (fp : FloatOps) (arg : argparse_arg_t) (mem : Memory) :
    Comp (argparse_error_t × Memory) :=
  if arg.action_ = ARGPARSE_COUNT_ACTION then
    update_value fp arg mem (.count arg.count_) false
  else if arg.count_ = 0 ∧ arg.required_ = true then
    .ok (ARGPARSE_MISSING_ARGUMENT_ERROR_ arg.name_ arg.flag_, mem)
  else .ok (ARGPARSE_NO_ERROR_, mem)

/-! ## `argparse.c`: `argparse_parse_args` -/

/-- The locals of `argparse_parse_args` that live across iterations, with the world. -/
structure ScanState where
  parser : argument_parser_t
  mem : Memory
  i : Nat
  positional_i : Nat

/-- The world of a scan state. -/
def ScanState.st (s : ScanState) : State := ⟨s.parser, s.mem⟩

/-- Put a world and a value of `i` back into a scan state. -/
def ScanState.update (s : ScanState) (st : State) (i : Nat) : ScanState :=
  { s with parser := st.parser, mem := st.mem, i := i }

/-- The `while (arg_string[j])` loop over a cluster of grouped flags; `rest` holds the
characters from index `j` on.  The result is the error to return (an error stops the
scan, no error is the `continue`), the new world and the new `i`. -/
def group_loop (fp : FloatOps) (arg_string : CStr) :
    List Char → State → Nat → Comp (argparse_error_t × State × Nat)
  | [], st, i => .ok (ARGPARSE_NO_ERROR_, st, i)
  | c :: rest, st, i =>
    (find_arg st.parser.options_ (FLAG_TO_FIND c)).bind fun found =>
      match found with
      | none => .ok (ARGPARSE_ARGUMENT_UNKNOWN_ERROR_ (some arg_string), st, i)
      | some k =>
        match st.parser.options_[k]? with
        | none => .undef
        | some arg =>
          (get_and_update_value fp st (.option k) i
              (arg.action_ != ARGPARSE_STORE_ACTION) false).bind
            fun (error, st1, i1) =>
              if is_error error then .ok (error, st1, i1) else group_loop fp arg_string rest st1 i1

/-- The code after the label `unknown`: the NULL test and the binding. -/
def bind_found (fp : FloatOps) (s : ScanState) (arg_string : CStr) (arg : Option ArgRef)
    (positional negated : Bool) : Comp (argparse_error_t × ScanState) :=
  match arg with
  | none => .ok (ARGPARSE_ARGUMENT_UNKNOWN_ERROR_ (some arg_string), s)
  | some ref =>
    (get_and_update_value fp s.st ref s.i positional negated).bind
      fun (error, st1, i1) => .ok (error, s.update st1 i1)

/-- The test `arg != NULL && arg->action_ == ARGPARSE_BOOLEAN_OPTIONAL_ACTION` on the
result of a lookup among the options. -/
def is_toggle (options : List argparse_arg_t) (arg : Option Nat) : Bool :=
  match arg with
  | none => false
  | some k =>
    match options[k]? with
    | some a => a.action_ == ARGPARSE_BOOLEAN_OPTIONAL_ACTION
    | none => false

/-- The two name lookups of a token that starts with `-` and is longer than a flag:
the negated toggle first, then the full name.  The result is `arg` and `negated`. -/
def find_long (options : List argparse_arg_t) (arg_string : CStr) :
    Comp (Option Nat × Bool) :=
  let first : Comp (Option Nat) :=
    if starts_with arg_string "--no-".toList then
      find_arg options (NAME_TO_FIND (arg_string.drop 5) (some "--".toList))
    else .ok none
  first.bind fun arg =>
    if is_toggle options arg then .ok (arg, true)
    else (find_arg options (NAME_TO_FIND arg_string none)).bind fun arg1 => .ok (arg1, false)

/-- The body of the `for` loop of `argparse_parse_args` for the token at `s.i`, up to
but not including the `i++` of the loop.  An error in the result is returned by
`argparse_parse_args`; no error means the loop goes on. -/
def parse_token (fp : FloatOps) (s : ScanState) : Comp (argparse_error_t × ScanState) :=
  match s.parser.argv_[s.i]? with
  | none => .undef
  | some arg_string =>
    if arg_string = "-h".toList ∨ arg_string = "--help".toList then .exit 0
    else if arg_string.length = 2 ∧ starts_with arg_string "-".toList then
      (find_arg s.parser.options_ (FLAG_TO_FIND (arg_string.getD 1 NO_FLAG))).bind fun arg =>
        bind_found fp s arg_string (arg.map ArgRef.option) false false
    else if starts_with arg_string "-".toList then
      (find_long s.parser.options_ arg_string).bind fun (arg, negated) =>
        match arg with
        | none =>
          (group_loop fp arg_string (arg_string.drop 1) s.st s.i).bind
            fun (error, st1, i1) => .ok (error, s.update st1 i1)
        | some k => bind_found fp s arg_string (some (.option k)) false negated
    else
      (find_arg s.parser.positional_args_ (INDEX_TO_FIND s.positional_i)).bind fun arg =>
        bind_found fp { s with positional_i := s.positional_i + 1 } arg_string
          (arg.map ArgRef.positional) true false

/-- The `for` loop of `argparse_parse_args`, at most `fuel` iterations.  Every
iteration increases `i`, so `argc_ - i` iterations are always enough. -/
def scan_loop (fp : FloatOps) : Nat → ScanState → Comp (argparse_error_t × ScanState)
  | 0, s => if s.i < s.parser.argc_ then .diverge else .ok (ARGPARSE_NO_ERROR_, s)
  | fuel + 1, s =>
    if s.i < s.parser.argc_ then
      (parse_token fp s).bind fun (error, s1) =>
        if is_error error then .ok (error, s1)
        else scan_loop fp fuel { s1 with i := s1.i + 1 }
    else .ok (ARGPARSE_NO_ERROR_, s)

/-- The `while (arg)` loop of the finalisation over one list. -/
def finalise_list (fp : FloatOps) : List argparse_arg_t → Memory →
    Comp (argparse_error_t × Memory)
  | [], mem => .ok (ARGPARSE_NO_ERROR_, mem)
  | arg :: rest, mem =>
    (finalise_arg fp arg mem).bind fun (error, mem1) =>
      if is_error error then .ok (error, mem1) else finalise_list fp rest mem1

/-- The finalisation of `argparse_parse_args`: the options, then the positionals. -/
def finalise (fp : FloatOps) (parser : argument_parser_t) (mem : Memory) :
    Comp (argparse_error_t × Memory) :=
  (finalise_list fp parser.options_ mem).bind fun (error, mem1) =>
    if is_error error then .ok (error, mem1)
    else finalise_list fp parser.positional_args_ mem1

/-- `argparse_parse_args`: the error returned, the parser (with the counters of its
records) and the memory afterwards. -/
def argparse_parse_args (fp : FloatOps) (parser : argument_parser_t) (mem : Memory) :
    Comp (argparse_error_t × argument_parser_t × Memory) :=
  (scan_loop fp parser.argc_ ⟨parser, mem, 0, 0⟩).bind fun (error, s) =>
    if is_error error then .ok (error, s.parser, s.mem)
    else (finalise fp s.parser s.mem).bind fun (error1, mem1) => .ok (error1, s.parser, mem1)

/-! ## Notions used in the statements -/

/-- A record that the finalisation reports as missing. -/
def is_missing (arg : argparse_arg_t) : Prop :=
  arg.required_ = true ∧ arg.action_ ≠ ARGPARSE_COUNT_ACTION ∧ arg.count_ = 0

/-- A `Count` record whose counter is the value of a C `int` and whose type the
registration accepts. -/
def count_ok (arg : argparse_arg_t) : Prop :=
  arg.action_ = ARGPARSE_COUNT_ACTION →
    arg.type_ = ARGPARSE_INT_TYPE ∧ INT32_MIN ≤ arg.count_ ∧ arg.count_ ≤ INT32_MAX

instance (arg : argparse_arg_t) : Decidable (count_ok arg) := by
  unfold count_ok; infer_instance

/-- A decimal digit. -/
def is_digit (c : Char) : Prop := '0' ≤ c ∧ c ≤ '9'

instance (c : Char) : Decidable (is_digit c) := by unfold is_digit; infer_instance

/-- The number a string of decimal digits denotes. -/
def decimal_value (ds : List Char) : Nat :=
  ds.foldl (fun acc c => acc * 10 + (c.toNat - 48)) 0

/-- A string of decimal digits without a leading zero (the numeral `0` apart). -/
def is_canonical (ds : List Char) : Prop :=
  ds ≠ [] ∧ (∀ c ∈ ds, is_digit c) ∧ (ds.head? = some '0' → ds = ['0'])

instance (ds : List Char) : Decidable (is_canonical ds) := by
  unfold is_canonical; infer_instance

/-- The token `t` is the decimal numeral of the integer `n`. -/
def is_decimal_numeral (t : CStr) (n : Int) : Prop :=
  match t with
  | '-' :: ds => is_canonical ds ∧ n = - (decimal_value ds : Int)
  | ds => is_canonical ds ∧ n = (decimal_value ds : Int)

instance (t : CStr) (n : Int) : Decidable (is_decimal_numeral t n) := by
  unfold is_decimal_numeral; split <;> infer_instance

/-- A record without its occurrence counter: what the scan never changes. -/
def argparse_arg_t.static (arg : argparse_arg_t) : argparse_arg_t :=
  { arg with count_ := 0 }

/-- A parser without the occurrence counters of its records. -/
def argument_parser_t.static (parser : argument_parser_t) : argument_parser_t :=
  { parser with
    options_ := parser.options_.map argparse_arg_t.static
    positional_args_ := parser.positional_args_.map argparse_arg_t.static }

/-- The loop heads of the scan of `parser` from memory `mem`: `Reaches fp parser mem
visited s` says that the `for` loop of `argparse_parse_args` arrives at its condition in
state `s` after the iterations that classified the tokens at the indices `visited` (in
this order).  The tokens in between were consumed as values of `Store` options. -/
inductive Reaches (fp : FloatOps) (parser : argument_parser_t) (mem : Memory) :
    List Nat → ScanState → Prop where
  | start : Reaches fp parser mem [] ⟨parser, mem, 0, 0⟩
  | next {visited : List Nat} {s s1 : ScanState} {error : argparse_error_t} :
      Reaches fp parser mem visited s → s.i < s.parser.argc_ →
      parse_token fp s = .ok (error, s1) → is_error error = false →
      Reaches fp parser mem (visited ++ [s.i]) { s1 with i := s1.i + 1 }

/-- The token at index `j` does not start with `-`. -/
def no_dash (argv : List CStr) (j : Nat) : Bool :=
  !starts_with (argv.getD j []) "-".toList

/-- The textual coercion of a value token for a record of type `type`: the object
`update_value` stores, `none` when it stores nothing. -/
def coerce (fp : FloatOps) (type : argparse_type_t) (value : CStr) : Option Val :=
  match type with
  | ARGPARSE_INT_TYPE =>
    if (strtol value).2 || (strtol value).1 > INT32_MAX || (strtol value).1 < INT32_MIN then none
    else some (.int (strtol value).1)
  | ARGPARSE_FLOAT_TYPE => some (.float (fp.strtof value))
  | ARGPARSE_STRING_TYPE => some (.str value)
  | _ => none

/-- The choices of the record admit the value token (always, when it has none). -/
def choice_accepts (fp : FloatOps) (arg : argparse_arg_t) (value : CStr) : Prop :=
  choices_loop fp arg value arg.num_choices_ 0 (arg.num_choices_ == 0) = .ok (.ok true)

instance (fp : FloatOps) (arg : argparse_arg_t) (value : CStr) :
    Decidable (choice_accepts fp arg value) :=
  match h : choices_loop fp arg value arg.num_choices_ 0 (arg.num_choices_ == 0) with
  | .ok (.ok true) => isTrue h
  | .ok (.ok false) => isFalse (by unfold choice_accepts; rw [h]; simp)
  | .ok (.error _) => isFalse (by unfold choice_accepts; rw [h]; simp)
  | .exit _ => isFalse (by unfold choice_accepts; rw [h]; simp)
  | .undef => isFalse (by unfold choice_accepts; rw [h]; simp)
  | .diverge => isFalse (by unfold choice_accepts; rw [h]; simp)

/-- The token, classified on its own, resolves to the option of index `k`: it is no
help token, starts with `-`, and either has two characters the second of which
`find_arg` finds as a flag, or is longer (or shorter) and the name lookups of
`argparse_parse_args` end with that record and this value of `negated`. -/
def resolves_to (options : List argparse_arg_t) (token : CStr) (k : Nat) (negated : Bool) :
    Prop :=
  token ≠ "-h".toList ∧ token ≠ "--help".toList ∧ starts_with token "-".toList = true ∧
  ((token.length = 2 ∧ negated = false ∧
      find_arg options (FLAG_TO_FIND (token.getD 1 NO_FLAG)) = .ok (some k)) ∨
    (token.length ≠ 2 ∧ find_long options token = .ok (some k, negated)))

instance (options : List argparse_arg_t) (token : CStr) (k : Nat) (negated : Bool) :
    Decidable (resolves_to options token k negated) := by
  unfold resolves_to; infer_instance

/-- One iteration of the scan described by its effect on one option record: the tokens
it consumes, by how much the count of the record grows, and the object written to the
storage of the record, if any. -/
structure RunItem where
  chunk : List CStr
  incr : Nat
  write : Option Val

/-- The memory after the iterations `items`, all writing to address `a`. -/
def run_memory (a : Nat) (items : List RunItem) (mem : Memory) : Memory :=
  items.foldl (fun m item =>
    match item.write with
    | some v => m.write a v
    | none => m) mem

/-- The state after an iteration with the effect `item` on the option of index `k`. -/
def run_step (k : Nat) (arg : argparse_arg_t) (item : RunItem) (s : ScanState) : ScanState :=
  { parser := { s.parser with
      options_ := s.parser.options_.set k { arg with count_ := arg.count_ + item.incr } },
    mem := run_memory arg.value_ [item] s.mem,
    i := s.i + item.chunk.length - 1,
    positional_i := s.positional_i }

/-- A record whose binding inside a cluster consumes no token and writes, if anything,
true: a `Bool` toggle, a `Bool` store-true flag, or a `Count` record. -/
def sets_true_or_counts (arg : argparse_arg_t) : Prop :=
  (arg.action_ = ARGPARSE_BOOLEAN_OPTIONAL_ACTION ∧ arg.type_ = ARGPARSE_BOOL_TYPE) ∨
  (arg.action_ = ARGPARSE_STORE_TRUE_ACTION ∧ arg.type_ = ARGPARSE_BOOL_TYPE) ∨
  arg.action_ = ARGPARSE_COUNT_ACTION

/-- The character `c` is the flag by which `find_arg` finds the option of index `k`. -/
def flag_finds (options : List argparse_arg_t) (c : Char) (k : Nat) : Prop :=
  find_arg options (FLAG_TO_FIND c) = .ok (some k)

instance (options : List argparse_arg_t) (c : Char) (k : Nat) :
    Decidable (flag_finds options c k) := by
  unfold flag_finds; infer_instance

/-- Every record of the list has a name: none is registered by its flag alone. -/
def all_named (options : List argparse_arg_t) : Prop :=
  ∀ arg ∈ options, arg.name_ ≠ none

instance (options : List argparse_arg_t) : Decidable (all_named options) := by
  unfold all_named; infer_instance

/-- The option of index `k` is the first record of the list whose name is `N`. -/
def first_named (options : List argparse_arg_t) (N : CStr) (k : Nat) : Prop :=
  (options[k]?.bind argparse_arg_t.name_) = some N ∧ ∀ arg ∈ options.take k, arg.name_ ≠ some N

instance (options : List argparse_arg_t) (N : CStr) (k : Nat) :
    Decidable (first_named options N k) := by
  unfold first_named; infer_instance

/-- The token is the negated form `--no-R` of a `BooleanOptional` record named `--R`. -/
def negates_toggle (options : List argparse_arg_t) (token : CStr) : Prop :=
  starts_with token "--no-".toList = true ∧
  ∃ arg ∈ options, arg.name_ = some ("--".toList ++ token.drop 5) ∧
    arg.action_ = ARGPARSE_BOOLEAN_OPTIONAL_ACTION

instance (options : List argparse_arg_t) (token : CStr) :
    Decidable (negates_toggle options token) := by
  unfold negates_toggle; infer_instance

/-- The token, classified on its own, is walked as a cluster of flags: it starts with
`-`, is no help token, has not two characters, and both name lookups return NULL. -/
def is_cluster (options : List argparse_arg_t) (token : CStr) : Prop :=
  token ≠ "--help".toList ∧ starts_with token "-".toList = true ∧ token.length ≠ 2 ∧
  find_long options token = .ok (none, false)

instance (options : List argparse_arg_t) (token : CStr) :
    Decidable (is_cluster options token) := by
  unfold is_cluster; infer_instance

/-- How many times the iteration that classifies the token binds the option of index
`k`: once when the token resolves to it (by its flag or by a name lookup), once per
character that finds it when the token is walked as a cluster. -/
def hits (options : List argparse_arg_t) (token : CStr) (k : Nat) : Nat :=
  if resolves_to options token k false ∨ resolves_to options token k true then 1
  else if is_cluster options token then
    (token.drop 1).countP fun c => decide (flag_finds options c k)
  else 0

/-- The occurrences of the option of index `k` among the classified tokens `visited`:
the indices of those that hit it. -/
def occurrences (parser : argument_parser_t) (k : Nat) (visited : List Nat) : List Nat :=
  visited.filter fun j => decide (hits parser.options_ (parser.argv_.getD j []) k ≠ 0)

/-- The storage at address `a` belongs to the option of index `k` alone: no other option
and no positional record is bound to it. -/
def owns (parser : argument_parser_t) (k : Nat) (a : Nat) : Prop :=
  ∀ p ∈ parser.options_.eraseIdx k ++ parser.positional_args_, p.value_ ≠ a

instance (parser : argument_parser_t) (k : Nat) (a : Nat) : Decidable (owns parser k a) := by
  unfold owns; infer_instance

/-- The character is the flag by which `find_arg` finds a `Store` option. -/
def finds_store (options : List argparse_arg_t) (c : Char) : Bool :=
  match find_arg options (FLAG_TO_FIND c) with
  | .ok (some k) =>
    match options[k]? with
    | some arg => arg.action_ == ARGPARSE_STORE_ACTION
    | none => false
  | _ => false

/-- The local `positional` of `argparse_add_argument`: the name is present and does not
start with `-`. -/
def positional_of (arg : argparse_arg_t) : Bool :=
  match arg.name_ with
  | some name => !starts_with name "-".toList
  | none => false

/-- The type is one of the four enumerators. -/
def is_valid_type (type : argparse_type_t) : Bool :=
  match type with
  | .other _ => false
  | _ => true

/-- The record passes the checks of `argparse_add_argument` that come before the test of
the reserved help identity: identity, type, action, positional with a flag, name of two
characters. -/
def passes_early_checks (arg : argparse_arg_t) : Prop :=
  ¬ (arg.flag_ = NO_FLAG ∧ (arg.name_ = none ∨ arg.name_ = some [])) ∧
  is_valid_type arg.type_ = true ∧
  check_action arg (positional_of arg) = none ∧
  ¬ (positional_of arg = true ∧ arg.flag_ ≠ NO_FLAG) ∧
  ¬ ((arg.name_.map List.length) = some 2 ∧ ¬ positional_of arg = true)

instance (arg : argparse_arg_t) : Decidable (passes_early_checks arg) := by
  unfold passes_early_checks; infer_instance

/-- The record passes every check of `argparse_add_argument` that comes before the walk
over the records already registered. -/
def passes_checks (arg : argparse_arg_t) : Prop :=
  passes_early_checks arg ∧ arg.flag_ ≠ 'h' ∧ arg.name_ ≠ some "--help".toList

instance (arg : argparse_arg_t) : Decidable (passes_checks arg) := by
  unfold passes_checks; infer_instance

/-- The list `argparse_add_argument` walks and appends to. -/
def sequence_of (parser : argument_parser_t) (arg : argparse_arg_t) : List argparse_arg_t :=
  if positional_of arg then parser.positional_args_ else parser.options_

/-- The parser with the record appended to its sequence. -/
def appended (parser : argument_parser_t) (arg : argparse_arg_t) : argument_parser_t :=
  if positional_of arg then
    { parser with positional_args_ := parser.positional_args_ ++ [arg] }
  else { parser with options_ := parser.options_ ++ [arg] }

/-- The registries that `argparse_init` and the registration calls produce: the parser
of `argparse_init`, and the parser after every call of `argparse_add_argument` or
`argparse_add_arguments` that returns (with an error or without). -/
inductive Registry : argument_parser_t → Prop where
  | init (argv : List CStr) (description epilog : Option CStr) :
      Registry (argparse_init argv description epilog).2
  | add_argument {parser parser1 : argument_parser_t} (arg : argparse_arg_t)
      {e : argparse_error_t} :
      Registry parser → argparse_add_argument parser arg = .ok (e, parser1) →
      Registry parser1
  | add_arguments {parser parser1 : argument_parser_t} (args : List argparse_arg_t)
      {e : argparse_error_t} :
      Registry parser → argparse_add_arguments parser args = .ok (e, parser1) →
      Registry parser1

/-- The structural rules of a registered record: it has a flag or a name that is not
empty; its type is of the enumeration; its action is one of the three boolean actions
exactly when its type is `Bool`; a `Count` record has type `Int32`; a record whose action
is not `Store` has no choices and is not required; its flag is not `h` and its name is
not `--help`. -/
def valid_record (arg : argparse_arg_t) : Prop :=
  (arg.flag_ ≠ NO_FLAG ∨ (arg.name_ ≠ none ∧ arg.name_ ≠ some [])) ∧
  is_valid_type arg.type_ = true ∧
  ((arg.action_ = ARGPARSE_STORE_TRUE_ACTION ∨ arg.action_ = ARGPARSE_STORE_FALSE_ACTION ∨
      arg.action_ = ARGPARSE_BOOLEAN_OPTIONAL_ACTION) ↔ arg.type_ = ARGPARSE_BOOL_TYPE) ∧
  (arg.action_ = ARGPARSE_COUNT_ACTION → arg.type_ = ARGPARSE_INT_TYPE) ∧
  (arg.action_ ≠ ARGPARSE_STORE_ACTION → arg.choices_ = none ∧ arg.required_ = false) ∧
  arg.flag_ ≠ 'h' ∧ arg.name_ ≠ some "--help".toList

instance (arg : argparse_arg_t) : Decidable (valid_record arg) := by
  unfold valid_record; infer_instance

/-- The rules of a record of the positional sequence: action `Store`, no flag, and a
name that does not start with `-`. -/
def valid_positional (arg : argparse_arg_t) : Prop :=
  arg.action_ = ARGPARSE_STORE_ACTION ∧ arg.flag_ = NO_FLAG ∧
  ∃ name, arg.name_ = some name ∧ starts_with name "-".toList = false

/-- Two records share an identity: a flag that is not `NO_FLAG`, or a name. -/
def shares_identity (a b : argparse_arg_t) : Prop :=
  (a.flag_ ≠ NO_FLAG ∧ a.flag_ = b.flag_) ∨ (a.name_ ≠ none ∧ a.name_ = b.name_)

instance (a b : argparse_arg_t) : Decidable (shares_identity a b) := by
  unfold shares_identity; infer_instance

/-- No two records of the list share a flag (other than `NO_FLAG`) or a name. -/
def distinct_identities (l : List argparse_arg_t) : Prop :=
  l.Pairwise fun a b => ¬ shares_identity a b

/-- The record has a choice set for its type: `num_choices_` is not 0 and `choices_`
points to an array of `int` (for `Int32`) or of strings (for `String`) with at least
`num_choices_` elements. -/
def has_choice_set (arg : argparse_arg_t) : Prop :=
  0 < arg.num_choices_ ∧
  match arg.type_, arg.choices_ with
  | ARGPARSE_INT_TYPE, some (.ints l) => arg.num_choices_ ≤ l.length
  | ARGPARSE_STRING_TYPE, some (.strs l) => arg.num_choices_ ≤ l.length
  | _, _ => False

instance (arg : argparse_arg_t) : Decidable (has_choice_set arg) := by
  unfold has_choice_set
  split <;> infer_instance

/-- The object equals one of the first `num_choices_` elements of the choice array of
the record: as integers for an `int`, as strings for a string. -/
def in_choices (arg : argparse_arg_t) (w : Val) : Prop :=
  match arg.choices_, w with
  | some (.ints l), .int n => n ∈ l.take arg.num_choices_
  | some (.strs l), .str s => s ∈ l.take arg.num_choices_
  | _, _ => False

instance (arg : argparse_arg_t) (w : Val) : Decidable (in_choices arg w) := by
  unfold in_choices
  split <;> infer_instance

/-- The calls of `argparse_add_argument` on the records of `args`, one after the other
in the order of the list, all return without error and lead from `parser` to
`parser1`. -/
inductive AddedInTurn : argument_parser_t → List argparse_arg_t → argument_parser_t → Prop where
  | nil (parser : argument_parser_t) : AddedInTurn parser [] parser
  | cons {parser parser1 parser2 : argument_parser_t} {arg : argparse_arg_t}
      {args : List argparse_arg_t} {e : argparse_error_t} :
      argparse_add_argument parser arg = .ok (e, parser1) → is_error e = false →
      AddedInTurn parser1 args parser2 → AddedInTurn parser (arg :: args) parser2

/-- What a piece of the parse may do to the records and the memory, from `parser` and
`mem` to `parser1` and `mem1`: every record is still in its place with a count that has
not decreased and nothing else changed, and an address whose object differs is the
storage of a record whose count has increased. -/
def Footprint (parser : argument_parser_t) (mem : Memory) (parser1 : argument_parser_t)
    (mem1 : Memory) : Prop :=
  parser1.static = parser.static ∧
  (∀ (ref : ArgRef) (arg0 arg1 : argparse_arg_t), parser.deref ref = some arg0 →
    parser1.deref ref = some arg1 → arg0.count_ ≤ arg1.count_) ∧
  ∀ a, mem1 a ≠ mem a →
    ∃ ref arg0 arg1, parser.deref ref = some arg0 ∧ parser1.deref ref = some arg1 ∧
      arg0.value_ = a ∧ arg0.count_ < arg1.count_

/-- The two ways in which `argparse_parse_args` on `parser` and `mem` returns, with the
indices of the tokens its scan has classified, in their order: the scan comes to the end
of the vector and the finalisation returns `error` (`finished`), or the iteration for a
token returns `error` and nothing runs after it (`stopped`; that token is the last of the
list). -/
inductive Outcome (fp : FloatOps) (parser : argument_parser_t) (mem : Memory) :
    List Nat → argparse_error_t → argument_parser_t → Memory → Prop where
  | finished {visited : List Nat} {s : ScanState} {error : argparse_error_t} {mem1 : Memory} :
      Reaches fp parser mem visited s → ¬ s.i < s.parser.argc_ →
      finalise fp s.parser s.mem = .ok (error, mem1) →
      Outcome fp parser mem visited error s.parser mem1
  | stopped {visited : List Nat} {s s1 : ScanState} {error : argparse_error_t} :
      Reaches fp parser mem visited s → s.i < s.parser.argc_ →
      parse_token fp s = .ok (error, s1) → is_error error = true →
      Outcome fp parser mem (visited ++ [s.i]) error s1.parser s1.mem

/-- The record has a choice set of `float`s: its type is `Float32`, `num_choices_` is
not 0, and `choices_` points to an array of `float` with the elements `l`, at least
`num_choices_` of them. -/
def has_float_choices (arg : argparse_arg_t) (l : List Nat) : Prop :=
  arg.type_ = ARGPARSE_FLOAT_TYPE ∧ arg.choices_ = some (.floats l) ∧
    0 < arg.num_choices_ ∧ arg.num_choices_ ≤ l.length

instance (arg : argparse_arg_t) (l : List Nat) : Decidable (has_float_choices arg l) := by
  unfold has_float_choices; infer_instance

/-- The `float` `v` passes the comparison `WITHIN(v, c)` for one of the first
`num_choices_` elements `c` of the array `l`. -/
def within_choices (fp : FloatOps) (arg : argparse_arg_t) (l : List Nat) (v : Nat) : Prop :=
  ∃ c ∈ l.take arg.num_choices_, fp.within v c = true

instance (fp : FloatOps) (arg : argparse_arg_t) (l : List Nat) (v : Nat) :
    Decidable (within_choices fp arg l v) := by
  unfold within_choices; infer_instance

/-- A positive integer rounded to 53 significant bits, to nearest with ties to even. -/
def round53 (M : Nat) : Nat :=
  if bit_length M ≤ 53 then M
  else rne_div M (2 ^ (bit_length M - 53)) * 2 ^ (bit_length M - 53)

/-- The number `m * 2 ^ e` with the sign `neg`. -/
def FP.rat (neg : Bool) (m : Nat) (e : Int) : ℚ :=
  (if neg then -1 else 1) * (m : ℚ) * (2 : ℚ) ^ e

/-- The tolerance of the specification, in exact arithmetic: the two `float`s are
numbers `v` and `c` with `c - 1/100000 ≤ v ≤ c + 1/100000`, or they are the same
infinity. -/
def within_tolerance (val tar : Nat) : Prop :=
  match decode32 val, decode32 tar with
  | .fin s m e, .fin t n g =>
    FP.rat t n g - 1 / 100000 ≤ FP.rat s m e ∧ FP.rat s m e ≤ FP.rat t n g + 1 / 100000
  | .inf s, .inf t => s = t
  | _, _ => False

/-- An integer with at most 24 significant bits. -/
def F24 (x : Int) : Prop := ∃ m k : Nat, m < 2 ^ 24 ∧ x.natAbs = m * 2 ^ k

/-- The scaled value of `EPSILON_FLOAT`: `EPSILON_FLOAT * 2 ^ 149`. -/
def EPS149 : Int := 0x14F8B588E368F1 * 2 ^ 80

/-- The registration rules.  `identity_presence`, `type_validity`,
`action_type_compatibility`, `choices_permitted`, `positional_flag_exclusivity`,
`bare_prefix_name`, `reserved_help` and `duplicate_identity` are the rules the
specification orders; `action_validity`, `positional_store` and `required_permitted` are
the other three tests of `argparse_add_argument`. -/
inductive registration_rule where
  | identity_presence
  | type_validity
  | action_validity
  | action_type_compatibility
  | choices_permitted
  | positional_store
  | required_permitted
  | positional_flag_exclusivity
  | bare_prefix_name
  | reserved_help
  | duplicate_identity
  deriving DecidableEq, Repr

/-- The action is `StoreTrue`, `StoreFalse` or `BooleanOptional`. -/
def is_boolean_action (action : argparse_action_t) : Bool :=
  match action with
  | ARGPARSE_STORE_TRUE_ACTION => true
  | ARGPARSE_STORE_FALSE_ACTION => true
  | ARGPARSE_BOOLEAN_OPTIONAL_ACTION => true
  | _ => false

/-- The action is one of the five enumerators. -/
def is_valid_action (action : argparse_action_t) : Bool :=
  match action with
  | .other _ => false
  | _ => true

/-- The record violates the rule, in the words of the specification: a flag or a
non-empty name; a type of the enumeration; an action of the enumeration; the three
boolean actions exactly for type `Bool`, and `Count` only for `Int32`; choices only with
`Store`; a positional has action `Store`; only a `Store` record is required; a positional
has no flag; the name of an option has not exactly two characters; flag `h` and name
`--help` are reserved; no record of the same sequence has the same flag or name. -/
def violates (parser : argument_parser_t) (arg : argparse_arg_t) : registration_rule → Prop
  | .identity_presence => arg.flag_ = NO_FLAG ∧ (arg.name_ = none ∨ arg.name_ = some [])
  | .type_validity => is_valid_type arg.type_ = false
  | .action_validity => is_valid_action arg.action_ = false
  | .action_type_compatibility =>
    ¬ (is_boolean_action arg.action_ = true ↔ arg.type_ = ARGPARSE_BOOL_TYPE) ∨
    (arg.action_ = ARGPARSE_COUNT_ACTION ∧ arg.type_ ≠ ARGPARSE_INT_TYPE)
  | .choices_permitted => arg.action_ ≠ ARGPARSE_STORE_ACTION ∧ arg.choices_ ≠ none
  | .positional_store => positional_of arg = true ∧ arg.action_ ≠ ARGPARSE_STORE_ACTION
  | .required_permitted => arg.required_ = true ∧ arg.action_ ≠ ARGPARSE_STORE_ACTION
  | .positional_flag_exclusivity => positional_of arg = true ∧ arg.flag_ ≠ NO_FLAG
  | .bare_prefix_name =>
    (arg.name_.map List.length) = some 2 ∧ ¬ positional_of arg = true
  | .reserved_help => arg.flag_ = 'h' ∨ arg.name_ = some "--help".toList
  | .duplicate_identity => ∃ added ∈ sequence_of parser arg, shares_identity added arg

instance (parser : argument_parser_t) (arg : argparse_arg_t) (rule : registration_rule) :
    Decidable (violates parser arg rule) := by
  cases rule <;> unfold violates <;> infer_instance

/-- The kind of error of a rule. -/
def rule_error : registration_rule → argparse_error_val
  | .identity_presence => ARGPARSE_INVALID_FLAG_OR_NAME_ERROR
  | .type_validity => ARGPARSE_INVALID_TYPE_ERROR
  | .action_validity => ARGPARSE_INVALID_ACTION_ERROR
  | .action_type_compatibility => ARGPARSE_UNSUPPORTED_ACTION_ERROR
  | .choices_permitted => ARGPARSE_UNSUPPORTED_CHOICES_ERROR
  | .positional_store => ARGPARSE_UNSUPPORTED_ACTION_ERROR
  | .required_permitted => ARGPARSE_UNSUPPORTED_REQUIRE_ERROR
  | .positional_flag_exclusivity => ARGPARSE_INVALID_FLAG_OR_NAME_ERROR
  | .bare_prefix_name => ARGPARSE_INVALID_FLAG_OR_NAME_ERROR
  | .reserved_help => ARGPARSE_CONFLICTING_OPTIONS_ERROR
  | .duplicate_identity => ARGPARSE_CONFLICTING_OPTIONS_ERROR

/-- The order of the rules in the specification. -/
def specified_order : List registration_rule :=
  [.identity_presence, .type_validity, .action_type_compatibility, .choices_permitted,
   .positional_flag_exclusivity, .bare_prefix_name, .reserved_help, .duplicate_identity]

/-- The order of the specification with the three other tests at their place in
`argparse_add_argument`. -/
def checked_order : List registration_rule :=
  [.identity_presence, .type_validity, .action_validity, .action_type_compatibility,
   .choices_permitted, .positional_store, .required_permitted,
   .positional_flag_exclusivity, .bare_prefix_name, .reserved_help, .duplicate_identity]

/-- The earliest rule of the order that the record violates. -/
def first_violated (order : List registration_rule) (parser : argument_parser_t)
    (arg : argparse_arg_t) : Option registration_rule :=
  order.find? fun rule => decide (violates parser arg rule)

/-- A record whose binding takes no value token: one of the three boolean actions with
type `Bool`, or `Count`. -/
def binds_without_value (arg : argparse_arg_t) : Prop :=
  (is_boolean_action arg.action_ = true ∧ arg.type_ = ARGPARSE_BOOL_TYPE) ∨
  arg.action_ = ARGPARSE_COUNT_ACTION

instance (arg : argparse_arg_t) : Decidable (binds_without_value arg) := by
  unfold binds_without_value; infer_instance

/-- The record `find_arg` finds by the flag `c`. -/
def flag_record (options : List argparse_arg_t) (c : Char) : Option argparse_arg_t :=
  match find_arg options (FLAG_TO_FIND c) with
  | .ok (some k) => options[k]?
  | _ => none

/-- The memory after the binding of the character `c` of a cluster, when `c` is the flag
of a record that takes no value: nothing for `Count`, false for `StoreFalse`, true for
`StoreTrue` and `BooleanOptional`, written to the storage of the record. -/
def cluster_write (options : List argparse_arg_t) (mem : Memory) (c : Char) : Memory :=
  match flag_record options c with
  | some arg =>
    if arg.action_ = ARGPARSE_COUNT_ACTION then mem
    else mem.write arg.value_ (.bool (arg.action_ != ARGPARSE_STORE_FALSE_ACTION))
  | none => mem

/-- The parser on another argument vector. -/
def argument_parser_t.with_argv (parser : argument_parser_t) (argv : List CStr) :
    argument_parser_t :=
  { parser with argv_ := argv }

/-- The world with the parser on another argument vector. -/
def State.with_argv (st : State) (argv : List CStr) : State :=
  { st with parser := st.parser.with_argv argv }

/-- The scan state with the parser on another argument vector and `i` moved back by
`d`. -/
def ScanState.moved (s : ScanState) (argv : List CStr) (d : Nat) : ScanState :=
  { s with parser := s.parser.with_argv argv, i := s.i - d }

/-- What a call of `argparse_parse_args` shows apart from the name in its error: how it
ends and, when it returns, the kind of the error, the records with their counts, and the
memory. -/
def outcome_kind (r : Comp (argparse_error_t × argument_parser_t × Memory)) :
    Comp (argparse_error_val × List argparse_arg_t × List argparse_arg_t × Memory) :=
  r.bind fun (e, parser, mem) => .ok (e.error_val, parser.options_, parser.positional_args_, mem)

/-- The options registered by their flag alone come last: every record that stands
before a record with a name has a name. -/
def named_first (options : List argparse_arg_t) : Prop :=
  ∀ (k : Nat) (arg : argparse_arg_t), options[k]? = some arg → arg.name_ ≠ none →
    all_named (options.take k)

/-- What a piece of the scan may write, from `parser` and `mem` to `parser1` and `mem1`:
it stays within the footprint, and an address whose object differs is the storage of a
record whose action is not `Count` and whose count has increased. -/
def ScanFootprint (parser : argument_parser_t) (mem : Memory) (parser1 : argument_parser_t)
    (mem1 : Memory) : Prop :=
  Footprint parser mem parser1 mem1 ∧
  ∀ a, mem1 a ≠ mem a →
    ∃ ref arg0 arg1, parser.deref ref = some arg0 ∧ parser1.deref ref = some arg1 ∧
      arg0.value_ = a ∧ arg0.count_ < arg1.count_ ∧ arg0.action_ ≠ ARGPARSE_COUNT_ACTION

/-- The tokens at the indices `processed` match no record that writes the address `a`
during the scan: they hit no option bound to `a` whose action is not `Count`, and the
number of those without `-` does not reach the index of a positional record bound to `a`
whose action is not `Count`. -/
def unwritten (parser : argument_parser_t) (a : Nat) (processed : List Nat) : Prop :=
  (∀ (k : Nat) (arg : argparse_arg_t), parser.options_[k]? = some arg → arg.value_ = a →
    arg.action_ ≠ ARGPARSE_COUNT_ACTION →
    ∀ j ∈ processed, hits parser.options_ (parser.argv_.getD j []) k = 0) ∧
  (∀ (k : Nat) (arg : argparse_arg_t), parser.positional_args_[k]? = some arg →
    arg.value_ = a → arg.action_ ≠ ARGPARSE_COUNT_ACTION →
    (processed.filter (no_dash parser.argv_)).length ≤ k)

instance (parser : argument_parser_t) (a : Nat) (processed : List Nat) :
    Decidable (unwritten parser a processed) :=
  decidable_of_iff
    ((∀ x ∈ parser.options_.enum, x.2.value_ = a → x.2.action_ ≠ ARGPARSE_COUNT_ACTION →
        ∀ j ∈ processed, hits parser.options_ (parser.argv_.getD j []) x.1 = 0) ∧
      (∀ x ∈ parser.positional_args_.enum, x.2.value_ = a →
        x.2.action_ ≠ ARGPARSE_COUNT_ACTION →
        (processed.filter (no_dash parser.argv_)).length ≤ x.1))
    ⟨fun h => ⟨fun k arg hk => h.1 (k, arg) (List.mem_enum_iff_getElem?.2 hk),
        fun k arg hk => h.2 (k, arg) (List.mem_enum_iff_getElem?.2 hk)⟩,
      fun h => ⟨fun x hx => h.1 x.1 x.2 (List.mem_enum_iff_getElem?.1 hx),
        fun x hx => h.2 x.1 x.2 (List.mem_enum_iff_getElem?.1 hx)⟩⟩

/-- The memory after the writes, one after the other in the order of the list, of the
count of every `Count` record of the list into the storage of that record. -/
def count_writes (l : List argparse_arg_t) (mem : Memory) : Memory :=
  l.foldl (fun m c =>
    if c.action_ = ARGPARSE_COUNT_ACTION then m.write c.value_ (.int c.count_) else m) mem

/-- The characters of a cluster up to and including the last one that finds the option
of index `k`. -/
def chars_to_last (options : List argparse_arg_t) (cs : List Char) (k : Nat) : List Char :=
  cs.rdropWhile fun c => !decide (flag_finds options c k)

/-- How many value tokens the iteration for a token that hits the option of index `k` has
consumed when it binds that option for the last time: none when the token resolves to
the option; when the token is walked as a cluster, one for every character before the
last one that finds the option which finds a `Store` option. -/
def values_before_last (options : List argparse_arg_t) (token : CStr) (k : Nat) : Nat :=
  if is_cluster options token then
    (chars_to_last options (token.drop 1) k).dropLast.countP (finds_store options)
  else 0

/-- Every record bound to the address `a`, the record `ref` apart, has an action other
than `Count` and is matched by none of the tokens at the indices `processed`: when it is
an option, none of them hits it; when it is a positional record, the number of those
without `-` does not reach its index. -/
def others_unset (parser : argument_parser_t) (ref : ArgRef) (a : Nat)
    (processed : List Nat) : Prop :=
  (∀ (k : Nat) (arg : argparse_arg_t), ArgRef.option k ≠ ref →
    parser.options_[k]? = some arg → arg.value_ = a →
    arg.action_ ≠ ARGPARSE_COUNT_ACTION ∧
      ∀ j ∈ processed, hits parser.options_ (parser.argv_.getD j []) k = 0) ∧
  (∀ (k : Nat) (arg : argparse_arg_t), ArgRef.positional k ≠ ref →
    parser.positional_args_[k]? = some arg → arg.value_ = a →
    arg.action_ ≠ ARGPARSE_COUNT_ACTION ∧
      (processed.filter (no_dash parser.argv_)).length ≤ k)

instance (parser : argument_parser_t) (ref : ArgRef) (a : Nat) (processed : List Nat) :
    Decidable (others_unset parser ref a processed) :=
  decidable_of_iff
    ((∀ x ∈ parser.options_.enum, ArgRef.option x.1 ≠ ref → x.2.value_ = a →
        x.2.action_ ≠ ARGPARSE_COUNT_ACTION ∧
          ∀ j ∈ processed, hits parser.options_ (parser.argv_.getD j []) x.1 = 0) ∧
      (∀ x ∈ parser.positional_args_.enum, ArgRef.positional x.1 ≠ ref → x.2.value_ = a →
        x.2.action_ ≠ ARGPARSE_COUNT_ACTION ∧
          (processed.filter (no_dash parser.argv_)).length ≤ x.1))
    ⟨fun h => ⟨fun k arg hr hk => h.1 (k, arg) (List.mem_enum_iff_getElem?.2 hk) hr,
        fun k arg hr hk => h.2 (k, arg) (List.mem_enum_iff_getElem?.2 hk) hr⟩,
      fun h => ⟨fun x hx hr => h.1 x.1 x.2 hr (List.mem_enum_iff_getElem?.1 hx),
        fun x hx hr => h.2 x.1 x.2 hr (List.mem_enum_iff_getElem?.1 hx)⟩⟩

/-! ## Sample data (from `tests/test_argparse.c`) -/

/-- A stand-in for the floating-point operations, for runs that use no float. -/
def sample_float_ops : FloatOps := ⟨fun _ => 0, fun _ _ => false⟩

/-- A parser on the tokens `tokens` with the given records already linked. -/
def sample_setup (tokens : List String) (options positionals : List argparse_arg_t) :
    argument_parser_t :=
  { argv_ := tokens.map String.toList, prog_ := some "./prog".toList, description_ := none,
    epilog_ := none, options_ := options, positional_args_ := positionals }

/-- A memory in which every `int` holds 9999. -/
def sample_memory : Memory := fun _ => .int 9999

/-- The records of the test `store_int_missing_required`, stored at 1, 2 and 3. -/
def missing_required_options : List argparse_arg_t :=
  [ARGPARSE_OPTION ARGPARSE_INT_TYPE 'x' (some "--value1".toList) 1 none,
   ARGPARSE_OPTION ARGPARSE_INT_TYPE 'y' (some "--value2".toList) 2 none,
   ARGPARSE_OPTION_REQUIRED ARGPARSE_INT_TYPE 's' (some "--sum".toList) 3 none]

/-- The parser of the test `store_int_missing_required`. -/
def missing_required_setup : argument_parser_t :=
  sample_setup ["-x", "52", "-y", "42"] missing_required_options []

/-- The state of that test after the scan. -/
def missing_required_scanned : ScanState :=
  { parser := sample_setup ["-x", "52", "-y", "42"]
      [{ ARGPARSE_OPTION ARGPARSE_INT_TYPE 'x' (some "--value1".toList) 1 none with count_ := 1 },
       { ARGPARSE_OPTION ARGPARSE_INT_TYPE 'y' (some "--value2".toList) 2 none with count_ := 1 },
       ARGPARSE_OPTION_REQUIRED ARGPARSE_INT_TYPE 's' (some "--sum".toList) 3 none] []
    mem := (sample_memory.write 1 (.int 52)).write 2 (.int 42)
    i := 4
    positional_i := 0 }

/-- The option of the test `range_exceeded`: `Int32`, `-v` / `--value`, stored at 1. -/
def value_option : argparse_arg_t :=
  ARGPARSE_OPTION ARGPARSE_INT_TYPE 'v' (some "--value".toList) 1 none

/-- The option of the test `store_single_int_invalid_choice`, with choices 1, 2, 3. -/
def value_option_with_choices : argparse_arg_t :=
  ARGPARSE_OPTION_WITH_CHOICES ARGPARSE_INT_TYPE 'v' (some "--value".toList) 1 none
    (some (.ints [1, 2, 3])) 3

/-- The positionals of the test `store_multi_int_flags_and_positionals_3`: `width`
stored at 1 and `height` stored at 2. -/
def width_height_positionals : List argparse_arg_t :=
  [ARGPARSE_POSITIONAL ARGPARSE_INT_TYPE (some "width".toList) 1 none,
   ARGPARSE_POSITIONAL ARGPARSE_INT_TYPE (some "height".toList) 2 none]

/-- The options of that test: `-a` / `--angle` (required) stored at 3 and `-t` /
`--thickness` stored at 4. -/
def angle_thickness_options : List argparse_arg_t :=
  [ARGPARSE_OPTION_REQUIRED ARGPARSE_INT_TYPE 'a' (some "--angle".toList) 3 none,
   ARGPARSE_OPTION ARGPARSE_INT_TYPE 't' (some "--thickness".toList) 4 none]

/-- The parser of that test. -/
def flags_and_positionals_setup : argument_parser_t :=
  sample_setup ["--thickness", "2", "54321", "--angle", "90", "123"]
    angle_thickness_options width_height_positionals

/-- The state of that test after the iteration for `--thickness`. -/
def flags_and_positionals_after_thickness : ScanState :=
  { parser := sample_setup ["--thickness", "2", "54321", "--angle", "90", "123"]
      [ARGPARSE_OPTION_REQUIRED ARGPARSE_INT_TYPE 'a' (some "--angle".toList) 3 none,
       { ARGPARSE_OPTION ARGPARSE_INT_TYPE 't' (some "--thickness".toList) 4 none with
         count_ := 1 }]
      width_height_positionals
    mem := sample_memory.write 4 (.int 2)
    i := 1
    positional_i := 0 }

/-- The option of the test `store_single_string`: `String`, `-v` / `--value`, stored
at 1. -/
def string_value_option : argparse_arg_t :=
  ARGPARSE_OPTION ARGPARSE_STRING_TYPE 'v' (some "--value".toList) 1 none

/-- The options of the test `store_multi_int_override`: `-x` / `--value1`, `-y` /
`--value2` and `-s` / `--sum`, stored at 1, 2 and 3. -/
def override_options : List argparse_arg_t :=
  [ARGPARSE_OPTION ARGPARSE_INT_TYPE 'x' (some "--value1".toList) 1 none,
   ARGPARSE_OPTION ARGPARSE_INT_TYPE 'y' (some "--value2".toList) 2 none,
   ARGPARSE_OPTION ARGPARSE_INT_TYPE 's' (some "--sum".toList) 3 none]

/-- The toggle of the tests `toggle_on_off` and `toggle_on_off_on`: `-v` / `--verbose`,
stored at 1. -/
def verbose_toggle : argparse_arg_t :=
  ARGPARSE_TOGGLE 'v' (some "--verbose".toList) 1 none

/-- Three toggles `-a` / `--apple`, `-b` / `--banana`, `-c` / `--carrot`, stored at 1,
2 and 3 (the first two are those of the test `count_multi_grouped_diff`). -/
def fruit_toggles : List argparse_arg_t :=
  [ARGPARSE_TOGGLE 'a' (some "--apple".toList) 1 none,
   ARGPARSE_TOGGLE 'b' (some "--banana".toList) 2 none,
   ARGPARSE_TOGGLE 'c' (some "--carrot".toList) 3 none]

/-- A memory in which every `bool` holds false. -/
def sample_bool_memory : Memory := fun _ => .bool false

/-- The record of the tests `count_multi_grouped` and
`count_multi_grouped_with_ungrouped`: `-v` / `--verbose`, counted into the `int` at 1. -/
def verbosity_count : argparse_arg_t :=
  ARGPARSE_COUNT 'v' (some "--verbose".toList) 1 none

/-- The records of the test `count_multi_grouped_diff_option_1`: the toggle `-a` /
`--apple` stored at 1 and the `Int32` options `-b` / `--banana` and `-c` / `--carrot`
stored at 2 and 3. -/
def apple_banana_carrot : List argparse_arg_t :=
  [ARGPARSE_TOGGLE 'a' (some "--apple".toList) 1 none,
   ARGPARSE_OPTION ARGPARSE_INT_TYPE 'b' (some "--banana".toList) 2 none,
   ARGPARSE_OPTION ARGPARSE_INT_TYPE 'c' (some "--carrot".toList) 3 none]

/-- The option `-s` / `--sum` of the test `store_multi_int_override`. -/
def sum_option : argparse_arg_t :=
  ARGPARSE_OPTION ARGPARSE_INT_TYPE 's' (some "--sum".toList) 3 none

/-- The parser of the test `store_multi_int_override`. -/
def override_setup : argument_parser_t :=
  sample_setup ["--value1", "52", "--value2", "42", "--sum", "94", "--sum", "111"]
    override_options []

/-- The parser of that test after the parse. -/
def override_result : argument_parser_t :=
  sample_setup ["--value1", "52", "--value2", "42", "--sum", "94", "--sum", "111"]
    [{ ARGPARSE_OPTION ARGPARSE_INT_TYPE 'x' (some "--value1".toList) 1 none with count_ := 1 },
     { ARGPARSE_OPTION ARGPARSE_INT_TYPE 'y' (some "--value2".toList) 2 none with count_ := 1 },
     { sum_option with count_ := 2 }] []

/-- The memory of that test after the parse. -/
def override_memory : Memory :=
  (((sample_memory.write 1 (.int 52)).write 2 (.int 42)).write 3 (.int 94)).write 3 (.int 111)

/-- The parser of the tests on registration errors: `argparse_init` on `./prog` and one
empty token, no record registered. -/
def empty_registry : argument_parser_t :=
  (argparse_init ["./prog".toList, []] none none).2

/-- The record of the test `invalid_flag`: no flag and the empty string as name. -/
def nameless_option : argparse_arg_t :=
  ARGPARSE_OPTION ARGPARSE_INT_TYPE NO_FLAG (some []) 1 (some "empty".toList)

/-- The records of the test `conflicting_options_0`: the flag `v` twice. -/
def value1_option : argparse_arg_t :=
  ARGPARSE_OPTION ARGPARSE_INT_TYPE 'v' (some "--value1".toList) 1 (some "empty".toList)

def value2_option : argparse_arg_t :=
  ARGPARSE_OPTION ARGPARSE_INT_TYPE 'v' (some "--value2".toList) 1 (some "empty".toList)

/-- The record of the test `conflicting_options_2`: the flag `h`. -/
def hello_option : argparse_arg_t :=
  ARGPARSE_OPTION ARGPARSE_INT_TYPE 'h' (some "--hello".toList) 1 (some "empty".toList)

/-- The record of the test `conflicting_options_3`: the name `--help`. -/
def help_named_option : argparse_arg_t :=
  ARGPARSE_OPTION ARGPARSE_INT_TYPE 'a' (some "--help".toList) 1 (some "empty".toList)

/-- The parser of the test `conflicting_options_0` after its first registration. -/
def value1_registry : argument_parser_t :=
  { empty_registry with options_ := [value1_option] }

/-- The four records of the test `store_multi_int_flags_and_positionals` in the order of
their registration: the positionals `width` and `height`, the options `--angle` and
`--thickness`. -/
def width_height_angle_thickness : List argparse_arg_t :=
  width_height_positionals ++ angle_thickness_options

/-- The first record of that test. -/
def width_positional : argparse_arg_t :=
  ARGPARSE_POSITIONAL ARGPARSE_INT_TYPE (some "width".toList) 1 none

/-- The empty registry after the registration of `width`. -/
def width_registry : argument_parser_t :=
  { empty_registry with positional_args_ := [width_positional] }

/-- Two options registered by their flags alone, `b` and `d`. -/
def flag_b_option : argparse_arg_t :=
  ARGPARSE_FLAG_TRUE 'b' none 1 none

def flag_d_option : argparse_arg_t :=
  ARGPARSE_FLAG_TRUE 'd' none 2 none

/-- An option with the flag `d` again, and a name. -/
def named_d_option : argparse_arg_t :=
  ARGPARSE_FLAG_TRUE 'd' (some "--dd".toList) 3 none

/-- The empty registry after the registration of the flags `b` and `d`. -/
def flags_registry : argument_parser_t :=
  { empty_registry with options_ := [flag_b_option, flag_d_option] }

/-- The records of the test `conflicting_options_1`: the name `--value` twice. -/
def x_value_option : argparse_arg_t :=
  ARGPARSE_OPTION ARGPARSE_INT_TYPE 'x' (some "--value".toList) 1 (some "empty".toList)

def y_value_option : argparse_arg_t :=
  ARGPARSE_OPTION ARGPARSE_INT_TYPE 'y' (some "--value".toList) 1 (some "empty".toList)

/-- The parser of the test `conflicting_options_1` after its first registration. -/
def x_value_registry : argument_parser_t :=
  { empty_registry with options_ := [x_value_option] }

/-- The empty registry after the registration of the four records of the test
`store_multi_int_flags_and_positionals`. -/
def width_height_registry : argument_parser_t :=
  { empty_registry with
    options_ := angle_thickness_options, positional_args_ := width_height_positionals }

/-- The option of the test `missing_value`: `Int32`, `-v` / `--value`, stored at 1. -/
def int_value_option : argparse_arg_t :=
  ARGPARSE_OPTION ARGPARSE_INT_TYPE 'v' (some "--value".toList) 1 (some "value".toList)

/-- The option of the test `store_single_string_with_choices`. -/
def string_option_50_to_55 : argparse_arg_t :=
  ARGPARSE_OPTION_WITH_CHOICES ARGPARSE_STRING_TYPE 'v' (some "--value".toList) 1
    (some "a value".toList)
    (some (.strs ["50".toList, "51".toList, "52".toList, "53".toList, "54".toList,
      "55".toList])) 6

/-- The option of the test `store_single_string_invalid_choice`. -/
def string_option_1_to_5 : argparse_arg_t :=
  ARGPARSE_OPTION_WITH_CHOICES ARGPARSE_STRING_TYPE 'v' (some "--value".toList) 1
    (some "a value".toList)
    (some (.strs ["1".toList, "2".toList, "3".toList, "4".toList, "5".toList])) 5

/-- A positional `Int32` record with the choices 1, 2, 3, stored at 1. -/
def level_positional : argparse_arg_t :=
  ARGPARSE_POSITIONAL_WITH_CHOICES ARGPARSE_INT_TYPE (some "level".toList) 1 none
    (some (.ints [1, 2, 3])) 3

/-- An option registered by its flag alone: the counter `-v`. -/
def flag_v_count : argparse_arg_t :=
  ARGPARSE_COUNT 'v' none 1 none

/-- The record of the test `unsupported_choices`: the toggle `-i` / `--igloo` with a
choice array of two elements (the registration looks at the pointer alone). -/
def igloo_toggle_with_choices : argparse_arg_t :=
  { ARGPARSE_TOGGLE 'i' (some "--igloo".toList) 1 (some "igloo".toList) with
    choices_ := some (.ints [1, 0]), num_choices_ := 2 }

/-- The second record of the test `unsupported_choices`: the counter `-i` / `--igloo`
with the same choice array. -/
def igloo_count_with_choices : argparse_arg_t :=
  { ARGPARSE_COUNT 'i' (some "--igloo".toList) 1 (some "igloo".toList) with
    choices_ := some (.ints [1, 0]), num_choices_ := 2 }

/-- The record of the test `invalid_name`: no flag and the name `--`. -/
def bare_prefix_option : argparse_arg_t :=
  ARGPARSE_OPTION ARGPARSE_INT_TYPE NO_FLAG (some "--".toList) 1 (some "empty".toList)

/-- The four records of the test `add_arguments`. -/
def x_y_z_sum_options : List argparse_arg_t :=
  [ARGPARSE_OPTION ARGPARSE_INT_TYPE 'x' (some "--value1".toList) 1
     (some "value to add".toList),
   ARGPARSE_OPTION ARGPARSE_INT_TYPE 'y' (some "--value2".toList) 2
     (some "another value to add".toList),
   ARGPARSE_OPTION ARGPARSE_INT_TYPE 'z' (some "--value3".toList) 3
     (some "yet another value to add".toList),
   ARGPARSE_OPTION ARGPARSE_INT_TYPE 's' (some "--sum".toList) 4 (some "the sum".toList)]

/-- The argument vector of the test `store_multi_int`. -/
def store_multi_int_argv : List CStr :=
  ["./prog".toList, "--value1".toList, "52".toList, "--value2".toList, "42".toList,
   "--sum".toList, "94".toList]

/-- The second record of the test `flag_false_override`: `-e` / `--enable-logging`
stores true into the `bool` at 1. -/
def enable_logging_flag : argparse_arg_t :=
  ARGPARSE_FLAG_TRUE 'e' (some "--enable-logging".toList) 1 (some "yes prints".toList)

/-- The records of the test `flag_false_override`: `-d` / `--disable-logging` stores
false and `-e` / `--enable-logging` stores true, both into the `bool` at 1. -/
def logging_flags : List argparse_arg_t :=
  [ARGPARSE_FLAG_FALSE 'd' (some "--disable-logging".toList) 1 (some "no prints".toList),
   enable_logging_flag]

/-- The record of the test `flag_false`: `-l` / `--disable-logging` stores false into the
`bool` at 1. -/
def disable_logging_flag : argparse_arg_t :=
  ARGPARSE_FLAG_FALSE 'l' (some "--disable-logging".toList) 1 (some "no prints".toList)

/-- A memory in which every `bool` holds true. -/
def sample_true_memory : Memory := fun _ => .bool true

/-- A required option `-x` / `--value1`, stored at 3. -/
def required_value1_option : argparse_arg_t :=
  ARGPARSE_OPTION_REQUIRED ARGPARSE_INT_TYPE 'x' (some "--value1".toList) 3 none

/-- The memory of the tests `store_multi_int_with_optional` and `add_arguments` before
the parse: `x` and `y` (at 1 and 2) hold 9999, `z` (at 3) holds 23, `sum` (at 4)
holds -1. -/
def optional_memory : Memory :=
  ((sample_memory.write 3 (.int 23)).write 4 (.int (-1)))

/-- The parser of the test `store_multi_int_with_optional`. -/
def optional_setup : argument_parser_t :=
  sample_setup ["-x", "52", "-y", "42", "--sum", "94"] x_y_z_sum_options []

/-- The toggles of the test `toggle_with_unset`: `-v` / `--verbose` stored at 1 and `-p` /
`--in-place` stored at 2. -/
def verbose_in_place_toggles : List argparse_arg_t :=
  [ARGPARSE_TOGGLE 'v' (some "--verbose".toList) 1 (some "verbose".toList),
   ARGPARSE_TOGGLE 'p' (some "--in-place".toList) 2 (some "make changes in place".toList)]

/-- The choice array of the tests `store_float_with_choices` and
`store_multi_float_with_choices`: 50.0, 51.5, 53.0, 54.5, 56.0, 57.5. -/
def float_choices_50_to_57 : List Nat :=
  [float_of 50 1, float_of 103 2, float_of 53 1, float_of 109 2, float_of 56 1, float_of 115 2]

/-- The option `-v` / `--value` of the test `store_float_with_choices`, stored at 1. -/
def float_value_option : argparse_arg_t :=
  ARGPARSE_OPTION_WITH_CHOICES ARGPARSE_FLOAT_TYPE 'v' (some "--value".toList) 1
    (some "a value".toList) (some (.floats float_choices_50_to_57)) 6

/-- The option of the test `store_single_float_invalid_choice`, with the choices 51.0,
52.0 and 53.0. -/
def float_value_option_51_to_53 : argparse_arg_t :=
  ARGPARSE_OPTION_WITH_CHOICES ARGPARSE_FLOAT_TYPE 'v' (some "--value".toList) 1
    (some "a value".toList) (some (.floats [float_of 51 1, float_of 52 1, float_of 53 1])) 3

/-- A memory in which every `float` holds 9999. -/
def sample_float_memory : Memory := fun _ => .float (float_of 9999 1)

/-- A required `StoreTrue` record with flag `h` and the two-character name `-x`. -/
def required_flag_record : argparse_arg_t :=
  ARGPARSE_ARG ARGPARSE_BOOL_TYPE 'h' (some "-x".toList) 1 ARGPARSE_STORE_TRUE_ACTION none
    true none 0

/-- An `Int32` record with flag `h`, the two-character name `-x` and an action outside
the enumeration. -/
def invalid_action_record : argparse_arg_t :=
  ARGPARSE_ARG ARGPARSE_INT_TYPE 'h' (some "-x".toList) 1 (.other 7) none false none 0

/-- A `StoreTrue` record with flag `h` and the name `input`, which makes it a
positional. -/
def positional_flag_record : argparse_arg_t :=
  ARGPARSE_ARG ARGPARSE_BOOL_TYPE 'h' (some "input".toList) 1 ARGPARSE_STORE_TRUE_ACTION
    none false none 0

/-- A record with no flag, no name and a type outside the enumeration. -/
def no_identity_invalid_type : argparse_arg_t :=
  ARGPARSE_ARG (.other 9) NO_FLAG none 1 ARGPARSE_STORE_ACTION none false none 0

/-- A `Count` record of type `Float32` with choices. -/
def float_count_with_choices : argparse_arg_t :=
  ARGPARSE_ARG ARGPARSE_FLOAT_TYPE 'c' (some "--count".toList) 1 ARGPARSE_COUNT_ACTION none
    false (some (.floats float_choices_50_to_57)) 8

/-- A `BooleanOptional` record of type `Bool` with choices and flag `h`. -/
def toggle_h_with_choices : argparse_arg_t :=
  ARGPARSE_ARG ARGPARSE_BOOL_TYPE 'h' (some "--hold".toList) 1
    ARGPARSE_BOOLEAN_OPTIONAL_ACTION none false (some (.ints [0, 1])) 2

/-- A `StoreFalse` option literally named `--no-verbose`, stored at 2. -/
def no_verbose_flag : argparse_arg_t :=
  ARGPARSE_FLAG_FALSE 'q' (some "--no-verbose".toList) 2 none

/-- A `StoreTrue` option named `--verbose`, stored at 1. -/
def verbose_flag : argparse_arg_t :=
  ARGPARSE_FLAG_TRUE 'v' (some "--verbose".toList) 1 none

/-- The toggle `-q` / `--quiet`, stored at 2. -/
def quiet_toggle : argparse_arg_t :=
  ARGPARSE_TOGGLE 'q' (some "--quiet".toList) 2 none

/-- The `Count` flag `-a` stored at 1, the required `Int32` option `-r` / `--rate` stored
at 2 and the `Count` flag `-b` stored at 3. -/
def count_rate_count : List argparse_arg_t :=
  [ARGPARSE_COUNT 'a' (some "--alpha".toList) 1 none,
   ARGPARSE_OPTION_REQUIRED ARGPARSE_INT_TYPE 'r' (some "--rate".toList) 2 none,
   ARGPARSE_COUNT 'b' (some "--beta".toList) 3 none]

/-- A `StoreTrue` option named `-`, without a flag, stored at 2. -/
def dash_named_flag : argparse_arg_t :=
  ARGPARSE_FLAG_TRUE NO_FLAG (some "-".toList) 2 none

/-- Two toggles registered by their flags alone, `a` and `b`, stored at 1 and 2. -/
def flag_only_toggles : List argparse_arg_t :=
  [ARGPARSE_TOGGLE 'a' none 1 none, ARGPARSE_TOGGLE 'b' none 2 none]

/-- A `StoreTrue` option registered by its flag alone, `x`, stored at 3. -/
def flag_x_option : argparse_arg_t :=
  ARGPARSE_FLAG_TRUE 'x' none 3 none

/-- A `StoreFalse` option `-n` / `--no-color`, stored at 1. -/
def no_color_flag : argparse_arg_t :=
  ARGPARSE_FLAG_FALSE 'n' (some "--no-color".toList) 1 none

/-- The `Int32` option `-x` / `--value1` and the `Count` flag `-c` / `--count`, both
bound to the `int` at 1. -/
def value_and_count_shared : List argparse_arg_t :=
  [ARGPARSE_OPTION ARGPARSE_INT_TYPE 'x' (some "--value1".toList) 1 none,
   ARGPARSE_COUNT 'c' (some "--count".toList) 1 none]

/-- The `Count` flag `-a`, the required `Int32` option `-r` / `--rate` stored at 2, and
the `Count` flag `-b` bound to the `int` of `-a`, at 1. -/
def count_rate_count_shared : List argparse_arg_t :=
  [ARGPARSE_COUNT 'a' (some "--alpha".toList) 1 none,
   ARGPARSE_OPTION_REQUIRED ARGPARSE_INT_TYPE 'r' (some "--rate".toList) 2 none,
   ARGPARSE_COUNT 'b' (some "--beta".toList) 1 none]

/-- The `Count` flags `-a` and `-b`, both bound to the `int` at 1, before the required
`Int32` option `-r` / `--rate` stored at 2. -/
def count_count_rate_shared : List argparse_arg_t :=
  [ARGPARSE_COUNT 'a' (some "--alpha".toList) 1 none,
   ARGPARSE_COUNT 'b' (some "--beta".toList) 1 none,
   ARGPARSE_OPTION_REQUIRED ARGPARSE_INT_TYPE 'r' (some "--rate".toList) 2 none]

/-- The `Int32` option `-x` / `--value1` stored at 2 and the `Count` flag `-c` /
`--count` stored at 1. -/
def value_and_count : List argparse_arg_t :=
  [ARGPARSE_OPTION ARGPARSE_INT_TYPE 'x' (some "--value1".toList) 2 none,
   ARGPARSE_COUNT 'c' (some "--count".toList) 1 none]

/-- Two `Int32` options, `-x` / `--value1` and `-y` / `--value2`, both bound to the `int`
at 1. -/
def shared_int_options : List argparse_arg_t :=
  [ARGPARSE_OPTION ARGPARSE_INT_TYPE 'x' (some "--value1".toList) 1 none,
   ARGPARSE_OPTION ARGPARSE_INT_TYPE 'y' (some "--value2".toList) 1 none]
/-- The `Int32` options `-x` / `--value1` and `-y` / `--value2`, both bound to the `int`
at 1, and the required `Int32` option `-s` / `--sum` stored at 3. -/
def shared_and_required : List argparse_arg_t :=
  [ARGPARSE_OPTION ARGPARSE_INT_TYPE 'x' (some "--value1".toList) 1 none,
   ARGPARSE_OPTION ARGPARSE_INT_TYPE 'y' (some "--value2".toList) 1 none,
   ARGPARSE_OPTION_REQUIRED ARGPARSE_INT_TYPE 's' (some "--sum".toList) 3 none]

/-- The `Int32` option `-x` / `--value1` and the required `Int32` option `-s` / `--sum`,
both bound to the `int` at 1. -/
def value_and_required_shared : List argparse_arg_t :=
  [ARGPARSE_OPTION ARGPARSE_INT_TYPE 'x' (some "--value1".toList) 1 none,
   ARGPARSE_OPTION_REQUIRED ARGPARSE_INT_TYPE 's' (some "--sum".toList) 1 none]

/-- The `Int32` option `-x` / `--value1` and the `Count` flag `-c` / `--count`, both
bound to the `int` at 1, and the required `Int32` option `-s` / `--sum` stored at 3. -/
def value_count_required : List argparse_arg_t :=
  [ARGPARSE_OPTION ARGPARSE_INT_TYPE 'x' (some "--value1".toList) 1 none,
   ARGPARSE_COUNT 'c' (some "--count".toList) 1 none,
   ARGPARSE_OPTION_REQUIRED ARGPARSE_INT_TYPE 's' (some "--sum".toList) 3 none]
/-- The toggles `-v` / `--verbose` and `-q` / `--quiet`, both bound to the `bool` at 1. -/
def shared_toggles : List argparse_arg_t :=
  [verbose_toggle, ARGPARSE_TOGGLE 'q' (some "--quiet".toList) 1 none]

/-- The toggle `-c` / `--color` stored at 1 and the toggle `-n` / `--no-color` stored
at 2. -/
def color_toggles : List argparse_arg_t :=
  [ARGPARSE_TOGGLE 'c' (some "--color".toList) 1 none,
   ARGPARSE_TOGGLE 'n' (some "--no-color".toList) 2 none]

/-- Two `Count` options, `-a` / `--alpha` and `-b` / `--beta`, bound to the one `int`
at 1. -/
def shared_counts : List argparse_arg_t :=
  [ARGPARSE_COUNT 'a' (some "--alpha".toList) 1 none,
   ARGPARSE_COUNT 'b' (some "--beta".toList) 1 none]

/-! # Theorems -/

@[simp] theorem Comp.bind_ok {α β : Type} (a : α) (f : α → Comp β) :
    (Comp.ok a).bind f = f a := rfl

@[simp] theorem Comp.bind_exit {α β : Type} (n : Nat) (f : α → Comp β) :
    (Comp.exit n : Comp α).bind f = .exit n := rfl

@[simp] theorem Comp.bind_undef {α β : Type} (f : α → Comp β) :
    (Comp.undef : Comp α).bind f = .undef := rfl

@[simp] theorem Comp.bind_diverge {α β : Type} (f : α → Comp β) :
    (Comp.diverge : Comp α).bind f = .diverge := rfl

@[simp] theorem is_error_no_error : is_error ARGPARSE_NO_ERROR_ = false := rfl

@[simp] theorem is_error_missing_argument (name : Option CStr) (flag : Char) :
    is_error (ARGPARSE_MISSING_ARGUMENT_ERROR_ name flag) = true := rfl

theorem finalise_arg_count (fp : FloatOps) (arg : argparse_arg_t) (mem : Memory)
    (ha : arg.action_ = ARGPARSE_COUNT_ACTION) (hc : count_ok arg) :
    finalise_arg fp arg mem = .ok (ARGPARSE_NO_ERROR_, mem.write arg.value_ (.int arg.count_)) := by
  obtain ⟨ht, hlo, hhi⟩ := hc ha
  have h1 : ¬ (arg.count_ > INT32_MAX) := not_lt.mpr hhi
  have h2 : ¬ (arg.count_ < INT32_MIN) := not_lt.mpr hlo
  simp [finalise_arg, ha, update_value, ht, h1, h2]

theorem finalise_list_spec (fp : FloatOps) (l : List argparse_arg_t) :
    ∀ (mem : Memory), (∀ arg ∈ l, count_ok arg) →
    ∃ error mem1, finalise_list fp l mem = .ok (error, mem1) ∧
      ((∃ arg ∈ l, is_missing arg) → error.error_val = ARGPARSE_MISSING_ARGUMENT_ERROR) ∧
      ((¬ ∃ arg ∈ l, is_missing arg) → error = ARGPARSE_NO_ERROR_) := by
  induction l with
  | nil => intro mem _; exact ⟨_, _, rfl, by simp, by simp⟩
  | cons a rest ih =>
    intro mem h
    have hrest : ∀ arg ∈ rest, count_ok arg := fun arg harg => h arg (List.mem_cons_of_mem _ harg)
    by_cases ha : a.action_ = ARGPARSE_COUNT_ACTION
    · obtain ⟨e, m1, he, h1, h2⟩ := ih (mem.write a.value_ (.int a.count_)) hrest
      refine ⟨e, m1, ?_, ?_, ?_⟩
      · simp [finalise_list, finalise_arg_count fp a mem ha (h a (List.mem_cons_self _ _)), he]
      · rintro ⟨arg, harg, hm⟩
        rcases List.mem_cons.mp harg with rfl | hin
        · exact absurd ha hm.2.1
        · exact h1 ⟨arg, hin, hm⟩
      · intro hno
        exact h2 fun ⟨arg, hin, hm⟩ => hno ⟨arg, List.mem_cons_of_mem _ hin, hm⟩
    · by_cases hm : a.count_ = 0 ∧ a.required_ = true
      · refine ⟨ARGPARSE_MISSING_ARGUMENT_ERROR_ a.name_ a.flag_, mem, ?_, ?_, ?_⟩
        · simp [finalise_list, finalise_arg, ha, hm]
        · intro _; rfl
        · intro hno
          exact absurd ⟨a, List.mem_cons_self _ _, hm.2, ha, hm.1⟩ hno
      · obtain ⟨e, m1, he, h1, h2⟩ := ih mem hrest
        refine ⟨e, m1, ?_, ?_, ?_⟩
        · simp [finalise_list, finalise_arg, ha, hm, he]
        · rintro ⟨arg, harg, hmiss⟩
          rcases List.mem_cons.mp harg with rfl | hin
          · exact absurd ⟨hmiss.2.2, hmiss.1⟩ hm
          · exact h1 ⟨arg, hin, hmiss⟩
        · intro hno
          exact h2 fun ⟨arg, hin, hmiss⟩ => hno ⟨arg, List.mem_cons_of_mem _ hin, hmiss⟩

/-- C1 (required enforcement).  When the scan of all tokens ends without an error,
`argparse_parse_args` returns; the error it returns is `MissingArgument` if and only if
some record of the options or of the positional sequence is required, has an action
other than `Count` and has occurrence count 0, and it is "no error" otherwise.  (The
counter of a `Count` record is the value of a C `int` and its type is `Int32`.) -/
theorem required_enforcement (fp : FloatOps) (parser : argument_parser_t) (mem : Memory)
    (error : argparse_error_t) (s : ScanState)
    (hscan : scan_loop fp parser.argc_ ⟨parser, mem, 0, 0⟩ = .ok (error, s))
    (hok : is_error error = false)
    (hcount : ∀ arg ∈ s.parser.options_ ++ s.parser.positional_args_, count_ok arg) :
    ∃ error1 mem1, argparse_parse_args fp parser mem = .ok (error1, s.parser, mem1) ∧
      (error1.error_val = ARGPARSE_MISSING_ARGUMENT_ERROR ↔
        ∃ arg ∈ s.parser.options_ ++ s.parser.positional_args_,
          arg.required_ = true ∧ arg.action_ ≠ ARGPARSE_COUNT_ACTION ∧ arg.count_ = 0) ∧
      (error1.error_val ≠ ARGPARSE_MISSING_ARGUMENT_ERROR → error1 = ARGPARSE_NO_ERROR_) := by
  have hco : ∀ arg ∈ s.parser.options_, count_ok arg :=
    fun arg h => hcount arg (List.mem_append_left _ h)
  have hcp : ∀ arg ∈ s.parser.positional_args_, count_ok arg :=
    fun arg h => hcount arg (List.mem_append_right _ h)
  obtain ⟨e1, m1, h1, h1a, h1b⟩ := finalise_list_spec fp s.parser.options_ s.mem hco
  obtain ⟨e2, m2, h2, h2a, h2b⟩ := finalise_list_spec fp s.parser.positional_args_ m1 hcp
  have hne : ARGPARSE_NO_ERROR_.error_val ≠ ARGPARSE_MISSING_ARGUMENT_ERROR := by decide
  by_cases hmo : ∃ arg ∈ s.parser.options_, is_missing arg
  · have he1 : is_error e1 = true := by simp [is_error, h1a hmo]
    refine ⟨e1, m1, ?_, ?_, ?_⟩
    · simp [argparse_parse_args, hscan, hok, finalise, h1, he1]
    · obtain ⟨arg, hin, hm⟩ := hmo
      exact ⟨fun _ => ⟨arg, List.mem_append_left _ hin, hm⟩, fun _ => h1a ⟨arg, hin, hm⟩⟩
    · intro h; exact absurd (h1a hmo) h
  · have he1 : e1 = ARGPARSE_NO_ERROR_ := h1b hmo
    refine ⟨e2, m2, ?_, ?_, ?_⟩
    · simp [argparse_parse_args, hscan, hok, finalise, h1, he1, h2]
    · constructor
      · intro he2
        by_cases hmp : ∃ arg ∈ s.parser.positional_args_, is_missing arg
        · obtain ⟨arg, hin, hm⟩ := hmp
          exact ⟨arg, List.mem_append_right _ hin, hm⟩
        · rw [h2b hmp] at he2; exact absurd he2 hne
      · rintro ⟨arg, hin, hm⟩
        rcases List.mem_append.mp hin with ho | hp
        · exact absurd ⟨arg, ho, hm⟩ hmo
        · exact h2a ⟨arg, hp, hm⟩
    · intro h
      by_cases hmp : ∃ arg ∈ s.parser.positional_args_, is_missing arg
      · exact absurd (h2a hmp) h
      · exact h2b hmp

/-- The statement on required records at the vector `-x 52 -y 42` of the test
`store_int_missing_required`, whose required option `--sum` is never matched. -/
theorem required_enforcement_witness :
    (scan_loop sample_float_ops missing_required_setup.argc_
        ⟨missing_required_setup, sample_memory, 0, 0⟩
        = .ok (ARGPARSE_NO_ERROR_, missing_required_scanned) ∧
      is_error ARGPARSE_NO_ERROR_ = false ∧
      ∀ arg ∈ missing_required_scanned.parser.options_ ++
          missing_required_scanned.parser.positional_args_, count_ok arg) ∧
    ∃ error1 mem1,
      argparse_parse_args sample_float_ops missing_required_setup sample_memory
        = .ok (error1, missing_required_scanned.parser, mem1) ∧
      (error1.error_val = ARGPARSE_MISSING_ARGUMENT_ERROR ↔
        ∃ arg ∈ missing_required_scanned.parser.options_ ++
            missing_required_scanned.parser.positional_args_,
          arg.required_ = true ∧ arg.action_ ≠ ARGPARSE_COUNT_ACTION ∧ arg.count_ = 0) ∧
      (error1.error_val ≠ ARGPARSE_MISSING_ARGUMENT_ERROR → error1 = ARGPARSE_NO_ERROR_) :=
  have h1 : scan_loop sample_float_ops missing_required_setup.argc_
        ⟨missing_required_setup, sample_memory, 0, 0⟩
        = .ok (ARGPARSE_NO_ERROR_, missing_required_scanned) := by rfl
  have h3 : ∀ arg ∈ missing_required_scanned.parser.options_ ++
      missing_required_scanned.parser.positional_args_, count_ok arg := by
    decide
  ⟨⟨h1, rfl, h3⟩,
    required_enforcement sample_float_ops missing_required_setup sample_memory
      ARGPARSE_NO_ERROR_ missing_required_scanned h1 rfl h3⟩

theorem digitVal_of_is_digit (c : Char) (h : is_digit c) :
    digitVal c = some (c.toNat - 48) ∧ c.toNat - 48 < 10 := by
  obtain ⟨h1, h2⟩ := h
  have h1' : 48 ≤ c.toNat := h1
  have h2' : c.toNat ≤ 57 := h2
  refine ⟨?_, by omega⟩
  simp [digitVal, h1, h2]

theorem strtol_accum_decimal (ds : List Char) (h : ∀ c ∈ ds, is_digit c) :
    ∀ acc, strtol_accum 10 ds acc = ds.foldl (fun acc c => acc * 10 + (c.toNat - 48)) acc := by
  induction ds with
  | nil => intro acc; rfl
  | cons c cs ih =>
    intro acc
    obtain ⟨hd, hlt⟩ := digitVal_of_is_digit c (h c (List.mem_cons_self _ _))
    simp only [strtol_accum, hd, hlt, if_true, List.foldl_cons]
    exact ih (fun x hx => h x (List.mem_cons_of_mem _ hx)) _

theorem strtol_magnitude_canonical (ds : List Char) (h : is_canonical ds) :
    strtol_magnitude ds = decimal_value ds := by
  obtain ⟨hne, hd, hz⟩ := h
  cases ds with
  | nil => exact absurd rfl hne
  | cons c cs =>
    by_cases hc : c = '0'
    · subst hc
      have := hz rfl
      simp at this
      subst this
      rfl
    · have key : strtol_accum 10 (c :: cs) 0 = decimal_value (c :: cs) :=
        strtol_accum_decimal (c :: cs) hd 0
      rw [← key]
      unfold strtol_magnitude
      split <;> simp_all

theorem strtol_signed_numeral (t : CStr) (n : Int) (h : is_decimal_numeral t n) :
    strtol_signed (t.dropWhile isspace) = n := by
  unfold is_decimal_numeral at h
  split at h
  · rename_i ds
    obtain ⟨hc, hn⟩ := h
    have : List.dropWhile isspace ('-' :: ds) = '-' :: ds := by
      simp [List.dropWhile, isspace]
    rw [this, hn]
    simp [strtol_signed, strtol_magnitude_canonical ds hc]
  · obtain ⟨hc, hn⟩ := h
    obtain ⟨hne, hd, hz⟩ := hc
    cases t with
    | nil => exact absurd rfl hne
    | cons c cs =>
      have hdc : is_digit c := hd c (List.mem_cons_self _ _)
      have h1 : 48 ≤ c.toNat := hdc.1
      have h2 : c.toNat ≤ 57 := hdc.2
      have hsp : isspace c = false := by
        have e1 : c ≠ ' ' := by rintro rfl; revert h1; decide
        have e2 : c ≠ '\t' := by rintro rfl; revert h1; decide
        have e3 : c ≠ '\n' := by rintro rfl; revert h1; decide
        have e4 : c ≠ Char.ofNat 11 := by rintro rfl; revert h1; decide
        have e5 : c ≠ Char.ofNat 12 := by rintro rfl; revert h1; decide
        have e6 : c ≠ '\r' := by rintro rfl; revert h1; decide
        simp [isspace, e1, e2, e3, e4, e5, e6]
      have hm : c ≠ '-' := by rintro rfl; revert h1; decide
      have hp : c ≠ '+' := by rintro rfl; revert h1; decide
      have : List.dropWhile isspace (c :: cs) = c :: cs := by
        simp [List.dropWhile, hsp]
      rw [this, hn, ← strtol_magnitude_canonical (c :: cs) ⟨hne, hd, hz⟩]
      unfold strtol_signed
      split <;> simp_all

/-- The range test of `update_value` and of the choices loop on the result of `strtol`. -/
theorem range_test_numeral (t : CStr) (n : Int) (h : is_decimal_numeral t n) :
    (((strtol t).2 || decide ((strtol t).1 > INT32_MAX) || decide ((strtol t).1 < INT32_MIN))
        = true ↔ (n > INT32_MAX ∨ n < INT32_MIN)) ∧
      (¬ (n > INT32_MAX ∨ n < INT32_MIN) → strtol t = (n, false)) := by
  have hs := strtol_signed_numeral t n h
  unfold strtol
  simp only [hs]
  have hL : LONG_MAX = 9223372036854775807 := rfl
  have hl : LONG_MIN = -9223372036854775808 := rfl
  have hI : INT32_MAX = 2147483647 := rfl
  have hi : INT32_MIN = -2147483648 := rfl
  by_cases c1 : n > LONG_MAX
  · simp only [c1, if_true]
    refine ⟨⟨fun _ => Or.inl (by omega), fun _ => by simp⟩, fun hh => absurd (Or.inl (by omega)) hh⟩
  · by_cases c2 : n < LONG_MIN
    · simp only [c1, c2, if_true, if_false]
      refine ⟨⟨fun _ => Or.inr (by omega), fun _ => by simp⟩, fun hh => absurd (Or.inr (by omega)) hh⟩
    · simp only [c1, c2, if_false]
      constructor
      · simp
      · intro _; trivial

theorem choices_loop_int_in_range (fp : FloatOps) (arg : argparse_arg_t) (value : CStr) (n : Int)
    (ht : arg.type_ = ARGPARSE_INT_TYPE) (hs : strtol value = (n, false))
    (hr : ¬ (n > INT32_MAX ∨ n < INT32_MIN)) :
    ∀ k j b, (∃ t, choices_loop fp arg value k j b = .ok (.ok t)) ∨
      choices_loop fp arg value k j b = .undef := by
  have h1 : ¬ n > INT32_MAX := fun h => hr (Or.inl h)
  have h2 : ¬ n < INT32_MIN := fun h => hr (Or.inr h)
  intro k
  induction k with
  | zero => intro j b; exact Or.inl ⟨b, rfl⟩
  | succ k ih =>
    intro j b
    simp only [choices_loop, ht, hs]
    simp only [h1, h2, decide_False, Bool.or_self, Bool.false_eq_true, if_false]
    split
    · split
      · split
        · exact Or.inl ⟨true, rfl⟩
        · exact ih _ _
      · exact Or.inr rfl
    · exact Or.inr rfl

theorem get_and_update_value_int32 (fp : FloatOps) (st : State) (ref : ArgRef) (i : Nat)
    (positional negated : Bool) (arg : argparse_arg_t) (value : CStr) (n : Int)
    (hd : st.parser.deref ref = some arg) (ht : arg.type_ = ARGPARSE_INT_TYPE)
    (ha : arg.action_ = ARGPARSE_STORE_ACTION)
    (hv : st.parser.argv_[if positional then i else i + 1]? = some value)
    (hn : is_decimal_numeral value n) :
    ((n > INT32_MAX ∨ n < INT32_MIN) →
      get_and_update_value fp st ref i positional negated =
        .ok (ARGPARSE_INT_RANGE_EXCEEDED_ERROR_ arg.name_ arg.flag_,
          { st with parser := st.parser.assign ref { arg with count_ := arg.count_ + 1 } },
          if positional then i else i + 1)) ∧
    (¬ (n > INT32_MAX ∨ n < INT32_MIN) →
      (∀ error st1 i1, get_and_update_value fp st ref i positional negated = .ok (error, st1, i1) →
        error.error_val ≠ ARGPARSE_INT_RANGE_EXCEEDED_ERROR) ∧
      (arg.num_choices_ = 0 →
        get_and_update_value fp st ref i positional negated =
          .ok (ARGPARSE_NO_ERROR_,
            { parser := st.parser.assign ref { arg with count_ := arg.count_ + 1 },
              mem := st.mem.write arg.value_ (.int n) },
            if positional then i else i + 1))) := by
  obtain ⟨hrange, hin⟩ := range_test_numeral value n hn
  rcases arg with ⟨ty, cnt, fl, nm, v, act, hlp, req, ch, nch⟩
  simp only at ht ha
  subst ht; subst ha
  have ht : (⟨ARGPARSE_INT_TYPE, cnt + 1, fl, nm, v, ARGPARSE_STORE_ACTION, hlp, req, ch, nch⟩ :
    argparse_arg_t).type_ = ARGPARSE_INT_TYPE := rfl
  have hmiss : (!positional && i + 1 == st.parser.argc_) = false := by
    cases positional with
    | true => rfl
    | false =>
      simp only [Bool.false_eq_true, if_false] at hv
      have : i + 1 < st.parser.argv_.length := by
        by_contra hc
        rw [List.getElem?_eq_none (not_lt.mp hc)] at hv
        cases hv
      simp [argument_parser_t.argc_]; omega
  constructor
  · intro hout
    have htest := hrange.mpr hout
    unfold get_and_update_value
    simp only [hd, hmiss, Bool.false_eq_true, if_false, hv]
    cases nch with
    | zero =>
      simp [choices_loop, update_value, htest]
    | succ k =>
      simp [choices_loop, htest]
  · intro hr
    have hs := hin hr
    have h1 : ¬ n > INT32_MAX := fun h => hr (Or.inl h)
    have h2 : ¬ n < INT32_MIN := fun h => hr (Or.inr h)
    have hupd : update_value fp
        ⟨ARGPARSE_INT_TYPE, cnt + 1, fl, nm, v, ARGPARSE_STORE_ACTION, hlp, req, ch, nch⟩
        st.mem (.text value) true = .ok (ARGPARSE_NO_ERROR_, st.mem.write v (.int n)) := by
      simp [update_value, hs, h1, h2]
    constructor
    · intro error st1 i1
      unfold get_and_update_value
      simp only [hd, hmiss, Bool.false_eq_true, if_false, hv]
      rcases choices_loop_int_in_range fp
        ⟨ARGPARSE_INT_TYPE, cnt + 1, fl, nm, v, ARGPARSE_STORE_ACTION, hlp, req, ch, nch⟩
        value n ht hs hr nch 0 (nch == 0) with ⟨t, hl⟩ | hl
      · rw [hl]
        cases t with
        | true =>
          simp [hupd]
          intro h _ _; subst h; decide
        | false =>
          simp
          intro h _ _; subst h; simp [ARGPARSE_INVALID_CHOICE_ERROR_]
      · rw [hl]; simp
    · intro hk
      unfold get_and_update_value
      simp only at hk
      subst hk
      simp only [hd, hmiss, Bool.false_eq_true, if_false, hv]
      simp [choices_loop, hupd]

/-- C3 (32-bit range check).  Binding an `Int32` `Store` record (an option taking the
next token, or a positional taking the current one) to a token that is the decimal
numeral of `n`: when `n > 2147483647` or `n < -2147483648` the binding returns
`IntRangeExceeded`, with or without a choice list, and storage is not written; otherwise
it never returns `IntRangeExceeded`, and without choices it stores `n`.  The values
12345678901 and 2147483648 fail, 2147483647 succeeds, and 2147483648 against the
choices 1, 2, 3 is `IntRangeExceeded`. -/
theorem int32_range_check :
    (∀ (fp : FloatOps) (st : State) (ref : ArgRef) (i : Nat) (positional negated : Bool)
        (arg : argparse_arg_t) (value : CStr) (n : Int),
      st.parser.deref ref = some arg → arg.type_ = ARGPARSE_INT_TYPE →
      arg.action_ = ARGPARSE_STORE_ACTION →
      st.parser.argv_[if positional then i else i + 1]? = some value →
      is_decimal_numeral value n →
      ((n > 2147483647 ∨ n < -2147483648) →
        get_and_update_value fp st ref i positional negated =
          .ok (ARGPARSE_INT_RANGE_EXCEEDED_ERROR_ arg.name_ arg.flag_,
            { st with parser := st.parser.assign ref { arg with count_ := arg.count_ + 1 } },
            if positional then i else i + 1)) ∧
      (¬ (n > 2147483647 ∨ n < -2147483648) →
        (∀ error st1 i1,
          get_and_update_value fp st ref i positional negated = .ok (error, st1, i1) →
          error.error_val ≠ ARGPARSE_INT_RANGE_EXCEEDED_ERROR) ∧
        (arg.num_choices_ = 0 →
          get_and_update_value fp st ref i positional negated =
            .ok (ARGPARSE_NO_ERROR_,
              { parser := st.parser.assign ref { arg with count_ := arg.count_ + 1 },
                mem := st.mem.write arg.value_ (.int n) },
              if positional then i else i + 1)))) ∧
    (∃ parser1 mem1,
      argparse_parse_args sample_float_ops
        (sample_setup ["--value", "12345678901"] [value_option] []) sample_memory
        = .ok (ARGPARSE_INT_RANGE_EXCEEDED_ERROR_ (some "--value".toList) 'v', parser1, mem1)) ∧
    (∃ parser1 mem1,
      argparse_parse_args sample_float_ops
        (sample_setup ["--value", "2147483648"] [value_option] []) sample_memory
        = .ok (ARGPARSE_INT_RANGE_EXCEEDED_ERROR_ (some "--value".toList) 'v', parser1, mem1)) ∧
    (∃ parser1 mem1,
      argparse_parse_args sample_float_ops
        (sample_setup ["--value", "2147483647"] [value_option] []) sample_memory
        = .ok (ARGPARSE_NO_ERROR_, parser1, mem1) ∧ mem1 1 = .int 2147483647) ∧
    (∃ parser1 mem1,
      argparse_parse_args sample_float_ops
        (sample_setup ["--value", "2147483648"] [value_option_with_choices] []) sample_memory
        = .ok (ARGPARSE_INT_RANGE_EXCEEDED_ERROR_ (some "--value".toList) 'v', parser1, mem1)) :=
  ⟨fun fp st ref i positional negated arg value n hd ht ha hv hn =>
      get_and_update_value_int32 fp st ref i positional negated arg value n hd ht ha hv hn,
    ⟨_, _, rfl⟩, ⟨_, _, rfl⟩, ⟨_, _, rfl, rfl⟩, ⟨_, _, rfl⟩⟩

/-- The range check at the value `-2147483649` of the option `--value`. -/
theorem int32_range_check_witness :
    get_and_update_value sample_float_ops
        ⟨sample_setup ["--value", "-2147483649"] [value_option] [], sample_memory⟩
        (.option 0) 0 false false =
      .ok (ARGPARSE_INT_RANGE_EXCEEDED_ERROR_ (some "--value".toList) 'v',
        ⟨sample_setup ["--value", "-2147483649"] [{ value_option with count_ := 1 }] [],
          sample_memory⟩, 1) :=
  (int32_range_check.1 sample_float_ops
    ⟨sample_setup ["--value", "-2147483649"] [value_option] [], sample_memory⟩
    (.option 0) 0 false false value_option "-2147483649".toList (-2147483649)
    rfl rfl rfl rfl (by decide)).1 (by decide)

theorem check_action_is_error (arg : argparse_arg_t) (positional : Bool) (e : argparse_error_t)
    (h : check_action arg positional = some e) : is_error e = true := by
  unfold check_action at h
  simp only at h
  repeat' split at h
  all_goals (cases h <;> rfl)

theorem check_added_list_is_error (arg : argparse_arg_t) (l : List argparse_arg_t)
    (e : argparse_error_t) (h : check_added_list arg l = .ok e) :
    e = ARGPARSE_NO_ERROR_ ∨ is_error e = true := by
  induction l with
  | nil => simp [check_added_list] at h; exact Or.inl h.symm
  | cons a rest ih =>
    simp only [check_added_list] at h
    cases hc : check_added a arg with
    | ok e1 =>
      rw [hc] at h
      simp only [Comp.bind_ok] at h
      split at h
      · simp at h; subst h; right; assumption
      · exact ih h
    | exit n => rw [hc] at h; simp at h
    | undef => rw [hc] at h; simp at h
    | diverge => rw [hc] at h; simp at h

theorem add_argument_option_ok (parser parser1 : argument_parser_t) (arg : argparse_arg_t)
    (error : argparse_error_t) (N : CStr)
    (h : argparse_add_argument parser arg = .ok (error, parser1)) (he : is_error error = false)
    (hN : arg.name_ = some N) (hdash : starts_with N "-".toList = true) :
    N.length ≠ 2 ∧ N ≠ "--help".toList ∧ arg.flag_ ≠ 'h' ∧
      parser1 = { parser with options_ := parser.options_ ++ [arg] } := by
  unfold argparse_add_argument at h
  simp only [hN, hdash, Bool.not_true, Bool.false_eq_true, false_and, if_false,
    Option.map_some', Option.some.injEq, not_false_eq_true, and_true] at h
  split at h
  · simp at h; rw [← h.1] at he; simp [is_error, ARGPARSE_INVALID_FLAG_OR_NAME_ERROR_] at he
  · split at h
    · simp at h; rw [← h.1] at he; simp [is_error, ARGPARSE_INVALID_TYPE_ERROR_] at he
    · split at h
      · rename_i e1 hca
        simp at h; rw [← h.1] at he
        rw [check_action_is_error _ _ _ hca] at he; cases he
      · split at h
        · simp at h; rw [← h.1] at he; simp [is_error, ARGPARSE_INVALID_FLAG_OR_NAME_ERROR_] at he
        · split at h
          · simp at h; rw [← h.1] at he
            simp [is_error, ARGPARSE_CONFLICTING_OPTIONS_ERROR_] at he
          · split at h
            · simp at h; rw [← h.1] at he
              simp [is_error, ARGPARSE_CONFLICTING_OPTIONS_ERROR_] at he
            · rename_i h2 hh hhelp
              refine ⟨h2, hhelp, hh, ?_⟩
              cases hc : check_added_list arg parser.options_ with
              | ok e1 =>
                rw [hc] at h
                simp only [Comp.bind_ok] at h
                split at h
                · rename_i he1
                  simp at h; rw [← h.1] at he; rw [he1] at he; cases he
                · simp at h; exact h.2.symm
              | exit n => rw [hc] at h; simp at h
              | undef => rw [hc] at h; simp at h
              | diverge => rw [hc] at h; simp at h

theorem find_arg_from_static (arg : arg_to_find) (l : List argparse_arg_t) :
    ∀ i, find_arg_from arg (l.map argparse_arg_t.static) i = find_arg_from arg l i := by
  induction l with
  | nil => intro i; rfl
  | cons a rest ih =>
    intro i
    cases arg <;> simp [find_arg_from, argparse_arg_t.static, ih]

theorem find_arg_static (l l1 : List argparse_arg_t) (arg : arg_to_find)
    (h : l1.map argparse_arg_t.static = l.map argparse_arg_t.static) :
    find_arg l1 arg = find_arg l arg := by
  unfold find_arg
  rw [← find_arg_from_static arg l1, ← find_arg_from_static arg l, h]

theorem static_action (l l1 : List argparse_arg_t)
    (h : l1.map argparse_arg_t.static = l.map argparse_arg_t.static) (k : Nat) :
    l1[k]?.map argparse_arg_t.static = l[k]?.map argparse_arg_t.static := by
  rw [← List.getElem?_map, ← List.getElem?_map, h]

theorem static_set (l : List argparse_arg_t) (k : Nat) (a : argparse_arg_t) (c : Int)
    (h : l[k]? = some a) :
    (l.set k { a with count_ := c }).map argparse_arg_t.static = l.map argparse_arg_t.static := by
  apply List.ext_getElem?
  intro n
  simp only [List.getElem?_map, List.getElem?_set]
  by_cases hn : k = n
  · subst hn
    have hlt : k < l.length := by
      by_contra hc
      rw [List.getElem?_eq_none (not_lt.mp hc)] at h
      cases h
    simp [hlt, h, argparse_arg_t.static]
  · simp [hn]

theorem assign_static (parser : argument_parser_t) (ref : ArgRef) (a : argparse_arg_t) (c : Int)
    (h : parser.deref ref = some a) :
    (parser.assign ref { a with count_ := c }).static = parser.static := by
  cases ref with
  | option k =>
    simp only [argument_parser_t.deref] at h
    simp [argument_parser_t.assign, argument_parser_t.static, static_set _ _ _ _ h]
  | positional k =>
    simp only [argument_parser_t.deref] at h
    simp [argument_parser_t.assign, argument_parser_t.static, static_set _ _ _ _ h]

theorem static_argv (p p1 : argument_parser_t) (h : p1.static = p.static) :
    p1.argv_ = p.argv_ := by
  have := congrArg argument_parser_t.argv_ h
  simpa [argument_parser_t.static] using this

theorem static_options (p p1 : argument_parser_t) (h : p1.static = p.static) :
    p1.options_.map argparse_arg_t.static = p.options_.map argparse_arg_t.static := by
  have := congrArg argument_parser_t.options_ h
  simpa [argument_parser_t.static] using this

theorem static_positionals (p p1 : argument_parser_t) (h : p1.static = p.static) :
    p1.positional_args_.map argparse_arg_t.static =
      p.positional_args_.map argparse_arg_t.static := by
  have := congrArg argument_parser_t.positional_args_ h
  simpa [argument_parser_t.static] using this

theorem static_argc (p p1 : argument_parser_t) (h : p1.static = p.static) :
    p1.argc_ = p.argc_ := by
  simp [argument_parser_t.argc_, static_argv p p1 h]

theorem Comp.bind_eq_ok {α β : Type} (x : Comp α) (f : α → Comp β) (b : β) :
    x.bind f = .ok b ↔ ∃ a, x = .ok a ∧ f a = .ok b := by
  cases x <;> simp [Comp.bind]

theorem update_value_ok_or (fp : FloatOps) (arg : argparse_arg_t) (mem : Memory) (value : CValue)
    (string : Bool) (e : argparse_error_t) (mem1 : Memory)
    (h : update_value fp arg mem value string = .ok (e, mem1)) :
    (e = ARGPARSE_NO_ERROR_ ∧ ∃ v, mem1 = mem.write arg.value_ v) ∨
      (e = ARGPARSE_INT_RANGE_EXCEEDED_ERROR_ arg.name_ arg.flag_ ∧ mem1 = mem) := by
  unfold update_value at h
  split at h
  · simp only at h
    split at h
    · cases h
    · split at h
      · simp at h; exact Or.inr ⟨h.1.symm, h.2.symm⟩
      · simp at h; exact Or.inl ⟨h.1.symm, _, h.2.symm⟩
  · split at h
    · simp at h; exact Or.inl ⟨h.1.symm, _, h.2.symm⟩
    · cases h
  · split at h
    · simp at h; exact Or.inl ⟨h.1.symm, _, h.2.symm⟩
    · cases h
  · split at h
    · simp at h; exact Or.inl ⟨h.1.symm, _, h.2.symm⟩
    · cases h
  · cases h

/-- What a call of `get_and_update_value` that returns leaves as it was, and where it
leaves `i`. -/
theorem get_and_update_value_frame (fp : FloatOps) (st st1 : State) (ref : ArgRef) (i i1 : Nat)
    (positional negated : Bool) (e : argparse_error_t)
    (h : get_and_update_value fp st ref i positional negated = .ok (e, st1, i1)) :
    st1.parser.static = st.parser.static ∧ i ≤ i1 ∧ i1 ≤ i + 1 ∧
      (i < st.parser.argc_ → i1 < st.parser.argc_) := by
  unfold get_and_update_value at h
  split at h
  · cases h
  · rename_i arg0 hd
    have hst := assign_static st.parser ref arg0 (arg0.count_ + 1) hd
    simp only at h
    split at h
    · -- Store
      split at h
      · simp at h
        obtain ⟨_, h2, h3⟩ := h
        subst h2; subst h3
        exact ⟨hst, le_refl _, Nat.le_succ _, fun hh => hh⟩
      · rename_i hmiss
        have hi : (if positional = true then i else i + 1) ≤ i + 1 := by split <;> omega
        have hi0 : i ≤ (if positional = true then i else i + 1) := by split <;> omega
        have hi2 : i < st.parser.argc_ → (if positional = true then i else i + 1) < st.parser.argc_ := by
          intro hlt
          cases positional with
          | true => simpa using hlt
          | false =>
            simp at hmiss ⊢
            omega
        split at h
        · cases h
        · rw [Comp.bind_eq_ok] at h
          obtain ⟨r, _, h⟩ := h
          cases r with
          | error err =>
            simp at h
            obtain ⟨_, h2, h3⟩ := h
            subst h2; subst h3
            exact ⟨hst, hi0, hi, hi2⟩
          | ok tmp_bool =>
            simp only at h
            split at h
            · simp at h
              obtain ⟨_, h2, h3⟩ := h
              subst h2; subst h3
              exact ⟨hst, hi0, hi, hi2⟩
            · rw [Comp.bind_eq_ok] at h
              obtain ⟨⟨e2, m2⟩, _, h⟩ := h
              simp at h
              obtain ⟨_, h2, h3⟩ := h
              subst h2; subst h3
              exact ⟨hst, hi0, hi, hi2⟩
    · rw [Comp.bind_eq_ok] at h
      obtain ⟨⟨e2, m2⟩, _, h⟩ := h
      simp at h
      obtain ⟨_, h2, h3⟩ := h
      subst h2; subst h3
      exact ⟨hst, le_refl _, Nat.le_succ _, fun hh => hh⟩
    · rw [Comp.bind_eq_ok] at h
      obtain ⟨⟨e2, m2⟩, _, h⟩ := h
      simp at h
      obtain ⟨_, h2, h3⟩ := h
      subst h2; subst h3
      exact ⟨hst, le_refl _, Nat.le_succ _, fun hh => hh⟩
    · rw [Comp.bind_eq_ok] at h
      obtain ⟨⟨e2, m2⟩, _, h⟩ := h
      simp at h
      obtain ⟨_, h2, h3⟩ := h
      subst h2; subst h3
      exact ⟨hst, le_refl _, Nat.le_succ _, fun hh => hh⟩
    · simp at h
      obtain ⟨_, h2, h3⟩ := h
      subst h2; subst h3
      exact ⟨hst, le_refl _, Nat.le_succ _, fun hh => hh⟩
    · cases h

theorem group_loop_frame (fp : FloatOps) (arg_string : CStr) (rest : List Char) :
    ∀ (st st1 : State) (i i1 : Nat) (e : argparse_error_t),
      group_loop fp arg_string rest st i = .ok (e, st1, i1) →
      st1.parser.static = st.parser.static ∧ i ≤ i1 ∧
        (i < st.parser.argc_ → i1 < st.parser.argc_) := by
  induction rest with
  | nil =>
    intro st st1 i i1 e h
    simp [group_loop] at h
    obtain ⟨_, h2, h3⟩ := h
    subst h2; subst h3
    exact ⟨rfl, le_refl _, fun hh => hh⟩
  | cons c rest ih =>
    intro st st1 i i1 e h
    simp only [group_loop] at h
    rw [Comp.bind_eq_ok] at h
    obtain ⟨found, _, h⟩ := h
    cases found with
    | none =>
      simp at h
      obtain ⟨_, h2, h3⟩ := h
      subst h2; subst h3
      exact ⟨rfl, le_refl _, fun hh => hh⟩
    | some k =>
      simp only at h
      split at h
      · cases h
      · rw [Comp.bind_eq_ok] at h
        obtain ⟨⟨e2, st2, i2⟩, hg, h⟩ := h
        obtain ⟨f1, f2, _, f4⟩ := get_and_update_value_frame fp _ _ _ _ _ _ _ _ hg
        simp only at h
        split at h
        · simp at h
          obtain ⟨_, h2, h3⟩ := h
          subst h2; subst h3
          exact ⟨f1, f2, f4⟩
        · obtain ⟨g1, g2, g4⟩ := ih _ _ _ _ _ h
          refine ⟨g1.trans f1, le_trans f2 g2, fun hh => ?_⟩
          have := f4 hh
          rw [← static_argc _ _ f1] at this
          have := g4 this
          rwa [static_argc _ _ f1] at this

theorem bind_found_frame (fp : FloatOps) (s s1 : ScanState) (arg_string : CStr)
    (arg : Option ArgRef) (positional negated : Bool) (e : argparse_error_t)
    (h : bind_found fp s arg_string arg positional negated = .ok (e, s1)) :
    s1.parser.static = s.parser.static ∧ s.i ≤ s1.i ∧
      (s.i < s.parser.argc_ → s1.i < s.parser.argc_) ∧ s1.positional_i = s.positional_i := by
  unfold bind_found at h
  split at h
  · simp at h
    obtain ⟨_, h2⟩ := h
    subst h2
    exact ⟨rfl, le_refl _, fun hh => hh, rfl⟩
  · rw [Comp.bind_eq_ok] at h
    obtain ⟨⟨e2, st2, i2⟩, hg, h⟩ := h
    obtain ⟨f1, f2, _, f4⟩ := get_and_update_value_frame fp _ _ _ _ _ _ _ _ hg
    simp at h
    obtain ⟨_, h2⟩ := h
    subst h2
    exact ⟨f1, f2, f4, rfl⟩

/-- What an iteration of the scan that returns leaves as it was, and where it leaves
`i` and `positional_i`. -/
theorem parse_token_frame (fp : FloatOps) (s s1 : ScanState) (e : argparse_error_t)
    (h : parse_token fp s = .ok (e, s1)) :
    s1.parser.static = s.parser.static ∧ s.i ≤ s1.i ∧
      (s.i < s.parser.argc_ → s1.i < s.parser.argc_) ∧
      s.positional_i ≤ s1.positional_i ∧ s1.positional_i ≤ s.positional_i + 1 := by
  unfold parse_token at h
  split at h
  · cases h
  · split at h
    · cases h
    · split at h
      · rw [Comp.bind_eq_ok] at h
        obtain ⟨arg, _, h⟩ := h
        obtain ⟨f1, f2, f3, f4⟩ := bind_found_frame fp _ _ _ _ _ _ _ h
        exact ⟨f1, f2, f3, by omega, by omega⟩
      · split at h
        · rw [Comp.bind_eq_ok] at h
          obtain ⟨⟨arg, negated⟩, _, h⟩ := h
          cases arg with
          | none =>
            simp only at h
            rw [Comp.bind_eq_ok] at h
            obtain ⟨⟨e2, st2, i2⟩, hg, h⟩ := h
            obtain ⟨g1, g2, g4⟩ := group_loop_frame fp _ _ _ _ _ _ _ hg
            simp at h
            obtain ⟨_, h2⟩ := h
            subst h2
            exact ⟨g1, g2, g4, le_refl _, Nat.le_succ _⟩
          | some k =>
            simp only at h
            obtain ⟨f1, f2, f3, f4⟩ := bind_found_frame fp _ _ _ _ _ _ _ h
            exact ⟨f1, f2, f3, by omega, by omega⟩
        · rw [Comp.bind_eq_ok] at h
          obtain ⟨arg, _, h⟩ := h
          obtain ⟨f1, f2, f3, f4⟩ := bind_found_frame fp _ _ _ _ _ _ _ h
          exact ⟨f1, f2, f3, by simp at f4; omega, by simp at f4; omega⟩

/-- The loop bound never matters: `argc_ - i` iterations are enough. -/
theorem scan_loop_fuel (fp : FloatOps) :
    ∀ (f : Nat) (s : ScanState), s.parser.argc_ - s.i ≤ f →
      scan_loop fp f s = scan_loop fp (s.parser.argc_ - s.i) s := by
  intro f
  induction f using Nat.strong_induction_on with
  | _ f ih =>
    intro s hf
    by_cases hlt : s.i < s.parser.argc_
    · obtain ⟨n, hn⟩ : ∃ n, s.parser.argc_ - s.i = n + 1 := ⟨s.parser.argc_ - s.i - 1, by omega⟩
      obtain ⟨g, hg⟩ : ∃ g, f = g + 1 := ⟨f - 1, by omega⟩
      rw [hn, hg]
      simp only [scan_loop, hlt, if_true]
      cases hp : parse_token fp s with
      | ok r =>
        obtain ⟨e, s1⟩ := r
        simp only [Comp.bind_ok]
        split
        · rfl
        · obtain ⟨f1, f2, f3, _⟩ := parse_token_frame fp s s1 e hp
          have hargc : s1.parser.argc_ = s.parser.argc_ := static_argc _ _ f1
          have hb : ({ s1 with i := s1.i + 1 } : ScanState).parser.argc_ -
              ({ s1 with i := s1.i + 1 } : ScanState).i ≤ n := by
            simp only [hargc]; omega
          rw [ih g (by omega) _ (by omega), ih n (by omega) _ hb]
      | exit c => rfl
      | undef => rfl
      | diverge => rfl
    · have h0 : s.parser.argc_ - s.i = 0 := by omega
      rw [h0]
      cases f with
      | zero => rfl
      | succ g => simp [scan_loop, hlt]

theorem reaches_static (fp : FloatOps) (parser : argument_parser_t) (mem : Memory)
    (visited : List Nat) (s : ScanState) (h : Reaches fp parser mem visited s) :
    s.parser.static = parser.static ∧ s.i ≤ s.parser.argc_ := by
  induction h with
  | start => exact ⟨rfl, Nat.zero_le _⟩
  | next _ hlt hp _ ih =>
    obtain ⟨f1, _, f3, _⟩ := parse_token_frame fp _ _ _ hp
    refine ⟨f1.trans ih.1, ?_⟩
    have := f3 hlt
    simp only [static_argc _ _ f1]
    omega

/-- The scan from the start is the scan from any loop head it reaches. -/
theorem reaches_scan (fp : FloatOps) (parser : argument_parser_t) (mem : Memory)
    (visited : List Nat) (s : ScanState) (h : Reaches fp parser mem visited s) :
    scan_loop fp parser.argc_ ⟨parser, mem, 0, 0⟩ = scan_loop fp (s.parser.argc_ - s.i) s := by
  induction h with
  | start => rfl
  | @next vis s s1 e hr hlt hp he ih =>
    rw [ih]
    obtain ⟨n, hn⟩ : ∃ n, s.parser.argc_ - s.i = n + 1 := ⟨s.parser.argc_ - s.i - 1, by omega⟩
    rw [hn]
    simp only [scan_loop, hlt, if_true, hp, Comp.bind_ok, he, Bool.false_eq_true, if_false]
    obtain ⟨f1, f2, f3, _⟩ := parse_token_frame fp s s1 e hp
    have hargc : s1.parser.argc_ = s.parser.argc_ := static_argc _ _ f1
    apply scan_loop_fuel
    simp only [hargc]; omega

theorem parse_token_positional_i (fp : FloatOps) (s s1 : ScanState) (e : argparse_error_t)
    (h : parse_token fp s = .ok (e, s1)) :
    s1.positional_i = s.positional_i + (if no_dash s.parser.argv_ s.i then 1 else 0) := by
  unfold parse_token at h
  split at h
  · cases h
  · rename_i arg_string hv
    have hnd : no_dash s.parser.argv_ s.i = !starts_with arg_string "-".toList := by
      simp [no_dash, List.getD, hv]
    rw [hnd]
    split at h
    · cases h
    · split at h
      · rename_i h2
        rw [Comp.bind_eq_ok] at h
        obtain ⟨arg, _, h⟩ := h
        obtain ⟨_, _, _, f4⟩ := bind_found_frame fp _ _ _ _ _ _ _ h
        rw [h2.2, f4]; rfl
      · split at h
        · rename_i h3
          rw [Comp.bind_eq_ok] at h
          obtain ⟨⟨arg, negated⟩, _, h⟩ := h
          cases arg with
          | none =>
            simp only at h
            rw [Comp.bind_eq_ok] at h
            obtain ⟨⟨e2, st2, i2⟩, hg, h⟩ := h
            simp at h
            obtain ⟨_, h2⟩ := h
            subst h2
            rw [h3]; rfl
          | some k =>
            simp only at h
            obtain ⟨_, _, _, f4⟩ := bind_found_frame fp _ _ _ _ _ _ _ h
            rw [h3, f4]; rfl
        · rename_i h3
          rw [Comp.bind_eq_ok] at h
          obtain ⟨arg, _, h⟩ := h
          obtain ⟨_, _, _, f4⟩ := bind_found_frame fp _ _ _ _ _ _ _ h
          have h3' : starts_with arg_string "-".toList = false := by
            cases hh : starts_with arg_string "-".toList
            · rfl
            · exact absurd hh h3
          rw [h3', f4]; rfl

/-- At a loop head, `positional_i` counts the classified tokens without a `-`. -/
theorem reaches_positional_i (fp : FloatOps) (parser : argument_parser_t) (mem : Memory)
    (visited : List Nat) (s : ScanState) (h : Reaches fp parser mem visited s) :
    s.positional_i = (visited.filter (no_dash parser.argv_)).length := by
  induction h with
  | start => rfl
  | @next vis s s1 e hr hlt hp he ih =>
    have hargv : s.parser.argv_ = parser.argv_ := static_argv _ _ (reaches_static _ _ _ _ _ hr).1
    have := parse_token_positional_i fp s s1 e hp
    simp only [this, ih, hargv, List.filter_append, List.length_append]
    by_cases hd : no_dash parser.argv_ s.i = true
    · simp [List.filter, hd]
    · simp [List.filter, hd]

theorem find_arg_from_index (k : Nat) (l : List argparse_arg_t) :
    ∀ i, i ≤ k → find_arg_from (INDEX_TO_FIND k) l i =
      .ok (if k < i + l.length then some k else none) := by
  induction l with
  | nil =>
    intro i hi
    have : ¬ k < i := by omega
    simp [find_arg_from, this]
  | cons a rest ih =>
    intro i hi
    by_cases hk : k = i
    · subst hk; simp [find_arg_from]
    · simp only [find_arg_from, hk, if_false]
      rw [ih (i + 1) (by omega)]
      simp only [List.length_cons]
      congr 2
      apply propext
      constructor <;> intro <;> omega

theorem find_arg_index (k : Nat) (l : List argparse_arg_t) :
    find_arg l (INDEX_TO_FIND k) = .ok (if k < l.length then some k else none) := by
  unfold find_arg
  rw [find_arg_from_index k l 0 (Nat.zero_le _)]
  simp

theorem parse_token_no_dash (fp : FloatOps) (s : ScanState) (token : CStr)
    (hv : s.parser.argv_[s.i]? = some token) (hd : starts_with token "-".toList = false) :
    parse_token fp s =
      if s.positional_i < s.parser.positional_args_.length then
        (get_and_update_value fp s.st (.positional s.positional_i) s.i true false).bind
          fun (error, st1, i1) =>
            .ok (error, ({ s with positional_i := s.positional_i + 1 } : ScanState).update st1 i1)
      else .ok (ARGPARSE_ARGUMENT_UNKNOWN_ERROR_ (some token),
          { s with positional_i := s.positional_i + 1 }) := by
  have h1 : token ≠ "-h".toList := by rintro rfl; simp [starts_with] at hd
  have h2 : token ≠ "--help".toList := by rintro rfl; simp [starts_with] at hd
  unfold parse_token
  simp only [hv, h1, h2, or_self, if_false, hd, Bool.false_eq_true, and_false, find_arg_index,
    Comp.bind_ok]
  split
  · rfl
  · rfl

/-- C2 (positional matching order).  At every loop head of a scan, with `visited` the
indices of the tokens classified so far, a token that does not start with `-` meets
`positional_i = k`, the number of classified tokens before it that do not start with
`-`.  When the positional sequence has a record of index `k`, the iteration is the
binding of that record with the token itself as value; otherwise the iteration, and with
it `argparse_parse_args`, returns `ArgumentUnknown` carrying the token.  In the test
`store_multi_int_flags_and_positionals_3` the tokens 54321 and 123 go to `width` and
`height`, with option tokens before and between them. -/
theorem positional_matching_order :
    (∀ (fp : FloatOps) (parser : argument_parser_t) (mem : Memory) (visited : List Nat)
        (s : ScanState) (token : CStr),
      Reaches fp parser mem visited s → parser.argv_[s.i]? = some token →
      starts_with token "-".toList = false →
      s.positional_i = (visited.filter (no_dash parser.argv_)).length ∧
      (s.positional_i < parser.positional_args_.length →
        parse_token fp s =
          (get_and_update_value fp s.st (.positional s.positional_i) s.i true false).bind
            fun (error, st1, i1) =>
              .ok (error,
                ({ s with positional_i := s.positional_i + 1 } : ScanState).update st1 i1)) ∧
      (parser.positional_args_.length ≤ s.positional_i →
        parse_token fp s = .ok (ARGPARSE_ARGUMENT_UNKNOWN_ERROR_ (some token),
          { s with positional_i := s.positional_i + 1 }) ∧
        argparse_parse_args fp parser mem =
          .ok (ARGPARSE_ARGUMENT_UNKNOWN_ERROR_ (some token), s.parser, s.mem))) ∧
    (∃ parser1 mem1,
      argparse_parse_args sample_float_ops flags_and_positionals_setup sample_memory
        = .ok (ARGPARSE_NO_ERROR_, parser1, mem1) ∧
      mem1 1 = .int 54321 ∧ mem1 2 = .int 123 ∧ mem1 3 = .int 90 ∧ mem1 4 = .int 2 ∧
      parser1.positional_args_.map argparse_arg_t.count_ = [1, 1]) := by
  refine ⟨?_, ⟨_, _, rfl, rfl, rfl, rfl, rfl, rfl⟩⟩
  intro fp parser mem visited s token hr hv hd
  obtain ⟨hst, hle⟩ := reaches_static fp parser mem visited s hr
  have hargv : s.parser.argv_ = parser.argv_ := static_argv _ _ hst
  have hlen : s.parser.positional_args_.length = parser.positional_args_.length := by
    have := congrArg List.length (static_positionals _ _ hst)
    simpa using this
  have hv1 : s.parser.argv_[s.i]? = some token := by rw [hargv]; exact hv
  have hstep := parse_token_no_dash fp s token hv1 hd
  rw [hlen] at hstep
  refine ⟨reaches_positional_i fp parser mem visited s hr, ?_, ?_⟩
  · intro hk
    rw [hstep, if_pos hk]
  · intro hk
    have hp : parse_token fp s = .ok (ARGPARSE_ARGUMENT_UNKNOWN_ERROR_ (some token),
        { s with positional_i := s.positional_i + 1 }) := by
      rw [hstep, if_neg (not_lt.mpr hk)]
    refine ⟨hp, ?_⟩
    have hlt : s.i < s.parser.argc_ := by
      by_contra hc
      rw [List.getElem?_eq_none (not_lt.mp hc)] at hv1
      cases hv1
    obtain ⟨n, hn⟩ : ∃ n, s.parser.argc_ - s.i = n + 1 := ⟨s.parser.argc_ - s.i - 1, by omega⟩
    unfold argparse_parse_args
    rw [reaches_scan fp parser mem visited s hr, hn]
    simp [scan_loop, hlt, hp, is_error, ARGPARSE_ARGUMENT_UNKNOWN_ERROR_]

/-- The positional rule at the token `54321` of the test
`store_multi_int_flags_and_positionals_3`, the first token without `-` that is classified. -/
theorem positional_matching_order_witness :
    parse_token sample_float_ops
        { flags_and_positionals_after_thickness with i := 2 } =
      (get_and_update_value sample_float_ops
          ({ flags_and_positionals_after_thickness with i := 2 } : ScanState).st
          (.positional 0) 2 true false).bind
        fun (error, st1, i1) =>
          .ok (error,
            ({ flags_and_positionals_after_thickness with i := 2, positional_i := 1 } :
              ScanState).update st1 i1) :=
  (positional_matching_order.1 sample_float_ops flags_and_positionals_setup sample_memory [0]
    { flags_and_positionals_after_thickness with i := 2 } "54321".toList
    (@Reaches.next sample_float_ops flags_and_positionals_setup sample_memory []
      ⟨flags_and_positionals_setup, sample_memory, 0, 0⟩
      flags_and_positionals_after_thickness ARGPARSE_NO_ERROR_
      Reaches.start (by decide) rfl rfl)
    rfl rfl).2.1 (by decide)

theorem choices_loop_count (fp : FloatOps) (arg : argparse_arg_t) (c : Int) (value : CStr) :
    ∀ n j b, choices_loop fp { arg with count_ := c } value n j b =
      choices_loop fp arg value n j b := by
  intro n
  induction n with
  | zero => intro j b; rfl
  | succ n ih =>
    intro j b
    simp only [choices_loop, ih]

/-- The binding of a `Store` record to a value token that its choices admit and that
coerces to `w`. -/
theorem get_and_update_value_store (fp : FloatOps) (st : State) (ref : ArgRef) (i : Nat)
    (positional negated : Bool) (arg : argparse_arg_t) (value : CStr) (w : Val)
    (hd : st.parser.deref ref = some arg) (ha : arg.action_ = ARGPARSE_STORE_ACTION)
    (hv : st.parser.argv_[if positional then i else i + 1]? = some value)
    (hc : choice_accepts fp arg value) (hw : coerce fp arg.type_ value = some w) :
    get_and_update_value fp st ref i positional negated =
      .ok (ARGPARSE_NO_ERROR_,
        { parser := st.parser.assign ref { arg with count_ := arg.count_ + 1 },
          mem := st.mem.write arg.value_ w },
        if positional then i else i + 1) := by
  have hmiss : (!positional && i + 1 == st.parser.argc_) = false := by
    cases positional with
    | true => rfl
    | false =>
      simp only [Bool.false_eq_true, if_false] at hv
      have : i + 1 < st.parser.argv_.length := by
        by_contra hcn
        rw [List.getElem?_eq_none (not_lt.mp hcn)] at hv
        cases hv
      simp [argument_parser_t.argc_]; omega
  unfold choice_accepts at hc
  rcases arg with ⟨ty, cnt, fl, nm, v, act, hlp, req, ch, nch⟩
  simp only at ha hc hw
  subst ha
  have hc1 := (choices_loop_count fp
    ⟨ty, cnt, fl, nm, v, ARGPARSE_STORE_ACTION, hlp, req, ch, nch⟩ (cnt + 1) value nch 0
    (nch == 0)).trans hc
  unfold get_and_update_value
  simp only [hd, hmiss, Bool.false_eq_true, if_false, hv, hc1, Comp.bind_ok]
  unfold coerce at hw
  cases ty with
  | ARGPARSE_INT_TYPE =>
    simp only at hw
    split at hw
    · cases hw
    · rename_i hr
      simp only [Option.some.injEq] at hw
      subst hw
      simp [update_value, hr]
  | ARGPARSE_FLOAT_TYPE =>
    simp only [Option.some.injEq] at hw
    subst hw
    simp [update_value]
  | ARGPARSE_BOOL_TYPE => cases hw
  | ARGPARSE_STRING_TYPE =>
    simp only [Option.some.injEq] at hw
    subst hw
    simp [update_value]
  | other c => cases hw

/-- The binding of a `Bool` record with one of the three boolean actions. -/
theorem get_and_update_value_bool (fp : FloatOps) (st : State) (ref : ArgRef) (i : Nat)
    (positional negated : Bool) (arg : argparse_arg_t)
    (hd : st.parser.deref ref = some arg) (ht : arg.type_ = ARGPARSE_BOOL_TYPE) :
    (arg.action_ = ARGPARSE_STORE_TRUE_ACTION →
      get_and_update_value fp st ref i positional negated =
        .ok (ARGPARSE_NO_ERROR_,
          { parser := st.parser.assign ref { arg with count_ := arg.count_ + 1 },
            mem := st.mem.write arg.value_ (.bool true) }, i)) ∧
    (arg.action_ = ARGPARSE_STORE_FALSE_ACTION →
      get_and_update_value fp st ref i positional negated =
        .ok (ARGPARSE_NO_ERROR_,
          { parser := st.parser.assign ref { arg with count_ := arg.count_ + 1 },
            mem := st.mem.write arg.value_ (.bool false) }, i)) ∧
    (arg.action_ = ARGPARSE_BOOLEAN_OPTIONAL_ACTION →
      get_and_update_value fp st ref i positional negated =
        .ok (ARGPARSE_NO_ERROR_,
          { parser := st.parser.assign ref { arg with count_ := arg.count_ + 1 },
            mem := st.mem.write arg.value_ (.bool (!negated)) }, i)) := by
  rcases arg with ⟨ty, cnt, fl, nm, v, act, hlp, req, ch, nch⟩
  simp only at ht
  subst ht
  refine ⟨?_, ?_, ?_⟩ <;> intro ha <;> simp only at ha <;> subst ha <;>
    simp [get_and_update_value, hd, update_value]

/-- The binding of a `Count` record. -/
theorem get_and_update_value_count (fp : FloatOps) (st : State) (ref : ArgRef) (i : Nat)
    (positional negated : Bool) (arg : argparse_arg_t)
    (hd : st.parser.deref ref = some arg) (ha : arg.action_ = ARGPARSE_COUNT_ACTION) :
    get_and_update_value fp st ref i positional negated =
      .ok (ARGPARSE_NO_ERROR_,
        { parser := st.parser.assign ref { arg with count_ := arg.count_ + 1 },
          mem := st.mem }, i) := by
  rcases arg with ⟨ty, cnt, fl, nm, v, act, hlp, req, ch, nch⟩
  simp only at ha
  subst ha
  simp [get_and_update_value, hd]

/-- The iteration for a token that resolves to an option is the binding of it. -/
theorem parse_token_resolves (fp : FloatOps) (s : ScanState) (token : CStr) (k : Nat)
    (negated : Bool) (hv : s.parser.argv_[s.i]? = some token)
    (hr : resolves_to s.parser.options_ token k negated) :
    parse_token fp s = bind_found fp s token (some (.option k)) false negated := by
  obtain ⟨h1, h2, h3, h4⟩ := hr
  unfold parse_token
  simp only [hv, h1, h2, or_self, if_false, h3, and_true]
  rcases h4 with ⟨hl, hn, hf⟩ | ⟨hl, hf⟩
  · subst hn
    simp only [hl, if_true, hf, Comp.bind_ok, Option.map_some']
  · simp only [hl, if_false, hf, Comp.bind_ok, if_true]

theorem scan_loop_step (fp : FloatOps) (f : Nat) (s s1 : ScanState) (e : argparse_error_t)
    (hlt : s.i < s.parser.argc_) (hp : parse_token fp s = .ok (e, s1))
    (he : is_error e = false) :
    scan_loop fp (f + 1) s = scan_loop fp f { s1 with i := s1.i + 1 } := by
  simp only [scan_loop, hlt, if_true, hp, Comp.bind_ok, he, Bool.false_eq_true, if_false]

theorem scan_loop_done (fp : FloatOps) (f : Nat) (s : ScanState)
    (h : ¬ s.i < s.parser.argc_) : scan_loop fp f s = .ok (ARGPARSE_NO_ERROR_, s) := by
  cases f <;> simp [scan_loop, h]

theorem find_long_single (arg : argparse_arg_t) (N : CStr) (hN : arg.name_ = some N)
    (ha : arg.action_ ≠ ARGPARSE_BOOLEAN_OPTIONAL_ACTION) :
    find_long [arg] N = .ok (some 0, false) := by
  have h2 : find_arg [arg] (NAME_TO_FIND N none) = .ok (some 0) := by
    simp [find_arg, find_arg_from, hN]
  unfold find_long
  simp only
  split
  · cases hf : find_arg [arg] (NAME_TO_FIND (List.drop 5 N) (some "--".toList)) with
    | ok r =>
      simp only [Comp.bind_ok]
      cases r with
      | none => simp [is_toggle, h2]
      | some k =>
        have hk : k = 0 := by
          simp only [find_arg, find_arg_from, hN] at hf
          split at hf
          · simp at hf; exact hf.symm
          · cases hf
        subst hk
        simp [is_toggle, ha, h2]
    | exit n => simp [find_arg, find_arg_from, hN] at hf; split at hf <;> cases hf
    | undef => simp [find_arg, find_arg_from, hN] at hf; split at hf <;> cases hf
    | diverge => simp [find_arg, find_arg_from, hN] at hf; split at hf <;> cases hf
  · simp [is_toggle, h2]

/-- A parser whose only record is a `Store` option, on the tokens `N`, `t`, where `N`
resolves to the option and `t` is a value its choices admit and that coerces to `w`. -/
theorem store_option_alone_core (fp : FloatOps) (p : argument_parser_t) (arg : argparse_arg_t)
    (N t : CStr) (w : Val) (mem : Memory)
    (hargv : p.argv_ = [N, t]) (hopts : p.options_ = [arg]) (hpos : p.positional_args_ = [])
    (ha : arg.action_ = ARGPARSE_STORE_ACTION) (h0 : arg.count_ = 0)
    (hres : resolves_to [arg] N 0 false)
    (hc : choice_accepts fp arg t) (hw : coerce fp arg.type_ t = some w) :
    argparse_parse_args fp p mem =
      .ok (ARGPARSE_NO_ERROR_, { p with options_ := [{ arg with count_ := 1 }] },
        mem.write arg.value_ w) := by
  have hargc : p.argc_ = 2 := by simp [argument_parser_t.argc_, hargv]
  have hg := get_and_update_value_store fp ⟨p, mem⟩ (.option 0) 0 false false arg t w
    (by simp [argument_parser_t.deref, hopts]) ha (by simp [hargv]) hc hw
  have hstep := parse_token_resolves fp ⟨p, mem, 0, 0⟩ N 0 false (by simp [hargv])
    (by simpa [hopts] using hres)
  simp only [bind_found, ScanState.st, hg, Comp.bind_ok] at hstep
  unfold argparse_parse_args
  rw [hargc, scan_loop_step fp 1 _ _ _ (by simp [hargc]) hstep rfl]
  rw [scan_loop_done fp 1 _ (by simp [argument_parser_t.argc_, ScanState.update,
    argument_parser_t.assign, hargv])]
  simp [finalise, finalise_list, finalise_arg, ha, h0, ScanState.update,
    argument_parser_t.assign, hopts, hpos]

/-- A `Store` option registered alone and parsed on its name followed by a value that
its choices admit and that coerces to `w`. -/
theorem store_option_alone (fp : FloatOps) (argv0 : CStr) (description epilog : Option CStr)
    (arg : argparse_arg_t) (N t : CStr) (w : Val) (mem : Memory) (parser1 : argument_parser_t)
    (error : argparse_error_t)
    (ha : arg.action_ = ARGPARSE_STORE_ACTION) (hN : arg.name_ = some N)
    (hdash : starts_with N "-".toList = true) (h0 : arg.count_ = 0)
    (hreg : argparse_add_argument (argparse_init [argv0, N, t] description epilog).2 arg
      = .ok (error, parser1))
    (he : is_error error = false)
    (hc : choice_accepts fp arg t) (hw : coerce fp arg.type_ t = some w) :
    argparse_parse_args fp parser1 mem =
      .ok (ARGPARSE_NO_ERROR_, { parser1 with options_ := [{ arg with count_ := 1 }] },
        mem.write arg.value_ w) := by
  obtain ⟨hl, hhelp, _, hp1⟩ := add_argument_option_ok _ _ _ _ N hreg he hN hdash
  have hres : resolves_to [arg] N 0 false := by
    refine ⟨?_, hhelp, hdash, Or.inr ⟨hl, find_long_single arg N hN (by rw [ha]; decide)⟩⟩
    rintro rfl; exact hl rfl
  exact store_option_alone_core fp parser1 arg N t w mem (by rw [hp1]; rfl) (by rw [hp1]; rfl)
    (by rw [hp1]; rfl) ha h0 hres hc hw

/-- C4 (string round trip).  For a `String` `Store` option named `N` without choices,
registered alone with count 0, and every token `t`: parsing the tokens `N`, `t` returns
"no error", the storage of the record holds exactly `t`, and its count is 1. -/
theorem string_round_trip (fp : FloatOps) (argv0 : CStr) (description epilog : Option CStr)
    (arg : argparse_arg_t) (N t : CStr) (mem : Memory) (parser1 : argument_parser_t)
    (error : argparse_error_t)
    (ht : arg.type_ = ARGPARSE_STRING_TYPE) (ha : arg.action_ = ARGPARSE_STORE_ACTION)
    (hN : arg.name_ = some N) (hdash : starts_with N "-".toList = true)
    (hnc : arg.num_choices_ = 0) (h0 : arg.count_ = 0)
    (hreg : argparse_add_argument (argparse_init [argv0, N, t] description epilog).2 arg
      = .ok (error, parser1))
    (he : is_error error = false) :
    ∃ mem1, argparse_parse_args fp parser1 mem =
        .ok (ARGPARSE_NO_ERROR_, { parser1 with options_ := [{ arg with count_ := 1 }] }, mem1) ∧
      mem1 arg.value_ = .str t ∧ ∀ a, a ≠ arg.value_ → mem1 a = mem a := by
  have hc : choice_accepts fp arg t := by simp [choice_accepts, hnc, choices_loop]
  have hw : coerce fp arg.type_ t = some (.str t) := by simp [coerce, ht]
  refine ⟨mem.write arg.value_ (.str t),
    store_option_alone fp argv0 description epilog arg N t (.str t) mem parser1 error ha hN
      hdash h0 hreg he hc hw, ?_, ?_⟩
  · simp [Memory.write]
  · intro a hne; simp [Memory.write, hne]

/-- The string round trip at the tokens `--value 52`. -/
theorem string_round_trip_witness :
    ∃ mem1, argparse_parse_args sample_float_ops
        (sample_setup ["--value", "52"] [string_value_option] []) sample_memory =
        .ok (ARGPARSE_NO_ERROR_,
          { sample_setup ["--value", "52"] [string_value_option] [] with
            options_ := [{ string_value_option with count_ := 1 }] }, mem1) ∧
      mem1 string_value_option.value_ = .str "52".toList ∧
      ∀ a, a ≠ string_value_option.value_ → mem1 a = sample_memory a :=
  string_round_trip sample_float_ops "./prog".toList none none string_value_option
    "--value".toList "52".toList sample_memory
    (sample_setup ["--value", "52"] [string_value_option] []) ARGPARSE_NO_ERROR_
    rfl rfl rfl rfl rfl rfl rfl rfl

/-- C5 (integer round trip).  For an `Int32` `Store` option named `N` without choices,
registered alone with count 0, and a token `t` that is the decimal numeral of `n` with
`-2147483648 ≤ n ≤ 2147483647`: parsing the tokens `N`, `t` returns "no error", the
storage of the record holds exactly `n`, which is the integer coercion of `t`, and its
count is 1. -/
theorem int_round_trip (fp : FloatOps) (argv0 : CStr) (description epilog : Option CStr)
    (arg : argparse_arg_t) (N t : CStr) (n : Int) (mem : Memory) (parser1 : argument_parser_t)
    (error : argparse_error_t)
    (ht : arg.type_ = ARGPARSE_INT_TYPE) (ha : arg.action_ = ARGPARSE_STORE_ACTION)
    (hN : arg.name_ = some N) (hdash : starts_with N "-".toList = true)
    (hnc : arg.num_choices_ = 0) (h0 : arg.count_ = 0)
    (hreg : argparse_add_argument (argparse_init [argv0, N, t] description epilog).2 arg
      = .ok (error, parser1))
    (he : is_error error = false)
    (hn : is_decimal_numeral t n) (hlo : -2147483648 ≤ n) (hhi : n ≤ 2147483647) :
    ∃ mem1, argparse_parse_args fp parser1 mem =
        .ok (ARGPARSE_NO_ERROR_, { parser1 with options_ := [{ arg with count_ := 1 }] }, mem1) ∧
      mem1 arg.value_ = .int n ∧ coerce fp ARGPARSE_INT_TYPE t = some (.int n) ∧
      ∀ a, a ≠ arg.value_ → mem1 a = mem a := by
  have hc : choice_accepts fp arg t := by simp [choice_accepts, hnc, choices_loop]
  obtain ⟨hrange, hin⟩ := range_test_numeral t n hn
  have hr : ¬ (n > INT32_MAX ∨ n < INT32_MIN) := by
    simp only [INT32_MAX, INT32_MIN]; omega
  have hs := hin hr
  have h1 : ¬ n > INT32_MAX := fun h => hr (Or.inl h)
  have h2 : ¬ n < INT32_MIN := fun h => hr (Or.inr h)
  have hw0 : coerce fp ARGPARSE_INT_TYPE t = some (.int n) := by
    simp [coerce, hs, h1, h2]
  have hw : coerce fp arg.type_ t = some (.int n) := by rw [ht]; exact hw0
  refine ⟨mem.write arg.value_ (.int n),
    store_option_alone fp argv0 description epilog arg N t (.int n) mem parser1 error ha hN
      hdash h0 hreg he hc hw, ?_, hw0, ?_⟩
  · simp [Memory.write]
  · intro a hne; simp [Memory.write, hne]

/-- The integer round trip at the tokens `--value 52` of the test `store_single_int`. -/
theorem int_round_trip_witness :
    ∃ mem1, argparse_parse_args sample_float_ops
        (sample_setup ["--value", "52"] [value_option] []) sample_memory =
        .ok (ARGPARSE_NO_ERROR_,
          { sample_setup ["--value", "52"] [value_option] [] with
            options_ := [{ value_option with count_ := 1 }] }, mem1) ∧
      mem1 value_option.value_ = .int 52 ∧
      coerce sample_float_ops ARGPARSE_INT_TYPE "52".toList = some (.int 52) ∧
      ∀ a, a ≠ value_option.value_ → mem1 a = sample_memory a :=
  int_round_trip sample_float_ops "./prog".toList none none value_option
    "--value".toList "52".toList 52 sample_memory
    (sample_setup ["--value", "52"] [value_option] []) ARGPARSE_NO_ERROR_
    rfl rfl rfl rfl rfl rfl rfl rfl (by decide) (by decide) (by decide)

theorem is_toggle_static (l l1 : List argparse_arg_t) (arg : Option Nat)
    (h : l1.map argparse_arg_t.static = l.map argparse_arg_t.static) :
    is_toggle l1 arg = is_toggle l arg := by
  cases arg with
  | none => rfl
  | some k =>
    have := static_action l l1 h k
    unfold is_toggle
    cases h1 : l1[k]? <;> cases h2 : l[k]? <;> simp [h1, h2] at this ⊢
    have := congrArg argparse_arg_t.action_ this
    simp only [argparse_arg_t.static] at this
    rw [this]

theorem find_long_static (l l1 : List argparse_arg_t) (token : CStr)
    (h : l1.map argparse_arg_t.static = l.map argparse_arg_t.static) :
    find_long l1 token = find_long l token := by
  unfold find_long
  simp only [find_arg_static l l1 _ h, is_toggle_static l l1 _ h]

theorem resolves_to_static (l l1 : List argparse_arg_t) (token : CStr) (k : Nat) (negated : Bool)
    (h : l1.map argparse_arg_t.static = l.map argparse_arg_t.static)
    (hr : resolves_to l token k negated) : resolves_to l1 token k negated := by
  unfold resolves_to at hr ⊢
  rw [find_arg_static l l1 _ h, find_long_static l l1 _ h]
  exact hr

theorem choice_accepts_count (fp : FloatOps) (arg : argparse_arg_t) (c : Int) (value : CStr)
    (h : choice_accepts fp arg value) : choice_accepts fp { arg with count_ := c } value := by
  unfold choice_accepts at h ⊢
  exact (choices_loop_count fp arg c value _ _ _).trans h

/-- The iteration for a token that resolves to a `Store` option and is followed by a
value that the choices admit and that coerces to `w`. -/
theorem parse_token_store (fp : FloatOps) (s : ScanState) (token value : CStr) (k : Nat)
    (negated : Bool) (arg : argparse_arg_t) (w : Val)
    (hv : s.parser.argv_[s.i]? = some token) (hv1 : s.parser.argv_[s.i + 1]? = some value)
    (hr : resolves_to s.parser.options_ token k negated)
    (hk : s.parser.options_[k]? = some arg) (ha : arg.action_ = ARGPARSE_STORE_ACTION)
    (hc : choice_accepts fp arg value) (hw : coerce fp arg.type_ value = some w) :
    parse_token fp s = .ok (ARGPARSE_NO_ERROR_,
      { parser := { s.parser with
          options_ := s.parser.options_.set k { arg with count_ := arg.count_ + 1 } },
        mem := s.mem.write arg.value_ w, i := s.i + 1, positional_i := s.positional_i }) := by
  rw [parse_token_resolves fp s token k negated hv hr]
  have hg := get_and_update_value_store fp s.st (.option k) s.i false negated arg value w
    (by simpa [argument_parser_t.deref, ScanState.st] using hk) ha
    (by simpa [ScanState.st] using hv1) hc hw
  simp only [bind_found, hg, Comp.bind_ok]
  rfl

theorem finalise_list_frame (fp : FloatOps) (a : Nat) (l : List argparse_arg_t) :
    ∀ (mem mem1 : Memory) (e : argparse_error_t), finalise_list fp l mem = .ok (e, mem1) →
      (∀ c ∈ l, c.action_ = ARGPARSE_COUNT_ACTION → c.value_ ≠ a) → mem1 a = mem a := by
  induction l with
  | nil =>
    intro mem mem1 e h _
    simp [finalise_list] at h
    rw [h.2]
  | cons c rest ih =>
    intro mem mem1 e h hsep
    simp only [finalise_list] at h
    rw [Comp.bind_eq_ok] at h
    obtain ⟨⟨e2, m2⟩, hf, h⟩ := h
    have hm2 : m2 a = mem a := by
      unfold finalise_arg at hf
      split at hf
      · rename_i hc
        have hne := hsep c (List.mem_cons_self _ _) hc
        rcases update_value_ok_or fp _ _ _ _ _ _ hf with ⟨_, v, hm⟩ | ⟨_, hm⟩
        · rw [hm]; simp [Memory.write, Ne.symm hne]
        · rw [hm]
      · split at hf <;> (simp at hf; rw [hf.2])
    simp only at h
    split at h
    · simp at h; rw [← h.2, hm2]
    · rw [ih m2 mem1 e h (fun c hc => hsep c (List.mem_cons_of_mem _ hc)), hm2]

theorem finalise_frame (fp : FloatOps) (a : Nat) (parser : argument_parser_t)
    (mem mem1 : Memory) (e : argparse_error_t) (h : finalise fp parser mem = .ok (e, mem1))
    (hsep : ∀ c ∈ parser.options_ ++ parser.positional_args_,
      c.action_ = ARGPARSE_COUNT_ACTION → c.value_ ≠ a) : mem1 a = mem a := by
  unfold finalise at h
  rw [Comp.bind_eq_ok] at h
  obtain ⟨⟨e2, m2⟩, hf, h⟩ := h
  have h2 := finalise_list_frame fp a _ _ _ _ hf
    (fun c hc => hsep c (List.mem_append_left _ hc))
  simp only at h
  split at h
  · simp at h; rw [← h.2, h2]
  · rw [finalise_list_frame fp a _ _ _ _ h (fun c hc => hsep c (List.mem_append_right _ hc)), h2]

theorem static_mem (l l1 : List argparse_arg_t)
    (h : l1.map argparse_arg_t.static = l.map argparse_arg_t.static) (c : argparse_arg_t)
    (hc : c ∈ l1) : ∃ c0 ∈ l, c0.static = c.static := by
  have : c.static ∈ l1.map argparse_arg_t.static := List.mem_map_of_mem _ hc
  rw [h] at this
  obtain ⟨c0, hc0, he⟩ := List.mem_map.mp this
  exact ⟨c0, hc0, he⟩

theorem static_separate (p p1 : argument_parser_t) (h : p1.static = p.static) (a : Nat)
    (hsep : ∀ c ∈ p.options_ ++ p.positional_args_,
      c.action_ = ARGPARSE_COUNT_ACTION → c.value_ ≠ a) :
    ∀ c ∈ p1.options_ ++ p1.positional_args_,
      c.action_ = ARGPARSE_COUNT_ACTION → c.value_ ≠ a := by
  intro c hc hact
  have key : ∃ c0 ∈ p.options_ ++ p.positional_args_, c0.static = c.static := by
    rcases List.mem_append.mp hc with ho | hp
    · obtain ⟨c0, h0, he⟩ := static_mem _ _ (static_options _ _ h) c ho
      exact ⟨c0, List.mem_append_left _ h0, he⟩
    · obtain ⟨c0, h0, he⟩ := static_mem _ _ (static_positionals _ _ h) c hp
      exact ⟨c0, List.mem_append_right _ h0, he⟩
  obtain ⟨c0, h0, he⟩ := key
  have e1 : c0.action_ = c.action_ := by
    have := congrArg argparse_arg_t.action_ he
    simpa [argparse_arg_t.static] using this
  have e2 : c0.value_ = c.value_ := by
    have := congrArg argparse_arg_t.value_ he
    simpa [argparse_arg_t.static] using this
  rw [← e2]
  exact hsep c0 h0 (e1.trans hact)

theorem pfx_name_eq (S cn : CStr) :
    (starts_with cn "--".toList && S == cn.drop "--".toList.length) =
      ("--".toList ++ S == cn) := by
  rcases cn with _ | ⟨c1, _ | ⟨c2, r⟩⟩
  · simp [starts_with]
  · simp [starts_with, List.isPrefixOf]
  · simp only [starts_with, String.toList, List.isPrefixOf, List.length_cons, List.length_nil,
      List.drop_succ_cons, List.drop_zero, List.cons_append, List.nil_append]
    simp only [Bool.and_true, Bool.and_assoc, List.cons_beq_cons]

theorem find_arg_from_pfx (S : CStr) (l : List argparse_arg_t) :
    ∀ i, find_arg_from (NAME_TO_FIND S (some "--".toList)) l i =
      find_arg_from (NAME_TO_FIND ("--".toList ++ S) none) l i := by
  induction l with
  | nil => intro i; rfl
  | cons a rest ih =>
    intro i
    simp only [find_arg_from]
    cases a.name_ with
    | none => rfl
    | some cn => simp only [pfx_name_eq, ih]

/-- The negated form of a toggle resolves to the toggle, with `negated` set. -/
theorem resolves_negated (options : List argparse_arg_t) (S : CStr) (k : Nat)
    (hr : resolves_to options ("--".toList ++ S) k false) (hS : S ≠ [])
    (ht : is_toggle options (some k) = true) :
    resolves_to options ("--no-".toList ++ S) k true := by
  obtain ⟨_, _, _, h4⟩ := hr
  have hlen : ("--".toList ++ S).length ≠ 2 := by
    cases S with
    | nil => exact absurd rfl hS
    | cons c r => simp
  have hname : find_arg options (NAME_TO_FIND ("--".toList ++ S) none) = .ok (some k) := by
    rcases h4 with ⟨hl, _⟩ | ⟨_, hf⟩
    · exact absurd hl hlen
    · unfold find_long at hf
      rw [Comp.bind_eq_ok] at hf
      obtain ⟨arg1, _, hf⟩ := hf
      split at hf
      · simp at hf
      · rw [Comp.bind_eq_ok] at hf
        obtain ⟨arg2, h2, hf⟩ := hf
        simp at hf
        rw [h2, hf]
  refine ⟨?_, ?_, ?_, Or.inr ⟨?_, ?_⟩⟩
  · simp
  · simp
  · simp [starts_with]
  · simp
  · have hsw : starts_with ("--no-".toList ++ S) "--no-".toList = true := by
      simp [starts_with]
    have hdrop : ("--no-".toList ++ S).drop 5 = S := by simp
    unfold find_long
    simp only [hsw, if_true, hdrop]
    have : find_arg options (NAME_TO_FIND S (some "--".toList)) = .ok (some k) := by
      unfold find_arg at hname ⊢
      rw [find_arg_from_pfx]; exact hname
    rw [this]
    simp only [Comp.bind_ok, ht, if_true]

/-- The iteration for a token that resolves to a `Bool` toggle. -/
theorem parse_token_toggle (fp : FloatOps) (s : ScanState) (token : CStr) (k : Nat)
    (negated : Bool) (arg : argparse_arg_t)
    (hv : s.parser.argv_[s.i]? = some token)
    (hr : resolves_to s.parser.options_ token k negated)
    (hk : s.parser.options_[k]? = some arg)
    (ha : arg.action_ = ARGPARSE_BOOLEAN_OPTIONAL_ACTION) (ht : arg.type_ = ARGPARSE_BOOL_TYPE) :
    parse_token fp s = .ok (ARGPARSE_NO_ERROR_,
      run_step k arg ⟨[token], 1, some (.bool (!negated))⟩ s) := by
  rw [parse_token_resolves fp s token k negated hv hr]
  have hg := (get_and_update_value_bool fp s.st (.option k) s.i false negated arg
    (by simpa [argument_parser_t.deref, ScanState.st] using hk) ht).2.2 ha
  simp only [bind_found, hg, Comp.bind_ok]
  simp [run_step, run_memory, ScanState.update, argument_parser_t.assign, ScanState.st]

theorem static_fields (a b : argparse_arg_t) (h : a.static = b.static) :
    a.type_ = b.type_ ∧ a.action_ = b.action_ ∧ a.value_ = b.value_ ∧ a.flag_ = b.flag_ ∧
      a.name_ = b.name_ ∧ a.required_ = b.required_ ∧ a.choices_ = b.choices_ ∧
      a.num_choices_ = b.num_choices_ := by
  rcases a with ⟨⟩
  rcases b with ⟨⟩
  simp only [argparse_arg_t.static, argparse_arg_t.mk.injEq] at h
  simp only
  tauto

theorem is_toggle_of (options : List argparse_arg_t) (k : Nat) (arg : argparse_arg_t)
    (hk : options[k]? = some arg) (ha : arg.action_ = ARGPARSE_BOOLEAN_OPTIONAL_ACTION) :
    is_toggle options (some k) = true := by
  simp [is_toggle, hk, ha]

/-- On a list of named records the lookup by name returns, and what it finds bears the
name. -/
theorem find_arg_from_named (N : CStr) (l : List argparse_arg_t) (h : all_named l) :
    ∀ i, ∃ r, find_arg_from (NAME_TO_FIND N none) l i = .ok r ∧
      ∀ j, r = some j → i ≤ j ∧ (l[j - i]?.bind argparse_arg_t.name_) = some N := by
  induction l with
  | nil => intro i; exact ⟨none, rfl, by simp⟩
  | cons a rest ih =>
    intro i
    have ha := h a (List.mem_cons_self _ _)
    obtain ⟨n, hn⟩ := Option.ne_none_iff_exists'.mp ha
    simp only [find_arg_from, hn]
    by_cases e : N = n
    · subst e
      refine ⟨some i, by simp, ?_⟩
      intro j hj
      cases hj
      simp [hn]
    · obtain ⟨r, hr, hspec⟩ := ih (fun c hc => h c (List.mem_cons_of_mem _ hc)) (i + 1)
      refine ⟨r, by simp [e, hr], ?_⟩
      intro j hj
      obtain ⟨h1, h2⟩ := hspec j hj
      refine ⟨by omega, ?_⟩
      have : j - i = (j - (i + 1)) + 1 := by omega
      rw [this, List.getElem?_cons_succ]
      exact h2

/-- The lookup by name ends at the first record that bears the name. -/
theorem find_arg_from_first (N : CStr) (l : List argparse_arg_t) (h : all_named l) :
    ∀ (k i : Nat), first_named l N k →
      find_arg_from (NAME_TO_FIND N none) l i = .ok (some (i + k)) := by
  induction l with
  | nil => intro k i hf; simp [first_named] at hf
  | cons a rest ih =>
    intro k i hf
    have ha := h a (List.mem_cons_self _ _)
    obtain ⟨n, hn⟩ := Option.ne_none_iff_exists'.mp ha
    simp only [find_arg_from, hn]
    cases k with
    | zero =>
      have : n = N := by simpa [first_named, hn] using hf.1
      simp [this]
    | succ k =>
      have hne : ¬ N = n := by
        intro e
        exact hf.2 a (by simp) (by rw [hn, e])
      have := ih (fun c hc => h c (List.mem_cons_of_mem _ hc)) k (i + 1)
        ⟨by simpa [first_named] using hf.1,
          fun c hc => hf.2 c (by simp [List.take_succ_cons, hc])⟩
      simp only [beq_iff_eq, hne, if_false, this]
      congr 2
      omega

/-- The first lookup of a token `--no-R` that is not the negated form of a toggle ends
without a toggle. -/
theorem negated_lookup_fails (options : List argparse_arg_t) (N : CStr)
    (hall : all_named options) (hneg : ¬ negates_toggle options N)
    (hsw : starts_with N "--no-".toList = true) :
    ∃ r, find_arg options (NAME_TO_FIND (N.drop 5) (some "--".toList)) = .ok r ∧
      is_toggle options r = false := by
  obtain ⟨r, hr, hspec⟩ := find_arg_from_named ("--".toList ++ N.drop 5) options hall 0
  refine ⟨r, ?_, ?_⟩
  · unfold find_arg
    rw [find_arg_from_pfx]; exact hr
  · cases r with
    | none => rfl
    | some j =>
      obtain ⟨_, hj⟩ := hspec j rfl
      simp only [Nat.sub_zero] at hj
      cases hoj : options[j]? with
      | none => simp [is_toggle, hoj]
      | some c =>
        rw [hoj] at hj
        simp only [Option.some_bind] at hj
        simp only [is_toggle, hoj, beq_eq_false_iff_ne, ne_eq]
        intro hact
        exact hneg ⟨hsw, c, List.getElem?_mem hoj, hj, hact⟩

/-- A token that is the name of an option and not the negated form of a toggle resolves
to the first option that bears the name. -/
theorem named_resolves (options : List argparse_arg_t) (N : CStr) (k : Nat)
    (hall : all_named options) (hf : first_named options N k)
    (hneg : ¬ negates_toggle options N) (hhelp : N ≠ "--help".toList)
    (hdash : starts_with N "-".toList = true) (hlen : N.length ≠ 2) :
    resolves_to options N k false := by
  refine ⟨?_, hhelp, hdash, Or.inr ⟨hlen, ?_⟩⟩
  · intro e; rw [e] at hlen; exact hlen rfl
  · have hfull : find_arg options (NAME_TO_FIND N none) = .ok (some k) := by
      unfold find_arg
      rw [find_arg_from_first N options hall k 0 hf, Nat.zero_add]
    unfold find_long
    by_cases hsw : starts_with N "--no-".toList = true
    · obtain ⟨r, hpre, hnt⟩ := negated_lookup_fails options N hall hneg hsw
      simp only [hsw, if_true, hpre, Comp.bind_ok, hnt, hfull]
      simp
    · simp only [hsw]
      simp [is_toggle, hfull]

/-- A token that is the name of no option and not the negated form of a toggle: both
name lookups return NULL. -/
theorem find_long_unmatched (options : List argparse_arg_t) (token : CStr)
    (hall : all_named options) (hno : ∀ arg ∈ options, arg.name_ ≠ some token)
    (hneg : ¬ negates_toggle options token) :
    find_long options token = .ok (none, false) := by
  have hfull : find_arg options (NAME_TO_FIND token none) = .ok none := by
    obtain ⟨r, hr, hspec⟩ := find_arg_from_named token options hall 0
    unfold find_arg
    rw [hr]
    cases r with
    | none => rfl
    | some j =>
      obtain ⟨_, hj⟩ := hspec j rfl
      simp only [Nat.sub_zero] at hj
      cases hoj : options[j]? with
      | none => rw [hoj] at hj; cases hj
      | some c =>
        rw [hoj] at hj
        exact absurd hj (hno c (List.getElem?_mem hoj))
  unfold find_long
  by_cases hsw : starts_with token "--no-".toList = true
  · obtain ⟨r, hpre, hnt⟩ := negated_lookup_fails options token hall hneg hsw
    simp only [hsw, if_true, hpre, Comp.bind_ok, hnt, hfull]
    simp
  · simp only [hsw]
    simp [is_toggle, hfull]

theorem flag_finds_static (l l1 : List argparse_arg_t) (c : Char) (k : Nat)
    (h : l1.map argparse_arg_t.static = l.map argparse_arg_t.static) :
    flag_finds l1 c k ↔ flag_finds l c k := by
  unfold flag_finds
  rw [find_arg_static l l1 _ h]

/-- The binding, inside a cluster, of a record that sets true or counts. -/
theorem get_and_update_value_simple (fp : FloatOps) (st : State) (k i : Nat) (positional : Bool)
    (arg : argparse_arg_t) (hk : st.parser.options_[k]? = some arg)
    (hs : sets_true_or_counts arg) :
    get_and_update_value fp st (.option k) i positional false =
      .ok (ARGPARSE_NO_ERROR_,
        { parser := { st.parser with
            options_ := st.parser.options_.set k { arg with count_ := arg.count_ + 1 } },
          mem := if arg.action_ = ARGPARSE_COUNT_ACTION then st.mem
            else st.mem.write arg.value_ (.bool true) }, i) := by
  have hd : st.parser.deref (.option k) = some arg := by
    simpa [argument_parser_t.deref] using hk
  rcases hs with ⟨ha, ht⟩ | ⟨ha, ht⟩ | ha
  · rw [(get_and_update_value_bool fp st (.option k) i positional false arg hd ht).2.2 ha]
    simp [ha, argument_parser_t.assign]
  · rw [(get_and_update_value_bool fp st (.option k) i positional false arg hd ht).1 ha]
    simp [ha, argument_parser_t.assign]
  · rw [get_and_update_value_count fp st (.option k) i positional false arg hd ha]
    simp [ha, argument_parser_t.assign]

/-- A cluster whose characters are all flags of records that set true or count. -/
theorem group_loop_simple (fp : FloatOps) (arg_string : CStr) (cs : List Char) :
    ∀ (st : State) (i : Nat),
      (∀ c ∈ cs, ∃ k arg, flag_finds st.parser.options_ c k ∧
        st.parser.options_[k]? = some arg ∧ sets_true_or_counts arg) →
      ∃ st1, group_loop fp arg_string cs st i = .ok (ARGPARSE_NO_ERROR_, st1, i) ∧
        st1.parser.static = st.parser.static ∧
        st1.parser.positional_args_ = st.parser.positional_args_ ∧
        (∀ (k : Nat) (arg : argparse_arg_t), st.parser.options_[k]? = some arg →
          st1.parser.options_[k]? = some { arg with
            count_ := arg.count_ + (cs.countP fun c => flag_finds st.parser.options_ c k) }) ∧
        (∀ c ∈ cs, ∀ k arg, flag_finds st.parser.options_ c k →
          st.parser.options_[k]? = some arg → arg.action_ ≠ ARGPARSE_COUNT_ACTION →
          st1.mem arg.value_ = .bool true) ∧
        (∀ a, (∀ c ∈ cs, ∀ k arg, flag_finds st.parser.options_ c k →
            st.parser.options_[k]? = some arg → arg.action_ ≠ ARGPARSE_COUNT_ACTION →
            arg.value_ ≠ a) → st1.mem a = st.mem a) := by
  induction cs with
  | nil =>
    intro st i _
    refine ⟨st, rfl, rfl, rfl, ?_, ?_, ?_⟩
    · intro k arg hk; simpa using hk
    · intro c hc; cases hc
    · intro a _; rfl
  | cons c rest ih =>
    intro st i hall
    obtain ⟨k, arg, hf, hk, hs⟩ := hall c (List.mem_cons_self _ _)
    have hpos : (arg.action_ != ARGPARSE_STORE_ACTION) = true := by
      rcases hs with ⟨ha, _⟩ | ⟨ha, _⟩ | ha <;> rw [ha] <;> rfl
    have hg := get_and_update_value_simple fp st k i true arg hk hs
    have hstat : (st.parser.options_.set k { arg with count_ := arg.count_ + 1 }).map
        argparse_arg_t.static = st.parser.options_.map argparse_arg_t.static :=
      static_set _ _ _ _ hk
    have hklt : k < st.parser.options_.length := by
      by_contra hcn
      rw [List.getElem?_eq_none (not_lt.mp hcn)] at hk
      cases hk
    -- the state after the first character
    obtain ⟨st1, hloop, h1, h2, h3, h4, h5⟩ := ih
      { parser := { st.parser with
          options_ := st.parser.options_.set k { arg with count_ := arg.count_ + 1 } },
        mem := if arg.action_ = ARGPARSE_COUNT_ACTION then st.mem
          else st.mem.write arg.value_ (.bool true) } i
      (fun c' hc' => by
        obtain ⟨k', arg', hf', hk', hs'⟩ := hall c' (List.mem_cons_of_mem _ hc')
        by_cases hkk : k' = k
        · subst hkk
          rw [hk] at hk'
          cases hk'
          exact ⟨k', { arg with count_ := arg.count_ + 1 },
            (flag_finds_static _ _ _ _ hstat).mpr hf', by simp [List.getElem?_set, hklt], hs'⟩
        · exact ⟨k', arg', (flag_finds_static _ _ _ _ hstat).mpr hf',
            by simp [List.getElem?_set, Ne.symm hkk, hk'], hs'⟩)
    refine ⟨st1, ?_, ?_, ?_, ?_, ?_, ?_⟩
    · simp only [group_loop]
      unfold flag_finds at hf
      simp only [hf, Comp.bind_ok, hk, hpos, hg, is_error_no_error, Bool.false_eq_true, if_false]
      exact hloop
    · rw [h1]; simp [argument_parser_t.static, hstat]
    · rw [h2]
    · intro k0 arg0 hk0
      have hcount : ∀ c', (flag_finds (st.parser.options_.set k
          { arg with count_ := arg.count_ + 1 }) c' k0) ↔ flag_finds st.parser.options_ c' k0 :=
        fun c' => flag_finds_static _ _ c' k0 hstat
      by_cases hkk : k0 = k
      · subst hkk
        rw [hk] at hk0
        cases hk0
        rw [h3 k0 { arg with count_ := arg.count_ + 1 } (by simp [List.getElem?_set, hklt])]
        simp only [List.countP_cons, hf, decide_True, if_true, Option.some.injEq, hcount]
        congr 1
        push_cast
        ring
      · rw [h3 k0 arg0 (by simp [List.getElem?_set, Ne.symm hkk, hk0])]
        have hnf : ¬ flag_finds st.parser.options_ c k0 := by
          intro hcontra
          unfold flag_finds at hcontra hf
          rw [hf] at hcontra
          simp at hcontra
          exact hkk hcontra.symm
        simp only [List.countP_cons, hnf, decide_False, Bool.false_eq_true, if_false,
          Nat.add_zero, hcount]
    · intro c' hc' k' arg' hf' hk' hne'
      rcases List.mem_cons.mp hc' with rfl | hin
      · -- the first character: later characters write true or nothing
        have hkk : k' = k := by
          unfold flag_finds at hf hf'
          rw [hf] at hf'
          simp at hf'
          exact hf'.symm
        subst hkk
        rw [hk] at hk'
        cases hk'
        by_cases hlater : ∃ c2 ∈ rest, ∃ k2 arg2,
            flag_finds st.parser.options_ c2 k2 ∧ st.parser.options_[k2]? = some arg2 ∧
            arg2.action_ ≠ ARGPARSE_COUNT_ACTION ∧ arg2.value_ = arg.value_
        · obtain ⟨c2, hc2, k2, arg2, hf2, hk2, hne2, hv2⟩ := hlater
          rw [← hv2]
          by_cases hkk2 : k2 = k'
          · subst hkk2
            rw [hk] at hk2
            cases hk2
            exact h4 c2 hc2 k2 { arg with count_ := arg.count_ + 1 }
              ((flag_finds_static _ _ _ _ hstat).mpr hf2)
              (by simp [List.getElem?_set, hklt]) hne2
          · exact h4 c2 hc2 k2 arg2 ((flag_finds_static _ _ _ _ hstat).mpr hf2)
              (by simp [List.getElem?_set, Ne.symm hkk2, hk2]) hne2
        · rw [h5 arg.value_ (fun c2 hc2 k2 arg2 hf2 hk2 hne2 hv2 => hlater
            ⟨c2, hc2, k2, ?_⟩)]
          · simp [hne', Memory.write]
          · by_cases hkk2 : k2 = k'
            · subst hkk2
              simp only [List.getElem?_set, hklt, if_true] at hk2
              simp only [Option.some.injEq] at hk2
              subst hk2
              exact ⟨arg, (flag_finds_static _ _ _ _ hstat).mp hf2, hk, hne2, hv2⟩
            · simp only [List.getElem?_set, Ne.symm hkk2, if_false] at hk2
              exact ⟨arg2, (flag_finds_static _ _ _ _ hstat).mp hf2, hk2, hne2, hv2⟩
      · by_cases hkk : k' = k
        · subst hkk
          rw [hk] at hk'
          cases hk'
          exact h4 c' hin k' { arg with count_ := arg.count_ + 1 }
            ((flag_finds_static _ _ _ _ hstat).mpr hf')
            (by simp [List.getElem?_set, hklt]) hne'
        · exact h4 c' hin k' arg' ((flag_finds_static _ _ _ _ hstat).mpr hf')
            (by simp [List.getElem?_set, Ne.symm hkk, hk']) hne'
    · intro a hfree
      rw [h5 a (fun c2 hc2 k2 arg2 hf2 hk2 hne2 => ?_)]
      · by_cases hcnt : arg.action_ = ARGPARSE_COUNT_ACTION
        · simp [hcnt]
        · have := hfree c (List.mem_cons_self _ _) k arg hf hk hcnt
          simp [hcnt, Memory.write, Ne.symm this]
      · by_cases hkk2 : k2 = k
        · subst hkk2
          simp only [List.getElem?_set, hklt, if_true] at hk2
          simp only [Option.some.injEq] at hk2
          subst hk2
          exact hfree c2 (List.mem_cons_of_mem _ hc2) k2 arg
            ((flag_finds_static _ _ _ _ hstat).mp hf2) hk hne2
        · simp only [List.getElem?_set, Ne.symm hkk2, if_false] at hk2
          exact hfree c2 (List.mem_cons_of_mem _ hc2) k2 arg2
            ((flag_finds_static _ _ _ _ hstat).mp hf2) hk2 hne2

/-- The iteration for a token that starts with `-`, is no flag token and matches no
option name: the walk over its characters as a cluster of flags. -/
theorem parse_token_cluster (fp : FloatOps) (s : ScanState) (cs : List Char) (negated : Bool)
    (hv : s.parser.argv_[s.i]? = some ('-' :: cs)) (hlen : cs.length ≠ 1)
    (hhelp : '-' :: cs ≠ "--help".toList)
    (hf : find_long s.parser.options_ ('-' :: cs) = .ok (none, negated)) :
    parse_token fp s =
      (group_loop fp ('-' :: cs) cs s.st s.i).bind
        fun (error, st1, i1) => .ok (error, s.update st1 i1) := by
  have h1 : '-' :: cs ≠ "-h".toList := by
    intro h
    have := congrArg List.length h
    simp at this
    exact hlen this
  have h2 : ¬ (('-' :: cs).length = 2 ∧ starts_with ('-' :: cs) "-".toList = true) := by
    intro h
    simp at h
    exact hlen h.1
  have h3 : starts_with ('-' :: cs) "-".toList = true := by simp [starts_with]
  have h2' : ¬ (('-' :: cs).length = 2 ∧ True) := by
    intro h
    simp at h
    exact hlen h
  unfold parse_token
  simp only [hv, h1, hhelp, or_self, if_false, h3, h2', if_true, hf, Comp.bind_ok,
    List.drop_succ_cons, List.drop_zero]

theorem find_arg_from_flag_found (c : Char) (l : List argparse_arg_t) :
    ∀ (i k : Nat), find_arg_from (FLAG_TO_FIND c) l i = .ok (some k) →
      i ≤ k ∧ ∃ arg, l[k - i]? = some arg ∧ arg.flag_ = c := by
  induction l with
  | nil => intro i k h; simp [find_arg_from] at h
  | cons a rest ih =>
    intro i k h
    simp only [find_arg_from] at h
    split at h
    · rename_i hc
      simp at h
      subst h
      exact ⟨le_refl _, a, by simp, hc.symm⟩
    · obtain ⟨hle, arg, harg, hfl⟩ := ih (i + 1) k h
      refine ⟨by omega, arg, ?_, hfl⟩
      have : k - i = (k - (i + 1)) + 1 := by omega
      rw [this]
      simpa using harg

theorem flag_finds_flag (options : List argparse_arg_t) (c : Char) (k : Nat)
    (arg : argparse_arg_t) (h : flag_finds options c k) (hk : options[k]? = some arg) :
    arg.flag_ = c := by
  obtain ⟨_, arg1, h1, h2⟩ := find_arg_from_flag_found c options 0 k h
  simp only [Nat.sub_zero] at h1
  rw [hk] at h1
  cases h1
  exact h2

theorem countP_flag_finds (options : List argparse_arg_t) (cs : List Char) (c : Char) (k : Nat)
    (h : flag_finds options c k) :
    (cs.countP fun c1 => flag_finds options c1 k) = cs.count c := by
  obtain ⟨_, arg, hk, hfl⟩ := find_arg_from_flag_found c options 0 k h
  simp only [Nat.sub_zero] at hk
  unfold List.count
  apply List.countP_congr
  intro c1 _
  constructor
  · intro h1
    have h1' : flag_finds options c1 k := by simpa using h1
    have := flag_finds_flag options c1 k arg h1' hk
    simp [← this, hfl]
  · intro h1
    have : c1 = c := by simpa using h1
    subst this
    simpa using h

theorem update_value_count (fp : FloatOps) (arg : argparse_arg_t) (mem mem1 : Memory) (n : Int)
    (e : argparse_error_t) (h : update_value fp arg mem (.count n) false = .ok (e, mem1))
    (he : is_error e = false) : mem1 = mem.write arg.value_ (.int n) := by
  unfold update_value at h
  split at h
  · simp only at h
    split at h
    · simp at h
      rw [← h.1] at he
      simp [is_error, ARGPARSE_INT_RANGE_EXCEEDED_ERROR_] at he
    · simp at h; exact h.2.symm
  · simp at h
  · simp at h
  · simp at h
  · cases h

/-- After a finalisation without error, the storage of a `Count` record holds its count,
unless a `Count` record further down the list shares that storage. -/
theorem finalise_list_count (fp : FloatOps) (l : List argparse_arg_t) :
    ∀ (mem mem1 : Memory) (e : argparse_error_t), finalise_list fp l mem = .ok (e, mem1) →
      is_error e = false →
      ∀ (j : Nat) (c : argparse_arg_t), l[j]? = some c → c.action_ = ARGPARSE_COUNT_ACTION →
        (∀ (j1 : Nat) (c1 : argparse_arg_t), j < j1 → l[j1]? = some c1 →
          c1.action_ = ARGPARSE_COUNT_ACTION → c1.value_ ≠ c.value_) →
        mem1 c.value_ = .int c.count_ := by
  induction l with
  | nil => intro mem mem1 e _ _ j c hj; simp at hj
  | cons a rest ih =>
    intro mem mem1 e h he j c hj hc hlater
    simp only [finalise_list] at h
    rw [Comp.bind_eq_ok] at h
    obtain ⟨⟨e2, m2⟩, hf, h⟩ := h
    simp only at h
    split at h
    · rename_i herr
      simp at h
      rw [h.1] at herr
      rw [herr] at he
      cases he
    · rename_i hnoerr
      cases j with
      | zero =>
        simp at hj
        subst hj
        have hm2 : m2 = mem.write a.value_ (.int a.count_) := by
          unfold finalise_arg at hf
          simp only [hc, if_true] at hf
          exact update_value_count fp a mem m2 a.count_ e2 hf (by simpa using hnoerr)
        rw [finalise_list_frame fp a.value_ rest m2 mem1 e h
          (fun c1 hc1 hact => by
            obtain ⟨j1, hj1⟩ := List.getElem?_of_mem hc1
            exact hlater (j1 + 1) c1 (Nat.succ_pos _) (by simpa using hj1) hact), hm2]
        simp [Memory.write]
      | succ j =>
        exact ih m2 mem1 e h he j c (by simpa using hj) hc
          (fun j1 c1 hlt hj1 hact => hlater (j1 + 1) c1 (by omega) (by simpa using hj1) hact)

theorem finalise_eq_list (fp : FloatOps) (parser : argument_parser_t) (mem : Memory) :
    finalise fp parser mem =
      finalise_list fp (parser.options_ ++ parser.positional_args_) mem := by
  unfold finalise
  generalize parser.options_ = l
  induction l generalizing mem with
  | nil => simp [finalise_list]
  | cons a rest ih =>
    simp only [finalise_list, List.cons_append]
    cases hf : finalise_arg fp a mem with
    | ok r =>
      obtain ⟨e2, m2⟩ := r
      simp only [Comp.bind_ok]
      split
      · rename_i herr
        simp [herr]
      · exact ih m2
    | exit n => rfl
    | undef => rfl
    | diverge => rfl

@[simp] theorem ScanState.st_parser (s : ScanState) : s.st.parser = s.parser := rfl

@[simp] theorem ScanState.st_mem (s : ScanState) : s.st.mem = s.mem := rfl

/-- The iteration for a token that resolves to a `Count` option. -/
theorem parse_token_count (fp : FloatOps) (s : ScanState) (token : CStr) (k : Nat)
    (negated : Bool) (arg : argparse_arg_t)
    (hv : s.parser.argv_[s.i]? = some token)
    (hr : resolves_to s.parser.options_ token k negated)
    (hk : s.parser.options_[k]? = some arg) (ha : arg.action_ = ARGPARSE_COUNT_ACTION) :
    parse_token fp s = .ok (ARGPARSE_NO_ERROR_, run_step k arg ⟨[token], 1, none⟩ s) := by
  rw [parse_token_resolves fp s token k negated hv hr]
  have hg := get_and_update_value_count fp s.st (.option k) s.i false negated arg
    (by simpa [argument_parser_t.deref, ScanState.st] using hk) ha
  simp only [bind_found, hg, Comp.bind_ok]
  simp [run_step, run_memory, ScanState.update, argument_parser_t.assign, ScanState.st]

/-- The binding of a `Store` record inside a cluster: the value is the token after the
last token consumed so far, and the walk goes on with the rest of the cluster. -/
theorem group_loop_store (fp : FloatOps) (arg_string : CStr) (c : Char) (rest : List Char)
    (st : State) (i k : Nat) (arg : argparse_arg_t) (value : CStr) (w : Val)
    (hf : flag_finds st.parser.options_ c k) (hk : st.parser.options_[k]? = some arg)
    (ha : arg.action_ = ARGPARSE_STORE_ACTION) (hv : st.parser.argv_[i + 1]? = some value)
    (hc : choice_accepts fp arg value) (hw : coerce fp arg.type_ value = some w) :
    group_loop fp arg_string (c :: rest) st i =
      group_loop fp arg_string rest
        { parser := { st.parser with
            options_ := st.parser.options_.set k { arg with count_ := arg.count_ + 1 } },
          mem := st.mem.write arg.value_ w } (i + 1) := by
  have hg := get_and_update_value_store fp st (.option k) i false false arg value w
    (by simpa [argument_parser_t.deref] using hk) ha (by simpa using hv) hc hw
  have hpos : (arg.action_ != ARGPARSE_STORE_ACTION) = false := by rw [ha]; rfl
  unfold flag_finds at hf
  simp only [group_loop, hf, Comp.bind_ok, hk, hpos, hg, is_error_no_error, Bool.false_eq_true,
    if_false]
  rfl

/-- In the vector `-bc 3 4`, with `Int32` `Store` options `b` and `c`, the token after the
cluster is `3` and coerces to 3, yet the parse succeeds with `b = 3` and `c = 4`: the value
of the second `Store` character of the cluster is not the token after the cluster. -/
theorem store_inside_group_counterexample :
    ∃ parser1 mem1,
      argparse_parse_args sample_float_ops
        (sample_setup ["-bc", "3", "4"] apple_banana_carrot []) sample_memory
        = .ok (ARGPARSE_NO_ERROR_, parser1, mem1) ∧
      (sample_setup ["-bc", "3", "4"] apple_banana_carrot []).argv_[0 + 1]? =
        some "3".toList ∧
      coerce sample_float_ops ARGPARSE_INT_TYPE "3".toList = some (.int 3) ∧
      mem1 2 = .int 3 ∧ mem1 3 = .int 4 ∧ mem1 3 ≠ .int 3 :=
  ⟨_, _, rfl, rfl, rfl, rfl, rfl, by decide⟩

/-! ## The footprint of an iteration and the trace of a scan -/

/-- The footprint of `get_and_update_value`: it increments the counter of the record it
is given and changes no other record; it writes, if anywhere, to the storage of that
record. -/
theorem get_and_update_value_footprint (fp : FloatOps) (st st1 : State) (ref : ArgRef)
    (i i1 : Nat) (positional negated : Bool) (e : argparse_error_t)
    (h : get_and_update_value fp st ref i positional negated = .ok (e, st1, i1)) :
    ∃ arg0, st.parser.deref ref = some arg0 ∧
      st1.parser = st.parser.assign ref { arg0 with count_ := arg0.count_ + 1 } ∧
      (st1.mem = st.mem ∨ ∃ v, st1.mem = st.mem.write arg0.value_ v) := by
  unfold get_and_update_value at h
  split at h
  · cases h
  · rename_i arg0 hd
    refine ⟨arg0, hd, ?_⟩
    have fin : ∀ (value : CValue) (j : Nat) (b : Bool),
        ((update_value fp { arg0 with count_ := arg0.count_ + 1 } st.mem value b).bind
          fun (error, mem1) => (.ok (error,
            ({ parser := st.parser.assign ref { arg0 with count_ := arg0.count_ + 1 },
               mem := mem1 } : State), j) : Comp (argparse_error_t × State × Nat))) =
          .ok (e, st1, i1) →
        st1.parser = st.parser.assign ref { arg0 with count_ := arg0.count_ + 1 } ∧
          (st1.mem = st.mem ∨ ∃ v, st1.mem = st.mem.write arg0.value_ v) := by
      intro value j b hh
      rw [Comp.bind_eq_ok] at hh
      obtain ⟨⟨e2, m2⟩, hu, hh⟩ := hh
      simp only [Comp.ok.injEq, Prod.mk.injEq] at hh
      obtain ⟨_, h2, _⟩ := hh
      subst h2
      refine ⟨rfl, ?_⟩
      rcases update_value_ok_or fp _ _ _ _ _ _ hu with ⟨_, v, hv⟩ | ⟨_, hv⟩
      · exact Or.inr ⟨v, hv⟩
      · exact Or.inl hv
    simp only at h
    split at h
    · -- Store
      split at h
      · simp only [Comp.ok.injEq, Prod.mk.injEq] at h
        obtain ⟨_, h2, _⟩ := h
        subst h2
        exact ⟨rfl, Or.inl rfl⟩
      · split at h
        · cases h
        · rw [Comp.bind_eq_ok] at h
          obtain ⟨r, _, h⟩ := h
          cases r with
          | error err =>
            simp only [Comp.ok.injEq, Prod.mk.injEq] at h
            obtain ⟨_, h2, _⟩ := h
            subst h2
            exact ⟨rfl, Or.inl rfl⟩
          | ok tmp_bool =>
            simp only at h
            split at h
            · simp only [Comp.ok.injEq, Prod.mk.injEq] at h
              obtain ⟨_, h2, _⟩ := h
              subst h2
              exact ⟨rfl, Or.inl rfl⟩
            · exact fin _ _ _ h
    · exact fin _ _ _ h
    · exact fin _ _ _ h
    · exact fin _ _ _ h
    · simp only [Comp.ok.injEq, Prod.mk.injEq] at h
      obtain ⟨_, h2, _⟩ := h
      subst h2
      exact ⟨rfl, Or.inl rfl⟩
    · cases h

/-- The choices loop returns no error other than a real one. -/
theorem choices_loop_error (fp : FloatOps) (arg : argparse_arg_t) (value : CStr) :
    ∀ (n j : Nat) (b : Bool) (err : argparse_error_t),
      choices_loop fp arg value n j b = .ok (.error err) → is_error err = true := by
  intro n
  induction n with
  | zero => intro j b err h; simp [choices_loop] at h
  | succ n ih =>
    intro j b err h
    unfold choices_loop at h
    split at h
    · simp only at h
      split at h
      · simp only [Comp.ok.injEq, Except.error.injEq] at h
        rw [← h]; rfl
      · split at h
        · split at h
          · split at h
            · cases h
            · exact ih _ _ _ h
          · cases h
        · cases h
    · split at h
      · split at h
        · split at h
          · cases h
          · exact ih _ _ _ h
        · cases h
      · cases h
    · split at h
      · cases h
      · exact ih _ _ _ h
    · split at h
      · split at h
        · split at h
          · cases h
          · exact ih _ _ _ h
        · cases h
      · cases h
    · cases h

/-- A successful `update_value` from a token: the token coerces and the coerced value is
what is written. -/
theorem update_value_text_inv (fp : FloatOps) (arg : argparse_arg_t) (mem mem1 : Memory)
    (value : CStr) (e : argparse_error_t)
    (h : update_value fp arg mem (.text value) true = .ok (e, mem1))
    (he : is_error e = false) :
    ∃ w, coerce fp arg.type_ value = some w ∧ mem1 = mem.write arg.value_ w ∧
      e = ARGPARSE_NO_ERROR_ := by
  unfold update_value at h
  unfold coerce
  cases ht : arg.type_ with
  | ARGPARSE_INT_TYPE =>
    rw [ht] at h
    simp only at h
    split at h
    · simp only [Comp.ok.injEq, Prod.mk.injEq] at h
      rw [← h.1] at he
      simp [is_error, ARGPARSE_INT_RANGE_EXCEEDED_ERROR_] at he
    · rename_i hr
      simp only [Comp.ok.injEq, Prod.mk.injEq] at h
      exact ⟨_, by simp [hr], h.2.symm, h.1.symm⟩
  | ARGPARSE_FLOAT_TYPE =>
    rw [ht] at h
    simp only [Comp.ok.injEq, Prod.mk.injEq] at h
    exact ⟨_, rfl, h.2.symm, h.1.symm⟩
  | ARGPARSE_BOOL_TYPE =>
    rw [ht] at h
    cases h
  | ARGPARSE_STRING_TYPE =>
    rw [ht] at h
    simp only [Comp.ok.injEq, Prod.mk.injEq] at h
    exact ⟨_, rfl, h.2.symm, h.1.symm⟩
  | other c =>
    rw [ht] at h
    cases h

/-- A binding of a `Store` record that returns no error: there was a value token, the
choices admit it, it coerces, and the coerced value is written. -/
theorem get_and_update_value_store_inv (fp : FloatOps) (st st1 : State) (ref : ArgRef)
    (i i1 : Nat) (positional negated : Bool) (e : argparse_error_t) (arg0 : argparse_arg_t)
    (h : get_and_update_value fp st ref i positional negated = .ok (e, st1, i1))
    (hd : st.parser.deref ref = some arg0) (ha : arg0.action_ = ARGPARSE_STORE_ACTION)
    (he : is_error e = false) :
    ∃ value w, st.parser.argv_[if positional then i else i + 1]? = some value ∧
      choice_accepts fp arg0 value ∧ coerce fp arg0.type_ value = some w ∧
      st1.mem = st.mem.write arg0.value_ w ∧ i1 = (if positional then i else i + 1) ∧
      e = ARGPARSE_NO_ERROR_ := by
  rcases arg0 with ⟨ty, cnt, fl, nm, v, act, hlp, req, ch, nch⟩
  simp only at ha
  subst ha
  unfold get_and_update_value at h
  rw [hd] at h
  simp only at h
  split at h
  · simp only [Comp.ok.injEq, Prod.mk.injEq] at h
    rw [← h.1] at he
    simp [is_error, ARGPARSE_ARGUMENT_MISSING_VALUE_ERROR_] at he
  · split at h
    · cases h
    · rename_i value hv
      rw [Comp.bind_eq_ok] at h
      obtain ⟨r, hc, h⟩ := h
      cases r with
      | error err =>
        simp only [Comp.ok.injEq, Prod.mk.injEq] at h
        rw [← h.1, choices_loop_error fp _ _ _ _ _ _ hc] at he
        cases he
      | ok tmp_bool =>
        simp only at h
        split at h
        · simp only [Comp.ok.injEq, Prod.mk.injEq] at h
          rw [← h.1] at he
          simp [is_error, ARGPARSE_INVALID_CHOICE_ERROR_] at he
        · rename_i htb
          rw [Comp.bind_eq_ok] at h
          obtain ⟨⟨e2, m2⟩, hu, h⟩ := h
          simp only [Comp.ok.injEq, Prod.mk.injEq] at h
          obtain ⟨h1, h2, h3⟩ := h
          subst h1; subst h2; subst h3
          obtain ⟨w, hw, hm, hee⟩ := update_value_text_inv fp _ _ _ _ _ hu he
          refine ⟨value, w, hv, ?_, hw, hm, rfl, hee⟩
          have htb' : tmp_bool = true := by simpa using htb
          subst htb'
          unfold choice_accepts
          rw [← choices_loop_count fp _ (cnt + 1) value]
          exact hc

/-- A record other than the one assigned is not changed. -/
theorem assign_option_ne (parser : argument_parser_t) (k1 k : Nat) (arg : argparse_arg_t)
    (h : k1 ≠ k) : (parser.assign (.option k1) arg).options_[k]? = parser.options_[k]? := by
  simp [argument_parser_t.assign, List.getElem?_set, h]

/-- The walk of a cluster that ends without error has bound every character: the count of
every option has grown by the number of characters that find it. -/
theorem group_loop_counts (fp : FloatOps) (arg_string : CStr) (chars : List Char) :
    ∀ (st st1 : State) (i i1 : Nat) (e : argparse_error_t),
      group_loop fp arg_string chars st i = .ok (e, st1, i1) → is_error e = false →
      ∀ (k : Nat) (arg : argparse_arg_t), st.parser.options_[k]? = some arg →
        st1.parser.options_[k]? = some { arg with
          count_ := arg.count_ +
            (chars.countP fun c => decide (flag_finds st.parser.options_ c k)) } := by
  induction chars with
  | nil =>
    intro st st1 i i1 e h _ k arg hk
    simp [group_loop] at h
    obtain ⟨_, h2, _⟩ := h
    subst h2
    simp [hk]
  | cons c rest ih =>
    intro st st1 i i1 e h he k arg hk
    simp only [group_loop] at h
    rw [Comp.bind_eq_ok] at h
    obtain ⟨found, hfound, h⟩ := h
    cases found with
    | none =>
      simp at h
      rw [← h.1] at he
      simp [is_error, ARGPARSE_ARGUMENT_UNKNOWN_ERROR_] at he
    | some k1 =>
      simp only at h
      split at h
      · cases h
      · rename_i arg1 hk1
        rw [Comp.bind_eq_ok] at h
        obtain ⟨⟨e2, st2, i2⟩, hg, h⟩ := h
        obtain ⟨f1, _⟩ := get_and_update_value_frame fp _ _ _ _ _ _ _ _ hg
        obtain ⟨arg0, hd, hp, _⟩ := get_and_update_value_footprint fp _ _ _ _ _ _ _ _ hg
        simp only [argument_parser_t.deref, hk1, Option.some.injEq] at hd
        subst hd
        simp only at h
        split at h
        · rename_i herr
          simp at h
          rw [h.1] at herr
          rw [herr] at he
          cases he
        · have hopts := static_options _ _ f1
          have hff : ∀ c1, flag_finds st2.parser.options_ c1 k ↔
              flag_finds st.parser.options_ c1 k :=
            fun c1 => flag_finds_static _ _ c1 k hopts
          have hklt : k1 < st.parser.options_.length := by
            by_contra hcn
            rw [List.getElem?_eq_none (not_lt.mp hcn)] at hk1
            cases hk1
          by_cases hkk : k1 = k
          · subst hkk
            rw [hk] at hk1
            cases hk1
            have hk2 : st2.parser.options_[k1]? =
                some { arg with count_ := arg.count_ + 1 } := by
              rw [hp]; simp [argument_parser_t.assign, List.getElem?_set, hklt]
            rw [ih _ _ _ _ _ h he k1 _ hk2]
            have hc : flag_finds st.parser.options_ c k1 := hfound
            simp only [List.countP_cons, hc, decide_True, if_true, hff]
            congr 2
            push_cast
            ring
          · have hk2 : st2.parser.options_[k]? = some arg := by
              rw [hp, assign_option_ne _ _ _ _ hkk]; exact hk
            rw [ih _ _ _ _ _ h he k _ hk2]
            have hc : ¬ flag_finds st.parser.options_ c k := by
              intro hcn
              unfold flag_finds at hcn
              rw [hfound] at hcn
              simp at hcn
              exact hkk hcn
            simp [List.countP_cons, hc, hff]

/-- The walk of a cluster none of whose characters finds the option `k` leaves that
record alone, and leaves alone every address that is the storage of no other option. -/
theorem group_loop_untouched (fp : FloatOps) (arg_string : CStr) (chars : List Char) :
    ∀ (st st1 : State) (i i1 : Nat) (e : argparse_error_t),
      group_loop fp arg_string chars st i = .ok (e, st1, i1) →
      ∀ (k : Nat), (∀ c ∈ chars, ¬ flag_finds st.parser.options_ c k) →
        st1.parser.options_[k]? = st.parser.options_[k]? ∧
        st1.parser.positional_args_ = st.parser.positional_args_ ∧
        ∀ a, (∀ (j : Nat) (arg1 : argparse_arg_t), st.parser.options_[j]? = some arg1 →
            j ≠ k → arg1.value_ ≠ a) → st1.mem a = st.mem a := by
  induction chars with
  | nil =>
    intro st st1 i i1 e h k _
    simp [group_loop] at h
    obtain ⟨_, h2, _⟩ := h
    subst h2
    exact ⟨rfl, rfl, fun _ _ => rfl⟩
  | cons c rest ih =>
    intro st st1 i i1 e h k hno
    simp only [group_loop] at h
    rw [Comp.bind_eq_ok] at h
    obtain ⟨found, hfound, h⟩ := h
    cases found with
    | none =>
      simp at h
      obtain ⟨_, h2, _⟩ := h
      subst h2
      exact ⟨rfl, rfl, fun _ _ => rfl⟩
    | some k1 =>
      simp only at h
      split at h
      · cases h
      · rename_i arg1 hk1
        rw [Comp.bind_eq_ok] at h
        obtain ⟨⟨e2, st2, i2⟩, hg, h⟩ := h
        obtain ⟨f1, _⟩ := get_and_update_value_frame fp _ _ _ _ _ _ _ _ hg
        obtain ⟨arg0, hd, hp, hm⟩ := get_and_update_value_footprint fp _ _ _ _ _ _ _ _ hg
        simp only [argument_parser_t.deref, hk1, Option.some.injEq] at hd
        subst hd
        have hkk : k1 ≠ k := by
          intro e1
          subst e1
          exact hno c (List.mem_cons_self _ _) hfound
        have hk2 : st2.parser.options_[k]? = st.parser.options_[k]? := by
          rw [hp, assign_option_ne _ _ _ _ hkk]
        have hpos2 : st2.parser.positional_args_ = st.parser.positional_args_ := by
          rw [hp]; rfl
        have hmem2 : ∀ a, (∀ (j : Nat) (arg2 : argparse_arg_t),
            st.parser.options_[j]? = some arg2 → j ≠ k → arg2.value_ ≠ a) →
            st2.mem a = st.mem a := by
          intro a hsep
          rcases hm with hm | ⟨v, hm⟩
          · rw [hm]
          · rw [hm]
            simp [Memory.write, (hsep k1 arg1 hk1 hkk).symm]
        simp only at h
        split at h
        · simp at h
          obtain ⟨_, h2, _⟩ := h
          subst h2
          exact ⟨hk2, hpos2, hmem2⟩
        · have hopts := static_options _ _ f1
          obtain ⟨g1, g2, g3⟩ := ih _ _ _ _ _ h k
            (fun c1 hc1 hcn => hno c1 (List.mem_cons_of_mem _ hc1)
              ((flag_finds_static _ _ c1 k hopts).mp hcn))
          refine ⟨g1.trans hk2, g2.trans hpos2, fun a hsep => ?_⟩
          rw [g3 a ?_, hmem2 a hsep]
          intro j arg2 hj hjk
          by_cases hj1 : j = k1
          · subst hj1
            rw [hp] at hj
            simp [argument_parser_t.assign, List.getElem?_set] at hj
            obtain ⟨_, hj⟩ := hj
            rw [← hj]
            exact hsep j arg1 hk1 hjk
          · rw [hp, assign_option_ne _ _ _ _ (Ne.symm hj1)] at hj
            exact hsep j arg2 hj hjk
theorem find_long_none_negated (options : List argparse_arg_t) (token : CStr)
    (negated : Bool) (h : find_long options token = .ok (none, negated)) : negated = false := by
  unfold find_long at h
  rw [Comp.bind_eq_ok] at h
  obtain ⟨arg1, _, h⟩ := h
  split at h
  · rename_i ht
    simp only [Comp.ok.injEq, Prod.mk.injEq] at h
    rw [h.1] at ht
    simp [is_toggle] at ht
  · rw [Comp.bind_eq_ok] at h
    obtain ⟨arg2, _, h⟩ := h
    simp only [Comp.ok.injEq, Prod.mk.injEq] at h
    exact h.2.symm

theorem hits_of_flag (options : List argparse_arg_t) (token : CStr) (k k1 : Nat)
    (hlen : token.length = 2) (hdash : starts_with token "-".toList = true)
    (hh : token ≠ "-h".toList)
    (hf : find_arg options (FLAG_TO_FIND (token.getD 1 NO_FLAG)) = .ok (some k1)) :
    hits options token k = if k = k1 then 1 else 0 := by
  have hhelp : token ≠ "--help".toList := by
    intro e; rw [e] at hlen; simp at hlen
  unfold hits
  by_cases hk : k = k1
  · subst hk
    have : resolves_to options token k false := ⟨hh, hhelp, hdash, Or.inl ⟨hlen, rfl, hf⟩⟩
    simp [this]
  · have h1 : ¬ resolves_to options token k false := by
      rintro ⟨_, _, _, ⟨_, _, hf1⟩ | ⟨hl, _⟩⟩
      · rw [hf] at hf1
        simp at hf1
        exact hk hf1.symm
      · exact hl hlen
    have h2 : ¬ resolves_to options token k true := by
      rintro ⟨_, _, _, ⟨_, hn, _⟩ | ⟨hl, _⟩⟩
      · cases hn
      · exact hl hlen
    have h3 : ¬ is_cluster options token := fun hc => hc.2.2.1 hlen
    simp [h1, h2, h3, hk]

theorem hits_of_long (options : List argparse_arg_t) (token : CStr) (k k1 : Nat)
    (negated : Bool) (hlen : token.length ≠ 2) (hdash : starts_with token "-".toList = true)
    (hhelp : token ≠ "--help".toList)
    (hf : find_long options token = .ok (some k1, negated)) :
    hits options token k = if k = k1 then 1 else 0 := by
  have hh : token ≠ "-h".toList := by
    intro e; rw [e] at hlen; simp at hlen
  unfold hits
  by_cases hk : k = k1
  · subst hk
    have : resolves_to options token k negated := ⟨hh, hhelp, hdash, Or.inr ⟨hlen, hf⟩⟩
    have : resolves_to options token k false ∨ resolves_to options token k true := by
      cases negated
      · exact Or.inl this
      · exact Or.inr this
    simp [this]
  · have h1 : ∀ n, ¬ resolves_to options token k n := by
      rintro n ⟨_, _, _, ⟨hl, _⟩ | ⟨_, hf1⟩⟩
      · exact hlen hl
      · rw [hf] at hf1
        simp at hf1
        exact hk hf1.1.symm
    have h3 : ¬ is_cluster options token := by
      intro hc
      have := hc.2.2.2
      rw [hf] at this
      simp at this
    simp [h1, h3, hk]

theorem hits_of_cluster (options : List argparse_arg_t) (token : CStr) (k : Nat)
    (negated : Bool) (hlen : token.length ≠ 2) (hdash : starts_with token "-".toList = true)
    (hhelp : token ≠ "--help".toList)
    (hf : find_long options token = .ok (none, negated)) :
    hits options token k =
      (token.drop 1).countP fun c => decide (flag_finds options c k) := by
  have hn := find_long_none_negated options token negated hf
  subst hn
  have h1 : ∀ n, ¬ resolves_to options token k n := by
    rintro n ⟨_, _, _, ⟨hl, _⟩ | ⟨_, hf1⟩⟩
    · exact hlen hl
    · rw [hf] at hf1
      simp at hf1
  have h3 : is_cluster options token := ⟨hhelp, hdash, hlen, hf⟩
  simp [hits, h1, h3]

theorem hits_of_no_dash (options : List argparse_arg_t) (token : CStr) (k : Nat)
    (hdash : ¬ starts_with token "-".toList = true) : hits options token k = 0 := by
  have h1 : ∀ n, ¬ resolves_to options token k n := fun n hr => hdash hr.2.2.1
  have h3 : ¬ is_cluster options token := fun hc => hdash hc.2.1
  simp [hits, h1, h3]

/-- The footprint of a binding after the label `unknown`. -/
theorem bind_found_footprint (fp : FloatOps) (s s1 : ScanState) (arg_string : CStr)
    (ref : ArgRef) (positional negated : Bool) (e : argparse_error_t)
    (h : bind_found fp s arg_string (some ref) positional negated = .ok (e, s1)) :
    ∃ arg0, s.parser.deref ref = some arg0 ∧
      s1.parser = s.parser.assign ref { arg0 with count_ := arg0.count_ + 1 } ∧
      (s1.mem = s.mem ∨ ∃ v, s1.mem = s.mem.write arg0.value_ v) := by
  simp only [bind_found] at h
  rw [Comp.bind_eq_ok] at h
  obtain ⟨⟨e2, st2, i2⟩, hg, h⟩ := h
  simp only [Comp.ok.injEq, Prod.mk.injEq] at h
  obtain ⟨_, h2⟩ := h
  subst h2
  exact get_and_update_value_footprint fp _ _ _ _ _ _ _ _ hg

/-- An iteration that returns no error has bound the option `k` as many times as the
token hits it: the count of every option has grown by that number. -/
theorem parse_token_counts (fp : FloatOps) (s s1 : ScanState) (e : argparse_error_t)
    (token : CStr) (h : parse_token fp s = .ok (e, s1)) (he : is_error e = false)
    (hv : s.parser.argv_[s.i]? = some token) (k : Nat) (arg : argparse_arg_t)
    (hk : s.parser.options_[k]? = some arg) :
    s1.parser.options_[k]? =
      some { arg with count_ := arg.count_ + hits s.parser.options_ token k } := by
  have hklt : k < s.parser.options_.length := by
    by_contra hcn
    rw [List.getElem?_eq_none (not_lt.mp hcn)] at hk
    cases hk
  have bound : ∀ (s0 : ScanState) (k1 : Nat) (positional negated : Bool),
      s0.parser = s.parser →
      bind_found fp s0 token (some (.option k1)) positional negated = .ok (e, s1) →
      s1.parser.options_[k]? =
        some { arg with count_ := arg.count_ + ((if k = k1 then 1 else 0 : Nat) : Int) } := by
    intro s0 k1 positional negated hs0 hb
    obtain ⟨arg0, hd, hp, _⟩ := bind_found_footprint fp _ _ _ _ _ _ _ hb
    rw [hs0] at hd hp
    simp only [argument_parser_t.deref] at hd
    by_cases hkk : k = k1
    · subst hkk
      rw [hk] at hd
      cases hd
      rw [hp]
      simp [argument_parser_t.assign, List.getElem?_set, hklt]
    · rw [hp, assign_option_ne _ _ _ _ (Ne.symm hkk), hk]
      simp [hkk]
  unfold parse_token at h
  rw [hv] at h
  simp only at h
  split at h
  · cases h
  · rename_i hnh
    have hh : token ≠ "-h".toList := fun e1 => hnh (Or.inl e1)
    have hhelp : token ≠ "--help".toList := fun e1 => hnh (Or.inr e1)
    split at h
    · rename_i hflag
      rw [Comp.bind_eq_ok] at h
      obtain ⟨found, hf, h⟩ := h
      cases found with
      | none =>
        simp [bind_found] at h
        rw [← h.1] at he
        simp [is_error, ARGPARSE_ARGUMENT_UNKNOWN_ERROR_] at he
      | some k1 =>
        rw [hits_of_flag _ _ k k1 hflag.1 hflag.2 hh hf]
        exact bound s k1 false false rfl h
    · rename_i hnflag
      split at h
      · rename_i hdash
        have hlen : token.length ≠ 2 := fun hl => hnflag ⟨hl, hdash⟩
        rw [Comp.bind_eq_ok] at h
        obtain ⟨⟨found, negated⟩, hf, h⟩ := h
        cases found with
        | none =>
          simp only at h
          rw [Comp.bind_eq_ok] at h
          obtain ⟨⟨e2, st2, i2⟩, hg, h⟩ := h
          simp only [Comp.ok.injEq, Prod.mk.injEq] at h
          obtain ⟨h1, h2⟩ := h
          subst h1; subst h2
          rw [hits_of_cluster _ _ k negated hlen hdash hhelp hf]
          have := group_loop_counts fp _ _ _ _ _ _ _ hg he k arg
            (by simpa [ScanState.st] using hk)
          simpa [ScanState.update, ScanState.st] using this
        | some k1 =>
          rw [hits_of_long _ _ k k1 negated hlen hdash hhelp hf]
          exact bound s k1 false negated rfl h
      · rename_i hdash
        rw [hits_of_no_dash _ _ k hdash]
        rw [Comp.bind_eq_ok] at h
        obtain ⟨found, hf, h⟩ := h
        cases found with
        | none =>
          simp [bind_found] at h
          rw [← h.1] at he
          simp [is_error, ARGPARSE_ARGUMENT_UNKNOWN_ERROR_] at he
        | some p =>
          obtain ⟨arg0, _, hp, _⟩ := bind_found_footprint fp _ _ _ _ _ _ _ h
          rw [hp]
          simp [argument_parser_t.assign, hk]

/-- An iteration whose token does not hit the option `k` leaves that record alone, and
leaves alone every address that is the storage of no other record. -/
theorem parse_token_untouched (fp : FloatOps) (s s1 : ScanState) (e : argparse_error_t)
    (token : CStr) (h : parse_token fp s = .ok (e, s1))
    (hv : s.parser.argv_[s.i]? = some token) (k : Nat)
    (h0 : hits s.parser.options_ token k = 0) :
    s1.parser.options_[k]? = s.parser.options_[k]? ∧
      ∀ a, (∀ (j : Nat) (arg1 : argparse_arg_t), s.parser.options_[j]? = some arg1 →
          j ≠ k → arg1.value_ ≠ a) →
        (∀ p ∈ s.parser.positional_args_, p.value_ ≠ a) → s1.mem a = s.mem a := by
  have bound : ∀ (k1 : Nat) (negated : Bool), k ≠ k1 →
      bind_found fp s token (some (.option k1)) false negated = .ok (e, s1) →
      s1.parser.options_[k]? = s.parser.options_[k]? ∧
      ∀ a, (∀ (j : Nat) (arg1 : argparse_arg_t), s.parser.options_[j]? = some arg1 →
          j ≠ k → arg1.value_ ≠ a) →
        (∀ p ∈ s.parser.positional_args_, p.value_ ≠ a) → s1.mem a = s.mem a := by
    intro k1 negated hkk hb
    obtain ⟨arg0, hd, hp, hm⟩ := bind_found_footprint fp _ _ _ _ _ _ _ hb
    simp only [argument_parser_t.deref] at hd
    refine ⟨by rw [hp, assign_option_ne _ _ _ _ (Ne.symm hkk)], fun a hsep _ => ?_⟩
    rcases hm with hm | ⟨v, hm⟩
    · rw [hm]
    · rw [hm]
      simp [Memory.write, (hsep k1 arg0 hd (Ne.symm hkk)).symm]
  unfold parse_token at h
  rw [hv] at h
  simp only at h
  split at h
  · cases h
  · rename_i hnh
    have hh : token ≠ "-h".toList := fun e1 => hnh (Or.inl e1)
    have hhelp : token ≠ "--help".toList := fun e1 => hnh (Or.inr e1)
    split at h
    · rename_i hflag
      rw [Comp.bind_eq_ok] at h
      obtain ⟨found, hf, h⟩ := h
      cases found with
      | none =>
        simp [bind_found] at h
        rw [← h.2]
        exact ⟨rfl, fun _ _ _ => rfl⟩
      | some k1 =>
        rw [hits_of_flag _ _ k k1 hflag.1 hflag.2 hh hf] at h0
        have hkk : k ≠ k1 := by
          intro e1; simp [e1] at h0
        exact bound k1 false hkk h
    · rename_i hnflag
      split at h
      · rename_i hdash
        have hlen : token.length ≠ 2 := fun hl => hnflag ⟨hl, hdash⟩
        rw [Comp.bind_eq_ok] at h
        obtain ⟨⟨found, negated⟩, hf, h⟩ := h
        cases found with
        | none =>
          simp only at h
          rw [Comp.bind_eq_ok] at h
          obtain ⟨⟨e2, st2, i2⟩, hg, h⟩ := h
          simp only [Comp.ok.injEq, Prod.mk.injEq] at h
          obtain ⟨h1, h2⟩ := h
          subst h1; subst h2
          rw [hits_of_cluster _ _ k negated hlen hdash hhelp hf] at h0
          rw [List.countP_eq_zero] at h0
          obtain ⟨g1, _, g3⟩ := group_loop_untouched fp _ _ _ _ _ _ _ hg k
            (fun c hc hcn => h0 c hc (by simpa [ScanState.st] using hcn))
          exact ⟨by simpa [ScanState.update, ScanState.st] using g1,
            fun a hsep _ => by simpa [ScanState.update, ScanState.st] using g3 a hsep⟩
        | some k1 =>
          rw [hits_of_long _ _ k k1 negated hlen hdash hhelp hf] at h0
          have hkk : k ≠ k1 := by
            intro e1; simp [e1] at h0
          exact bound k1 negated hkk h
      · rw [Comp.bind_eq_ok] at h
        obtain ⟨found, hf, h⟩ := h
        cases found with
        | none =>
          simp [bind_found] at h
          rw [← h.2]
          exact ⟨rfl, fun _ _ _ => rfl⟩
        | some p =>
          obtain ⟨arg0, hd, hp, hm⟩ := bind_found_footprint fp _ _ _ _ _ _ _ h
          simp only [argument_parser_t.deref] at hd
          refine ⟨by rw [hp]; rfl, fun a _ hpos => ?_⟩
          have hne := hpos arg0 (List.getElem?_mem hd)
          rcases hm with hm | ⟨v, hm⟩
          · rw [hm]
          · rw [hm]
            simp [Memory.write, hne.symm]
theorem resolves_to_static_iff (l l1 : List argparse_arg_t) (token : CStr) (k : Nat)
    (negated : Bool) (h : l1.map argparse_arg_t.static = l.map argparse_arg_t.static) :
    resolves_to l1 token k negated ↔ resolves_to l token k negated :=
  ⟨resolves_to_static l1 l token k negated h.symm, resolves_to_static l l1 token k negated h⟩

theorem is_cluster_static (l l1 : List argparse_arg_t) (token : CStr)
    (h : l1.map argparse_arg_t.static = l.map argparse_arg_t.static) :
    is_cluster l1 token ↔ is_cluster l token := by
  unfold is_cluster
  rw [find_long_static l l1 token h]

theorem hits_static (l l1 : List argparse_arg_t) (token : CStr) (k : Nat)
    (h : l1.map argparse_arg_t.static = l.map argparse_arg_t.static) :
    hits l1 token k = hits l token k := by
  unfold hits
  simp only [resolves_to_static_iff l l1 token k _ h, is_cluster_static l l1 token h,
    flag_finds_static l l1 _ k h]

/-- At every loop head of the scan the count of every option has grown by the number of
times the tokens classified so far hit it. -/
theorem reaches_counts (fp : FloatOps) (parser : argument_parser_t) (mem : Memory)
    (visited : List Nat) (s : ScanState) (h : Reaches fp parser mem visited s) (k : Nat)
    (arg : argparse_arg_t) (hk : parser.options_[k]? = some arg) :
    s.parser.options_[k]? = some { arg with
      count_ := arg.count_ +
        ((visited.map fun j => hits parser.options_ (parser.argv_.getD j []) k).sum : Nat) } := by
  induction h with
  | start => simp [hk]
  | @next visited s s1 error hr hlt hp he ih =>
    obtain ⟨hst, _⟩ := reaches_static fp parser mem visited s hr
    have hargv := static_argv _ _ hst
    have hopts := static_options _ _ hst
    have hv : s.parser.argv_[s.i]? = some (parser.argv_.getD s.i []) := by
      rw [hargv]
      have : s.i < parser.argv_.length := by
        rw [← hargv]; exact hlt
      simp [List.getD_eq_getElem?_getD, List.getElem?_eq_getElem this]
    have := parse_token_counts fp s s1 error _ hp he hv k _ ih
    rw [hits_static _ _ _ _ hopts] at this
    simp only [this, List.map_append, List.map_cons, List.map_nil, List.sum_append,
      List.sum_cons, List.sum_nil, Nat.add_zero, Option.some.injEq]
    congr 1
    push_cast
    ring

/-- A scan that ends without error ends at a loop head the scan reaches, with no token
left. -/
theorem scan_loop_reaches (fp : FloatOps) (parser : argument_parser_t) (mem : Memory) :
    ∀ (fuel : Nat) (visited : List Nat) (s sf : ScanState) (e : argparse_error_t),
      Reaches fp parser mem visited s → scan_loop fp fuel s = .ok (e, sf) →
      is_error e = false →
      ∃ visited1, Reaches fp parser mem visited1 sf ∧ ¬ sf.i < sf.parser.argc_ := by
  intro fuel
  induction fuel with
  | zero =>
    intro visited s sf e hr h _
    simp only [scan_loop] at h
    split at h
    · cases h
    · rename_i hdone
      simp only [Comp.ok.injEq, Prod.mk.injEq] at h
      rw [← h.2]
      exact ⟨visited, hr, hdone⟩
  | succ fuel ih =>
    intro visited s sf e hr h he
    simp only [scan_loop] at h
    split at h
    · rename_i hlt
      rw [Comp.bind_eq_ok] at h
      obtain ⟨⟨e1, s1⟩, hp, h⟩ := h
      simp only at h
      split at h
      · rename_i herr
        simp only [Comp.ok.injEq, Prod.mk.injEq] at h
        rw [h.1] at herr
        rw [herr] at he
        cases he
      · rename_i hno
        exact ih _ _ _ _ (Reaches.next hr hlt hp (by simpa using hno)) h he
    · rename_i hdone
      simp only [Comp.ok.injEq, Prod.mk.injEq] at h
      rw [← h.2]
      exact ⟨visited, hr, hdone⟩

/-- A parse that returns without error: its scan reached a loop head with no token
left, and the finalisation of that state returned without error. -/
theorem parse_args_trace (fp : FloatOps) (parser parser1 : argument_parser_t)
    (mem mem1 : Memory) (error : argparse_error_t)
    (h : argparse_parse_args fp parser mem = .ok (error, parser1, mem1))
    (he : is_error error = false) :
    ∃ visited s, Reaches fp parser mem visited s ∧ ¬ s.i < parser.argc_ ∧
      parser1 = s.parser ∧ finalise fp s.parser s.mem = .ok (error, mem1) := by
  unfold argparse_parse_args at h
  rw [Comp.bind_eq_ok] at h
  obtain ⟨⟨e0, s⟩, hscan, h⟩ := h
  simp only at h
  split at h
  · rename_i herr
    simp only [Comp.ok.injEq, Prod.mk.injEq] at h
    rw [h.1] at herr
    rw [herr] at he
    cases he
  · rename_i hno
    rw [Comp.bind_eq_ok] at h
    obtain ⟨⟨e2, m2⟩, hfin, h⟩ := h
    simp only [Comp.ok.injEq, Prod.mk.injEq] at h
    obtain ⟨h1, h2, h3⟩ := h
    subst h1; subst h2; subst h3
    obtain ⟨visited, hr, hdone⟩ := scan_loop_reaches fp parser mem _ [] _ _ _ Reaches.start
      hscan (by simpa using hno)
    obtain ⟨hst, _⟩ := reaches_static fp parser mem visited s hr
    refine ⟨visited, s, hr, ?_, rfl, hfin⟩
    rw [← static_argc _ _ hst]
    exact hdone

theorem resolves_true_toggle (options : List argparse_arg_t) (token : CStr) (k : Nat)
    (h : resolves_to options token k true) : is_toggle options (some k) = true := by
  obtain ⟨_, _, _, ⟨_, hn, _⟩ | ⟨_, hf⟩⟩ := h
  · cases hn
  · unfold find_long at hf
    rw [Comp.bind_eq_ok] at hf
    obtain ⟨arg1, _, hf⟩ := hf
    split at hf
    · rename_i ht
      simp only [Comp.ok.injEq, Prod.mk.injEq] at hf
      rw [hf.1] at ht
      exact ht
    · rw [Comp.bind_eq_ok] at hf
      obtain ⟨arg2, _, hf⟩ := hf
      simp at hf

theorem hits_le_one (options : List argparse_arg_t) (token : CStr) (k : Nat)
    (h : is_cluster options token → hits options token k = 0) : hits options token k ≤ 1 := by
  by_cases hc : is_cluster options token
  · rw [h hc]; omega
  · unfold hits
    split
    · exact le_refl _
    · simp [hc]

theorem sum_eq_filter_length (l : List Nat) (f : Nat → Nat) (h : ∀ j ∈ l, f j ≤ 1) :
    (l.map f).sum = (l.filter fun j => decide (f j ≠ 0)).length := by
  induction l with
  | nil => rfl
  | cons x rest ih =>
    have hx := h x (List.mem_cons_self _ _)
    have := ih (fun j hj => h j (List.mem_cons_of_mem _ hj))
    by_cases h0 : f x = 0
    · simp [List.filter_cons, h0, this]
    · have h1 : f x = 1 := by omega
      simp [List.filter_cons, h1, this]
      omega

theorem owns_spec (parser : argument_parser_t) (k : Nat) (a : Nat) (h : owns parser k a) :
    (∀ (j : Nat) (arg1 : argparse_arg_t), parser.options_[j]? = some arg1 → j ≠ k →
      arg1.value_ ≠ a) ∧
    ∀ p ∈ parser.positional_args_, p.value_ ≠ a := by
  constructor
  · intro j arg1 hj hjk
    exact h arg1 (List.mem_append_left _ (List.mem_eraseIdx_iff_getElem?.mpr ⟨j, hjk, hj⟩))
  · intro p hp
    exact h p (List.mem_append_right _ hp)

theorem static_getElem (l l1 : List argparse_arg_t)
    (h : l1.map argparse_arg_t.static = l.map argparse_arg_t.static) (j : Nat)
    (c1 : argparse_arg_t) (hj : l1[j]? = some c1) :
    ∃ c0, l[j]? = some c0 ∧ c0.static = c1.static := by
  have := congrArg (fun l => l[j]?) h
  simp only [List.getElem?_map, hj, Option.map_some'] at this
  cases hpj : l[j]? with
  | none => rw [hpj] at this; cases this
  | some c0 =>
    rw [hpj] at this
    simp only [Option.map_some', Option.some.injEq] at this
    exact ⟨c0, rfl, this.symm⟩

/-- After a parse that returns without error the count of every option has grown by the
number of times the classified tokens hit it, and the storage of a `Count` option holds
that count (unless a `Count` record finalised later shares the storage). -/
theorem parse_args_counts (fp : FloatOps) (parser parser1 : argument_parser_t)
    (mem mem1 : Memory) (error : argparse_error_t)
    (h : argparse_parse_args fp parser mem = .ok (error, parser1, mem1))
    (he : is_error error = false) :
    ∃ visited s, Reaches fp parser mem visited s ∧ ¬ s.i < parser.argc_ ∧
      ∀ (k : Nat) (arg : argparse_arg_t), parser.options_[k]? = some arg →
        parser1.options_[k]? = some { arg with count_ := arg.count_ +
          ((visited.map fun j => hits parser.options_ (parser.argv_.getD j []) k).sum : Nat) } ∧
        (arg.action_ = ARGPARSE_COUNT_ACTION →
          (∀ (j1 : Nat) (c1 : argparse_arg_t), k < j1 →
            (parser.options_ ++ parser.positional_args_)[j1]? = some c1 →
            c1.action_ = ARGPARSE_COUNT_ACTION → c1.value_ ≠ arg.value_) →
          mem1 arg.value_ = .int (arg.count_ +
            ((visited.map fun j => hits parser.options_ (parser.argv_.getD j []) k).sum : Nat))) := by
  obtain ⟨visited, s, hr, hdone, hp1, hfin⟩ := parse_args_trace fp parser parser1 mem mem1
    error h he
  subst hp1
  obtain ⟨hst, _⟩ := reaches_static fp parser mem visited s hr
  refine ⟨visited, s, hr, hdone, fun k arg hk => ?_⟩
  have hcount := reaches_counts fp parser mem visited s hr k arg hk
  refine ⟨hcount, fun ha hlater => ?_⟩
  rw [finalise_eq_list] at hfin
  have hklt : k < s.parser.options_.length := by
    by_contra hcn
    rw [List.getElem?_eq_none (not_lt.mp hcn)] at hcount
    cases hcount
  have hall : (s.parser.options_ ++ s.parser.positional_args_).map argparse_arg_t.static =
      (parser.options_ ++ parser.positional_args_).map argparse_arg_t.static := by
    rw [List.map_append, List.map_append, static_options _ _ hst, static_positionals _ _ hst]
  have := finalise_list_count fp _ _ _ _ hfin he k
    { arg with count_ := arg.count_ +
      ((visited.map fun j => hits parser.options_ (parser.argv_.getD j []) k).sum : Nat) }
    (by rw [List.getElem?_append_left hklt]; exact hcount) ha
    (fun j1 c1 hlt hj1 hc1 => by
      obtain ⟨c0, hc0, hcs⟩ := static_getElem _ _ hall j1 c1 hj1
      obtain ⟨_, e2, e3, _⟩ := static_fields _ _ hcs
      have := hlater j1 c0 hlt hc0 (e2.trans hc1)
      rw [e3] at this
      exact this)
  exact this

/-- C8 (count action), as amended.  (a) Whenever `argparse_parse_args` returns without
error, the storage of every `Count` record holds its occurrence count, unless a `Count`
record finalised after it shares that storage.  (b) At any state of the scan, the iteration
for a token that resolves to a `Count` option adds 1 to its count, writes nothing and
consumes no further token.  (c) Whenever `argparse_parse_args` returns without error,
the scan has classified a list of tokens (`visited`) up to the end of the vector, and the
count of every option has grown by the number of times these tokens hit it: once for a
token that resolves to it by its long name or as its two-character flag token, once per
character that finds it in a token walked as a cluster; the storage of a `Count` option
holds that number (added to the initial count).  (d) `-vvv -vvvvv` gives 8 and 8,
`-vvv -v --verbose` gives 5, and without any token the record that was never matched
has 0 written. -/
theorem count_action :
    (∀ (fp : FloatOps) (parser : argument_parser_t) (mem : Memory) (error : argparse_error_t)
        (parser1 : argument_parser_t) (mem1 : Memory),
      argparse_parse_args fp parser mem = .ok (error, parser1, mem1) →
      is_error error = false →
      ∀ (j : Nat) (c : argparse_arg_t),
        (parser1.options_ ++ parser1.positional_args_)[j]? = some c →
        c.action_ = ARGPARSE_COUNT_ACTION →
        (∀ (j1 : Nat) (c1 : argparse_arg_t), j < j1 →
          (parser1.options_ ++ parser1.positional_args_)[j1]? = some c1 →
          c1.action_ = ARGPARSE_COUNT_ACTION → c1.value_ ≠ c.value_) →
        mem1 c.value_ = .int c.count_) ∧
    (∀ (fp : FloatOps) (s : ScanState) (token : CStr) (k : Nat) (negated : Bool)
        (arg : argparse_arg_t),
      s.parser.argv_[s.i]? = some token → resolves_to s.parser.options_ token k negated →
      s.parser.options_[k]? = some arg → arg.action_ = ARGPARSE_COUNT_ACTION →
      parse_token fp s = .ok (ARGPARSE_NO_ERROR_,
        { parser := { s.parser with
            options_ := s.parser.options_.set k { arg with count_ := arg.count_ + 1 } },
          mem := s.mem, i := s.i, positional_i := s.positional_i })) ∧
    (∀ (fp : FloatOps) (parser : argument_parser_t) (mem : Memory) (error : argparse_error_t)
        (parser1 : argument_parser_t) (mem1 : Memory),
      argparse_parse_args fp parser mem = .ok (error, parser1, mem1) →
      is_error error = false →
      ∃ visited s, Reaches fp parser mem visited s ∧ ¬ s.i < parser.argc_ ∧
        ∀ (k : Nat) (arg : argparse_arg_t), parser.options_[k]? = some arg →
          parser1.options_[k]? = some { arg with count_ := arg.count_ +
            ((visited.map fun j =>
              hits parser.options_ (parser.argv_.getD j []) k).sum : Nat) } ∧
          (arg.action_ = ARGPARSE_COUNT_ACTION →
            (∀ (j1 : Nat) (c1 : argparse_arg_t), k < j1 →
              (parser.options_ ++ parser.positional_args_)[j1]? = some c1 →
              c1.action_ = ARGPARSE_COUNT_ACTION → c1.value_ ≠ arg.value_) →
            mem1 arg.value_ = .int (arg.count_ +
              ((visited.map fun j =>
                hits parser.options_ (parser.argv_.getD j []) k).sum : Nat)))) ∧
    (∃ parser1 mem1,
      argparse_parse_args sample_float_ops (sample_setup ["-vvv", "-vvvvv"] [verbosity_count] [])
        sample_memory = .ok (ARGPARSE_NO_ERROR_, parser1, mem1) ∧
      mem1 1 = .int 8 ∧ parser1.options_.map argparse_arg_t.count_ = [8]) ∧
    (∃ parser1 mem1,
      argparse_parse_args sample_float_ops
        (sample_setup ["-vvv", "-v", "--verbose"] [verbosity_count] [])
        sample_memory = .ok (ARGPARSE_NO_ERROR_, parser1, mem1) ∧
      mem1 1 = .int 5 ∧ parser1.options_.map argparse_arg_t.count_ = [5]) ∧
    (∃ parser1 mem1,
      argparse_parse_args sample_float_ops (sample_setup [] [verbosity_count] [])
        sample_memory = .ok (ARGPARSE_NO_ERROR_, parser1, mem1) ∧
      mem1 1 = .int 0 ∧ parser1.options_.map argparse_arg_t.count_ = [0]) := by
  refine ⟨?_, ?_, ?_, ⟨_, _, rfl, rfl, rfl⟩, ⟨_, _, rfl, rfl, rfl⟩, ⟨_, _, rfl, rfl, rfl⟩⟩
  · intro fp parser mem error parser1 mem1 hparse he j c hj hc hlater
    unfold argparse_parse_args at hparse
    rw [Comp.bind_eq_ok] at hparse
    obtain ⟨⟨e0, s⟩, _, hparse⟩ := hparse
    simp only at hparse
    split at hparse
    · rename_i herr
      simp at hparse
      rw [hparse.1] at herr
      rw [herr] at he
      cases he
    · rw [Comp.bind_eq_ok] at hparse
      obtain ⟨⟨e2, m2⟩, hfin, hparse⟩ := hparse
      simp only [Comp.ok.injEq, Prod.mk.injEq] at hparse
      obtain ⟨he2, hp1, hm1⟩ := hparse
      subst he2; subst hp1; subst hm1
      rw [finalise_eq_list] at hfin
      exact finalise_list_count fp _ _ _ _ hfin he j c hj hc hlater
  · intro fp s token k negated arg hv hr hk ha
    rw [parse_token_count fp s token k negated arg hv hr hk ha]
    simp [run_step, run_memory]
  · intro fp parser mem error parser1 mem1 hparse he
    exact parse_args_counts fp parser parser1 mem mem1 error hparse he

/-- The counting statement at the tokens `-vvv -vvvvv` of the test `count_multi_grouped`. -/
theorem count_action_witness :
    ∃ visited s,
      Reaches sample_float_ops (sample_setup ["-vvv", "-vvvvv"] [verbosity_count] [])
        sample_memory visited s ∧
      ¬ s.i < (sample_setup ["-vvv", "-vvvvv"] [verbosity_count] []).argc_ ∧
      ∀ (k : Nat) (arg : argparse_arg_t),
        (sample_setup ["-vvv", "-vvvvv"] [verbosity_count] []).options_[k]? = some arg →
        (sample_setup ["-vvv", "-vvvvv"] [{ verbosity_count with count_ := 8 }] []).options_[k]?
          = some { arg with count_ := arg.count_ +
            ((visited.map fun j =>
              hits (sample_setup ["-vvv", "-vvvvv"] [verbosity_count] []).options_
                ((sample_setup ["-vvv", "-vvvvv"] [verbosity_count] []).argv_.getD j [])
                k).sum : Nat) } ∧
        (arg.action_ = ARGPARSE_COUNT_ACTION →
          (∀ (j1 : Nat) (c1 : argparse_arg_t), k < j1 →
            ((sample_setup ["-vvv", "-vvvvv"] [verbosity_count] []).options_ ++
              (sample_setup ["-vvv", "-vvvvv"] [verbosity_count] []).positional_args_)[j1]?
              = some c1 →
            c1.action_ = ARGPARSE_COUNT_ACTION → c1.value_ ≠ arg.value_) →
          (sample_memory.write 1 (.int 8)) arg.value_ = .int (arg.count_ +
            ((visited.map fun j =>
              hits (sample_setup ["-vvv", "-vvvvv"] [verbosity_count] []).options_
                ((sample_setup ["-vvv", "-vvvvv"] [verbosity_count] []).argv_.getD j [])
                k).sum : Nat))) :=
  count_action.2.2.1 sample_float_ops (sample_setup ["-vvv", "-vvvvv"] [verbosity_count] [])
    sample_memory ARGPARSE_NO_ERROR_
    (sample_setup ["-vvv", "-vvvvv"] [{ verbosity_count with count_ := 8 }] [])
    (sample_memory.write 1 (.int 8)) rfl rfl

/-! ## `Store` characters inside a cluster -/

theorem finds_store_static (l l1 : List argparse_arg_t) (c : Char)
    (h : l1.map argparse_arg_t.static = l.map argparse_arg_t.static) :
    finds_store l1 c = finds_store l c := by
  unfold finds_store
  rw [find_arg_static l l1 _ h]
  cases find_arg l (FLAG_TO_FIND c) with
  | ok r =>
    cases r with
    | none => rfl
    | some k =>
      have := static_action l l1 h k
      simp only
      cases h1 : l1[k]? <;> cases h2 : l[k]? <;> simp [h1, h2] at this ⊢
      rw [(static_fields _ _ this).2.1]
  | exit n => rfl
  | undef => rfl
  | diverge => rfl

/-- The index after a binding that returns no error: one further for a `Store` record
that is no positional, unchanged otherwise. -/
theorem get_and_update_value_index (fp : FloatOps) (st st1 : State) (ref : ArgRef)
    (i i1 : Nat) (positional negated : Bool) (e : argparse_error_t) (arg0 : argparse_arg_t)
    (h : get_and_update_value fp st ref i positional negated = .ok (e, st1, i1))
    (hd : st.parser.deref ref = some arg0) (he : is_error e = false) :
    i1 = if arg0.action_ = ARGPARSE_STORE_ACTION ∧ positional = false then i + 1 else i := by
  by_cases ha : arg0.action_ = ARGPARSE_STORE_ACTION
  · obtain ⟨_, _, _, _, _, _, hi, _⟩ := get_and_update_value_store_inv fp _ _ _ _ _ _ _ _ _ h hd
      ha he
    rw [hi]
    cases positional <;> simp [ha]
  · simp only [ha, false_and, if_false]
    unfold get_and_update_value at h
    rw [hd] at h
    simp only at h
    split at h
    · rename_i hact
      exact absurd hact ha
    all_goals first
      | (rw [Comp.bind_eq_ok] at h
         obtain ⟨⟨e2, m2⟩, _, h⟩ := h
         simp only [Comp.ok.injEq, Prod.mk.injEq] at h
         exact h.2.2.symm)
      | (simp only [Comp.ok.injEq, Prod.mk.injEq] at h
         exact h.2.2.symm)
      | cases h

/-- A cluster walk that ends without error, cut after some of its characters: the walk
of the first part ends without error, with `i` advanced by the number of its characters
that find a `Store` option, and the walk of the rest goes on from there. -/
theorem group_loop_split (fp : FloatOps) (arg_string : CStr) (pre rest : List Char) :
    ∀ (st st1 : State) (i i1 : Nat) (e : argparse_error_t),
      group_loop fp arg_string (pre ++ rest) st i = .ok (e, st1, i1) → is_error e = false →
      ∃ e2 st2, is_error e2 = false ∧
        group_loop fp arg_string pre st i =
          .ok (e2, st2, i + pre.countP (finds_store st.parser.options_)) ∧
        st2.parser.static = st.parser.static ∧
        group_loop fp arg_string rest st2 (i + pre.countP (finds_store st.parser.options_)) =
          .ok (e, st1, i1) := by
  induction pre with
  | nil =>
    intro st st1 i i1 e h _
    exact ⟨ARGPARSE_NO_ERROR_, st, rfl, rfl, rfl, by simpa using h⟩
  | cons c pre ih =>
    intro st st1 i i1 e h he
    simp only [List.cons_append, group_loop] at h ⊢
    rw [Comp.bind_eq_ok] at h
    obtain ⟨found, hfound, h⟩ := h
    cases found with
    | none =>
      simp at h
      rw [← h.1] at he
      simp [is_error, ARGPARSE_ARGUMENT_UNKNOWN_ERROR_] at he
    | some k =>
      simp only at h
      split at h
      · cases h
      · rename_i arg hk
        rw [Comp.bind_eq_ok] at h
        obtain ⟨⟨e3, st3, i3⟩, hg, h⟩ := h
        simp only at h
        split at h
        · rename_i herr
          simp at h
          rw [h.1] at herr
          rw [herr] at he
          cases he
        · rename_i hno
          have hno' : is_error e3 = false := by simpa using hno
          obtain ⟨f1, _⟩ := get_and_update_value_frame fp _ _ _ _ _ _ _ _ hg
          have hopts := static_options _ _ f1
          have hi3 := get_and_update_value_index fp _ _ _ _ _ _ _ _ arg hg
            (by simpa [argument_parser_t.deref] using hk) hno'
          have hfs : finds_store st.parser.options_ c =
              (arg.action_ == ARGPARSE_STORE_ACTION) := by
            simp [finds_store, hfound, hk]
          have hi3' : i3 = i + (if finds_store st.parser.options_ c = true then 1 else 0) := by
            rw [hi3, hfs]
            by_cases ha : arg.action_ = ARGPARSE_STORE_ACTION
            · simp [ha]
            · simp [ha]
          obtain ⟨e2, st2, he2, hpre, hst2, hrest⟩ := ih _ _ _ _ _ h he
          have hcp : pre.countP (finds_store st3.parser.options_) =
              pre.countP (finds_store st.parser.options_) := by
            congr 1
            funext c1
            exact finds_store_static _ _ c1 hopts
          have hidx : i3 + pre.countP (finds_store st3.parser.options_) =
              i + (c :: pre).countP (finds_store st.parser.options_) := by
            rw [hcp, hi3', List.countP_cons]
            omega
          refine ⟨e2, st2, he2, ?_, hst2.trans f1, ?_⟩
          · simp only [hfound, Comp.bind_ok, hk, hg, hno, if_false]
            rw [← hidx]
            exact hpre
          · rw [← hidx]
            exact hrest
theorem choice_accepts_static (fp : FloatOps) (a b : argparse_arg_t) (value : CStr)
    (h : a.static = b.static) (hc : choice_accepts fp a value) : choice_accepts fp b value := by
  have hb : b = { a with count_ := b.count_ } := by
    rcases a with ⟨⟩
    rcases b with ⟨⟩
    simp only [argparse_arg_t.static, argparse_arg_t.mk.injEq] at h
    simp only [argparse_arg_t.mk.injEq]
    tauto
  rw [hb]
  exact choice_accepts_count fp a b.count_ value hc

/-- In a cluster walk that ends without error, a character that finds a `Store` option:
its value is the whole token that follows the tokens consumed so far, one per `Store`
character before it. -/
theorem group_loop_store_value (fp : FloatOps) (arg_string : CStr) (pre : List Char)
    (c : Char) (post : List Char) (st st1 : State) (i i1 : Nat) (e : argparse_error_t)
    (k : Nat) (arg : argparse_arg_t)
    (h : group_loop fp arg_string (pre ++ c :: post) st i = .ok (e, st1, i1))
    (he : is_error e = false)
    (hf : flag_finds st.parser.options_ c k) (hk : st.parser.options_[k]? = some arg)
    (ha : arg.action_ = ARGPARSE_STORE_ACTION) :
    ∃ e2 st2 value w st3,
      group_loop fp arg_string pre st i =
        .ok (e2, st2, i + pre.countP (finds_store st.parser.options_)) ∧
      st.parser.argv_[i + pre.countP (finds_store st.parser.options_) + 1]? = some value ∧
      choice_accepts fp arg value ∧ coerce fp arg.type_ value = some w ∧
      st3.mem = st2.mem.write arg.value_ w ∧
      group_loop fp arg_string post st3 (i + pre.countP (finds_store st.parser.options_) + 1) =
        .ok (e, st1, i1) ∧
      i1 = i + (pre ++ c :: post).countP (finds_store st.parser.options_) := by
  obtain ⟨e2, st2, _, hpre, hst2, hrest⟩ := group_loop_split fp arg_string pre (c :: post)
    st st1 i i1 e h he
  have hopts := static_options _ _ hst2
  have hargv := static_argv _ _ hst2
  have hf2 : find_arg st2.parser.options_ (FLAG_TO_FIND c) = .ok (some k) :=
    (flag_finds_static _ _ c k hopts).mpr hf
  obtain ⟨arg2, hk2, hs2⟩ : ∃ arg2, st2.parser.options_[k]? = some arg2 ∧
      arg2.static = arg.static := by
    have := congrArg (fun l => l[k]?) hopts
    simp only [List.getElem?_map, hk, Option.map_some'] at this
    cases hk2 : st2.parser.options_[k]? with
    | none => rw [hk2] at this; cases this
    | some arg2 =>
      rw [hk2] at this
      simp only [Option.map_some', Option.some.injEq] at this
      exact ⟨arg2, rfl, this⟩
  obtain ⟨et, ea, ev, _, _, _, ech, enc⟩ := static_fields _ _ hs2
  have ha2 : arg2.action_ = ARGPARSE_STORE_ACTION := ea.trans ha
  simp only [group_loop, hf2, Comp.bind_ok, hk2] at hrest
  rw [Comp.bind_eq_ok] at hrest
  obtain ⟨⟨e3, st3, i3⟩, hg, hrest⟩ := hrest
  simp only at hrest
  split at hrest
  · rename_i herr
    simp at hrest
    rw [hrest.1] at herr
    rw [herr] at he
    cases he
  · rename_i hno
    have hpos : (arg2.action_ != ARGPARSE_STORE_ACTION) = false := by rw [ha2]; rfl
    rw [hpos] at hg
    obtain ⟨value, w, hval, hc, hw, hm, hi3, _⟩ := get_and_update_value_store_inv fp _ _ _ _ _
      _ _ _ arg2 hg (by simpa [argument_parser_t.deref] using hk2) ha2 (by simpa using hno)
    simp only [Bool.false_eq_true, if_false] at hval hi3
    subst hi3
    obtain ⟨_, _, _, hall, _, hnil⟩ := group_loop_split fp arg_string (pre ++ c :: post) []
      st st1 i i1 e (by simpa using h) he
    simp [group_loop] at hnil
    refine ⟨e2, st2, value, w, st3, hpre, by rw [← hargv]; exact hval, ?_, ?_, ?_, hrest,
      by simpa [List.countP_append] using hnil.2.2.symm⟩
    · exact choice_accepts_static fp arg2 arg value hs2 hc
    · rw [← et]; exact hw
    · rw [← ev]; exact hm

/-- C10, amended (store inside a group).  (1) In the walk of a cluster, with `i` the
index of the last token consumed so far, a character that finds a `Store` record binds
it to the whole token at `i + 1` (when the choices admit it and it coerces) and the walk
goes on with the remaining characters from `i + 1`.  (2) For a cluster at index `i` (a
token that is the name of no option and not the negated form of a toggle, all options
having a name) whose iteration returns no error, and a character of it that finds a
`Store` record, `n` of the characters before it finding `Store` records: its value is
the whole token at `i + n + 1` (the token after the cluster when `n = 0`, the token
after the previous value otherwise), the choices admit it, its coerced value is written
to the storage of the record, the remaining characters are walked from there, and the
iteration ends with `i` on the last value token consumed, one per `Store` character.
(3) `-ab 3 --carrot 321` with toggle `a` and `Int32` options `b`, `c` gives true, 3 and
321, each with count 1. -/
theorem store_inside_group :
    (∀ (fp : FloatOps) (arg_string : CStr) (c : Char) (rest : List Char) (st : State)
        (i k : Nat) (arg : argparse_arg_t) (value : CStr) (w : Val),
      flag_finds st.parser.options_ c k → st.parser.options_[k]? = some arg →
      arg.action_ = ARGPARSE_STORE_ACTION → st.parser.argv_[i + 1]? = some value →
      choice_accepts fp arg value → coerce fp arg.type_ value = some w →
      group_loop fp arg_string (c :: rest) st i =
        group_loop fp arg_string rest
          { parser := { st.parser with
              options_ := st.parser.options_.set k { arg with count_ := arg.count_ + 1 } },
            mem := st.mem.write arg.value_ w } (i + 1)) ∧
    (∀ (fp : FloatOps) (s s1 : ScanState) (error : argparse_error_t) (pre : List Char)
        (c : Char) (post : List Char) (k : Nat) (arg : argparse_arg_t),
      s.parser.argv_[s.i]? = some ('-' :: (pre ++ c :: post)) →
      (pre ++ c :: post).length ≠ 1 → '-' :: (pre ++ c :: post) ≠ "--help".toList →
      all_named s.parser.options_ →
      (∀ arg1 ∈ s.parser.options_, arg1.name_ ≠ some ('-' :: (pre ++ c :: post))) →
      ¬ negates_toggle s.parser.options_ ('-' :: (pre ++ c :: post)) →
      parse_token fp s = .ok (error, s1) → is_error error = false →
      flag_finds s.parser.options_ c k → s.parser.options_[k]? = some arg →
      arg.action_ = ARGPARSE_STORE_ACTION →
      ∃ value w,
        s.parser.argv_[s.i + pre.countP (finds_store s.parser.options_) + 1]? = some value ∧
        choice_accepts fp arg value ∧ coerce fp arg.type_ value = some w ∧
        (∃ e2 st2 st3,
          group_loop fp ('-' :: (pre ++ c :: post)) pre s.st s.i =
            .ok (e2, st2, s.i + pre.countP (finds_store s.parser.options_)) ∧
          st3.mem = st2.mem.write arg.value_ w ∧
          group_loop fp ('-' :: (pre ++ c :: post)) post st3
              (s.i + pre.countP (finds_store s.parser.options_) + 1) =
            .ok (error, s1.st, s1.i)) ∧
        s1.i = s.i + (pre ++ c :: post).countP (finds_store s.parser.options_)) ∧
    (∃ parser1 mem1,
      argparse_parse_args sample_float_ops
        (sample_setup ["-ab", "3", "--carrot", "321"] apple_banana_carrot []) sample_memory
        = .ok (ARGPARSE_NO_ERROR_, parser1, mem1) ∧
      mem1 1 = .bool true ∧ mem1 2 = .int 3 ∧ mem1 3 = .int 321 ∧
      parser1.options_.map argparse_arg_t.count_ = [1, 1, 1]) := by
  refine ⟨?_, ?_, ⟨_, _, rfl, rfl, rfl, rfl, rfl⟩⟩
  · intro fp arg_string c rest st i k arg value w hf hk ha hv hc hw
    exact group_loop_store fp arg_string c rest st i k arg value w hf hk ha hv hc hw
  · intro fp s s1 error pre c post k arg hv hlen hhelp hnamed hno hneg hp he hf hk ha
    have hfl := find_long_unmatched s.parser.options_ _ hnamed hno hneg
    rw [parse_token_cluster fp s _ false hv hlen hhelp hfl, Comp.bind_eq_ok] at hp
    obtain ⟨⟨e1, st1, i1⟩, hg, hp⟩ := hp
    simp only [Comp.ok.injEq, Prod.mk.injEq] at hp
    obtain ⟨h1, h2⟩ := hp
    subst h1; subst h2
    obtain ⟨e2, st2, value, w, st3, hpre, hval, hc, hw, hm, hpost, hi⟩ :=
      group_loop_store_value fp _ pre c post s.st st1 s.i i1 e1 k arg hg he
        (by simpa [ScanState.st] using hf) (by simpa [ScanState.st] using hk) ha
    exact ⟨value, w, hval, hc, hw, ⟨e2, st2, st3, hpre, hm, hpost⟩, hi⟩

/-- The binding of the first `Store` character of the cluster `-bc` in the vector
`-bc 3 4`: its value is the token `3`. -/
theorem store_inside_group_witness :
    group_loop sample_float_ops "-bc".toList "bc".toList
        ⟨sample_setup ["-bc", "3", "4"] apple_banana_carrot [], sample_memory⟩ 0 =
      group_loop sample_float_ops "-bc".toList "c".toList
        { parser := { sample_setup ["-bc", "3", "4"] apple_banana_carrot [] with
            options_ := (sample_setup ["-bc", "3", "4"] apple_banana_carrot []).options_.set 1
              { ARGPARSE_OPTION ARGPARSE_INT_TYPE 'b' (some "--banana".toList) 2 none with
                count_ := (ARGPARSE_OPTION ARGPARSE_INT_TYPE 'b' (some "--banana".toList) 2
                  none).count_ + 1 } },
          mem := sample_memory.write
            (ARGPARSE_OPTION ARGPARSE_INT_TYPE 'b' (some "--banana".toList) 2 none).value_
            (.int 3) } (0 + 1) :=
  store_inside_group.1 sample_float_ops "-bc".toList 'b' "c".toList
    ⟨sample_setup ["-bc", "3", "4"] apple_banana_carrot [], sample_memory⟩ 0 1
    (ARGPARSE_OPTION ARGPARSE_INT_TYPE 'b' (some "--banana".toList) 2 none) "3".toList (.int 3)
    (by decide) rfl rfl rfl (by decide) rfl

/-! ## Registration -/

/-- `argparse_add_argument` after the identity and type checks, with the local
`positional` named. -/
theorem add_argument_unfold (parser : argument_parser_t) (arg : argparse_arg_t)
    (h1 : ¬ (arg.flag_ = NO_FLAG ∧ (arg.name_ = none ∨ arg.name_ = some [])))
    (h2 : is_valid_type arg.type_ = true) :
    argparse_add_argument parser arg =
      match check_action arg (positional_of arg) with
      | some error => .ok (error, parser)
      | none =>
        if positional_of arg = true ∧ arg.flag_ ≠ NO_FLAG then
          .ok (ARGPARSE_INVALID_FLAG_OR_NAME_ERROR_ arg.name_, parser)
        else if (arg.name_.map List.length) = some 2 ∧ ¬ positional_of arg = true then
          .ok (ARGPARSE_INVALID_FLAG_OR_NAME_ERROR_ none, parser)
        else if arg.flag_ = 'h' then
          .ok (ARGPARSE_CONFLICTING_OPTIONS_ERROR_ none NO_FLAG, parser)
        else if arg.name_ = some "--help".toList then
          .ok (ARGPARSE_CONFLICTING_OPTIONS_ERROR_ none NO_FLAG, parser)
        else
          (check_added_list arg (sequence_of parser arg)).bind fun error =>
            if is_error error then .ok (error, parser)
            else .ok (ARGPARSE_NO_ERROR_, appended parser arg) := by
  unfold argparse_add_argument
  rw [if_neg h1]
  split
  · rename_i c ht
    rw [ht] at h2
    cases h2
  · change (match check_action arg (positional_of arg) with
      | some error => Comp.ok (error, parser)
      | none =>
        if positional_of arg = true ∧ arg.flag_ ≠ NO_FLAG then
          Comp.ok (ARGPARSE_INVALID_FLAG_OR_NAME_ERROR_ arg.name_, parser)
        else if (arg.name_.map List.length) = some 2 ∧ ¬ positional_of arg = true then
          Comp.ok (ARGPARSE_INVALID_FLAG_OR_NAME_ERROR_ none, parser)
        else if arg.flag_ = 'h' then
          Comp.ok (ARGPARSE_CONFLICTING_OPTIONS_ERROR_ none NO_FLAG, parser)
        else if arg.name_ = some "--help".toList then
          Comp.ok (ARGPARSE_CONFLICTING_OPTIONS_ERROR_ none NO_FLAG, parser)
        else
          (check_added_list arg
              (if positional_of arg = true then parser.positional_args_
                else parser.options_)).bind fun error =>
            if is_error error then Comp.ok (error, parser)
            else if positional_of arg = true then
              Comp.ok (ARGPARSE_NO_ERROR_,
                { parser with positional_args_ := parser.positional_args_ ++ [arg] })
            else Comp.ok (ARGPARSE_NO_ERROR_,
              { parser with options_ := parser.options_ ++ [arg] })) = _
    unfold sequence_of appended
    by_cases hp : positional_of arg = true
    · simp only [hp, if_true]
    · simp only [hp, if_false, Bool.false_eq_true]

/-- `argparse_add_argument` on a record that passes the checks before the reserved help
identity. -/
theorem add_argument_early (parser : argument_parser_t) (arg : argparse_arg_t)
    (h : passes_early_checks arg) :
    argparse_add_argument parser arg =
      if arg.flag_ = 'h' then .ok (ARGPARSE_CONFLICTING_OPTIONS_ERROR_ none NO_FLAG, parser)
      else if arg.name_ = some "--help".toList then
        .ok (ARGPARSE_CONFLICTING_OPTIONS_ERROR_ none NO_FLAG, parser)
      else
        (check_added_list arg (sequence_of parser arg)).bind fun error =>
          if is_error error then .ok (error, parser)
          else .ok (ARGPARSE_NO_ERROR_, appended parser arg) := by
  obtain ⟨h1, h2, h3, h4, h5⟩ := h
  rw [add_argument_unfold parser arg h1 h2, h3]
  simp only
  rw [if_neg h4, if_neg h5]

/-- `argparse_add_argument` on a record that passes every check before the walk. -/
theorem add_argument_walk (parser : argument_parser_t) (arg : argparse_arg_t)
    (h : passes_checks arg) :
    argparse_add_argument parser arg =
      (check_added_list arg (sequence_of parser arg)).bind fun error =>
        if is_error error then .ok (error, parser)
        else .ok (ARGPARSE_NO_ERROR_, appended parser arg) := by
  obtain ⟨h1, h2, h3⟩ := h
  rw [add_argument_early parser arg h1, if_neg h2, if_neg h3]

/-- A record that fails one of the checks before the walk is rejected, and the parser
is left as it was. -/
theorem add_argument_rejects (parser : argument_parser_t) (arg : argparse_arg_t)
    (h : ¬ passes_checks arg) :
    ∃ e, argparse_add_argument parser arg = .ok (e, parser) ∧ is_error e = true := by
  by_cases h1 : arg.flag_ = NO_FLAG ∧ (arg.name_ = none ∨ arg.name_ = some [])
  · exact ⟨ARGPARSE_INVALID_FLAG_OR_NAME_ERROR_ none,
      by unfold argparse_add_argument; rw [if_pos h1], rfl⟩
  · by_cases h2 : is_valid_type arg.type_ = true
    · rw [add_argument_unfold parser arg h1 h2]
      cases h3 : check_action arg (positional_of arg) with
      | some e => exact ⟨e, rfl, check_action_is_error _ _ _ h3⟩
      | none =>
        simp only
        by_cases h4 : positional_of arg = true ∧ arg.flag_ ≠ NO_FLAG
        · rw [if_pos h4]; exact ⟨_, rfl, rfl⟩
        · rw [if_neg h4]
          by_cases h5 : (arg.name_.map List.length) = some 2 ∧ ¬ positional_of arg = true
          · rw [if_pos h5]; exact ⟨_, rfl, rfl⟩
          · rw [if_neg h5]
            by_cases h6 : arg.flag_ = 'h'
            · rw [if_pos h6]; exact ⟨_, rfl, rfl⟩
            · rw [if_neg h6]
              by_cases h7 : arg.name_ = some "--help".toList
              · rw [if_pos h7]; exact ⟨_, rfl, rfl⟩
              · exact absurd ⟨⟨h1, h2, h3, h4, h5⟩, h6, h7⟩ h
    · unfold argparse_add_argument
      rw [if_neg h1]
      cases ht : arg.type_ with
      | other c => exact ⟨_, rfl, rfl⟩
      | _ => rw [ht] at h2; exact absurd rfl h2

/-- A call of `argparse_add_argument` that returns: either the record passes every check,
the walk over its sequence finds no conflict and the record is appended, or an error is
returned and the parser is left as it was. -/
theorem add_argument_cases (parser parser1 : argument_parser_t) (arg : argparse_arg_t)
    (e : argparse_error_t) (h : argparse_add_argument parser arg = .ok (e, parser1)) :
    (is_error e = false ∧ e = ARGPARSE_NO_ERROR_ ∧ passes_checks arg ∧
      check_added_list arg (sequence_of parser arg) = .ok ARGPARSE_NO_ERROR_ ∧
      parser1 = appended parser arg) ∨
    (is_error e = true ∧ parser1 = parser) := by
  by_cases hp : passes_checks arg
  · rw [add_argument_walk parser arg hp, Comp.bind_eq_ok] at h
    obtain ⟨e1, hc, h⟩ := h
    split at h
    · rename_i herr
      simp only [Comp.ok.injEq, Prod.mk.injEq] at h
      right
      exact ⟨by rw [← h.1]; exact herr, h.2.symm⟩
    · rename_i hno
      simp only [Comp.ok.injEq, Prod.mk.injEq] at h
      left
      rcases check_added_list_is_error _ _ _ hc with he1 | he1
      · exact ⟨by rw [← h.1]; rfl, h.1.symm, hp, by rw [hc, he1], h.2.symm⟩
      · exact absurd he1 hno
  · obtain ⟨e1, h1, h2⟩ := add_argument_rejects parser arg hp
    rw [h1] at h
    simp only [Comp.ok.injEq, Prod.mk.injEq] at h
    right
    exact ⟨by rw [← h.1]; exact h2, h.2.symm⟩

/-- C20 (identity presence).  For every parser and every record with flag `NO_FLAG` whose
name is absent or the empty string, `argparse_add_argument` returns `InvalidFlagOrName`
and leaves the parser as it was, whatever the other fields are: the record of the test
`invalid_flag`, and the same record with a type and an action outside the enumerations,
choices and the required mark. -/
theorem identity_presence :
    (∀ (parser : argument_parser_t) (arg : argparse_arg_t),
      arg.flag_ = NO_FLAG → (arg.name_ = none ∨ arg.name_ = some []) →
      ∃ e, argparse_add_argument parser arg = .ok (e, parser) ∧
        e.error_val = ARGPARSE_INVALID_FLAG_OR_NAME_ERROR) ∧
    (∃ e, argparse_add_argument empty_registry nameless_option = .ok (e, empty_registry) ∧
      e.error_val = ARGPARSE_INVALID_FLAG_OR_NAME_ERROR) ∧
    (∃ e, argparse_add_argument empty_registry
        { nameless_option with
          type_ := .other 7, action_ := .other 9, name_ := none, required_ := true,
          choices_ := some (.ints [1]), num_choices_ := 1 } = .ok (e, empty_registry) ∧
      e.error_val = ARGPARSE_INVALID_FLAG_OR_NAME_ERROR) := by
  refine ⟨?_, ⟨_, rfl, rfl⟩, ⟨_, rfl, rfl⟩⟩
  intro parser arg hf hn
  refine ⟨ARGPARSE_INVALID_FLAG_OR_NAME_ERROR_ none, ?_, rfl⟩
  unfold argparse_add_argument
  rw [if_pos ⟨hf, hn⟩]

/-- The identity check at the record of the test `invalid_flag`. -/
theorem identity_presence_witness :
    ∃ e, argparse_add_argument empty_registry nameless_option = .ok (e, empty_registry) ∧
      e.error_val = ARGPARSE_INVALID_FLAG_OR_NAME_ERROR :=
  identity_presence.1 empty_registry nameless_option rfl (Or.inr rfl)

/-- C19 (reserved help identity).  (a) For a record whose flag is `h` or whose name is
`--help`, `argparse_add_argument` returns an error and leaves the parser as it was, on
every parser.  (b) When the record passes the checks that come first (identity, type,
action, positional with a flag, name of two characters), that error is
`ConflictingOptions`.  (c) The tests `conflicting_options_2` and `conflicting_options_3`:
`-h` / `--hello` and `-a` / `--help` on an empty registry. -/
theorem reserved_help :
    (∀ (parser : argument_parser_t) (arg : argparse_arg_t),
      arg.flag_ = 'h' ∨ arg.name_ = some "--help".toList →
      ∃ e, argparse_add_argument parser arg = .ok (e, parser) ∧ is_error e = true) ∧
    (∀ (parser : argument_parser_t) (arg : argparse_arg_t),
      arg.flag_ = 'h' ∨ arg.name_ = some "--help".toList → passes_early_checks arg →
      ∃ e, argparse_add_argument parser arg = .ok (e, parser) ∧
        e.error_val = ARGPARSE_CONFLICTING_OPTIONS_ERROR) ∧
    (∃ e, argparse_add_argument empty_registry hello_option = .ok (e, empty_registry) ∧
      e.error_val = ARGPARSE_CONFLICTING_OPTIONS_ERROR) ∧
    (∃ e, argparse_add_argument empty_registry help_named_option = .ok (e, empty_registry) ∧
      e.error_val = ARGPARSE_CONFLICTING_OPTIONS_ERROR) := by
  refine ⟨?_, ?_, ⟨_, rfl, rfl⟩, ⟨_, rfl, rfl⟩⟩
  · intro parser arg h
    apply add_argument_rejects
    rintro ⟨_, h1, h2⟩
    rcases h with h | h
    · exact h1 h
    · exact h2 h
  · intro parser arg h hp
    rw [add_argument_early parser arg hp]
    by_cases h1 : arg.flag_ = 'h'
    · rw [if_pos h1]; exact ⟨_, rfl, rfl⟩
    · rw [if_neg h1]
      rcases h with h | h
      · exact absurd h h1
      · rw [if_pos h]; exact ⟨_, rfl, rfl⟩

/-- The reserved name at the record of the test `conflicting_options_3`. -/
theorem reserved_help_witness :
    ∃ e, argparse_add_argument empty_registry help_named_option = .ok (e, empty_registry) ∧
      e.error_val = ARGPARSE_CONFLICTING_OPTIONS_ERROR :=
  reserved_help.2.1 empty_registry help_named_option (Or.inr rfl) (by decide)

/-- C18 (action/type compatibility).  For every parser and every record that has an
identity (a flag, or a name that is not empty) and a type of the enumeration,
`argparse_add_argument` returns `UnsupportedAction`, and leaves the parser as it was,
when the action is `StoreTrue`, `StoreFalse` or `BooleanOptional` and the type is not
`Bool`, when the action is `Count` and the type is not `Int32`, and when the action is
`Store` and the type is `Bool`. -/
theorem action_type_compatibility :
    (∀ (parser : argument_parser_t) (arg : argparse_arg_t),
      ¬ (arg.flag_ = NO_FLAG ∧ (arg.name_ = none ∨ arg.name_ = some [])) →
      is_valid_type arg.type_ = true →
      ((arg.action_ = ARGPARSE_STORE_TRUE_ACTION ∨ arg.action_ = ARGPARSE_STORE_FALSE_ACTION ∨
          arg.action_ = ARGPARSE_BOOLEAN_OPTIONAL_ACTION) ∧ arg.type_ ≠ ARGPARSE_BOOL_TYPE) ∨
        (arg.action_ = ARGPARSE_COUNT_ACTION ∧ arg.type_ ≠ ARGPARSE_INT_TYPE) ∨
        (arg.action_ = ARGPARSE_STORE_ACTION ∧ arg.type_ = ARGPARSE_BOOL_TYPE) →
      ∃ e, argparse_add_argument parser arg = .ok (e, parser) ∧
        e.error_val = ARGPARSE_UNSUPPORTED_ACTION_ERROR) ∧
    (∃ e, argparse_add_argument empty_registry
        { hello_option with action_ := ARGPARSE_BOOLEAN_OPTIONAL_ACTION }
          = .ok (e, empty_registry) ∧ e.error_val = ARGPARSE_UNSUPPORTED_ACTION_ERROR) ∧
    (∃ e, argparse_add_argument empty_registry
        { hello_option with action_ := ARGPARSE_COUNT_ACTION, type_ := ARGPARSE_BOOL_TYPE }
          = .ok (e, empty_registry) ∧ e.error_val = ARGPARSE_UNSUPPORTED_ACTION_ERROR) ∧
    (∃ e, argparse_add_argument empty_registry { hello_option with type_ := ARGPARSE_BOOL_TYPE }
          = .ok (e, empty_registry) ∧ e.error_val = ARGPARSE_UNSUPPORTED_ACTION_ERROR) := by
  refine ⟨?_, ⟨_, rfl, rfl⟩, ⟨_, rfl, rfl⟩, ⟨_, rfl, rfl⟩⟩
  intro parser arg h1 h2 h
  rw [add_argument_unfold parser arg h1 h2]
  have hca : check_action arg (positional_of arg) =
      some (ARGPARSE_UNSUPPORTED_ACTION_ERROR_ arg.name_ arg.flag_) := by
    unfold check_action
    rcases h with ⟨ha | ha | ha, ht⟩ | ⟨ha, ht⟩ | ⟨ha, ht⟩
    · simp [ha, ht]
    · simp [ha, ht]
    · simp [ha, ht]
    · simp [ha, ht]
    · simp [ha, ht]
  rw [hca]
  exact ⟨_, rfl, rfl⟩

/-- The compatibility check at a `Store` record of type `Bool`. -/
theorem action_type_compatibility_witness :
    ∃ e, argparse_add_argument empty_registry { hello_option with type_ := ARGPARSE_BOOL_TYPE }
        = .ok (e, empty_registry) ∧ e.error_val = ARGPARSE_UNSUPPORTED_ACTION_ERROR :=
  action_type_compatibility.1 empty_registry { hello_option with type_ := ARGPARSE_BOOL_TYPE }
    (by decide) rfl (Or.inr (Or.inr ⟨rfl, rfl⟩))

/-- C14 (registration is atomic on failure).  For every parser and every record: when
`argparse_add_argument` returns an error, the parser afterwards is the parser before, so
the options sequence and the positional sequence are what they were.  In the test
`conflicting_options_0` the second record is refused and the first stays alone. -/
theorem registration_atomic :
    (∀ (parser parser1 : argument_parser_t) (arg : argparse_arg_t) (e : argparse_error_t),
      argparse_add_argument parser arg = .ok (e, parser1) → is_error e = true →
      parser1 = parser ∧ parser1.options_ = parser.options_ ∧
        parser1.positional_args_ = parser.positional_args_) ∧
    (∃ e, argparse_add_argument empty_registry value1_option = .ok (e, value1_registry) ∧
      is_error e = false) ∧
    (∃ e, argparse_add_argument value1_registry value2_option = .ok (e, value1_registry) ∧
      e.error_val = ARGPARSE_CONFLICTING_OPTIONS_ERROR) := by
  refine ⟨?_, ⟨_, rfl, rfl⟩, ⟨_, rfl, rfl⟩⟩
  intro parser parser1 arg e h he
  rcases add_argument_cases parser parser1 arg e h with ⟨hno, _⟩ | ⟨_, hp⟩
  · rw [hno] at he
    cases he
  · exact ⟨hp, by rw [hp], by rw [hp]⟩

/-- The atomicity at the second registration of the test `conflicting_options_0`. -/
theorem registration_atomic_witness :
    (argparse_add_argument value1_registry value2_option =
        .ok (ARGPARSE_CONFLICTING_OPTIONS_ERROR_ none 'v', value1_registry) ∧
      is_error (ARGPARSE_CONFLICTING_OPTIONS_ERROR_ none 'v') = true) ∧
    value1_registry.options_ = [value1_option] ∧ value1_registry.positional_args_ = [] :=
  ⟨⟨rfl, rfl⟩,
    (registration_atomic.1 value1_registry value1_registry value2_option
      (ARGPARSE_CONFLICTING_OPTIONS_ERROR_ none 'v') rfl rfl).2⟩

theorem add_arguments_order (args : List argparse_arg_t) :
    ∀ (parser parser1 : argument_parser_t) (e : argparse_error_t),
      argparse_add_arguments parser args = .ok (e, parser1) → is_error e = false →
      parser1 = { parser with
        options_ := parser.options_ ++ args.filter fun arg => !positional_of arg
        positional_args_ := parser.positional_args_ ++ args.filter positional_of } := by
  induction args with
  | nil =>
    intro parser parser1 e h _
    simp only [argparse_add_arguments, Comp.ok.injEq, Prod.mk.injEq] at h
    rw [← h.2]
    simp
  | cons arg rest ih =>
    intro parser parser1 e h he
    simp only [argparse_add_arguments] at h
    rw [Comp.bind_eq_ok] at h
    obtain ⟨⟨e1, p1⟩, h1, h⟩ := h
    simp only at h
    split at h
    · rename_i herr
      simp only [Comp.ok.injEq, Prod.mk.injEq] at h
      rw [h.1] at herr
      rw [herr] at he
      cases he
    · rename_i hno
      rcases add_argument_cases parser p1 arg e1 h1 with ⟨_, _, _, _, hp⟩ | ⟨herr, _⟩
      · rw [ih p1 parser1 e h he, hp]
        unfold appended
        by_cases hpos : positional_of arg = true
        · simp [hpos, List.filter_cons]
        · simp [hpos, List.filter_cons]
      · exact absurd herr hno

/-- A property of parsers that `argparse_add_argument` keeps is kept by
`argparse_add_arguments`. -/
theorem add_arguments_preserves (P : argument_parser_t → Prop)
    (hstep : ∀ (p p1 : argument_parser_t) (arg : argparse_arg_t) (e : argparse_error_t),
      P p → argparse_add_argument p arg = .ok (e, p1) → P p1)
    (args : List argparse_arg_t) :
    ∀ (p p1 : argument_parser_t) (e : argparse_error_t),
      P p → argparse_add_arguments p args = .ok (e, p1) → P p1 := by
  induction args with
  | nil =>
    intro p p1 e hp h
    simp only [argparse_add_arguments, Comp.ok.injEq, Prod.mk.injEq] at h
    rw [← h.2]; exact hp
  | cons arg rest ih =>
    intro p p1 e hp h
    simp only [argparse_add_arguments] at h
    rw [Comp.bind_eq_ok] at h
    obtain ⟨⟨e1, p2⟩, h1, h⟩ := h
    have hp2 := hstep p p2 arg e1 hp h1
    simp only at h
    split at h
    · simp only [Comp.ok.injEq, Prod.mk.injEq] at h
      rw [← h.2]; exact hp2
    · exact ih p2 p1 e hp2 h

/-- Induction over the registries: a property that holds of a parser without records and
that the registration of a record that passes the checks and conflicts with none keeps,
holds of every registry. -/
theorem registry_induction (P : argument_parser_t → Prop)
    (hinit : ∀ (p : argument_parser_t), p.options_ = [] → p.positional_args_ = [] → P p)
    (hadd : ∀ (p : argument_parser_t) (arg : argparse_arg_t), P p → passes_checks arg →
      check_added_list arg (sequence_of p arg) = .ok ARGPARSE_NO_ERROR_ →
      P (appended p arg))
    (parser : argument_parser_t) (h : Registry parser) : P parser := by
  have hstep : ∀ (p p1 : argument_parser_t) (arg : argparse_arg_t) (e : argparse_error_t),
      P p → argparse_add_argument p arg = .ok (e, p1) → P p1 := by
    intro p p1 arg e hp h1
    rcases add_argument_cases p p1 arg e h1 with ⟨_, _, hpc, hc, hp1⟩ | ⟨_, hp1⟩
    · rw [hp1]; exact hadd p arg hp hpc hc
    · rw [hp1]; exact hp
  induction h with
  | init argv description epilog => exact hinit _ rfl rfl
  | add_argument arg _ h1 ih => exact hstep _ _ arg _ ih h1
  | add_arguments args _ h1 ih => exact add_arguments_preserves P hstep args _ _ _ ih h1

/-- A record that passes the checks satisfies the structural rules, and the rules of a
positional when it goes to the positional sequence. -/
theorem passes_checks_valid (arg : argparse_arg_t) (h : passes_checks arg) :
    valid_record arg ∧ (positional_of arg = true → valid_positional arg) := by
  obtain ⟨⟨h1, h2, h3, h4, h5⟩, h6, h7⟩ := h
  have hid : arg.flag_ ≠ NO_FLAG ∨ (arg.name_ ≠ none ∧ arg.name_ ≠ some []) := by
    by_cases hf : arg.flag_ = NO_FLAG
    · right
      constructor
      · intro hn; exact h1 ⟨hf, Or.inl hn⟩
      · intro hn; exact h1 ⟨hf, Or.inr hn⟩
    · exact Or.inl hf
  have hpv : positional_of arg = true → valid_positional arg := by
    intro hp
    have hfl : arg.flag_ = NO_FLAG := by
      by_contra hf
      exact h4 ⟨hp, hf⟩
    have hact : arg.action_ = ARGPARSE_STORE_ACTION := by
      rcases arg with ⟨ty, cnt, fl, nm, v, act, hlp, req, ch, nch⟩
      simp only at hp h3 ⊢
      rw [hp] at h3
      cases act <;> cases ty <;> cases ch <;> simp [check_action] at h3 ⊢
    refine ⟨hact, hfl, ?_⟩
    unfold positional_of at hp
    cases hn : arg.name_ with
    | none => rw [hn] at hp; cases hp
    | some name =>
      rw [hn] at hp
      exact ⟨name, rfl, by simpa using hp⟩
  refine ⟨⟨hid, h2, ?_, ?_, ?_, h6, h7⟩, hpv⟩
  · rcases arg with ⟨ty, cnt, fl, nm, v, act, hlp, req, ch, nch⟩
    simp only at h3 h2 ⊢
    cases act <;> cases ty <;> simp [check_action, is_valid_type] at h3 h2 ⊢
  · rcases arg with ⟨ty, cnt, fl, nm, v, act, hlp, req, ch, nch⟩
    simp only at h3 h2 ⊢
    cases act <;> cases ty <;> simp [check_action, is_valid_type] at h3 h2 ⊢
  · rcases arg with ⟨ty, cnt, fl, nm, v, act, hlp, req, ch, nch⟩
    simp only at h3 h2 ⊢
    generalize hpos : positional_of ⟨ty, cnt, fl, nm, v, act, hlp, req, ch, nch⟩ = pos at h3
    cases act <;> cases ty <;> cases pos <;> cases ch <;> cases req <;>
      simp [check_action] at h3 ⊢

/-- A call of `check_added` that returns no error compared two records that share no
identity. -/
theorem check_added_no_error (added arg : argparse_arg_t) (e : argparse_error_t)
    (h : check_added added arg = .ok e) (hno : is_error e = false) :
    ¬ shares_identity added arg := by
  unfold check_added at h
  split at h
  · simp only [Comp.ok.injEq] at h
    rw [← h] at hno; cases hno
  · rename_i hflag
    intro hsh
    rcases hsh with ⟨hf, heq⟩ | ⟨hn, heq⟩
    · exact hflag ⟨by rw [← heq]; exact hf, heq.symm⟩
    · cases hname : arg.name_ with
      | none => rw [hname] at heq; exact hn heq
      | some name =>
        rw [hname] at h heq
        simp only [heq] at h
        simp only [if_true, Comp.ok.injEq] at h
        rw [← h] at hno; cases hno

/-- A walk of `check_added` that ends without error met no record that shares an
identity with the new one. -/
theorem check_added_list_distinct (arg : argparse_arg_t) (l : List argparse_arg_t)
    (h : check_added_list arg l = .ok ARGPARSE_NO_ERROR_) :
    ∀ added ∈ l, ¬ shares_identity added arg := by
  induction l with
  | nil => intro a ha; cases ha
  | cons a rest ih =>
    simp only [check_added_list] at h
    rw [Comp.bind_eq_ok] at h
    obtain ⟨e1, hc, h⟩ := h
    split at h
    · rename_i herr
      simp only [Comp.ok.injEq] at h
      rw [h] at herr; cases herr
    · rename_i hno
      intro added hadded
      rcases List.mem_cons.1 hadded with rfl | hin
      · exact check_added_no_error _ _ _ hc (by simpa using hno)
      · exact ih h added hin

/-- When the new record has no name or the registered one has a name, `check_added`
returns: `ConflictingOptions` when the two share an identity, no error otherwise. -/
theorem check_added_defined (added arg : argparse_arg_t)
    (hdef : arg.name_ = none ∨ added.name_ ≠ none) :
    ∃ e, check_added added arg = .ok e ∧
      ((shares_identity added arg ∧ e.error_val = ARGPARSE_CONFLICTING_OPTIONS_ERROR) ∨
       (¬ shares_identity added arg ∧ e = ARGPARSE_NO_ERROR_)) := by
  unfold check_added
  split
  · rename_i hflag
    exact ⟨_, rfl, Or.inl ⟨Or.inl ⟨by rw [← hflag.2]; exact hflag.1, hflag.2.symm⟩, rfl⟩⟩
  · rename_i hflag
    have hnf : ¬ (added.flag_ ≠ NO_FLAG ∧ added.flag_ = arg.flag_) := by
      rintro ⟨hf, heq⟩
      exact hflag ⟨by rw [← heq]; exact hf, heq.symm⟩
    cases hname : arg.name_ with
    | none =>
      refine ⟨_, rfl, Or.inr ⟨?_, rfl⟩⟩
      rintro (hsh | ⟨hn, heq⟩)
      · exact hnf hsh
      · rw [hname] at heq; exact hn heq
    | some name =>
      cases hadded : added.name_ with
      | none =>
        rcases hdef with hd | hd
        · rw [hname] at hd; cases hd
        · exact absurd hadded hd
      | some added_name =>
        simp only
        by_cases heq : name = added_name
        · rw [if_pos heq]
          refine ⟨_, rfl, Or.inl ⟨Or.inr ⟨?_, ?_⟩, rfl⟩⟩
          · rw [hadded]; simp
          · rw [hadded, hname, heq]
        · rw [if_neg heq]
          refine ⟨_, rfl, Or.inr ⟨?_, rfl⟩⟩
          rintro (hsh | ⟨hn, heq1⟩)
          · exact hnf hsh
          · rw [hadded, hname] at heq1
            exact heq (Option.some.inj heq1).symm

/-- When the new record has no name or every registered record has one, a walk of
`check_added` over a list that holds a record sharing an identity with the new one
returns `ConflictingOptions`. -/
theorem check_added_list_conflict (arg : argparse_arg_t) (l : List argparse_arg_t)
    (hdef : arg.name_ = none ∨ all_named l) (added : argparse_arg_t) (hin : added ∈ l)
    (hsh : shares_identity added arg) :
    ∃ e, check_added_list arg l = .ok e ∧
      e.error_val = ARGPARSE_CONFLICTING_OPTIONS_ERROR := by
  induction l with
  | nil => cases hin
  | cons a rest ih =>
    have hdef1 : arg.name_ = none ∨ a.name_ ≠ none := by
      rcases hdef with hd | hd
      · exact Or.inl hd
      · exact Or.inr (hd a (List.mem_cons_self _ _))
    have hdef2 : arg.name_ = none ∨ all_named rest := by
      rcases hdef with hd | hd
      · exact Or.inl hd
      · exact Or.inr fun x hx => hd x (List.mem_cons_of_mem _ hx)
    obtain ⟨e1, hc, hcase⟩ := check_added_defined a arg hdef1
    simp only [check_added_list, hc, Comp.bind_ok]
    rcases hcase with ⟨_, hval⟩ | ⟨hnsh, he1⟩
    · have herr : is_error e1 = true := by simp [is_error, hval]
      rw [if_pos herr]
      exact ⟨e1, rfl, hval⟩
    · have herr : ¬ is_error e1 = true := by rw [he1]; decide
      rw [if_neg herr]
      rcases List.mem_cons.1 hin with heq | hin1
      · rw [heq] at hsh; exact absurd hsh hnsh
      · exact ih hdef2 hin1

/-- A record that passes the checks and shares an identity with a record of its
sequence is rejected with `ConflictingOptions`, when it has no name or every record of
the sequence has one. -/
theorem add_argument_conflict (parser : argument_parser_t) (arg added : argparse_arg_t)
    (hp : passes_checks arg) (hin : added ∈ sequence_of parser arg)
    (hsh : shares_identity added arg)
    (hdef : arg.name_ = none ∨ all_named (sequence_of parser arg)) :
    ∃ e, argparse_add_argument parser arg = .ok (e, parser) ∧
      e.error_val = ARGPARSE_CONFLICTING_OPTIONS_ERROR := by
  obtain ⟨e, hc, hval⟩ := check_added_list_conflict arg _ hdef added hin hsh
  rw [add_argument_walk parser arg hp, hc, Comp.bind_ok]
  have herr : is_error e = true := by simp [is_error, hval]
  rw [if_pos herr]
  exact ⟨e, rfl, hval⟩

/-- The records of a registry satisfy the structural rules. -/
theorem registry_valid (parser : argument_parser_t) (h : Registry parser) :
    (∀ arg ∈ parser.options_, valid_record arg) ∧
    (∀ arg ∈ parser.positional_args_, valid_record arg ∧ valid_positional arg) := by
  refine registry_induction
    (fun p => (∀ arg ∈ p.options_, valid_record arg) ∧
      (∀ arg ∈ p.positional_args_, valid_record arg ∧ valid_positional arg))
    ?_ ?_ parser h
  · intro p ho hpos
    beta_reduce
    rw [ho, hpos]
    constructor <;> intro a ha <;> cases ha
  · intro p arg ⟨iho, ihp⟩ hpc _
    obtain ⟨hv, hvp⟩ := passes_checks_valid arg hpc
    unfold appended
    by_cases hpos : positional_of arg = true
    · rw [if_pos hpos]
      refine ⟨iho, ?_⟩
      intro a ha
      rcases List.mem_append.1 ha with h1 | h1
      · exact ihp a h1
      · rw [List.mem_singleton.1 h1]; exact ⟨hv, hvp hpos⟩
    · rw [if_neg hpos]
      refine ⟨?_, ihp⟩
      intro a ha
      rcases List.mem_append.1 ha with h1 | h1
      · exact iho a h1
      · rw [List.mem_singleton.1 h1]; exact hv

/-- No two records of a sequence of a registry share an identity. -/
theorem registry_distinct (parser : argument_parser_t) (h : Registry parser) :
    distinct_identities parser.options_ ∧ distinct_identities parser.positional_args_ := by
  refine registry_induction
    (fun p => distinct_identities p.options_ ∧ distinct_identities p.positional_args_)
    ?_ ?_ parser h
  · intro p ho hpos
    rw [ho, hpos]
    exact ⟨List.Pairwise.nil, List.Pairwise.nil⟩
  · intro p arg ⟨iho, ihp⟩ _ hc
    have hd := check_added_list_distinct arg _ hc
    unfold sequence_of at hd
    unfold appended
    by_cases hpos : positional_of arg = true
    · rw [if_pos hpos] at hd ⊢
      refine ⟨iho, ?_⟩
      unfold distinct_identities
      rw [List.pairwise_append]
      refine ⟨ihp, List.pairwise_singleton _ _, ?_⟩
      intro a ha b hb
      rw [List.mem_singleton.1 hb]; exact hd a ha
    · rw [if_neg hpos] at hd ⊢
      refine ⟨?_, ihp⟩
      unfold distinct_identities
      rw [List.pairwise_append]
      refine ⟨iho, List.pairwise_singleton _ _, ?_⟩
      intro a ha b hb
      rw [List.mem_singleton.1 hb]; exact hd a ha

/-- The registration of the four records of `store_multi_int_flags_and_positionals`
on the empty registry gives a registry. -/
theorem width_height_registry_reachable : Registry width_height_registry :=
  Registry.add_arguments width_height_angle_thickness
    (Registry.init ["./prog".toList, []] none none)
    (rfl : argparse_add_arguments empty_registry width_height_angle_thickness
      = .ok (ARGPARSE_NO_ERROR_, width_height_registry))

/-- The registration of the flags `b` and `d` on the empty registry gives a registry. -/
theorem flags_registry_reachable : Registry flags_registry :=
  Registry.add_arguments [flag_b_option, flag_d_option]
    (Registry.init ["./prog".toList, []] none none)
    (rfl : argparse_add_arguments empty_registry [flag_b_option, flag_d_option]
      = .ok (ARGPARSE_NO_ERROR_, flags_registry))

/-- C17 (registry validity invariant).  In a registry reached from `argparse_init` by
calls of `argparse_add_argument` and `argparse_add_arguments`, every record of the two
sequences has a flag or a name that is not empty, a type of the enumeration, one of the
three boolean actions exactly when its type is `Bool`, type `Int32` when its action is
`Count`, neither choices nor the required mark when its action is not `Store`, a flag
other than `h` and a name other than `--help`; and every record of the positional
sequence has action `Store`, no flag, and a name that does not start with `-`. -/
theorem registry_validity (parser : argument_parser_t) (h : Registry parser) :
    (∀ arg ∈ parser.options_ ++ parser.positional_args_, valid_record arg) ∧
    (∀ arg ∈ parser.positional_args_, valid_positional arg) := by
  obtain ⟨ho, hp⟩ := registry_valid parser h
  refine ⟨?_, fun arg ha => (hp arg ha).2⟩
  intro arg ha
  rcases List.mem_append.1 ha with h1 | h1
  · exact ho arg h1
  · exact (hp arg h1).1

theorem registry_validity_witness :
    Registry width_height_registry ∧
    (∀ arg ∈ angle_thickness_options ++ width_height_positionals, valid_record arg) ∧
    (∀ arg ∈ width_height_positionals, valid_positional arg) :=
  ⟨width_height_registry_reachable,
    registry_validity width_height_registry width_height_registry_reachable⟩

/-- C16 (uniqueness invariant).  (1) In a registry reached from `argparse_init` by calls
of `argparse_add_argument` and `argparse_add_arguments`, no two records of the options
sequence and no two records of the positional sequence share a flag other than `NO_FLAG`
or a name.  (2) A record that passes the other checks and shares its flag or its name
with a record of its sequence is rejected with `ConflictingOptions` and the registry is
unchanged, when the record has no name or every record of the sequence has one; for a
positional record of a registry that is always so.  (3) The tests
`conflicting_options_0` and `conflicting_options_1`.  (4) After the registration of the
flag-only options `b` and `d`, the registration of an option with the flag `d` and the
name `--dd` does not return `ConflictingOptions`: `check_added` passes the absent name
of the record `b` to `strcmp`. -/
theorem uniqueness_invariant :
    (∀ (parser : argument_parser_t), Registry parser →
      distinct_identities parser.options_ ∧ distinct_identities parser.positional_args_) ∧
    (∀ (parser : argument_parser_t) (arg added : argparse_arg_t),
      passes_checks arg → added ∈ sequence_of parser arg → shares_identity added arg →
      (arg.name_ = none ∨ all_named (sequence_of parser arg)) →
      ∃ e, argparse_add_argument parser arg = .ok (e, parser) ∧
        e.error_val = ARGPARSE_CONFLICTING_OPTIONS_ERROR) ∧
    (∀ (parser : argument_parser_t) (arg added : argparse_arg_t),
      Registry parser → passes_checks arg → positional_of arg = true →
      added ∈ parser.positional_args_ → shares_identity added arg →
      ∃ e, argparse_add_argument parser arg = .ok (e, parser) ∧
        e.error_val = ARGPARSE_CONFLICTING_OPTIONS_ERROR) ∧
    argparse_add_argument value1_registry value2_option
      = .ok (ARGPARSE_CONFLICTING_OPTIONS_ERROR_ none 'v', value1_registry) ∧
    argparse_add_argument x_value_registry y_value_option
      = .ok (ARGPARSE_CONFLICTING_OPTIONS_ERROR_ (some "--value".toList) NO_FLAG,
          x_value_registry) ∧
    (Registry flags_registry ∧ passes_checks named_d_option ∧
      flag_d_option ∈ sequence_of flags_registry named_d_option ∧
      shares_identity flag_d_option named_d_option ∧
      argparse_add_argument flags_registry named_d_option = .undef) := by
  refine ⟨registry_distinct, add_argument_conflict, ?_, rfl, rfl,
    flags_registry_reachable, by decide, by decide, by decide, rfl⟩
  intro parser arg added hr hp hpos hin hsh
  have hseq : sequence_of parser arg = parser.positional_args_ := by
    unfold sequence_of; rw [if_pos hpos]
  refine add_argument_conflict parser arg added hp (by rw [hseq]; exact hin) hsh
    (Or.inr ?_)
  rw [hseq]
  intro a ha
  obtain ⟨_, _, _, name, hname, _⟩ := (registry_valid parser hr).2 a ha
  rw [hname]; simp

theorem uniqueness_invariant_witness :
    distinct_identities width_height_registry.options_ ∧
    distinct_identities width_height_registry.positional_args_ :=
  uniqueness_invariant.1 width_height_registry width_height_registry_reachable

/-! ## Errors of the scan: missing value, choices, unknown tokens -/

/-- An error of the iteration at a loop head is the result of `argparse_parse_args`. -/
theorem reaches_error (fp : FloatOps) (parser : argument_parser_t) (mem : Memory)
    (visited : List Nat) (s s1 : ScanState) (e : argparse_error_t)
    (hr : Reaches fp parser mem visited s) (hlt : s.i < s.parser.argc_)
    (hp : parse_token fp s = .ok (e, s1)) (he : is_error e = true) :
    argparse_parse_args fp parser mem = .ok (e, s1.parser, s1.mem) := by
  obtain ⟨n, hn⟩ : ∃ n, s.parser.argc_ - s.i = n + 1 := ⟨s.parser.argc_ - s.i - 1, by omega⟩
  unfold argparse_parse_args
  rw [reaches_scan fp parser mem visited s hr, hn]
  simp [scan_loop, hlt, hp, he]

/-- The record of index `k` at a loop head is the registered one up to its count. -/
theorem reaches_option (fp : FloatOps) (parser : argument_parser_t) (mem : Memory)
    (visited : List Nat) (s : ScanState) (hr : Reaches fp parser mem visited s) (k : Nat)
    (arg : argparse_arg_t) (hk : parser.options_[k]? = some arg) :
    ∃ c, s.parser.options_[k]? = some { arg with count_ := c } := by
  obtain ⟨hst, _⟩ := reaches_static fp parser mem visited s hr
  obtain ⟨arg1, h1, h2⟩ := static_getElem s.parser.options_ parser.options_
    (static_options _ _ hst).symm k arg hk
  refine ⟨arg1.count_, ?_⟩
  rw [h1]
  rcases arg with ⟨⟩
  rcases arg1 with ⟨⟩
  simp only [argparse_arg_t.static, argparse_arg_t.mk.injEq] at h2
  simp only [Option.some.injEq, argparse_arg_t.mk.injEq]
  tauto

/-- The positional record of index `k` at a loop head is the registered one up to its
count. -/
theorem reaches_positional (fp : FloatOps) (parser : argument_parser_t) (mem : Memory)
    (visited : List Nat) (s : ScanState) (hr : Reaches fp parser mem visited s) (k : Nat)
    (arg : argparse_arg_t) (hk : parser.positional_args_[k]? = some arg) :
    ∃ c, s.parser.positional_args_[k]? = some { arg with count_ := c } := by
  obtain ⟨hst, _⟩ := reaches_static fp parser mem visited s hr
  obtain ⟨arg1, h1, h2⟩ := static_getElem s.parser.positional_args_ parser.positional_args_
    (static_positionals _ _ hst).symm k arg hk
  refine ⟨arg1.count_, ?_⟩
  rw [h1]
  rcases arg with ⟨⟩
  rcases arg1 with ⟨⟩
  simp only [argparse_arg_t.static, argparse_arg_t.mk.injEq] at h2
  simp only [Option.some.injEq, argparse_arg_t.mk.injEq]
  tauto

/-- The binding of a `Store` option at the last token of the vector. -/
theorem get_and_update_value_missing (fp : FloatOps) (st : State) (ref : ArgRef) (i : Nat)
    (negated : Bool) (arg : argparse_arg_t) (hd : st.parser.deref ref = some arg)
    (ha : arg.action_ = ARGPARSE_STORE_ACTION) (hlast : i + 1 = st.parser.argc_) :
    get_and_update_value fp st ref i false negated =
      .ok (ARGPARSE_ARGUMENT_MISSING_VALUE_ERROR_ st.parser.argv_[i]? NO_FLAG,
        { st with parser := st.parser.assign ref { arg with count_ := arg.count_ + 1 } }, i) := by
  unfold get_and_update_value
  simp only [hd, ha, hlast]
  simp

/-- C13 (missing value).  At a loop head of the scan whose token is the last of the
vector and resolves, by its flag or by its long name, to a `Store` option,
`argparse_parse_args` returns `ArgumentMissingValue` with that token as `arg_name` (and no
flag); storage is as it was at the loop head.  The test `missing_value`. -/
theorem missing_value :
    (∀ (fp : FloatOps) (parser : argument_parser_t) (mem : Memory) (visited : List Nat)
        (s : ScanState) (token : CStr) (k : Nat) (negated : Bool) (arg : argparse_arg_t),
      Reaches fp parser mem visited s → parser.argv_[s.i]? = some token →
      s.i + 1 = parser.argc_ → resolves_to parser.options_ token k negated →
      parser.options_[k]? = some arg → arg.action_ = ARGPARSE_STORE_ACTION →
      ∃ parser1, argparse_parse_args fp parser mem =
        .ok (ARGPARSE_ARGUMENT_MISSING_VALUE_ERROR_ (some token) NO_FLAG, parser1, s.mem)) ∧
    (∃ parser1,
      argparse_parse_args sample_float_ops (sample_setup ["--value"] [int_value_option] [])
          sample_memory
        = .ok (ARGPARSE_ARGUMENT_MISSING_VALUE_ERROR_ (some "--value".toList) NO_FLAG,
            parser1, sample_memory)) := by
  refine ⟨?_, ⟨_, rfl⟩⟩
  intro fp parser mem visited s token k negated arg hr hv hlast hres hk ha
  obtain ⟨hst, _⟩ := reaches_static fp parser mem visited s hr
  have hargv : s.parser.argv_ = parser.argv_ := static_argv _ _ hst
  have hargc : s.parser.argc_ = parser.argc_ := static_argc _ _ hst
  have hv1 : s.parser.argv_[s.i]? = some token := by rw [hargv]; exact hv
  have hres1 : resolves_to s.parser.options_ token k negated :=
    (resolves_to_static_iff parser.options_ s.parser.options_ token k negated
      (static_options _ _ hst)).2 hres
  obtain ⟨c, hk1⟩ := reaches_option fp parser mem visited s hr k arg hk
  have hg := get_and_update_value_missing fp s.st (.option k) s.i negated
    { arg with count_ := c } (by simpa [argument_parser_t.deref, ScanState.st] using hk1) ha
    (by simpa [ScanState.st, hargc] using hlast)
  have hp : ∃ s1, parse_token fp s =
      .ok (ARGPARSE_ARGUMENT_MISSING_VALUE_ERROR_ (some token) NO_FLAG, s1) ∧
      s1.mem = s.mem := by
    rw [parse_token_resolves fp s token k negated hv1 hres1]
    simp only [bind_found, hg, Comp.bind_ok]
    simp only [ScanState.st, hv1]
    exact ⟨_, rfl, rfl⟩
  obtain ⟨s1, hp, hmem⟩ := hp
  refine ⟨s1.parser, ?_⟩
  rw [reaches_error fp parser mem visited s s1 _ hr (by omega) hp rfl, hmem]

theorem missing_value_witness :
    ∃ parser1,
      argparse_parse_args sample_float_ops
          (sample_setup ["--value", "3", "-v"] [int_value_option] []) sample_memory
        = .ok (ARGPARSE_ARGUMENT_MISSING_VALUE_ERROR_ (some "-v".toList) NO_FLAG, parser1,
            sample_memory.write 1 (.int 3)) :=
  missing_value.1 sample_float_ops
    (sample_setup ["--value", "3", "-v"] [int_value_option] []) sample_memory [0]
    ⟨sample_setup ["--value", "3", "-v"] [{ int_value_option with count_ := 1 }] [],
      sample_memory.write 1 (.int 3), 2, 0⟩
    "-v".toList 0 false int_value_option
    (@Reaches.next sample_float_ops _ sample_memory []
      ⟨sample_setup ["--value", "3", "-v"] [int_value_option] [], sample_memory, 0, 0⟩
      ⟨sample_setup ["--value", "3", "-v"] [{ int_value_option with count_ := 1 }] [],
        sample_memory.write 1 (.int 3), 1, 0⟩ ARGPARSE_NO_ERROR_
      Reaches.start (by decide) rfl rfl)
    rfl rfl (by decide) rfl rfl

/-- The loop over an `int` choice array, for a value token in the range of `int`: it
ends with `tmp_bool` saying whether the value is among the elements from `j` on. -/
theorem choices_loop_ints (fp : FloatOps) (arg : argparse_arg_t) (value : CStr) (n : Int)
    (l : List Int) (ht : arg.type_ = ARGPARSE_INT_TYPE) (hc : arg.choices_ = some (.ints l))
    (hs : strtol value = (n, false)) (h1 : ¬ n > INT32_MAX) (h2 : ¬ n < INT32_MIN)
    (num : Nat) (hnum : num ≤ l.length) :
    ∀ m j b, j + m = num →
      choices_loop fp arg value m j b =
        .ok (.ok (decide (n ∈ (l.take num).drop j) || (decide (m = 0) && b))) := by
  intro m
  induction m with
  | zero =>
    intro j b hj
    have : (l.take num).drop j = [] := by
      apply List.drop_eq_nil_of_le
      simp only [List.length_take]; omega
    simp [choices_loop, this]
  | succ m ih =>
    intro j b hj
    have hjl : j < l.length := by omega
    have hget : l[j]? = some l[j] := List.getElem?_eq_getElem hjl
    have hdrop : (l.take num).drop j = l[j] :: (l.take num).drop (j + 1) := by
      have hjt : j < (l.take num).length := by simp only [List.length_take]; omega
      rw [List.drop_eq_getElem_cons hjt]
      simp [List.getElem_take]
    simp only [choices_loop, ht, hs]
    simp only [h1, h2, decide_False, Bool.or_self, Bool.false_eq_true, if_false, hc, hget]
    by_cases heq : l[j] = n
    · simp [heq, hdrop]
    · have heq1 : ¬ n = l[j] := fun h => heq h.symm
      simp only [beq_iff_eq, heq, if_false]
      rw [ih (j + 1) false (by omega), hdrop]
      simp [heq1]

/-- The loop over a string choice array: it ends with `tmp_bool` saying whether the value
token is among the elements from `j` on. -/
theorem choices_loop_strs (fp : FloatOps) (arg : argparse_arg_t) (value : CStr)
    (l : List CStr) (ht : arg.type_ = ARGPARSE_STRING_TYPE)
    (hc : arg.choices_ = some (.strs l)) (num : Nat) (hnum : num ≤ l.length) :
    ∀ m j b, j + m = num →
      choices_loop fp arg value m j b =
        .ok (.ok (decide (value ∈ (l.take num).drop j) || (decide (m = 0) && b))) := by
  intro m
  induction m with
  | zero =>
    intro j b hj
    have : (l.take num).drop j = [] := by
      apply List.drop_eq_nil_of_le
      simp only [List.length_take]; omega
    simp [choices_loop, this]
  | succ m ih =>
    intro j b hj
    have hjl : j < l.length := by omega
    have hget : l[j]? = some l[j] := List.getElem?_eq_getElem hjl
    have hdrop : (l.take num).drop j = l[j] :: (l.take num).drop (j + 1) := by
      have hjt : j < (l.take num).length := by simp only [List.length_take]; omega
      rw [List.drop_eq_getElem_cons hjt]
      simp [List.getElem_take]
    simp only [choices_loop, ht, hc, hget]
    by_cases heq : l[j] = value
    · simp [heq, hdrop]
    · have heq1 : ¬ value = l[j] := fun h => heq h.symm
      simp only [beq_iff_eq, heq, if_false]
      rw [ih (j + 1) false (by omega), hdrop]
      simp [heq1]

/-- For a record with a choice set and a value token that coerces to `w`, the loop over
the choices ends with `tmp_bool` saying whether `w` is one of the choices. -/
theorem choices_loop_in_choices (fp : FloatOps) (arg : argparse_arg_t) (value : CStr)
    (w : Val) (hset : has_choice_set arg) (hw : coerce fp arg.type_ value = some w) :
    choices_loop fp arg value arg.num_choices_ 0 (arg.num_choices_ == 0) =
      .ok (.ok (decide (in_choices arg w))) := by
  obtain ⟨hpos, hset⟩ := hset
  have hne : (arg.num_choices_ == 0) = false := by
    simp only [beq_eq_false_iff_ne]; omega
  have hm : decide (arg.num_choices_ = 0) = false := by
    simp only [decide_eq_false_iff_not]; omega
  cases ht : arg.type_ with
  | ARGPARSE_INT_TYPE =>
    rw [ht] at hset hw
    cases hc : arg.choices_ with
    | none => rw [hc] at hset; exact absurd hset (by simp)
    | some ch =>
      cases ch with
      | ints l =>
        rw [hc] at hset
        simp only at hset
        unfold coerce at hw
        simp only at hw
        split at hw
        · cases hw
        · rename_i hrange
          simp only [Bool.or_eq_true, decide_eq_true_eq, not_or, Bool.not_eq_true] at hrange
          simp only [Option.some.injEq] at hw
          subst hw
          rw [choices_loop_ints fp arg value (strtol value).1 l ht hc
            (Prod.ext rfl hrange.1.1) hrange.1.2 hrange.2 arg.num_choices_ hset
            arg.num_choices_ 0 _ (by omega)]
          simp only [List.drop_zero, hm, Bool.false_and, Bool.or_false, in_choices, hc]
      | floats l => rw [hc] at hset; exact absurd hset (by simp)
      | strs l => rw [hc] at hset; exact absurd hset (by simp)
  | ARGPARSE_STRING_TYPE =>
    rw [ht] at hset hw
    cases hc : arg.choices_ with
    | none => rw [hc] at hset; exact absurd hset (by simp)
    | some ch =>
      cases ch with
      | strs l =>
        rw [hc] at hset
        simp only at hset
        unfold coerce at hw
        simp only [Option.some.injEq] at hw
        subst hw
        rw [choices_loop_strs fp arg value l ht hc arg.num_choices_ hset
          arg.num_choices_ 0 _ (by omega)]
        simp only [List.drop_zero, hm, Bool.false_and, Bool.or_false, in_choices, hc]
      | floats l => rw [hc] at hset; exact absurd hset (by simp)
      | ints l => rw [hc] at hset; exact absurd hset (by simp)
  | ARGPARSE_FLOAT_TYPE => rw [ht] at hset; exact absurd hset (by simp)
  | ARGPARSE_BOOL_TYPE => rw [ht] at hset; exact absurd hset (by simp)
  | other c => rw [ht] at hset; exact absurd hset (by simp)

/-- The binding of a `Store` record to a value token that its choices do not admit. -/
theorem get_and_update_value_rejects (fp : FloatOps) (st : State) (ref : ArgRef) (i : Nat)
    (positional negated : Bool) (arg : argparse_arg_t) (value : CStr)
    (hd : st.parser.deref ref = some arg) (ha : arg.action_ = ARGPARSE_STORE_ACTION)
    (hv : st.parser.argv_[if positional then i else i + 1]? = some value)
    (hc : choices_loop fp arg value arg.num_choices_ 0 (arg.num_choices_ == 0)
      = .ok (.ok false)) :
    get_and_update_value fp st ref i positional negated =
      .ok (ARGPARSE_INVALID_CHOICE_ERROR_ st.parser.argv_[i]? NO_FLAG,
        { st with parser := st.parser.assign ref { arg with count_ := arg.count_ + 1 } },
        if positional then i else i + 1) := by
  have hmiss : (!positional && i + 1 == st.parser.argc_) = false := by
    cases positional with
    | true => rfl
    | false =>
      simp only [Bool.false_eq_true, if_false] at hv
      have : i + 1 < st.parser.argv_.length := by
        by_contra hcn
        rw [List.getElem?_eq_none (not_lt.mp hcn)] at hv
        cases hv
      simp [argument_parser_t.argc_]; omega
  rcases arg with ⟨ty, cnt, fl, nm, v, act, hlp, req, ch, nch⟩
  simp only at ha hc
  subst ha
  have hc1 := (choices_loop_count fp
    ⟨ty, cnt, fl, nm, v, ARGPARSE_STORE_ACTION, hlp, req, ch, nch⟩ (cnt + 1) value nch 0
    (nch == 0)).trans hc
  unfold get_and_update_value
  simp only [hd, hmiss, Bool.false_eq_true, if_false, hv, hc1, Comp.bind_ok]
  cases positional <;> simp

/-- The binding of a `Store` record with a choice set to a value token that coerces to
`w`: the value is written when `w` is one of the choices, and the binding returns
`InvalidChoice` with the token at `i` otherwise. -/
theorem get_and_update_value_choice (fp : FloatOps) (st : State) (ref : ArgRef) (i : Nat)
    (positional negated : Bool) (arg : argparse_arg_t) (value : CStr) (w : Val)
    (hd : st.parser.deref ref = some arg) (ha : arg.action_ = ARGPARSE_STORE_ACTION)
    (hv : st.parser.argv_[if positional then i else i + 1]? = some value)
    (hset : has_choice_set arg) (hw : coerce fp arg.type_ value = some w) :
    (in_choices arg w →
      get_and_update_value fp st ref i positional negated =
        .ok (ARGPARSE_NO_ERROR_,
          { parser := st.parser.assign ref { arg with count_ := arg.count_ + 1 },
            mem := st.mem.write arg.value_ w },
          if positional then i else i + 1)) ∧
    (¬ in_choices arg w →
      get_and_update_value fp st ref i positional negated =
        .ok (ARGPARSE_INVALID_CHOICE_ERROR_ st.parser.argv_[i]? NO_FLAG,
          { st with parser := st.parser.assign ref { arg with count_ := arg.count_ + 1 } },
          if positional then i else i + 1)) := by
  have hloop := choices_loop_in_choices fp arg value w hset hw
  constructor
  · intro hin
    refine get_and_update_value_store fp st ref i positional negated arg value w hd ha hv ?_ hw
    unfold choice_accepts
    rw [hloop, decide_eq_true hin]
  · intro hin
    refine get_and_update_value_rejects fp st ref i positional negated arg value hd ha hv ?_
    rw [hloop, decide_eq_false hin]

/-- C11 (choice validation with exact equality).  For a `Store` record of type `Int32`
or `String` with a choice set and a value token that coerces to `w`: (1) the binding
(of an option to the next token, of a positional to the current one) writes `w` to
storage and returns no error when `w` equals one of the choices, and returns
`InvalidChoice` without writing otherwise; (2) at a loop head of the scan whose token
resolves to such an option, the iteration stores `w` when it is among the choices, and
otherwise `argparse_parse_args` returns `InvalidChoice` carrying the option token; (3)
the same at a token without `-` that goes to such a positional, where `InvalidChoice`
carries the value token.  The tests `store_single_int_invalid_choice`,
`store_single_string_with_choices` and `store_single_string_invalid_choice`. -/
theorem choice_validation :
    (∀ (fp : FloatOps) (st : State) (ref : ArgRef) (i : Nat) (positional negated : Bool)
        (arg : argparse_arg_t) (value : CStr) (w : Val),
      st.parser.deref ref = some arg → arg.action_ = ARGPARSE_STORE_ACTION →
      st.parser.argv_[if positional then i else i + 1]? = some value →
      has_choice_set arg → coerce fp arg.type_ value = some w →
      (in_choices arg w →
        get_and_update_value fp st ref i positional negated =
          .ok (ARGPARSE_NO_ERROR_,
            { parser := st.parser.assign ref { arg with count_ := arg.count_ + 1 },
              mem := st.mem.write arg.value_ w },
            if positional then i else i + 1)) ∧
      (¬ in_choices arg w →
        get_and_update_value fp st ref i positional negated =
          .ok (ARGPARSE_INVALID_CHOICE_ERROR_ st.parser.argv_[i]? NO_FLAG,
            { st with parser := st.parser.assign ref { arg with count_ := arg.count_ + 1 } },
            if positional then i else i + 1))) ∧
    (∀ (fp : FloatOps) (parser : argument_parser_t) (mem : Memory) (visited : List Nat)
        (s : ScanState) (token value : CStr) (k : Nat) (negated : Bool)
        (arg : argparse_arg_t) (w : Val),
      Reaches fp parser mem visited s → parser.argv_[s.i]? = some token →
      parser.argv_[s.i + 1]? = some value → resolves_to parser.options_ token k negated →
      parser.options_[k]? = some arg → arg.action_ = ARGPARSE_STORE_ACTION →
      has_choice_set arg → coerce fp arg.type_ value = some w →
      (in_choices arg w →
        ∃ s1, parse_token fp s = .ok (ARGPARSE_NO_ERROR_, s1) ∧
          s1.mem = s.mem.write arg.value_ w ∧ s1.i = s.i + 1) ∧
      (¬ in_choices arg w →
        ∃ parser1, argparse_parse_args fp parser mem =
          .ok (ARGPARSE_INVALID_CHOICE_ERROR_ (some token) NO_FLAG, parser1, s.mem))) ∧
    (∀ (fp : FloatOps) (parser : argument_parser_t) (mem : Memory) (visited : List Nat)
        (s : ScanState) (value : CStr) (arg : argparse_arg_t) (w : Val),
      Reaches fp parser mem visited s → parser.argv_[s.i]? = some value →
      starts_with value "-".toList = false →
      parser.positional_args_[s.positional_i]? = some arg →
      arg.action_ = ARGPARSE_STORE_ACTION →
      has_choice_set arg → coerce fp arg.type_ value = some w →
      (in_choices arg w →
        ∃ s1, parse_token fp s = .ok (ARGPARSE_NO_ERROR_, s1) ∧
          s1.mem = s.mem.write arg.value_ w ∧ s1.i = s.i) ∧
      (¬ in_choices arg w →
        ∃ parser1, argparse_parse_args fp parser mem =
          .ok (ARGPARSE_INVALID_CHOICE_ERROR_ (some value) NO_FLAG, parser1, s.mem))) ∧
    (∃ parser1,
      argparse_parse_args sample_float_ops
          (sample_setup ["--value", "52"] [value_option_with_choices] []) sample_memory
        = .ok (ARGPARSE_INVALID_CHOICE_ERROR_ (some "--value".toList) NO_FLAG, parser1,
            sample_memory)) ∧
    (∃ parser1 mem1,
      argparse_parse_args sample_float_ops
          (sample_setup ["--value", "52"] [string_option_50_to_55] []) sample_memory
        = .ok (ARGPARSE_NO_ERROR_, parser1, mem1) ∧ mem1 1 = .str "52".toList ∧
      parser1.options_.map argparse_arg_t.count_ = [1]) ∧
    (∃ parser1,
      argparse_parse_args sample_float_ops
          (sample_setup ["--value", "52"] [string_option_1_to_5] []) sample_memory
        = .ok (ARGPARSE_INVALID_CHOICE_ERROR_ (some "--value".toList) NO_FLAG, parser1,
            sample_memory)) := by
  refine ⟨get_and_update_value_choice, ?_, ?_, ⟨_, rfl⟩, ⟨_, _, rfl, rfl, rfl⟩, ⟨_, rfl⟩⟩
  · intro fp parser mem visited s token value k negated arg w hr hv hv1 hres hk ha hset hw
    obtain ⟨hst, _⟩ := reaches_static fp parser mem visited s hr
    have hargv : s.parser.argv_ = parser.argv_ := static_argv _ _ hst
    have hvs : s.parser.argv_[s.i]? = some token := by rw [hargv]; exact hv
    have hvs1 : s.parser.argv_[s.i + 1]? = some value := by rw [hargv]; exact hv1
    have hres1 : resolves_to s.parser.options_ token k negated :=
      (resolves_to_static_iff parser.options_ s.parser.options_ token k negated
        (static_options _ _ hst)).2 hres
    obtain ⟨c, hk1⟩ := reaches_option fp parser mem visited s hr k arg hk
    have hg := get_and_update_value_choice fp s.st (.option k) s.i false negated
      { arg with count_ := c } value w
      (by simpa [argument_parser_t.deref, ScanState.st] using hk1) ha
      (by simpa [ScanState.st] using hvs1) hset hw
    have hlt : s.i < s.parser.argc_ := by
      by_contra hc
      rw [List.getElem?_eq_none (not_lt.mp hc)] at hvs
      cases hvs
    constructor
    · intro hin
      rw [parse_token_resolves fp s token k negated hvs hres1]
      simp only [bind_found, hg.1 hin, Comp.bind_ok]
      exact ⟨_, rfl, rfl, rfl⟩
    · intro hin
      have hp : ∃ s1, parse_token fp s =
          .ok (ARGPARSE_INVALID_CHOICE_ERROR_ (some token) NO_FLAG, s1) ∧ s1.mem = s.mem := by
        rw [parse_token_resolves fp s token k negated hvs hres1]
        simp only [bind_found, hg.2 hin, Comp.bind_ok]
        simp only [ScanState.st, hvs]
        exact ⟨_, rfl, rfl⟩
      obtain ⟨s1, hp, hmem⟩ := hp
      refine ⟨s1.parser, ?_⟩
      rw [reaches_error fp parser mem visited s s1 _ hr hlt hp rfl, hmem]
  · intro fp parser mem visited s value arg w hr hv hd hk ha hset hw
    obtain ⟨hst, _⟩ := reaches_static fp parser mem visited s hr
    have hargv : s.parser.argv_ = parser.argv_ := static_argv _ _ hst
    have hvs : s.parser.argv_[s.i]? = some value := by rw [hargv]; exact hv
    obtain ⟨c, hk1⟩ := reaches_positional fp parser mem visited s hr s.positional_i arg hk
    have hlen : s.positional_i < s.parser.positional_args_.length := by
      by_contra hc
      rw [List.getElem?_eq_none (not_lt.mp hc)] at hk1
      cases hk1
    have hg := get_and_update_value_choice fp s.st (.positional s.positional_i) s.i true false
      { arg with count_ := c } value w
      (by simpa [argument_parser_t.deref, ScanState.st] using hk1) ha
      (by simpa [ScanState.st] using hvs) hset hw
    have hlt : s.i < s.parser.argc_ := by
      by_contra hc
      rw [List.getElem?_eq_none (not_lt.mp hc)] at hvs
      cases hvs
    have hstep := parse_token_no_dash fp s value hvs hd
    rw [if_pos hlen] at hstep
    constructor
    · intro hin
      rw [hstep]
      simp only [hg.1 hin, Comp.bind_ok]
      exact ⟨_, rfl, rfl, rfl⟩
    · intro hin
      have hp : ∃ s1, parse_token fp s =
          .ok (ARGPARSE_INVALID_CHOICE_ERROR_ (some value) NO_FLAG, s1) ∧ s1.mem = s.mem := by
        rw [hstep]
        simp only [hg.2 hin, Comp.bind_ok]
        simp only [ScanState.st, hvs]
        exact ⟨_, rfl, rfl⟩
      obtain ⟨s1, hp, hmem⟩ := hp
      refine ⟨s1.parser, ?_⟩
      rw [reaches_error fp parser mem visited s s1 _ hr hlt hp rfl, hmem]

theorem choice_validation_witness :
    ∃ parser1,
      argparse_parse_args sample_float_ops
          (sample_setup ["4"] [] [level_positional]) sample_memory
        = .ok (ARGPARSE_INVALID_CHOICE_ERROR_ (some "4".toList) NO_FLAG, parser1,
            sample_memory) :=
  (choice_validation.2.2.1 sample_float_ops (sample_setup ["4"] [] [level_positional])
    sample_memory [] ⟨sample_setup ["4"] [] [level_positional], sample_memory, 0, 0⟩
    "4".toList level_positional (.int 4) Reaches.start rfl rfl rfl rfl (by decide) rfl).2
    (by decide)

/-- A cluster walk over `pre ++ rest` is the walk over `pre` followed, when that returns
no error, by the walk over `rest`. -/
theorem group_loop_append (fp : FloatOps) (arg_string : CStr) (pre rest : List Char) :
    ∀ (st : State) (i : Nat),
      group_loop fp arg_string (pre ++ rest) st i =
        (group_loop fp arg_string pre st i).bind fun (e, st1, i1) =>
          if is_error e then .ok (e, st1, i1) else group_loop fp arg_string rest st1 i1 := by
  induction pre with
  | nil => intro st i; rfl
  | cons c pre ih =>
    intro st i
    simp only [List.cons_append, group_loop]
    cases hf : find_arg st.parser.options_ (FLAG_TO_FIND c) with
    | ok found =>
      simp only [Comp.bind_ok]
      cases found with
      | none => rfl
      | some k =>
        simp only
        cases hk : st.parser.options_[k]? with
        | none => rfl
        | some arg =>
          simp only
          cases hg : get_and_update_value fp st (.option k) i
              (arg.action_ != ARGPARSE_STORE_ACTION) false with
          | ok r =>
            obtain ⟨e, st1, i1⟩ := r
            simp only [Comp.bind_ok]
            by_cases he : is_error e = true
            · simp only [he, if_true, Comp.bind_ok]
            · simp only [he, if_false]
              exact ih st1 i1
          | exit n => rfl
          | undef => rfl
          | diverge => rfl
    | exit n => rfl
    | undef => rfl
    | diverge => rfl

/-- A character that is the flag of no record of the list: the flag lookup returns
NULL, and only then. -/
theorem find_arg_from_flag_none (c : Char) (l : List argparse_arg_t) :
    ∀ (i : Nat), find_arg_from (FLAG_TO_FIND c) l i = .ok none ↔ ∀ arg ∈ l, arg.flag_ ≠ c := by
  induction l with
  | nil => intro i; simp [find_arg_from]
  | cons a rest ih =>
    intro i
    simp only [find_arg_from, List.mem_cons, forall_eq_or_imp]
    by_cases hc : c = a.flag_
    · simp [hc]
    · simp only [hc, if_false, ih (i + 1)]
      exact ⟨fun h => ⟨fun e => hc e.symm, h⟩, fun h => h.2⟩

theorem find_arg_flag_none (l : List argparse_arg_t) (c : Char) :
    find_arg l (FLAG_TO_FIND c) = .ok none ↔ ∀ arg ∈ l, arg.flag_ ≠ c :=
  find_arg_from_flag_none c l 0

/-- The iteration for a two-character token whose second character is the flag of no
option. -/
theorem parse_token_unknown_flag (fp : FloatOps) (s : ScanState) (token : CStr)
    (hv : s.parser.argv_[s.i]? = some token) (hlen : token.length = 2)
    (hd : starts_with token "-".toList = true) (hh : token ≠ "-h".toList)
    (hf : find_arg s.parser.options_ (FLAG_TO_FIND (token.getD 1 NO_FLAG)) = .ok none) :
    parse_token fp s = .ok (ARGPARSE_ARGUMENT_UNKNOWN_ERROR_ (some token), s) := by
  have h2 : token ≠ "--help".toList := by
    intro e; rw [e] at hlen; simp at hlen
  unfold parse_token
  simp only [hv, hh, h2, or_self, if_false, hlen, hd, and_self, if_true, hf, Comp.bind_ok,
    Option.map_none', bind_found]

/-- The iteration for a token that both name lookups miss and whose walk as a cluster
comes, without error, to a character that is the flag of no option. -/
theorem parse_token_unknown_cluster (fp : FloatOps) (s : ScanState) (token : CStr)
    (negated : Bool) (pre rest : List Char) (c : Char) (e : argparse_error_t) (st1 : State)
    (i1 : Nat) (hv : s.parser.argv_[s.i]? = some token) (hlen : token.length ≠ 2)
    (hd : starts_with token "-".toList = true) (hh : token ≠ "--help".toList)
    (hl : find_long s.parser.options_ token = .ok (none, negated))
    (hsplit : token.drop 1 = pre ++ c :: rest)
    (hpre : group_loop fp token pre s.st s.i = .ok (e, st1, i1)) (he : is_error e = false)
    (hf : find_arg s.parser.options_ (FLAG_TO_FIND c) = .ok none) :
    parse_token fp s = .ok (ARGPARSE_ARGUMENT_UNKNOWN_ERROR_ (some token), s.update st1 i1) := by
  have h1 : token ≠ "-h".toList := by
    intro e; rw [e] at hlen; simp at hlen
  have hst := (group_loop_frame fp token pre s.st st1 s.i i1 e hpre).1
  have hf1 : find_arg st1.parser.options_ (FLAG_TO_FIND c) = .ok none := by
    rw [find_arg_static s.st.parser.options_ st1.parser.options_ _ (static_options _ _ hst)]
    exact hf
  unfold parse_token
  simp only [hv, h1, hh, or_self, if_false, hlen, false_and, hd, if_true, hl, Comp.bind_ok,
    hsplit]
  rw [group_loop_append, hpre]
  simp only [Comp.bind_ok, he, Bool.false_eq_true, if_false, group_loop, hf1]

/-- C12 (unknown dash token), as amended.  At a loop head of the scan whose token starts
with `-`: (1) when the token has two characters, is not `-h`, and its second character is
the flag of no option, the iteration returns `ArgumentUnknown` carrying the token from an
unchanged state (the positional index included), and so does `argparse_parse_args`; (2)
when the token has not two characters, is not `--help`, every option has a name, the
token is the name of no option and not the negated form of a toggle, and the walk of its
characters after the first `-` comes without error to a character that is the flag of no
option, `argparse_parse_args` returns `ArgumentUnknown` carrying the whole token, from the
state the walk had reached.  The tests `unknown_argument_0` and `unknown_argument_1`. -/
theorem unknown_dash_token :
    (∀ (fp : FloatOps) (parser : argument_parser_t) (mem : Memory) (visited : List Nat)
        (s : ScanState) (token : CStr),
      Reaches fp parser mem visited s → parser.argv_[s.i]? = some token →
      token.length = 2 → starts_with token "-".toList = true → token ≠ "-h".toList →
      (∀ arg ∈ parser.options_, arg.flag_ ≠ token.getD 1 NO_FLAG) →
      parse_token fp s = .ok (ARGPARSE_ARGUMENT_UNKNOWN_ERROR_ (some token), s) ∧
      argparse_parse_args fp parser mem =
        .ok (ARGPARSE_ARGUMENT_UNKNOWN_ERROR_ (some token), s.parser, s.mem)) ∧
    (∀ (fp : FloatOps) (parser : argument_parser_t) (mem : Memory) (visited : List Nat)
        (s : ScanState) (token : CStr) (pre rest : List Char) (c : Char)
        (e : argparse_error_t) (st1 : State) (i1 : Nat),
      Reaches fp parser mem visited s → parser.argv_[s.i]? = some token →
      token.length ≠ 2 → starts_with token "-".toList = true → token ≠ "--help".toList →
      all_named parser.options_ → (∀ arg ∈ parser.options_, arg.name_ ≠ some token) →
      ¬ negates_toggle parser.options_ token →
      token.drop 1 = pre ++ c :: rest →
      group_loop fp token pre s.st s.i = .ok (e, st1, i1) → is_error e = false →
      (∀ arg ∈ parser.options_, arg.flag_ ≠ c) →
      argparse_parse_args fp parser mem =
        .ok (ARGPARSE_ARGUMENT_UNKNOWN_ERROR_ (some token), st1.parser, st1.mem)) ∧
    argparse_parse_args sample_float_ops (sample_setup ["--verbose"] [] []) sample_bool_memory
      = .ok (ARGPARSE_ARGUMENT_UNKNOWN_ERROR_ (some "--verbose".toList),
          sample_setup ["--verbose"] [] [], sample_bool_memory) ∧
    argparse_parse_args sample_float_ops (sample_setup ["--verbos"] [verbose_toggle] [])
        sample_bool_memory
      = .ok (ARGPARSE_ARGUMENT_UNKNOWN_ERROR_ (some "--verbos".toList),
          sample_setup ["--verbos"] [verbose_toggle] [], sample_bool_memory) := by
  refine ⟨?_, ?_, rfl, rfl⟩
  · intro fp parser mem visited s token hr hv hlen hd hh hf
    obtain ⟨hst, _⟩ := reaches_static fp parser mem visited s hr
    have hargv : s.parser.argv_ = parser.argv_ := static_argv _ _ hst
    have hvs : s.parser.argv_[s.i]? = some token := by rw [hargv]; exact hv
    have hlt : s.i < s.parser.argc_ := by
      by_contra hc
      rw [List.getElem?_eq_none (not_lt.mp hc)] at hvs
      cases hvs
    have hfs : find_arg s.parser.options_ (FLAG_TO_FIND (token.getD 1 NO_FLAG)) = .ok none := by
      rw [find_arg_static parser.options_ s.parser.options_ _ (static_options _ _ hst)]
      exact (find_arg_flag_none _ _).2 hf
    have hp := parse_token_unknown_flag fp s token hvs hlen hd hh hfs
    exact ⟨hp, reaches_error fp parser mem visited s s _ hr hlt hp rfl⟩
  · intro fp parser mem visited s token pre rest c e st1 i1 hr hv hlen hd hh hall hno hneg
      hsplit hpre he hf
    obtain ⟨hst, _⟩ := reaches_static fp parser mem visited s hr
    have hargv : s.parser.argv_ = parser.argv_ := static_argv _ _ hst
    have hvs : s.parser.argv_[s.i]? = some token := by rw [hargv]; exact hv
    have hlt : s.i < s.parser.argc_ := by
      by_contra hc
      rw [List.getElem?_eq_none (not_lt.mp hc)] at hvs
      cases hvs
    have hfs : find_arg s.parser.options_ (FLAG_TO_FIND c) = .ok none := by
      rw [find_arg_static parser.options_ s.parser.options_ _ (static_options _ _ hst)]
      exact (find_arg_flag_none _ _).2 hf
    have hl : find_long s.parser.options_ token = .ok (none, false) := by
      rw [find_long_static parser.options_ s.parser.options_ _ (static_options _ _ hst)]
      exact find_long_unmatched parser.options_ token hall hno hneg
    have hp := parse_token_unknown_cluster fp s token false pre rest c e st1 i1 hvs hlen hd hh
      hl hsplit hpre he hfs
    exact reaches_error fp parser mem visited s _ _ hr hlt hp rfl

theorem unknown_dash_token_witness :
    argparse_parse_args sample_float_ops (sample_setup ["-vx"] [verbose_toggle] [])
        sample_bool_memory
      = .ok (ARGPARSE_ARGUMENT_UNKNOWN_ERROR_ (some "-vx".toList),
          sample_setup ["-vx"] [{ verbose_toggle with count_ := 1 }] [],
          sample_bool_memory.write 1 (.bool true)) :=
  unknown_dash_token.2.1 sample_float_ops (sample_setup ["-vx"] [verbose_toggle] [])
    sample_bool_memory [] ⟨sample_setup ["-vx"] [verbose_toggle] [], sample_bool_memory, 0, 0⟩
    "-vx".toList ['v'] [] 'x' ARGPARSE_NO_ERROR_
    ⟨sample_setup ["-vx"] [{ verbose_toggle with count_ := 1 }] [],
      sample_bool_memory.write 1 (.bool true)⟩ 0
    Reaches.start rfl (by decide) rfl (by decide) (by decide) (by decide) (by decide) rfl rfl
    rfl (by decide)

/-- C12, the claim as stated fails: a lone `-` starts with `-` and resolves to no record,
and the parse goes on without error; the tokens `-h` and `--help` start with `-`, their
characters are flags of no option and they are names of no option, and the parse ends the
process with status 0; and with an option registered by its flag alone, the name lookup
of the token `--bogus` compares it with the absent name of that record. -/
theorem unknown_dash_token_counterexample :
    argparse_parse_args sample_float_ops (sample_setup ["-"] [verbose_toggle] [])
        sample_bool_memory
      = .ok (ARGPARSE_NO_ERROR_, sample_setup ["-"] [verbose_toggle] [], sample_bool_memory) ∧
    (∀ arg ∈ [verbose_toggle], arg.flag_ ≠ 'h' ∧ arg.name_ ≠ some "--help".toList) ∧
    argparse_parse_args sample_float_ops (sample_setup ["-h"] [verbose_toggle] [])
        sample_bool_memory = .exit 0 ∧
    argparse_parse_args sample_float_ops (sample_setup ["--help"] [verbose_toggle] [])
        sample_bool_memory = .exit 0 ∧
    find_long [flag_v_count] "--bogus".toList = .undef ∧
    argparse_parse_args sample_float_ops (sample_setup ["--bogus"] [flag_v_count] [])
        sample_memory = .undef :=
  ⟨rfl, by decide, rfl, rfl, rfl, rfl⟩

/-! ## Registration: choices, two-character names, arrays of records, `argparse_init` -/

/-- C21 (choices only with `Store`).  For every parser and every record that has an
identity (a flag, or a name that is not empty), whose action is `StoreTrue`, `StoreFalse`
or `BooleanOptional` with type `Bool`, or `Count` with type `Int32`, and whose `choices_`
is not NULL, `argparse_add_argument` returns `UnsupportedChoices` with the name and the
flag of the record and leaves the parser as it was.  The four calls of the test
`unsupported_choices`. -/
theorem choices_only_with_store :
    (∀ (parser : argument_parser_t) (arg : argparse_arg_t),
      ¬ (arg.flag_ = NO_FLAG ∧ (arg.name_ = none ∨ arg.name_ = some [])) →
      ((arg.action_ = ARGPARSE_STORE_TRUE_ACTION ∨ arg.action_ = ARGPARSE_STORE_FALSE_ACTION ∨
          arg.action_ = ARGPARSE_BOOLEAN_OPTIONAL_ACTION) ∧ arg.type_ = ARGPARSE_BOOL_TYPE) ∨
        (arg.action_ = ARGPARSE_COUNT_ACTION ∧ arg.type_ = ARGPARSE_INT_TYPE) →
      arg.choices_ ≠ none →
      argparse_add_argument parser arg =
        .ok (ARGPARSE_UNSUPPORTED_CHOICES_ERROR_ arg.name_ arg.flag_, parser)) ∧
    argparse_add_argument empty_registry igloo_toggle_with_choices =
      .ok (ARGPARSE_UNSUPPORTED_CHOICES_ERROR_ (some "--igloo".toList) 'i', empty_registry) ∧
    argparse_add_argument empty_registry
        { igloo_toggle_with_choices with action_ := ARGPARSE_STORE_TRUE_ACTION } =
      .ok (ARGPARSE_UNSUPPORTED_CHOICES_ERROR_ (some "--igloo".toList) 'i', empty_registry) ∧
    argparse_add_argument empty_registry
        { igloo_toggle_with_choices with action_ := ARGPARSE_STORE_FALSE_ACTION } =
      .ok (ARGPARSE_UNSUPPORTED_CHOICES_ERROR_ (some "--igloo".toList) 'i', empty_registry) ∧
    argparse_add_argument empty_registry igloo_count_with_choices =
      .ok (ARGPARSE_UNSUPPORTED_CHOICES_ERROR_ (some "--igloo".toList) 'i', empty_registry) := by
  refine ⟨?_, rfl, rfl, rfl, rfl⟩
  intro parser arg h1 h hc
  have h2 : is_valid_type arg.type_ = true := by
    rcases h with ⟨_, ht⟩ | ⟨_, ht⟩ <;> rw [ht] <;> rfl
  have hsome : arg.choices_.isSome = true := by
    cases hch : arg.choices_ with
    | none => exact absurd hch hc
    | some c => rfl
  rw [add_argument_unfold parser arg h1 h2]
  have hca : check_action arg (positional_of arg) =
      some (ARGPARSE_UNSUPPORTED_CHOICES_ERROR_ arg.name_ arg.flag_) := by
    unfold check_action
    rcases h with ⟨ha | ha | ha, ht⟩ | ⟨ha, ht⟩
    · simp [ha, ht, hsome]
    · simp [ha, ht, hsome]
    · simp [ha, ht, hsome]
    · simp [ha, ht, hsome]
  rw [hca]

theorem choices_only_with_store_witness :
    argparse_add_argument value1_registry
        { igloo_count_with_choices with name_ := none, choices_ := some (.strs []) } =
      .ok (ARGPARSE_UNSUPPORTED_CHOICES_ERROR_ none 'i', value1_registry) :=
  choices_only_with_store.1 value1_registry
    { igloo_count_with_choices with name_ := none, choices_ := some (.strs []) }
    (by decide) (Or.inr ⟨rfl, rfl⟩) (by decide)

/-- The options of a registry go to the options sequence by the local `positional`, and
none has a name of two characters. -/
theorem registry_option_names (parser : argument_parser_t) (h : Registry parser) :
    ∀ arg ∈ parser.options_,
      positional_of arg = false ∧ (arg.name_.map List.length) ≠ some 2 := by
  refine registry_induction
    (fun p => ∀ arg ∈ p.options_,
      positional_of arg = false ∧ (arg.name_.map List.length) ≠ some 2)
    ?_ ?_ parser h
  · intro p ho _ arg ha
    rw [ho] at ha
    cases ha
  · intro p arg ih hpc _
    unfold appended
    by_cases hpos : positional_of arg = true
    · rw [if_pos hpos]; exact ih
    · rw [if_neg hpos]
      intro a ha
      rcases List.mem_append.1 ha with h1 | h1
      · exact ih a h1
      · rw [List.mem_singleton.1 h1]
        have hp5 := hpc.1.2.2.2.2
        refine ⟨by simpa using hpos, fun h2 => hp5 ⟨h2, hpos⟩⟩

/-- C22 (bare-prefix name).  (1) For every parser and every record whose name has exactly
two characters and starts with `-` (`--`, `-x`), whose type is of the enumeration and
that passes the action checks, `argparse_add_argument` returns `InvalidFlagOrName` and
leaves the parser as it was, with or without a flag.  (2) In a registry reached from
`argparse_init` by registration calls no record of the options sequence has a name of two
characters.  (3) The test `invalid_name` and the name `-x`. -/
theorem bare_prefix_name :
    (∀ (parser : argument_parser_t) (arg : argparse_arg_t) (name : CStr),
      arg.name_ = some name → name.length = 2 → starts_with name "-".toList = true →
      is_valid_type arg.type_ = true → check_action arg false = none →
      argparse_add_argument parser arg =
        .ok (ARGPARSE_INVALID_FLAG_OR_NAME_ERROR_ none, parser)) ∧
    (∀ (parser : argument_parser_t), Registry parser →
      ∀ arg ∈ parser.options_, ∀ name, arg.name_ = some name → name.length ≠ 2) ∧
    argparse_add_argument empty_registry bare_prefix_option =
      .ok (ARGPARSE_INVALID_FLAG_OR_NAME_ERROR_ none, empty_registry) ∧
    argparse_add_argument value1_registry
        { bare_prefix_option with flag_ := 'x', name_ := some "-x".toList } =
      .ok (ARGPARSE_INVALID_FLAG_OR_NAME_ERROR_ none, value1_registry) := by
  refine ⟨?_, ?_, rfl, rfl⟩
  · intro parser arg name hn hlen hdash ht hca
    have hpos : positional_of arg = false := by
      unfold positional_of; rw [hn]
      simp only [hdash, Bool.not_true]
    have h1 : ¬ (arg.flag_ = NO_FLAG ∧ (arg.name_ = none ∨ arg.name_ = some [])) := by
      rintro ⟨_, h | h⟩
      · rw [hn] at h; cases h
      · rw [hn] at h
        simp only [Option.some.injEq] at h
        rw [h] at hlen; cases hlen
    rw [add_argument_unfold parser arg h1 ht, hpos, hca]
    simp only [hn, Option.map_some', hlen]
    simp
  · intro parser hr arg ha name hn hlen
    have := (registry_option_names parser hr arg ha).2
    rw [hn] at this
    simp only [Option.map_some', hlen] at this
    exact this rfl

theorem bare_prefix_name_witness :
    argparse_add_argument empty_registry bare_prefix_option =
      .ok (ARGPARSE_INVALID_FLAG_OR_NAME_ERROR_ none, empty_registry) :=
  bare_prefix_name.1 empty_registry bare_prefix_option "--".toList rfl rfl rfl rfl rfl

/-- Records registered one after the other without error: `argparse_add_arguments` on
the list returns no error and the same parser. -/
theorem add_arguments_of_added (parser parser1 : argument_parser_t)
    (args : List argparse_arg_t) (h : AddedInTurn parser args parser1) :
    argparse_add_arguments parser args = .ok (ARGPARSE_NO_ERROR_, parser1) := by
  induction h with
  | nil p => rfl
  | cons h1 he _ ih =>
    simp only [argparse_add_arguments, h1, Comp.bind_ok, he, Bool.false_eq_true, if_false]
    exact ih

/-- Records registered one after the other without error, followed by a record that is
refused: `argparse_add_arguments` returns the error of that record and the parser as it
was before it, whatever records follow. -/
theorem add_arguments_stops (parser parser1 parser2 : argument_parser_t)
    (pre post : List argparse_arg_t) (bad : argparse_arg_t) (e : argparse_error_t)
    (h : AddedInTurn parser pre parser1)
    (hbad : argparse_add_argument parser1 bad = .ok (e, parser2)) (he : is_error e = true) :
    argparse_add_arguments parser (pre ++ bad :: post) = .ok (e, parser1) := by
  induction h with
  | nil p =>
    have hp2 : parser2 = p := by
      rcases add_argument_cases p parser2 bad e hbad with ⟨hno, _⟩ | ⟨_, hp⟩
      · rw [he] at hno; cases hno
      · exact hp
    simp only [List.nil_append, argparse_add_arguments, hbad, Comp.bind_ok, he, if_true, hp2]
  | cons h1 he1 _ ih =>
    simp only [List.cons_append, argparse_add_arguments, h1, Comp.bind_ok, he1,
      Bool.false_eq_true, if_false]
    exact ih hbad

/-- A call of `argparse_add_arguments` that returns: either every record was registered
in turn, or the records before some record were and that record was refused with the
error returned. -/
theorem add_arguments_cases (args : List argparse_arg_t) :
    ∀ (parser parser1 : argument_parser_t) (e : argparse_error_t),
      argparse_add_arguments parser args = .ok (e, parser1) →
      (e = ARGPARSE_NO_ERROR_ ∧ AddedInTurn parser args parser1) ∨
      (is_error e = true ∧ ∃ pre bad post, args = pre ++ bad :: post ∧
        AddedInTurn parser pre parser1 ∧
        argparse_add_argument parser1 bad = .ok (e, parser1)) := by
  induction args with
  | nil =>
    intro parser parser1 e h
    simp only [argparse_add_arguments, Comp.ok.injEq, Prod.mk.injEq] at h
    rw [← h.1, ← h.2]
    exact Or.inl ⟨rfl, AddedInTurn.nil parser⟩
  | cons arg rest ih =>
    intro parser parser1 e h
    simp only [argparse_add_arguments] at h
    rw [Comp.bind_eq_ok] at h
    obtain ⟨⟨e1, p2⟩, h1, h⟩ := h
    simp only at h
    by_cases he1 : is_error e1 = true
    · rw [if_pos he1] at h
      simp only [Comp.ok.injEq, Prod.mk.injEq] at h
      obtain ⟨rfl, rfl⟩ := h
      have hp2 : p2 = parser := by
        rcases add_argument_cases parser p2 arg e1 h1 with ⟨hno, _⟩ | ⟨_, hp⟩
        · rw [he1] at hno; cases hno
        · exact hp
      subst hp2
      exact Or.inr ⟨he1, [], arg, rest, rfl, AddedInTurn.nil _, h1⟩
    · rw [if_neg he1] at h
      have he1f : is_error e1 = false := by simpa using he1
      rcases ih p2 parser1 e h with ⟨hno, hadd⟩ | ⟨herr, pre, bad, post, hsplit, hadd, hbad⟩
      · exact Or.inl ⟨hno, AddedInTurn.cons h1 he1f hadd⟩
      · refine Or.inr ⟨herr, arg :: pre, bad, post, ?_, AddedInTurn.cons h1 he1f hadd, hbad⟩
        rw [hsplit]; rfl

/-- C23 (`argparse_add_arguments` stops at the first failure).  (1) When the records
before some record of the array are registered one after the other without error and
that record is refused, `argparse_add_arguments` returns the error of that record; the
parser is the one after the records before it: each sequence is the sequence before the
call followed by those of these records that belong to it, in their order, and neither
the refused record nor a later one is inserted.  (2) When every record is registered
without error, it returns "no error" and the parser is the one of the registrations one
by one.  (3) Every call that returns is one of the two.  (4) The test `add_arguments`,
and the same array with a copy of its first record in third place. -/
theorem add_arguments_first_failure :
    (∀ (parser parser1 parser2 : argument_parser_t) (pre post : List argparse_arg_t)
        (bad : argparse_arg_t) (e : argparse_error_t),
      AddedInTurn parser pre parser1 →
      argparse_add_argument parser1 bad = .ok (e, parser2) → is_error e = true →
      argparse_add_arguments parser (pre ++ bad :: post) = .ok (e, parser1) ∧
      parser1.options_ = parser.options_ ++ (pre.filter fun arg => !positional_of arg) ∧
      parser1.positional_args_ = parser.positional_args_ ++ pre.filter positional_of) ∧
    (∀ (parser parser1 : argument_parser_t) (args : List argparse_arg_t),
      AddedInTurn parser args parser1 →
      argparse_add_arguments parser args = .ok (ARGPARSE_NO_ERROR_, parser1)) ∧
    (∀ (parser parser1 : argument_parser_t) (args : List argparse_arg_t)
        (e : argparse_error_t),
      argparse_add_arguments parser args = .ok (e, parser1) →
      (e = ARGPARSE_NO_ERROR_ ∧ AddedInTurn parser args parser1) ∨
      (is_error e = true ∧ ∃ pre bad post, args = pre ++ bad :: post ∧
        AddedInTurn parser pre parser1 ∧
        argparse_add_argument parser1 bad = .ok (e, parser1))) ∧
    argparse_add_arguments empty_registry x_y_z_sum_options =
      .ok (ARGPARSE_NO_ERROR_, { empty_registry with options_ := x_y_z_sum_options }) ∧
    argparse_add_arguments empty_registry
        (x_y_z_sum_options.take 2 ++ x_y_z_sum_options.take 1 ++ x_y_z_sum_options.drop 2) =
      .ok (ARGPARSE_CONFLICTING_OPTIONS_ERROR_ none 'x',
        { empty_registry with options_ := x_y_z_sum_options.take 2 }) := by
  refine ⟨?_, add_arguments_of_added, fun parser parser1 args e h =>
    add_arguments_cases args parser parser1 e h, rfl, rfl⟩
  intro parser parser1 parser2 pre post bad e hadd hbad he
  refine ⟨add_arguments_stops parser parser1 parser2 pre post bad e hadd hbad he, ?_⟩
  have hord := add_arguments_order pre parser parser1 ARGPARSE_NO_ERROR_
    (add_arguments_of_added parser parser1 pre hadd) rfl
  exact ⟨congrArg argument_parser_t.options_ hord,
    congrArg argument_parser_t.positional_args_ hord⟩

theorem add_arguments_first_failure_witness :
    argparse_add_arguments empty_registry [value1_option, value2_option, hello_option] =
      .ok (ARGPARSE_CONFLICTING_OPTIONS_ERROR_ none 'v', value1_registry) ∧
    value1_registry.options_ = empty_registry.options_ ++
      ([value1_option].filter fun arg => !positional_of arg) ∧
    value1_registry.positional_args_ = empty_registry.positional_args_ ++
      [value1_option].filter positional_of :=
  add_arguments_first_failure.1 empty_registry value1_registry value1_registry
    [value1_option] [hello_option] value2_option (ARGPARSE_CONFLICTING_OPTIONS_ERROR_ none 'v')
    (AddedInTurn.cons (rfl : argparse_add_argument empty_registry value1_option =
      .ok (ARGPARSE_NO_ERROR_, value1_registry)) rfl (AddedInTurn.nil _))
    rfl rfl

/-- C29 (`argparse_init` drops the program name).  On an argument vector of at least one
element `argparse_init` returns "no error"; the token vector of the parser is the vector
without its first element (`argc_` is `argc - 1` and `argv_[i]` is `argv[i + 1]`),
`prog_` is `argv[0]`, the description and the epilog are the ones given, and both
sequences are empty. -/
theorem init_drops_program_name (argv : List CStr) (description epilog : Option CStr)
    (h : 1 ≤ argv.length) :
    (argparse_init argv description epilog).1 = ARGPARSE_NO_ERROR_ ∧
    (argparse_init argv description epilog).2.argc_ = argv.length - 1 ∧
    (∀ i, (argparse_init argv description epilog).2.argv_[i]? = argv[i + 1]?) ∧
    (argparse_init argv description epilog).2.prog_ = argv[0]? ∧
    (argparse_init argv description epilog).2.prog_ ≠ none ∧
    (argparse_init argv description epilog).2.description_ = description ∧
    (argparse_init argv description epilog).2.epilog_ = epilog ∧
    (argparse_init argv description epilog).2.options_ = [] ∧
    (argparse_init argv description epilog).2.positional_args_ = [] := by
  cases argv with
  | nil => cases h
  | cons prog rest =>
    refine ⟨rfl, ?_, ?_, ?_, ?_, rfl, rfl, rfl, rfl⟩
    · simp [argparse_init, argument_parser_t.argc_]
    · intro i
      simp [argparse_init]
    · simp [argparse_init]
    · simp [argparse_init]

/-- The vector of the test `store_multi_int`: six tokens after `./prog`. -/
theorem init_drops_program_name_witness :
    (1 ≤ store_multi_int_argv.length ∧ store_multi_int_argv.length - 1 = 6) ∧
    (argparse_init store_multi_int_argv (some "Storing multiple ints".toList) none).2.argc_ =
      store_multi_int_argv.length - 1 ∧
    (argparse_init store_multi_int_argv (some "Storing multiple ints".toList) none).2.prog_ =
      store_multi_int_argv[0]? ∧
    (argparse_init store_multi_int_argv (some "Storing multiple ints".toList) none).2.argv_ =
      ["--value1".toList, "52".toList, "--value2".toList, "42".toList, "--sum".toList,
        "94".toList] :=
  ⟨⟨by decide, rfl⟩,
    (init_drops_program_name store_multi_int_argv (some "Storing multiple ints".toList) none
      (by decide)).2.1,
    (init_drops_program_name store_multi_int_argv (some "Storing multiple ints".toList) none
      (by decide)).2.2.2.1, rfl⟩

/-! ## `StoreTrue` / `StoreFalse`, and the order of the finalisation -/

/-- The iteration for a token that resolves to a `StoreTrue` or `StoreFalse` record of
type `Bool`. -/
theorem parse_token_flag (fp : FloatOps) (s : ScanState) (token : CStr) (k : Nat)
    (negated b : Bool) (arg : argparse_arg_t)
    (hv : s.parser.argv_[s.i]? = some token)
    (hr : resolves_to s.parser.options_ token k negated)
    (hk : s.parser.options_[k]? = some arg) (ht : arg.type_ = ARGPARSE_BOOL_TYPE)
    (ha : (arg.action_ = ARGPARSE_STORE_TRUE_ACTION ∧ b = true) ∨
      (arg.action_ = ARGPARSE_STORE_FALSE_ACTION ∧ b = false)) :
    parse_token fp s = .ok (ARGPARSE_NO_ERROR_,
      { parser := { s.parser with
          options_ := s.parser.options_.set k { arg with count_ := arg.count_ + 1 } },
        mem := s.mem.write arg.value_ (.bool b), i := s.i,
        positional_i := s.positional_i }) := by
  rw [parse_token_resolves fp s token k negated hv hr]
  have hg := get_and_update_value_bool fp s.st (.option k) s.i false negated arg
    (by simpa [argument_parser_t.deref, ScanState.st] using hk) ht
  rcases ha with ⟨ha, rfl⟩ | ⟨ha, rfl⟩
  · simp only [bind_found, hg.1 ha, Comp.bind_ok]
    rfl
  · simp only [bind_found, hg.2.1 ha, Comp.bind_ok]
    rfl

/-- C24 (`StoreTrue` / `StoreFalse`).  (1) Every binding of a `StoreTrue` record of type
`Bool` (the type registration requires) writes true to its storage, every binding of a
`StoreFalse` record writes false; the count of the record grows by one and `i` is left
where it was.  (2) At a loop head of the scan whose token resolves, by its flag or by its
name, to such a record, the iteration returns no error, writes that literal and changes
nothing else but the count of the record; the next loop head is at the following token,
which is classified on its own.  (3) The tests `flag_false` and `flag_false_override`:
`--disable-logging`, `--enable-logging` on two records bound to the same storage leave it
true, each count 1. -/
theorem store_true_false :
    (∀ (fp : FloatOps) (st : State) (ref : ArgRef) (i : Nat) (positional negated b : Bool)
        (arg : argparse_arg_t),
      st.parser.deref ref = some arg → arg.type_ = ARGPARSE_BOOL_TYPE →
      (arg.action_ = ARGPARSE_STORE_TRUE_ACTION ∧ b = true) ∨
        (arg.action_ = ARGPARSE_STORE_FALSE_ACTION ∧ b = false) →
      get_and_update_value fp st ref i positional negated =
        .ok (ARGPARSE_NO_ERROR_,
          { parser := st.parser.assign ref { arg with count_ := arg.count_ + 1 },
            mem := st.mem.write arg.value_ (.bool b) }, i)) ∧
    (∀ (fp : FloatOps) (parser : argument_parser_t) (mem : Memory) (visited : List Nat)
        (s : ScanState) (token : CStr) (k : Nat) (negated b : Bool) (arg : argparse_arg_t),
      Reaches fp parser mem visited s → parser.argv_[s.i]? = some token →
      resolves_to parser.options_ token k negated → parser.options_[k]? = some arg →
      arg.type_ = ARGPARSE_BOOL_TYPE →
      (arg.action_ = ARGPARSE_STORE_TRUE_ACTION ∧ b = true) ∨
        (arg.action_ = ARGPARSE_STORE_FALSE_ACTION ∧ b = false) →
      ∃ c, s.parser.options_[k]? = some { arg with count_ := c } ∧
        parse_token fp s = .ok (ARGPARSE_NO_ERROR_,
          { parser := { s.parser with
              options_ := s.parser.options_.set k { arg with count_ := c + 1 } },
            mem := s.mem.write arg.value_ (.bool b), i := s.i,
            positional_i := s.positional_i }) ∧
        Reaches fp parser mem (visited ++ [s.i])
          { parser := { s.parser with
              options_ := s.parser.options_.set k { arg with count_ := c + 1 } },
            mem := s.mem.write arg.value_ (.bool b), i := s.i + 1,
            positional_i := s.positional_i }) ∧
    (∃ parser1 mem1,
      argparse_parse_args sample_float_ops
          (sample_setup ["--disable-logging"] [disable_logging_flag] []) sample_true_memory
        = .ok (ARGPARSE_NO_ERROR_, parser1, mem1) ∧ mem1 1 = .bool false ∧
      parser1.options_.map argparse_arg_t.count_ = [1]) ∧
    (∃ parser1 mem1,
      argparse_parse_args sample_float_ops
          (sample_setup ["--disable-logging", "--enable-logging"] logging_flags [])
          sample_bool_memory
        = .ok (ARGPARSE_NO_ERROR_, parser1, mem1) ∧ mem1 1 = .bool true ∧
      parser1.options_.map argparse_arg_t.count_ = [1, 1]) := by
  refine ⟨?_, ?_, ⟨_, _, rfl, rfl, rfl⟩, ⟨_, _, rfl, rfl, rfl⟩⟩
  · intro fp st ref i positional negated b arg hd ht ha
    have hg := get_and_update_value_bool fp st ref i positional negated arg hd ht
    rcases ha with ⟨ha, rfl⟩ | ⟨ha, rfl⟩
    · exact hg.1 ha
    · exact hg.2.1 ha
  · intro fp parser mem visited s token k negated b arg hr hv hres hk ht ha
    obtain ⟨hst, _⟩ := reaches_static fp parser mem visited s hr
    have hargv : s.parser.argv_ = parser.argv_ := static_argv _ _ hst
    have hvs : s.parser.argv_[s.i]? = some token := by rw [hargv]; exact hv
    have hres1 : resolves_to s.parser.options_ token k negated :=
      (resolves_to_static_iff parser.options_ s.parser.options_ token k negated
        (static_options _ _ hst)).2 hres
    obtain ⟨c, hk1⟩ := reaches_option fp parser mem visited s hr k arg hk
    have hlt : s.i < s.parser.argc_ := by
      by_contra hc
      rw [List.getElem?_eq_none (not_lt.mp hc)] at hvs
      cases hvs
    have hp := parse_token_flag fp s token k negated b { arg with count_ := c } hvs hres1 hk1
      ht ha
    exact ⟨c, hk1, hp, Reaches.next hr hlt hp rfl⟩

theorem store_true_false_witness :
    ∃ c, (sample_setup ["-e", "-d"] logging_flags []).options_[1]? =
        some { enable_logging_flag with count_ := c } ∧
      parse_token sample_float_ops ⟨sample_setup ["-e", "-d"] logging_flags [],
          sample_bool_memory, 0, 0⟩ =
        .ok (ARGPARSE_NO_ERROR_,
          { parser := { sample_setup ["-e", "-d"] logging_flags [] with
              options_ := (sample_setup ["-e", "-d"] logging_flags []).options_.set 1
                { enable_logging_flag with count_ := c + 1 } },
            mem := sample_bool_memory.write 1 (.bool true), i := 0, positional_i := 0 }) ∧
      Reaches sample_float_ops (sample_setup ["-e", "-d"] logging_flags []) sample_bool_memory
        ([] ++ [0])
        { parser := { sample_setup ["-e", "-d"] logging_flags [] with
            options_ := (sample_setup ["-e", "-d"] logging_flags []).options_.set 1
              { enable_logging_flag with count_ := c + 1 } },
          mem := sample_bool_memory.write 1 (.bool true), i := 0 + 1, positional_i := 0 } :=
  store_true_false.2.1 sample_float_ops (sample_setup ["-e", "-d"] logging_flags [])
    sample_bool_memory []
    ⟨sample_setup ["-e", "-d"] logging_flags [], sample_bool_memory, 0, 0⟩ "-e".toList 1 false
    true enable_logging_flag
    Reaches.start rfl (by decide) rfl rfl (Or.inl ⟨rfl, rfl⟩)

/-- The scan from a loop head with no token left is over: `argparse_parse_args` is the
finalisation of that state. -/
theorem reaches_finalise (fp : FloatOps) (parser : argument_parser_t) (mem : Memory)
    (visited : List Nat) (s : ScanState) (hr : Reaches fp parser mem visited s)
    (hend : ¬ s.i < s.parser.argc_) :
    argparse_parse_args fp parser mem =
      (finalise fp s.parser s.mem).bind fun (error1, mem1) => .ok (error1, s.parser, mem1) := by
  unfold argparse_parse_args
  rw [reaches_scan fp parser mem visited s hr, scan_loop_done fp _ s hend]
  rfl

/-- The finalisation of a list whose first missing record is `arg`: the error carries the
name and the flag of `arg`, the records behind it are not visited, and the memory
differs from the one before at most in the storage of the `Count` records in front of
it. -/
theorem finalise_list_first_missing (fp : FloatOps) (pre post : List argparse_arg_t)
    (arg : argparse_arg_t) (hm : is_missing arg) :
    ∀ (mem : Memory), (∀ r ∈ pre, count_ok r ∧ ¬ is_missing r) →
      ∃ mem1, finalise_list fp (pre ++ arg :: post) mem =
          .ok (ARGPARSE_MISSING_ARGUMENT_ERROR_ arg.name_ arg.flag_, mem1) ∧
        ∀ a, (∀ r ∈ pre, r.action_ = ARGPARSE_COUNT_ACTION → r.value_ ≠ a) →
          mem1 a = mem a := by
  induction pre with
  | nil =>
    intro mem _
    refine ⟨mem, ?_, fun _ _ => rfl⟩
    obtain ⟨h1, h2, h3⟩ := hm
    simp [finalise_list, finalise_arg, h1, h2, h3, is_error, ARGPARSE_MISSING_ARGUMENT_ERROR_]
  | cons r pre ih =>
    intro mem hpre
    obtain ⟨hc, hnm⟩ := hpre r (List.mem_cons_self _ _)
    have hrest : ∀ r1 ∈ pre, count_ok r1 ∧ ¬ is_missing r1 :=
      fun r1 h1 => hpre r1 (List.mem_cons_of_mem _ h1)
    by_cases ha : r.action_ = ARGPARSE_COUNT_ACTION
    · obtain ⟨mem1, h1, h2⟩ := ih (mem.write r.value_ (.int r.count_)) hrest
      refine ⟨mem1, ?_, ?_⟩
      · simp only [List.cons_append, finalise_list, finalise_arg_count fp r mem ha hc,
          Comp.bind_ok]
        exact h1
      · intro a hsep
        rw [h2 a fun r1 h1 => hsep r1 (List.mem_cons_of_mem _ h1)]
        have hne : a ≠ r.value_ := (hsep r (List.mem_cons_self _ _) ha).symm
        simp [Memory.write, hne]
    · obtain ⟨mem1, h1, h2⟩ := ih mem hrest
      refine ⟨mem1, ?_, ?_⟩
      · have hno : ¬ (r.count_ = 0 ∧ r.required_ = true) :=
          fun h => hnm ⟨h.2, ha, h.1⟩
        simp only [List.cons_append, finalise_list, finalise_arg, ha, if_false, hno,
          Comp.bind_ok]
        exact h1
      · intro a hsep
        exact h2 a fun r1 h1 => hsep r1 (List.mem_cons_of_mem _ h1)

/-- C30 (finalisation order decides the reported error).  (1) The finalisation visits the
records of the options sequence in their order and then those of the positional
sequence in theirs.  (2) When, in that order, `arg` is the first record that is required
and has count 0 (no record is both `Count` and required, as registration ensures, and
the counters are values of a C `int`), the finalisation returns `MissingArgument` with
the name and the flag of `arg`.  (3) So does `argparse_parse_args` when the scan has come
to its end in a state with these records.  (4) With a required positional `width` and a
required option `--value1`, both missing, the option is reported, also when the
positional is registered first. -/
theorem finalisation_order :
    (∀ (fp : FloatOps) (parser : argument_parser_t) (mem : Memory),
      finalise fp parser mem =
        finalise_list fp (parser.options_ ++ parser.positional_args_) mem) ∧
    (∀ (fp : FloatOps) (parser : argument_parser_t) (mem : Memory)
        (pre post : List argparse_arg_t) (arg : argparse_arg_t),
      parser.options_ ++ parser.positional_args_ = pre ++ arg :: post →
      (∀ r ∈ pre ++ [arg], r.action_ = ARGPARSE_COUNT_ACTION → r.required_ = false) →
      (∀ r ∈ pre, count_ok r) →
      arg.required_ = true → arg.count_ = 0 →
      (∀ r ∈ pre, ¬ (r.required_ = true ∧ r.count_ = 0)) →
      ∃ mem1, finalise fp parser mem =
        .ok (ARGPARSE_MISSING_ARGUMENT_ERROR_ arg.name_ arg.flag_, mem1)) ∧
    (∀ (fp : FloatOps) (parser : argument_parser_t) (mem : Memory) (visited : List Nat)
        (s : ScanState) (pre post : List argparse_arg_t) (arg : argparse_arg_t),
      Reaches fp parser mem visited s → ¬ s.i < s.parser.argc_ →
      s.parser.options_ ++ s.parser.positional_args_ = pre ++ arg :: post →
      (∀ r ∈ pre ++ [arg], r.action_ = ARGPARSE_COUNT_ACTION → r.required_ = false) →
      (∀ r ∈ pre, count_ok r) →
      arg.required_ = true → arg.count_ = 0 →
      (∀ r ∈ pre, ¬ (r.required_ = true ∧ r.count_ = 0)) →
      ∃ mem1, argparse_parse_args fp parser mem =
        .ok (ARGPARSE_MISSING_ARGUMENT_ERROR_ arg.name_ arg.flag_, s.parser, mem1)) ∧
    (argparse_add_arguments (argparse_init ["./prog".toList] none none).2
          [width_positional, required_value1_option] =
        .ok (ARGPARSE_NO_ERROR_, sample_setup [] [required_value1_option] [width_positional]) ∧
      width_positional.required_ = true ∧
      argparse_parse_args sample_float_ops
          (sample_setup [] [required_value1_option] [width_positional]) sample_memory =
        .ok (ARGPARSE_MISSING_ARGUMENT_ERROR_ (some "--value1".toList) 'x',
          sample_setup [] [required_value1_option] [width_positional], sample_memory)) := by
  have key : ∀ (fp : FloatOps) (parser : argument_parser_t) (mem : Memory)
      (pre post : List argparse_arg_t) (arg : argparse_arg_t),
      parser.options_ ++ parser.positional_args_ = pre ++ arg :: post →
      (∀ r ∈ pre ++ [arg], r.action_ = ARGPARSE_COUNT_ACTION → r.required_ = false) →
      (∀ r ∈ pre, count_ok r) →
      arg.required_ = true → arg.count_ = 0 →
      (∀ r ∈ pre, ¬ (r.required_ = true ∧ r.count_ = 0)) →
      ∃ mem1, finalise fp parser mem =
        .ok (ARGPARSE_MISSING_ARGUMENT_ERROR_ arg.name_ arg.flag_, mem1) := by
    intro fp parser mem pre post arg hsplit hvalid hcount hreq hzero hfirst
    have hm : is_missing arg := by
      refine ⟨hreq, ?_, hzero⟩
      intro ha
      have := hvalid arg (List.mem_append_right _ (List.mem_singleton_self _)) ha
      rw [hreq] at this; cases this
    have hpre : ∀ r ∈ pre, count_ok r ∧ ¬ is_missing r :=
      fun r hr => ⟨hcount r hr, fun h => hfirst r hr ⟨h.1, h.2.2⟩⟩
    obtain ⟨mem1, h1, _⟩ := finalise_list_first_missing fp pre post arg hm mem hpre
    exact ⟨mem1, by rw [finalise_eq_list, hsplit, h1]⟩
  refine ⟨finalise_eq_list, key, ?_, rfl, rfl, rfl⟩
  intro fp parser mem visited s pre post arg hr hend hsplit hvalid hcount hreq hzero hfirst
  obtain ⟨mem1, h1⟩ := key fp s.parser s.mem pre post arg hsplit hvalid hcount hreq hzero hfirst
  exact ⟨mem1, by rw [reaches_finalise fp parser mem visited s hr hend, h1]; rfl⟩

theorem finalisation_order_witness :
    ∃ mem1, finalise sample_float_ops
        (sample_setup [] [verbosity_count, required_value1_option] [width_positional])
        sample_memory =
      .ok (ARGPARSE_MISSING_ARGUMENT_ERROR_ (some "--value1".toList) 'x', mem1) :=
  finalisation_order.2.1 sample_float_ops
    (sample_setup [] [verbosity_count, required_value1_option] [width_positional])
    sample_memory [verbosity_count] [width_positional] required_value1_option rfl
    (by decide) (by decide) rfl rfl (by decide)

/-! ## The footprint of a call, and the outcomes of `argparse_parse_args` -/

theorem deref_assign_self (parser : argument_parser_t) (ref : ArgRef)
    (arg0 arg : argparse_arg_t) (h : parser.deref ref = some arg0) :
    (parser.assign ref arg).deref ref = some arg := by
  cases ref with
  | option k =>
    simp only [argument_parser_t.deref] at h
    have hlt : k < parser.options_.length := by
      by_contra hc
      rw [List.getElem?_eq_none (not_lt.mp hc)] at h
      cases h
    simp [argument_parser_t.assign, argument_parser_t.deref, List.getElem?_set, hlt]
  | positional k =>
    simp only [argument_parser_t.deref] at h
    have hlt : k < parser.positional_args_.length := by
      by_contra hc
      rw [List.getElem?_eq_none (not_lt.mp hc)] at h
      cases h
    simp [argument_parser_t.assign, argument_parser_t.deref, List.getElem?_set, hlt]

theorem deref_assign_ne (parser : argument_parser_t) (ref ref1 : ArgRef)
    (arg : argparse_arg_t) (h : ref1 ≠ ref) :
    (parser.assign ref arg).deref ref1 = parser.deref ref1 := by
  cases ref with
  | option k =>
    cases ref1 with
    | option k1 =>
      have hk : k ≠ k1 := fun e => h (by rw [e])
      simp [argument_parser_t.assign, argument_parser_t.deref, List.getElem?_set, hk]
    | positional k1 => rfl
  | positional k =>
    cases ref1 with
    | option k1 => rfl
    | positional k1 =>
      have hk : k ≠ k1 := fun e => h (by rw [e])
      simp [argument_parser_t.assign, argument_parser_t.deref, List.getElem?_set, hk]

/-- Parsers with the same static part have their records in the same places. -/
theorem static_deref (p p1 : argument_parser_t) (h : p1.static = p.static) (ref : ArgRef)
    (arg1 : argparse_arg_t) (hd : p1.deref ref = some arg1) :
    ∃ arg0, p.deref ref = some arg0 ∧ arg0.static = arg1.static := by
  cases ref with
  | option k => exact static_getElem p.options_ p1.options_ (static_options _ _ h) k arg1 hd
  | positional k =>
    exact static_getElem p.positional_args_ p1.positional_args_ (static_positionals _ _ h) k
      arg1 hd

theorem footprint_refl (parser : argument_parser_t) (mem : Memory) :
    Footprint parser mem parser mem := by
  refine ⟨rfl, ?_, fun _ h => absurd rfl h⟩
  intro ref arg0 arg1 h0 h1
  rw [h0] at h1
  cases h1
  exact le_refl _

theorem footprint_trans (p p1 p2 : argument_parser_t) (m m1 m2 : Memory)
    (h1 : Footprint p m p1 m1) (h2 : Footprint p1 m1 p2 m2) : Footprint p m p2 m2 := by
  obtain ⟨hs1, hc1, hm1⟩ := h1
  obtain ⟨hs2, hc2, hm2⟩ := h2
  refine ⟨hs2.trans hs1, ?_, ?_⟩
  · intro ref arg0 arg2 hd hd2
    obtain ⟨arg1, hd1, _⟩ := static_deref p1 p2 hs2 ref arg2 hd2
    exact le_trans (hc1 ref arg0 arg1 hd hd1) (hc2 ref arg1 arg2 hd1 hd2)
  · intro a ha
    by_cases hm : m1 a = m a
    · have ha2 : m2 a ≠ m1 a := by rw [hm]; exact ha
      obtain ⟨ref, arg1, arg2, hd1, hd2, hv, hlt⟩ := hm2 a ha2
      obtain ⟨arg0, hd, hst⟩ := static_deref p p1 hs1 ref arg1 hd1
      refine ⟨ref, arg0, arg2, hd, hd2, ?_, lt_of_le_of_lt (hc1 ref arg0 arg1 hd hd1) hlt⟩
      rw [(static_fields _ _ hst).2.2.1]; exact hv
    · obtain ⟨ref, arg0, arg1, hd, hd1, hv, hlt⟩ := hm1 a hm
      obtain ⟨arg2, hd2, _⟩ := static_deref p2 p1 hs2.symm ref arg1 hd1
      exact ⟨ref, arg0, arg2, hd, hd2, hv, lt_of_lt_of_le hlt (hc2 ref arg1 arg2 hd1 hd2)⟩

/-- The footprint of one binding: the count of the record goes up by one and at most its
storage is written. -/
theorem footprint_assign (parser : argument_parser_t) (mem mem1 : Memory) (ref : ArgRef)
    (arg0 : argparse_arg_t) (hd : parser.deref ref = some arg0)
    (hm : mem1 = mem ∨ ∃ v, mem1 = mem.write arg0.value_ v) :
    Footprint parser mem (parser.assign ref { arg0 with count_ := arg0.count_ + 1 }) mem1 := by
  have hself := deref_assign_self parser ref arg0 { arg0 with count_ := arg0.count_ + 1 } hd
  refine ⟨assign_static parser ref arg0 _ hd, ?_, ?_⟩
  · intro ref1 a0 a1 h0 h1
    by_cases hr : ref1 = ref
    · subst hr
      rw [hd] at h0
      rw [hself] at h1
      cases h0; cases h1
      simp
    · rw [deref_assign_ne parser ref ref1 _ hr, h0] at h1
      cases h1
      exact le_refl _
  · intro a ha
    rcases hm with hm | ⟨v, hm⟩
    · rw [hm] at ha; exact absurd rfl ha
    · refine ⟨ref, arg0, _, hd, hself, ?_, by simp⟩
      by_contra hne
      apply ha
      rw [hm]
      have : a ≠ arg0.value_ := fun e => hne e.symm
      simp [Memory.write, this]

theorem get_and_update_value_bound (fp : FloatOps) (st st1 : State) (ref : ArgRef)
    (i i1 : Nat) (positional negated : Bool) (e : argparse_error_t)
    (h : get_and_update_value fp st ref i positional negated = .ok (e, st1, i1)) :
    Footprint st.parser st.mem st1.parser st1.mem := by
  obtain ⟨arg0, hd, hp, hm⟩ := get_and_update_value_footprint fp st st1 ref i i1 positional
    negated e h
  rw [hp]
  exact footprint_assign st.parser st.mem st1.mem ref arg0 hd hm

theorem group_loop_bound (fp : FloatOps) (arg_string : CStr) (chars : List Char) :
    ∀ (st st1 : State) (i i1 : Nat) (e : argparse_error_t),
      group_loop fp arg_string chars st i = .ok (e, st1, i1) →
      Footprint st.parser st.mem st1.parser st1.mem := by
  induction chars with
  | nil =>
    intro st st1 i i1 e h
    simp only [group_loop, Comp.ok.injEq, Prod.mk.injEq] at h
    rw [← h.2.1]
    exact footprint_refl _ _
  | cons c rest ih =>
    intro st st1 i i1 e h
    simp only [group_loop] at h
    rw [Comp.bind_eq_ok] at h
    obtain ⟨found, _, h⟩ := h
    cases found with
    | none =>
      simp only [Comp.ok.injEq, Prod.mk.injEq] at h
      rw [← h.2.1]
      exact footprint_refl _ _
    | some k =>
      simp only at h
      split at h
      · cases h
      · rw [Comp.bind_eq_ok] at h
        obtain ⟨⟨e2, st2, i2⟩, hg, h⟩ := h
        have hb := get_and_update_value_bound fp st st2 _ i i2 _ _ e2 hg
        simp only at h
        split at h
        · simp only [Comp.ok.injEq, Prod.mk.injEq] at h
          rw [← h.2.1]
          exact hb
        · exact footprint_trans _ _ _ _ _ _ hb (ih st2 st1 i2 i1 e h)

theorem bind_found_bound (fp : FloatOps) (s s1 : ScanState) (arg_string : CStr)
    (arg : Option ArgRef) (positional negated : Bool) (e : argparse_error_t)
    (h : bind_found fp s arg_string arg positional negated = .ok (e, s1)) :
    Footprint s.parser s.mem s1.parser s1.mem := by
  cases arg with
  | none =>
    simp only [bind_found, Comp.ok.injEq, Prod.mk.injEq] at h
    rw [← h.2]
    exact footprint_refl _ _
  | some ref =>
    simp only [bind_found] at h
    rw [Comp.bind_eq_ok] at h
    obtain ⟨⟨e2, st2, i2⟩, hg, h⟩ := h
    simp only [Comp.ok.injEq, Prod.mk.injEq] at h
    rw [← h.2]
    exact get_and_update_value_bound fp s.st st2 ref s.i i2 positional negated e2 hg

theorem parse_token_bound (fp : FloatOps) (s s1 : ScanState) (e : argparse_error_t)
    (h : parse_token fp s = .ok (e, s1)) : Footprint s.parser s.mem s1.parser s1.mem := by
  unfold parse_token at h
  split at h
  · cases h
  · split at h
    · cases h
    · split at h
      · rw [Comp.bind_eq_ok] at h
        obtain ⟨arg, _, h⟩ := h
        exact bind_found_bound fp s s1 _ _ _ _ e h
      · split at h
        · rw [Comp.bind_eq_ok] at h
          obtain ⟨⟨arg, negated⟩, _, h⟩ := h
          cases arg with
          | none =>
            simp only at h
            rw [Comp.bind_eq_ok] at h
            obtain ⟨⟨e2, st2, i2⟩, hg, h⟩ := h
            simp only [Comp.ok.injEq, Prod.mk.injEq] at h
            rw [← h.2]
            exact group_loop_bound fp _ _ s.st st2 s.i i2 e2 hg
          | some k => exact bind_found_bound fp s s1 _ _ _ _ e h
        · rw [Comp.bind_eq_ok] at h
          obtain ⟨arg, _, h⟩ := h
          exact bind_found_bound fp { s with positional_i := s.positional_i + 1 } s1 _ _ _ _ e h

theorem reaches_bound (fp : FloatOps) (parser : argument_parser_t) (mem : Memory)
    (visited : List Nat) (s : ScanState) (h : Reaches fp parser mem visited s) :
    Footprint parser mem s.parser s.mem := by
  induction h with
  | start => exact footprint_refl _ _
  | @next vis s s1 e _ _ hp _ ih =>
    exact footprint_trans _ _ _ _ _ _ ih (parse_token_bound fp s s1 e hp)

/-- A scan that returns an error: the iteration at some loop head returned it. -/
theorem scan_loop_stops (fp : FloatOps) (parser : argument_parser_t) (mem : Memory) :
    ∀ (fuel : Nat) (visited : List Nat) (s sf : ScanState) (e : argparse_error_t),
      Reaches fp parser mem visited s → scan_loop fp fuel s = .ok (e, sf) →
      is_error e = true →
      ∃ visited1 s0, Reaches fp parser mem visited1 s0 ∧ s0.i < s0.parser.argc_ ∧
        parse_token fp s0 = .ok (e, sf) := by
  intro fuel
  induction fuel with
  | zero =>
    intro visited s sf e hr h he
    simp only [scan_loop] at h
    split at h
    · cases h
    · simp only [Comp.ok.injEq, Prod.mk.injEq] at h
      rw [← h.1] at he
      cases he
  | succ fuel ih =>
    intro visited s sf e hr h he
    simp only [scan_loop] at h
    split at h
    · rename_i hlt
      rw [Comp.bind_eq_ok] at h
      obtain ⟨⟨e1, s1⟩, hp, h⟩ := h
      simp only at h
      split at h
      · simp only [Comp.ok.injEq, Prod.mk.injEq] at h
        obtain ⟨h1, h2⟩ := h
        subst h1; subst h2
        exact ⟨visited, s, hr, hlt, hp⟩
      · rename_i hno
        exact ih _ _ _ _ (Reaches.next hr hlt hp (by simpa using hno)) h he
    · simp only [Comp.ok.injEq, Prod.mk.injEq] at h
      rw [← h.1] at he
      cases he

/-- An outcome is a result of `argparse_parse_args`. -/
theorem outcome_sound (fp : FloatOps) (parser parser1 : argument_parser_t)
    (mem mem1 : Memory) (processed : List Nat) (error : argparse_error_t)
    (h : Outcome fp parser mem processed error parser1 mem1) :
    argparse_parse_args fp parser mem = .ok (error, parser1, mem1) := by
  cases h with
  | finished hr hend hfin =>
    rw [reaches_finalise fp parser mem _ _ hr hend, hfin]
    rfl
  | stopped hr hlt hp he => exact reaches_error fp parser mem _ _ _ _ hr hlt hp he

/-- Every result of `argparse_parse_args` is an outcome. -/
theorem outcome_complete (fp : FloatOps) (parser parser1 : argument_parser_t)
    (mem mem1 : Memory) (error : argparse_error_t)
    (h : argparse_parse_args fp parser mem = .ok (error, parser1, mem1)) :
    ∃ processed, Outcome fp parser mem processed error parser1 mem1 := by
  unfold argparse_parse_args at h
  rw [Comp.bind_eq_ok] at h
  obtain ⟨⟨e0, s⟩, hscan, h⟩ := h
  simp only at h
  split at h
  · rename_i herr
    simp only [Comp.ok.injEq, Prod.mk.injEq] at h
    obtain ⟨h1, h2, h3⟩ := h
    subst h1; subst h2; subst h3
    obtain ⟨visited, s0, hr, hlt, hp⟩ := scan_loop_stops fp parser mem _ [] _ _ _
      Reaches.start hscan herr
    exact ⟨visited ++ [s0.i], Outcome.stopped hr hlt hp herr⟩
  · rename_i hno
    rw [Comp.bind_eq_ok] at h
    obtain ⟨⟨e2, m2⟩, hfin, h⟩ := h
    simp only [Comp.ok.injEq, Prod.mk.injEq] at h
    obtain ⟨h1, h2, h3⟩ := h
    subst h1; subst h2; subst h3
    obtain ⟨visited, hr, hdone⟩ := scan_loop_reaches fp parser mem _ [] _ _ _ Reaches.start
      hscan (by simpa using hno)
    exact ⟨visited, Outcome.finished hr hdone hfin⟩

/-- A binding that returns an error has written nothing. -/
theorem get_and_update_value_error_mem (fp : FloatOps) (st st1 : State) (ref : ArgRef)
    (i i1 : Nat) (positional negated : Bool) (e : argparse_error_t)
    (h : get_and_update_value fp st ref i positional negated = .ok (e, st1, i1))
    (he : is_error e = true) : st1.mem = st.mem := by
  unfold get_and_update_value at h
  split at h
  · cases h
  · rename_i arg0 hd
    have fin : ∀ (value : CValue) (j : Nat) (b : Bool),
        ((update_value fp { arg0 with count_ := arg0.count_ + 1 } st.mem value b).bind
          fun (error, mem1) => (.ok (error,
            ({ parser := st.parser.assign ref { arg0 with count_ := arg0.count_ + 1 },
               mem := mem1 } : State), j) : Comp (argparse_error_t × State × Nat))) =
          .ok (e, st1, i1) → st1.mem = st.mem := by
      intro value j b hh
      rw [Comp.bind_eq_ok] at hh
      obtain ⟨⟨e2, m2⟩, hu, hh⟩ := hh
      simp only [Comp.ok.injEq, Prod.mk.injEq] at hh
      obtain ⟨h1, h2, _⟩ := hh
      subst h1; subst h2
      rcases update_value_ok_or fp _ _ _ _ _ _ hu with ⟨hno, _⟩ | ⟨_, hv⟩
      · rw [hno] at he; cases he
      · exact hv
    simp only at h
    split at h
    · split at h
      · simp only [Comp.ok.injEq, Prod.mk.injEq] at h
        obtain ⟨_, h2, _⟩ := h
        subst h2; rfl
      · split at h
        · cases h
        · rw [Comp.bind_eq_ok] at h
          obtain ⟨r, _, h⟩ := h
          cases r with
          | error err =>
            simp only [Comp.ok.injEq, Prod.mk.injEq] at h
            obtain ⟨_, h2, _⟩ := h
            subst h2; rfl
          | ok tmp_bool =>
            simp only at h
            split at h
            · simp only [Comp.ok.injEq, Prod.mk.injEq] at h
              obtain ⟨_, h2, _⟩ := h
              subst h2; rfl
            · exact fin _ _ _ h
    · exact fin _ _ _ h
    · exact fin _ _ _ h
    · exact fin _ _ _ h
    · simp only [Comp.ok.injEq, Prod.mk.injEq] at h
      obtain ⟨_, h2, _⟩ := h
      subst h2; rfl
    · cases h

/-- The code after the label `unknown` when it returns an error: nothing is written, and
the parser is as it was or has the count of the record found one higher. -/
theorem bind_found_error (fp : FloatOps) (s s1 : ScanState) (arg_string : CStr)
    (arg : Option ArgRef) (positional negated : Bool) (e : argparse_error_t)
    (h : bind_found fp s arg_string arg positional negated = .ok (e, s1))
    (he : is_error e = true) :
    s1.mem = s.mem ∧
    ((arg = none ∧ s1.parser = s.parser ∧
        e = ARGPARSE_ARGUMENT_UNKNOWN_ERROR_ (some arg_string)) ∨
      ∃ ref arg0, arg = some ref ∧ s.parser.deref ref = some arg0 ∧
        s1.parser = s.parser.assign ref { arg0 with count_ := arg0.count_ + 1 }) := by
  cases arg with
  | none =>
    simp only [bind_found, Comp.ok.injEq, Prod.mk.injEq] at h
    rw [← h.2]
    exact ⟨rfl, Or.inl ⟨rfl, rfl, h.1.symm⟩⟩
  | some ref =>
    obtain ⟨arg0, hd, hp, _⟩ := bind_found_footprint fp s s1 arg_string ref positional negated
      e h
    simp only [bind_found] at h
    rw [Comp.bind_eq_ok] at h
    obtain ⟨⟨e2, st2, i2⟩, hg, h⟩ := h
    simp only [Comp.ok.injEq, Prod.mk.injEq] at h
    obtain ⟨h1, h2⟩ := h
    subst h1
    have hm := get_and_update_value_error_mem fp s.st st2 ref s.i i2 positional negated e2 hg he
    refine ⟨?_, Or.inr ⟨ref, arg0, rfl, hd, hp⟩⟩
    rw [← h2]
    exact hm

/-- A cluster walk leaves the positional records alone. -/
theorem group_loop_positionals (fp : FloatOps) (arg_string : CStr) (chars : List Char) :
    ∀ (st st1 : State) (i i1 : Nat) (e : argparse_error_t),
      group_loop fp arg_string chars st i = .ok (e, st1, i1) →
      st1.parser.positional_args_ = st.parser.positional_args_ := by
  induction chars with
  | nil =>
    intro st st1 i i1 e h
    simp only [group_loop, Comp.ok.injEq, Prod.mk.injEq] at h
    rw [← h.2.1]
  | cons c rest ih =>
    intro st st1 i i1 e h
    simp only [group_loop] at h
    rw [Comp.bind_eq_ok] at h
    obtain ⟨found, _, h⟩ := h
    cases found with
    | none =>
      simp only [Comp.ok.injEq, Prod.mk.injEq] at h
      rw [← h.2.1]
    | some k =>
      simp only at h
      split at h
      · cases h
      · rw [Comp.bind_eq_ok] at h
        obtain ⟨⟨e2, st2, i2⟩, hg, h⟩ := h
        obtain ⟨arg0, _, hp, _⟩ := get_and_update_value_footprint fp st st2 _ i i2 _ _ e2 hg
        have h2 : st2.parser.positional_args_ = st.parser.positional_args_ := by
          rw [hp]; rfl
        simp only at h
        split at h
        · simp only [Comp.ok.injEq, Prod.mk.injEq] at h
          rw [← h.2.1]
          exact h2
        · rw [ih st2 st1 i2 i1 e h, h2]

/-- The iteration for a token leaves alone every positional record but the one at
`positional_i`, and that one too when the token starts with `-`. -/
theorem parse_token_positionals (fp : FloatOps) (s s1 : ScanState) (e : argparse_error_t)
    (token : CStr) (h : parse_token fp s = .ok (e, s1))
    (hv : s.parser.argv_[s.i]? = some token) (k : Nat)
    (hk : starts_with token "-".toList = true ∨ k ≠ s.positional_i) :
    s1.parser.positional_args_[k]? = s.parser.positional_args_[k]? := by
  have key : ∀ (s0 : ScanState) (arg : Option ArgRef) (positional negated : Bool),
      s0.parser = s.parser →
      (∀ j, arg = some (.positional j) → j ≠ k) →
      bind_found fp s0 token arg positional negated = .ok (e, s1) →
      s1.parser.positional_args_[k]? = s.parser.positional_args_[k]? := by
    intro s0 arg positional negated hs0 hne hb
    cases arg with
    | none =>
      simp only [bind_found, Comp.ok.injEq, Prod.mk.injEq] at hb
      rw [← hb.2, hs0]
    | some ref =>
      obtain ⟨arg0, _, hp, _⟩ := bind_found_footprint fp s0 s1 token ref positional negated e hb
      rw [hp, hs0]
      cases ref with
      | option j => rfl
      | positional j =>
        have := hne j rfl
        simp [argument_parser_t.assign, List.getElem?_set, this]
  unfold parse_token at h
  rw [hv] at h
  simp only at h
  split at h
  · cases h
  · split at h
    · rw [Comp.bind_eq_ok] at h
      obtain ⟨arg, _, h⟩ := h
      refine key s _ false false rfl ?_ h
      intro j hj
      cases arg <;> simp at hj
    · split at h
      · rw [Comp.bind_eq_ok] at h
        obtain ⟨⟨arg, negated⟩, _, h⟩ := h
        cases arg with
        | none =>
          simp only at h
          rw [Comp.bind_eq_ok] at h
          obtain ⟨⟨e2, st2, i2⟩, hg, h⟩ := h
          simp only [Comp.ok.injEq, Prod.mk.injEq] at h
          rw [← h.2]
          have := group_loop_positionals fp _ _ s.st st2 s.i i2 e2 hg
          simp only [ScanState.update]
          rw [this]; rfl
        | some j =>
          refine key s _ false negated rfl ?_ h
          intro j1 hj
          simp at hj
      · rename_i hnd
        rcases hk with hk | hk
        · exact absurd hk hnd
        · rw [Comp.bind_eq_ok] at h
          obtain ⟨arg, hf, h⟩ := h
          refine key { s with positional_i := s.positional_i + 1 } _ true false rfl ?_ h
          intro j hj
          rw [find_arg_index] at hf
          simp only [Comp.ok.injEq] at hf
          rw [← hf] at hj
          split at hj
          · simp only [Option.map_some', Option.some.injEq, ArgRef.positional.injEq] at hj
            rw [← hj]; exact fun e => hk e.symm
          · simp at hj

/-- A positional record whose index the count of classified tokens without `-` has not
reached is, at a loop head, as it was registered. -/
theorem reaches_positional_unhit (fp : FloatOps) (parser : argument_parser_t) (mem : Memory)
    (visited : List Nat) (s : ScanState) (h : Reaches fp parser mem visited s) (k : Nat)
    (hk : (visited.filter (no_dash parser.argv_)).length ≤ k) :
    s.parser.positional_args_[k]? = parser.positional_args_[k]? := by
  induction h with
  | start => rfl
  | @next vis s s1 e hr hlt hp he ih =>
    obtain ⟨hst, _⟩ := reaches_static fp parser mem vis s hr
    have hargv : s.parser.argv_ = parser.argv_ := static_argv _ _ hst
    have hpi := reaches_positional_i fp parser mem vis s hr
    simp only [List.filter_append, List.length_append] at hk
    have hv : s.parser.argv_[s.i]? = some (s.parser.argv_.getD s.i []) := by
      have : s.i < s.parser.argv_.length := hlt
      simp [List.getD_eq_getElem?_getD, List.getElem?_eq_getElem this]
    have hstep := parse_token_positionals fp s s1 e _ hp hv k (by
      by_cases hd : no_dash parser.argv_ s.i = true
      · right
        have : ([s.i].filter (no_dash parser.argv_)).length = 1 := by
          simp [List.filter, hd]
        omega
      · left
        unfold no_dash at hd
        rw [hargv]
        simpa using hd)
    rw [← ih (by omega)]
    exact hstep

/-- An option that none of the classified tokens hits is, in the outcome, as it was
registered. -/
theorem outcome_option_unhit (fp : FloatOps) (parser parser1 : argument_parser_t)
    (mem mem1 : Memory) (processed : List Nat) (error : argparse_error_t)
    (h : Outcome fp parser mem processed error parser1 mem1) (k : Nat)
    (arg : argparse_arg_t) (hk : parser.options_[k]? = some arg)
    (hun : ∀ j ∈ processed, hits parser.options_ (parser.argv_.getD j []) k = 0) :
    parser1.options_[k]? = some arg := by
  have hreach : ∀ (visited : List Nat) (s : ScanState), Reaches fp parser mem visited s →
      (∀ j ∈ visited, hits parser.options_ (parser.argv_.getD j []) k = 0) →
      s.parser.options_[k]? = some arg := by
    intro visited s hr hz
    have hc := reaches_counts fp parser mem visited s hr k arg hk
    have hsum : ((visited.map fun j => hits parser.options_ (parser.argv_.getD j []) k).sum
        : Nat) = 0 := by
      apply List.sum_eq_zero
      intro x hx
      obtain ⟨j, hj, rfl⟩ := List.mem_map.1 hx
      exact hz j hj
    rw [hc, hsum]
    simp
  cases h with
  | finished hr _ _ => exact hreach _ _ hr hun
  | @stopped visited s s1 _ hr hlt hp he =>
    have hs := hreach visited s hr fun j hj => hun j (List.mem_append_left _ hj)
    obtain ⟨hst, _⟩ := reaches_static fp parser mem visited s hr
    have hargv : s.parser.argv_ = parser.argv_ := static_argv _ _ hst
    have hv : s.parser.argv_[s.i]? = some (parser.argv_.getD s.i []) := by
      have : s.i < s.parser.argv_.length := hlt
      rw [← hargv]
      simp [List.getD_eq_getElem?_getD, List.getElem?_eq_getElem this]
    have h0 : hits s.parser.options_ (parser.argv_.getD s.i []) k = 0 := by
      rw [hits_static parser.options_ s.parser.options_ _ _ (static_options _ _ hst)]
      exact hun s.i (List.mem_append_right _ (List.mem_singleton_self _))
    rw [(parse_token_untouched fp s s1 _ _ hp hv k h0).1]
    exact hs

/-- A positional record whose index the count of classified tokens without `-` has not
reached is, in the outcome, as it was registered. -/
theorem outcome_positional_unhit (fp : FloatOps) (parser parser1 : argument_parser_t)
    (mem mem1 : Memory) (processed : List Nat) (error : argparse_error_t)
    (h : Outcome fp parser mem processed error parser1 mem1) (k : Nat)
    (hun : (processed.filter (no_dash parser.argv_)).length ≤ k) :
    parser1.positional_args_[k]? = parser.positional_args_[k]? := by
  cases h with
  | finished hr _ _ => exact reaches_positional_unhit fp parser mem _ _ hr k hun
  | @stopped visited s s1 _ hr hlt hp he =>
    obtain ⟨hst, _⟩ := reaches_static fp parser mem visited s hr
    have hargv : s.parser.argv_ = parser.argv_ := static_argv _ _ hst
    have hpi := reaches_positional_i fp parser mem visited s hr
    simp only [List.filter_append, List.length_append] at hun
    have hv : s.parser.argv_[s.i]? = some (s.parser.argv_.getD s.i []) := by
      have : s.i < s.parser.argv_.length := hlt
      simp [List.getD_eq_getElem?_getD, List.getElem?_eq_getElem this]
    have hstep := parse_token_positionals fp s s1 _ _ hp hv k (by
      by_cases hd : no_dash parser.argv_ s.i = true
      · right
        have : ([s.i].filter (no_dash parser.argv_)).length = 1 := by
          simp [List.filter, hd]
        omega
      · left
        unfold no_dash at hd
        rw [hargv]
        simpa using hd)
    rw [hstep]
    exact reaches_positional_unhit fp parser mem visited s hr k (by omega)

/-- The footprint of a whole call: up to the finalisation, which writes the storage of
`Count` records only, the records and the memory of an outcome are within the footprint
of the parser and the memory of the call. -/
theorem outcome_bound (fp : FloatOps) (parser parser1 : argument_parser_t)
    (mem mem1 : Memory) (processed : List Nat) (error : argparse_error_t)
    (h : Outcome fp parser mem processed error parser1 mem1) :
    ∃ mem0, Footprint parser mem parser1 mem0 ∧
      ∀ a, (∀ c ∈ parser.options_ ++ parser.positional_args_,
        c.action_ = ARGPARSE_COUNT_ACTION → c.value_ ≠ a) → mem1 a = mem0 a := by
  cases h with
  | @finished _ s _ _ hr _ hfin =>
    refine ⟨s.mem, reaches_bound fp parser mem _ s hr, ?_⟩
    intro a hsep
    obtain ⟨hst, _⟩ := reaches_static fp parser mem _ s hr
    exact finalise_frame fp a s.parser s.mem mem1 error hfin
      (static_separate parser s.parser hst a hsep)
  | @stopped visited s s1 _ hr hlt hp he =>
    exact ⟨s1.mem, footprint_trans _ _ _ _ _ _ (reaches_bound fp parser mem visited s hr)
      (parse_token_bound fp s s1 error hp), fun _ _ => rfl⟩

/-- C25 (unset arguments keep their pre-initialised value), as amended.  (1) Whenever
`argparse_parse_args` returns, with an error or without, its scan has classified a list
of tokens (an outcome); then (a) an option that none of these tokens hits, by its flag,
by its name or by a character of a cluster, has the count it had before the call; (b) so
has a positional record whose index the number of classified tokens without `-` has not
reached; (c) an address holds the object it held before the call when every record
bound to it has an action other than `Count` and is one of these.  (2) The tests
`store_multi_int_with_optional` (`z` keeps 23) and `toggle_with_unset` (`in_place` keeps
false), and a parse that fails on `--bogus`. -/
theorem unset_arguments :
    (∀ (fp : FloatOps) (parser parser1 : argument_parser_t) (mem mem1 : Memory)
        (error : argparse_error_t),
      argparse_parse_args fp parser mem = .ok (error, parser1, mem1) →
      ∃ processed, Outcome fp parser mem processed error parser1 mem1 ∧
        (∀ (k : Nat) (arg : argparse_arg_t), parser.options_[k]? = some arg →
          (∀ j ∈ processed, hits parser.options_ (parser.argv_.getD j []) k = 0) →
          parser1.options_[k]? = some arg) ∧
        (∀ (k : Nat) (arg : argparse_arg_t), parser.positional_args_[k]? = some arg →
          (processed.filter (no_dash parser.argv_)).length ≤ k →
          parser1.positional_args_[k]? = some arg) ∧
        (∀ a,
          (∀ (k : Nat) (arg : argparse_arg_t), parser.options_[k]? = some arg →
            arg.value_ = a → arg.action_ ≠ ARGPARSE_COUNT_ACTION ∧
              ∀ j ∈ processed, hits parser.options_ (parser.argv_.getD j []) k = 0) →
          (∀ (k : Nat) (arg : argparse_arg_t), parser.positional_args_[k]? = some arg →
            arg.value_ = a → arg.action_ ≠ ARGPARSE_COUNT_ACTION ∧
              (processed.filter (no_dash parser.argv_)).length ≤ k) →
          mem1 a = mem a)) ∧
    (∃ parser1 mem1,
      argparse_parse_args sample_float_ops optional_setup optional_memory
        = .ok (ARGPARSE_NO_ERROR_, parser1, mem1) ∧
      mem1 1 = .int 52 ∧ mem1 2 = .int 42 ∧ mem1 3 = .int 23 ∧ mem1 4 = .int 94 ∧
      parser1.options_.map argparse_arg_t.count_ = [1, 1, 0, 1]) ∧
    (∃ parser1 mem1,
      argparse_parse_args sample_float_ops
          (sample_setup ["--verbose"] verbose_in_place_toggles []) sample_bool_memory
        = .ok (ARGPARSE_NO_ERROR_, parser1, mem1) ∧
      mem1 1 = .bool true ∧ mem1 2 = .bool false ∧
      parser1.options_.map argparse_arg_t.count_ = [1, 0]) ∧
    (∃ parser1 mem1,
      argparse_parse_args sample_float_ops
          (sample_setup ["-x", "52", "--bogus", "-z", "1"] x_y_z_sum_options [])
          optional_memory
        = .ok (ARGPARSE_ARGUMENT_UNKNOWN_ERROR_ (some "--bogus".toList), parser1, mem1) ∧
      mem1 1 = .int 52 ∧ mem1 3 = .int 23 ∧
      parser1.options_.map argparse_arg_t.count_ = [1, 0, 0, 0]) := by
  refine ⟨?_, ⟨_, _, rfl, rfl, rfl, rfl, rfl, rfl⟩, ⟨_, _, rfl, rfl, rfl, rfl⟩,
    ⟨_, _, rfl, rfl, rfl, rfl⟩⟩
  intro fp parser parser1 mem mem1 error h
  obtain ⟨processed, hout⟩ := outcome_complete fp parser parser1 mem mem1 error h
  have hopt : ∀ (k : Nat) (arg : argparse_arg_t), parser.options_[k]? = some arg →
      (∀ j ∈ processed, hits parser.options_ (parser.argv_.getD j []) k = 0) →
      parser1.options_[k]? = some arg :=
    fun k arg hk hun => outcome_option_unhit fp parser parser1 mem mem1 processed error hout
      k arg hk hun
  have hpos : ∀ (k : Nat) (arg : argparse_arg_t), parser.positional_args_[k]? = some arg →
      (processed.filter (no_dash parser.argv_)).length ≤ k →
      parser1.positional_args_[k]? = some arg := by
    intro k arg hk hun
    rw [outcome_positional_unhit fp parser parser1 mem mem1 processed error hout k hun]
    exact hk
  refine ⟨processed, hout, hopt, hpos, ?_⟩
  intro a ho hp
  obtain ⟨mem0, ⟨_, _, hfoot⟩, hfin⟩ := outcome_bound fp parser parser1 mem mem1 processed
    error hout
  have hsep : ∀ c ∈ parser.options_ ++ parser.positional_args_,
      c.action_ = ARGPARSE_COUNT_ACTION → c.value_ ≠ a := by
    intro c hc hact hval
    rcases List.mem_append.1 hc with hc | hc
    · obtain ⟨k, hk⟩ := List.getElem?_of_mem hc
      exact (ho k c hk hval).1 hact
    · obtain ⟨k, hk⟩ := List.getElem?_of_mem hc
      exact (hp k c hk hval).1 hact
  rw [hfin a hsep]
  by_contra hne
  obtain ⟨ref, arg0, arg1, hd, hd1, hv, hlt⟩ := hfoot a hne
  cases ref with
  | option k =>
    have := hopt k arg0 hd (ho k arg0 hd hv).2
    rw [show parser1.deref (.option k) = parser1.options_[k]? from rfl, this] at hd1
    cases hd1
    exact lt_irrefl _ hlt
  | positional k =>
    have := hpos k arg0 hd (hp k arg0 hd hv).2
    rw [show parser1.deref (.positional k) = parser1.positional_args_[k]? from rfl, this] at hd1
    cases hd1
    exact lt_irrefl _ hlt

/-- No token of the vector `--verbose` hits the option `--in-place`. -/
theorem in_place_unhit (j : Nat) :
    hits (sample_setup ["--verbose"] verbose_in_place_toggles []).options_
      ((sample_setup ["--verbose"] verbose_in_place_toggles []).argv_.getD j []) 1 = 0 := by
  cases j with
  | zero => decide
  | succ n =>
    have : (sample_setup ["--verbose"] verbose_in_place_toggles []).argv_.getD (n + 1) []
        = [] := by
      simp [sample_setup]
    rw [this]
    decide

/-- The option `--in-place` of the test `toggle_with_unset` after the parse of
`--verbose`: its count is still 0. -/
theorem unset_arguments_witness :
    ∃ processed,
      Outcome sample_float_ops (sample_setup ["--verbose"] verbose_in_place_toggles [])
        sample_bool_memory processed ARGPARSE_NO_ERROR_
        (sample_setup ["--verbose"]
          [{ ARGPARSE_TOGGLE 'v' (some "--verbose".toList) 1 (some "verbose".toList) with
              count_ := 1 },
            ARGPARSE_TOGGLE 'p' (some "--in-place".toList) 2
              (some "make changes in place".toList)] [])
        (sample_bool_memory.write 1 (.bool true)) ∧
      (sample_setup ["--verbose"]
          [{ ARGPARSE_TOGGLE 'v' (some "--verbose".toList) 1 (some "verbose".toList) with
              count_ := 1 },
            ARGPARSE_TOGGLE 'p' (some "--in-place".toList) 2
              (some "make changes in place".toList)] []).options_[1]? =
        some (ARGPARSE_TOGGLE 'p' (some "--in-place".toList) 2
          (some "make changes in place".toList)) :=
  (unset_arguments.1 sample_float_ops (sample_setup ["--verbose"] verbose_in_place_toggles [])
    _ sample_bool_memory _ ARGPARSE_NO_ERROR_ rfl).imp fun _ h =>
    ⟨h.1, h.2.1 1 _ rfl fun j _ => in_place_unhit j⟩

/-- C25, the claim as stated fails: with the two records of the test
`flag_false_override`, bound to the same `bool`, and the token `--enable-logging` alone,
no token resolves to the `StoreFalse` record `--disable-logging` (its count stays 0),
and its storage, false before the call, is true after it. -/
theorem unset_arguments_counterexample :
    argparse_parse_args sample_float_ops (sample_setup ["--enable-logging"] logging_flags [])
        sample_bool_memory =
      .ok (ARGPARSE_NO_ERROR_,
        sample_setup ["--enable-logging"]
          [ARGPARSE_FLAG_FALSE 'd' (some "--disable-logging".toList) 1
            (some "no prints".toList), { enable_logging_flag with count_ := 1 }] [],
        sample_bool_memory.write 1 (.bool true)) ∧
    hits logging_flags "--enable-logging".toList 0 = 0 ∧
    (logging_flags.map argparse_arg_t.action_ =
      [ARGPARSE_STORE_FALSE_ACTION, ARGPARSE_STORE_TRUE_ACTION]) ∧
    logging_flags.map argparse_arg_t.value_ = [1, 1] ∧
    sample_bool_memory 1 = .bool false ∧
    (sample_bool_memory.write 1 (.bool true)) 1 = .bool true :=
  ⟨rfl, by decide, rfl, rfl, rfl, rfl⟩

/-- The iteration for a token that is not walked as a cluster, when it returns an error:
nothing is written, and the parser is as it was or has the count of one record one
higher. -/
theorem parse_token_error (fp : FloatOps) (s s1 : ScanState) (e : argparse_error_t)
    (token : CStr) (h : parse_token fp s = .ok (e, s1)) (he : is_error e = true)
    (hv : s.parser.argv_[s.i]? = some token)
    (hnc : ¬ is_cluster s.parser.options_ token) :
    s1.mem = s.mem ∧
    (s1.parser = s.parser ∨
      ∃ ref arg0, s.parser.deref ref = some arg0 ∧
        s1.parser = s.parser.assign ref { arg0 with count_ := arg0.count_ + 1 }) := by
  have key : ∀ (s0 : ScanState) (arg : Option ArgRef) (positional negated : Bool),
      s0.parser = s.parser → s0.mem = s.mem →
      bind_found fp s0 token arg positional negated = .ok (e, s1) →
      s1.mem = s.mem ∧
      (s1.parser = s.parser ∨
        ∃ ref arg0, s.parser.deref ref = some arg0 ∧
          s1.parser = s.parser.assign ref { arg0 with count_ := arg0.count_ + 1 }) := by
    intro s0 arg positional negated hp0 hm0 hb
    obtain ⟨hm, hcase⟩ := bind_found_error fp s0 s1 token arg positional negated e hb he
    refine ⟨hm.trans hm0, ?_⟩
    rcases hcase with ⟨_, hp, _⟩ | ⟨ref, arg0, _, hd, hp⟩
    · exact Or.inl (hp.trans hp0)
    · rw [hp0] at hd hp
      exact Or.inr ⟨ref, arg0, hd, hp⟩
  unfold parse_token at h
  rw [hv] at h
  simp only at h
  split at h
  · cases h
  · rename_i hhelp
    split at h
    · rw [Comp.bind_eq_ok] at h
      obtain ⟨arg, _, h⟩ := h
      exact key s _ false false rfl rfl h
    · rename_i h2
      split at h
      · rename_i hd
        rw [Comp.bind_eq_ok] at h
        obtain ⟨⟨arg, negated⟩, hf, h⟩ := h
        cases arg with
        | none =>
          exfalso
          apply hnc
          have hneg := find_long_none_negated _ _ _ hf
          subst hneg
          refine ⟨fun e => hhelp (Or.inr e), hd, ?_, hf⟩
          intro hlen
          exact h2 ⟨hlen, hd⟩
        | some k => exact key s _ false negated rfl rfl h
      · rw [Comp.bind_eq_ok] at h
        obtain ⟨arg, _, h⟩ := h
        exact key { s with positional_i := s.positional_i + 1 } _ true false rfl rfl h

/-- C27 (fail-fast scanning), as amended.  (1) When the iteration for the token at a loop
head of the scan returns an error, `argparse_parse_args` returns that error with the
records and the memory as that iteration left them: no later token is classified and
the finalisation does not run.  (2) What that iteration has changed: counts have not
decreased, and an address whose object has changed is the storage of a record whose
count has increased; an option that the token does not hit is as it was; and when the
token is not walked as a cluster, nothing was written and at most the count of one
record is one higher.  (3) `--bogus --value 5` with the `Int32` option `--value` alone
returns `ArgumentUnknown`, the storage unchanged and the count 0; after `-v --bogus` the
counter `-v` has count 1 and its storage is not written. -/
theorem fail_fast :
    (∀ (fp : FloatOps) (parser : argument_parser_t) (mem : Memory) (visited : List Nat)
        (s s1 : ScanState) (error : argparse_error_t),
      Reaches fp parser mem visited s → s.i < s.parser.argc_ →
      parse_token fp s = .ok (error, s1) → is_error error = true →
      argparse_parse_args fp parser mem = .ok (error, s1.parser, s1.mem) ∧
      Footprint s.parser s.mem s1.parser s1.mem ∧
      (∀ (k : Nat), hits parser.options_ (parser.argv_.getD s.i []) k = 0 →
        s1.parser.options_[k]? = s.parser.options_[k]?) ∧
      (¬ is_cluster parser.options_ (parser.argv_.getD s.i []) →
        s1.mem = s.mem ∧
        (s1.parser = s.parser ∨
          ∃ ref arg0, s.parser.deref ref = some arg0 ∧
            s1.parser = s.parser.assign ref { arg0 with count_ := arg0.count_ + 1 }))) ∧
    argparse_parse_args sample_float_ops
        (sample_setup ["--bogus", "--value", "5"] [int_value_option] []) sample_memory =
      .ok (ARGPARSE_ARGUMENT_UNKNOWN_ERROR_ (some "--bogus".toList),
        sample_setup ["--bogus", "--value", "5"] [int_value_option] [], sample_memory) ∧
    argparse_parse_args sample_float_ops
        (sample_setup ["-v", "--bogus"] [verbosity_count] []) sample_memory =
      .ok (ARGPARSE_ARGUMENT_UNKNOWN_ERROR_ (some "--bogus".toList),
        sample_setup ["-v", "--bogus"] [{ verbosity_count with count_ := 1 }] [],
        sample_memory) := by
  refine ⟨?_, rfl, rfl⟩
  intro fp parser mem visited s s1 error hr hlt hp he
  obtain ⟨hst, _⟩ := reaches_static fp parser mem visited s hr
  have hargv : s.parser.argv_ = parser.argv_ := static_argv _ _ hst
  have hv : s.parser.argv_[s.i]? = some (parser.argv_.getD s.i []) := by
    have : s.i < s.parser.argv_.length := hlt
    rw [← hargv]
    simp [List.getD_eq_getElem?_getD, List.getElem?_eq_getElem this]
  refine ⟨reaches_error fp parser mem visited s s1 error hr hlt hp he,
    parse_token_bound fp s s1 error hp, ?_, ?_⟩
  · intro k h0
    refine (parse_token_untouched fp s s1 error _ hp hv k ?_).1
    rw [hits_static parser.options_ s.parser.options_ _ _ (static_options _ _ hst)]
    exact h0
  · intro hnc
    refine parse_token_error fp s s1 error _ hp he hv ?_
    rw [is_cluster_static parser.options_ s.parser.options_ _ (static_options _ _ hst)]
    exact hnc

theorem fail_fast_witness :
    argparse_parse_args sample_float_ops
        (sample_setup ["--value", "7", "-v"] [int_value_option] []) sample_memory =
      .ok (ARGPARSE_ARGUMENT_MISSING_VALUE_ERROR_ (some "-v".toList) NO_FLAG,
        sample_setup ["--value", "7", "-v"] [{ int_value_option with count_ := 2 }] [],
        sample_memory.write 1 (.int 7)) :=
  (fail_fast.1 sample_float_ops (sample_setup ["--value", "7", "-v"] [int_value_option] [])
    sample_memory [0]
    ⟨sample_setup ["--value", "7", "-v"] [{ int_value_option with count_ := 1 }] [],
      sample_memory.write 1 (.int 7), 2, 0⟩
    ⟨sample_setup ["--value", "7", "-v"] [{ int_value_option with count_ := 2 }] [],
      sample_memory.write 1 (.int 7), 2, 0⟩
    (ARGPARSE_ARGUMENT_MISSING_VALUE_ERROR_ (some "-v".toList) NO_FLAG)
    (@Reaches.next sample_float_ops _ sample_memory []
      ⟨sample_setup ["--value", "7", "-v"] [int_value_option] [], sample_memory, 0, 0⟩
      ⟨sample_setup ["--value", "7", "-v"] [{ int_value_option with count_ := 1 }] [],
        sample_memory.write 1 (.int 7), 1, 0⟩ ARGPARSE_NO_ERROR_
      Reaches.start (by decide) rfl rfl)
    (by decide) rfl rfl).1

/-- C27, the claim as stated fails: the token `-abz` is walked as a cluster; the
characters `a` and `b` bind their toggles, which writes true to the storage of both,
before `z` ends the parse with `ArgumentUnknown`.  The storage of `a` and `b`, false
after the tokens before (there is none), is true when the call returns. -/
theorem fail_fast_counterexample :
    argparse_parse_args sample_float_ops (sample_setup ["-abz"] fruit_toggles [])
        sample_bool_memory =
      .ok (ARGPARSE_ARGUMENT_UNKNOWN_ERROR_ (some "-abz".toList),
        sample_setup ["-abz"]
          [{ ARGPARSE_TOGGLE 'a' (some "--apple".toList) 1 none with count_ := 1 },
           { ARGPARSE_TOGGLE 'b' (some "--banana".toList) 2 none with count_ := 1 },
           ARGPARSE_TOGGLE 'c' (some "--carrot".toList) 3 none] [],
        (sample_bool_memory.write 1 (.bool true)).write 2 (.bool true)) ∧
    sample_bool_memory 1 = .bool false ∧
    ((sample_bool_memory.write 1 (.bool true)).write 2 (.bool true)) 1 = .bool true ∧
    sample_bool_memory 2 = .bool false ∧
    ((sample_bool_memory.write 1 (.bool true)).write 2 (.bool true)) 2 = .bool true :=
  ⟨rfl, rfl, rfl, rfl, rfl⟩

/-! ## Bindings under a `MissingArgument` result -/

/-- An error returned from inside the loop over the choices is `IntRangeExceeded`. -/
theorem choices_loop_error_val (fp : FloatOps) (arg : argparse_arg_t) (value : CStr) :
    ∀ (n j : Nat) (b : Bool) (err : argparse_error_t),
      choices_loop fp arg value n j b = .ok (.error err) →
      err.error_val = ARGPARSE_INT_RANGE_EXCEEDED_ERROR := by
  intro n
  induction n with
  | zero => intro j b err h; simp [choices_loop] at h
  | succ n ih =>
    intro j b err h
    unfold choices_loop at h
    split at h
    · simp only at h
      split at h
      · simp only [Comp.ok.injEq, Except.error.injEq] at h
        rw [← h]; rfl
      · split at h
        · split at h
          · split at h
            · cases h
            · exact ih _ _ _ h
          · cases h
        · cases h
    · split at h
      · split at h
        · split at h
          · cases h
          · exact ih _ _ _ h
        · cases h
      · cases h
    · split at h
      · cases h
      · exact ih _ _ _ h
    · split at h
      · split at h
        · split at h
          · cases h
          · exact ih _ _ _ h
        · cases h
      · cases h
    · cases h

/-- No binding returns `MissingArgument`. -/
theorem get_and_update_value_error_val (fp : FloatOps) (st st1 : State) (ref : ArgRef)
    (i i1 : Nat) (positional negated : Bool) (e : argparse_error_t)
    (h : get_and_update_value fp st ref i positional negated = .ok (e, st1, i1)) :
    e.error_val ≠ ARGPARSE_MISSING_ARGUMENT_ERROR := by
  unfold get_and_update_value at h
  split at h
  · cases h
  · rename_i arg0 hd
    have fin : ∀ (value : CValue) (j : Nat) (b : Bool),
        ((update_value fp { arg0 with count_ := arg0.count_ + 1 } st.mem value b).bind
          fun (error, mem1) => (.ok (error,
            ({ parser := st.parser.assign ref { arg0 with count_ := arg0.count_ + 1 },
               mem := mem1 } : State), j) : Comp (argparse_error_t × State × Nat))) =
          .ok (e, st1, i1) → e.error_val ≠ ARGPARSE_MISSING_ARGUMENT_ERROR := by
      intro value j b hh
      rw [Comp.bind_eq_ok] at hh
      obtain ⟨⟨e2, m2⟩, hu, hh⟩ := hh
      simp only [Comp.ok.injEq, Prod.mk.injEq] at hh
      obtain ⟨h1, _, _⟩ := hh
      subst h1
      rcases update_value_ok_or fp _ _ _ _ _ _ hu with ⟨hno, _⟩ | ⟨hr, _⟩
      · rw [hno]; decide
      · rw [hr]; simp [ARGPARSE_INT_RANGE_EXCEEDED_ERROR_]
    simp only at h
    split at h
    · split at h
      · simp only [Comp.ok.injEq, Prod.mk.injEq] at h
        rw [← h.1]; simp [ARGPARSE_ARGUMENT_MISSING_VALUE_ERROR_]
      · split at h
        · cases h
        · rw [Comp.bind_eq_ok] at h
          obtain ⟨r, hc, h⟩ := h
          cases r with
          | error err =>
            simp only [Comp.ok.injEq, Prod.mk.injEq] at h
            rw [← h.1, choices_loop_error_val fp _ _ _ _ _ err hc]
            decide
          | ok tmp_bool =>
            simp only at h
            split at h
            · simp only [Comp.ok.injEq, Prod.mk.injEq] at h
              rw [← h.1]; simp [ARGPARSE_INVALID_CHOICE_ERROR_]
            · exact fin _ _ _ h
    · exact fin _ _ _ h
    · exact fin _ _ _ h
    · exact fin _ _ _ h
    · simp only [Comp.ok.injEq, Prod.mk.injEq] at h
      rw [← h.1]; decide
    · cases h

theorem group_loop_error_val (fp : FloatOps) (arg_string : CStr) (chars : List Char) :
    ∀ (st st1 : State) (i i1 : Nat) (e : argparse_error_t),
      group_loop fp arg_string chars st i = .ok (e, st1, i1) →
      e.error_val ≠ ARGPARSE_MISSING_ARGUMENT_ERROR := by
  induction chars with
  | nil =>
    intro st st1 i i1 e h
    simp only [group_loop, Comp.ok.injEq, Prod.mk.injEq] at h
    rw [← h.1]; decide
  | cons c rest ih =>
    intro st st1 i i1 e h
    simp only [group_loop] at h
    rw [Comp.bind_eq_ok] at h
    obtain ⟨found, _, h⟩ := h
    cases found with
    | none =>
      simp only [Comp.ok.injEq, Prod.mk.injEq] at h
      rw [← h.1]; simp [ARGPARSE_ARGUMENT_UNKNOWN_ERROR_]
    | some k =>
      simp only at h
      split at h
      · cases h
      · rw [Comp.bind_eq_ok] at h
        obtain ⟨⟨e2, st2, i2⟩, hg, h⟩ := h
        simp only at h
        split at h
        · simp only [Comp.ok.injEq, Prod.mk.injEq] at h
          rw [← h.1]
          exact get_and_update_value_error_val fp st st2 _ i i2 _ _ e2 hg
        · exact ih st2 st1 i2 i1 e h

theorem bind_found_error_val (fp : FloatOps) (s s1 : ScanState) (arg_string : CStr)
    (arg : Option ArgRef) (positional negated : Bool) (e : argparse_error_t)
    (h : bind_found fp s arg_string arg positional negated = .ok (e, s1)) :
    e.error_val ≠ ARGPARSE_MISSING_ARGUMENT_ERROR := by
  cases arg with
  | none =>
    simp only [bind_found, Comp.ok.injEq, Prod.mk.injEq] at h
    rw [← h.1]; simp [ARGPARSE_ARGUMENT_UNKNOWN_ERROR_]
  | some ref =>
    simp only [bind_found] at h
    rw [Comp.bind_eq_ok] at h
    obtain ⟨⟨e2, st2, i2⟩, hg, h⟩ := h
    simp only [Comp.ok.injEq, Prod.mk.injEq] at h
    rw [← h.1]
    exact get_and_update_value_error_val fp s.st st2 ref s.i i2 positional negated e2 hg

/-- No iteration of the scan returns `MissingArgument`: that error comes from the
finalisation alone. -/
theorem parse_token_error_val (fp : FloatOps) (s s1 : ScanState) (e : argparse_error_t)
    (h : parse_token fp s = .ok (e, s1)) :
    e.error_val ≠ ARGPARSE_MISSING_ARGUMENT_ERROR := by
  unfold parse_token at h
  split at h
  · cases h
  · split at h
    · cases h
    · split at h
      · rw [Comp.bind_eq_ok] at h
        obtain ⟨arg, _, h⟩ := h
        exact bind_found_error_val fp s s1 _ _ _ _ e h
      · split at h
        · rw [Comp.bind_eq_ok] at h
          obtain ⟨⟨arg, negated⟩, _, h⟩ := h
          cases arg with
          | none =>
            simp only at h
            rw [Comp.bind_eq_ok] at h
            obtain ⟨⟨e2, st2, i2⟩, hg, h⟩ := h
            simp only [Comp.ok.injEq, Prod.mk.injEq] at h
            rw [← h.1]
            exact group_loop_error_val fp _ _ s.st st2 s.i i2 e2 hg
          | some k => exact bind_found_error_val fp s s1 _ _ _ _ e h
        · rw [Comp.bind_eq_ok] at h
          obtain ⟨arg, _, h⟩ := h
          exact bind_found_error_val fp _ s1 _ _ _ _ e h

/-- A parse that returns `MissingArgument`: its scan reached a loop head with no token
left, and the finalisation of that state returned the error. -/
theorem parse_args_missing_trace (fp : FloatOps) (parser parser1 : argument_parser_t)
    (mem mem1 : Memory) (error : argparse_error_t)
    (h : argparse_parse_args fp parser mem = .ok (error, parser1, mem1))
    (he : error.error_val = ARGPARSE_MISSING_ARGUMENT_ERROR) :
    ∃ visited s, Reaches fp parser mem visited s ∧ ¬ s.i < parser.argc_ ∧
      parser1 = s.parser ∧ finalise fp s.parser s.mem = .ok (error, mem1) := by
  obtain ⟨processed, hout⟩ := outcome_complete fp parser parser1 mem mem1 error h
  cases hout with
  | @finished _ s _ _ hr hend hfin =>
    obtain ⟨hst, _⟩ := reaches_static fp parser mem _ s hr
    refine ⟨_, s, hr, ?_, rfl, hfin⟩
    rw [← static_argc _ _ hst]
    exact hend
  | @stopped visited s s1 _ hr hlt hp _ =>
    exact absurd he (parse_token_error_val fp s s1 error hp)

theorem owns_sole (parser : argument_parser_t) (k : Nat) (a : Nat)
    (h : owns parser k a) :
    ∀ (ref1 : ArgRef) (arg2 : argparse_arg_t), parser.deref ref1 = some arg2 →
      arg2.value_ = a → ref1 = .option k := by
  obtain ⟨h1, h2⟩ := owns_spec parser k a h
  intro ref1 arg2 hd hv
  cases ref1 with
  | option j =>
    by_cases hj : j = k
    · rw [hj]
    · exact absurd hv (h1 j arg2 hd hj)
  | positional j => exact absurd hv (h2 arg2 (List.getElem?_mem hd))

/-- A finalisation of a list that returns `MissingArgument`: the error names the first
record of the list that is required, not a `Count` record and has count 0. -/
theorem finalise_list_missing_inv (fp : FloatOps) (error : argparse_error_t)
    (he : error.error_val = ARGPARSE_MISSING_ARGUMENT_ERROR) :
    ∀ (l : List argparse_arg_t) (mem mem1 : Memory),
      finalise_list fp l mem = .ok (error, mem1) →
      ∃ k arg, l[k]? = some arg ∧ is_missing arg ∧
        error = ARGPARSE_MISSING_ARGUMENT_ERROR_ arg.name_ arg.flag_ ∧
        ∀ (j : Nat) (r : argparse_arg_t), j < k → l[j]? = some r → ¬ is_missing r := by
  intro l
  induction l with
  | nil =>
    intro mem mem1 h
    simp only [finalise_list, Comp.ok.injEq, Prod.mk.injEq] at h
    rw [← h.1] at he
    cases he
  | cons r rest ih =>
    intro mem mem1 h
    simp only [finalise_list] at h
    rw [Comp.bind_eq_ok] at h
    obtain ⟨⟨e2, m2⟩, hf, h⟩ := h
    simp only at h
    by_cases ha : r.action_ = ARGPARSE_COUNT_ACTION
    · have hnm : ¬ is_missing r := fun hm => hm.2.1 ha
      simp only [finalise_arg, ha, if_true] at hf
      rcases update_value_ok_or fp _ _ _ _ _ _ hf with ⟨hno, _⟩ | ⟨hr, _⟩
      · subst hno
        simp only [is_error, ARGPARSE_NO_ERROR_] at h
        obtain ⟨k, arg, hk, hm, herr, hfirst⟩ := ih _ _ h
        refine ⟨k + 1, arg, by simpa using hk, hm, herr, ?_⟩
        intro j r1 hj hr1
        cases j with
        | zero =>
          simp only [List.getElem?_cons_zero, Option.some.injEq] at hr1
          rw [← hr1]; exact hnm
        | succ j => exact hfirst j r1 (by omega) (by simpa using hr1)
      · subst hr
        simp only [is_error, ARGPARSE_INT_RANGE_EXCEEDED_ERROR_] at h
        rw [if_pos (by decide)] at h
        simp only [Comp.ok.injEq, Prod.mk.injEq] at h
        rw [← h.1] at he
        cases he
    · simp only [finalise_arg, ha, if_false] at hf
      split at hf
      · rename_i hmiss
        simp only [Comp.ok.injEq, Prod.mk.injEq] at hf
        obtain ⟨h1, h2⟩ := hf
        subst h1
        simp only [is_error, ARGPARSE_MISSING_ARGUMENT_ERROR_] at h
        rw [if_pos (by decide)] at h
        simp only [Comp.ok.injEq, Prod.mk.injEq] at h
        refine ⟨0, r, by simp, ⟨hmiss.2, ha, hmiss.1⟩, h.1.symm, ?_⟩
        intro j r1 hj
        omega
      · rename_i hmiss
        simp only [Comp.ok.injEq, Prod.mk.injEq] at hf
        obtain ⟨h1, h2⟩ := hf
        subst h1
        simp only [is_error, ARGPARSE_NO_ERROR_] at h
        obtain ⟨k, arg, hk, hm, herr, hfirst⟩ := ih _ _ h
        refine ⟨k + 1, arg, by simpa using hk, hm, herr, ?_⟩
        intro j r1 hj hr1
        cases j with
        | zero =>
          simp only [List.getElem?_cons_zero, Option.some.injEq] at hr1
          rw [← hr1]
          exact fun hm1 => hmiss ⟨hm1.2.2, hm1.1⟩
        | succ j => exact hfirst j r1 (by omega) (by simpa using hr1)

/-- A finalisation that returns `MissingArgument` names a registered record that is
required, not a `Count` record, and has count 0. -/
theorem finalise_missing_inv (fp : FloatOps) (parser : argument_parser_t)
    (mem mem1 : Memory) (error : argparse_error_t)
    (he : error.error_val = ARGPARSE_MISSING_ARGUMENT_ERROR)
    (h : finalise fp parser mem = .ok (error, mem1)) :
    ∃ ref arg, parser.deref ref = some arg ∧ is_missing arg ∧
      error = ARGPARSE_MISSING_ARGUMENT_ERROR_ arg.name_ arg.flag_ := by
  rw [finalise_eq_list] at h
  obtain ⟨k, arg, hk, hm, herr, _⟩ := finalise_list_missing_inv fp error he _ _ _ h
  by_cases hlt : k < parser.options_.length
  · rw [List.getElem?_append_left hlt] at hk
    exact ⟨.option k, arg, hk, hm, herr⟩
  · rw [List.getElem?_append_right (by omega)] at hk
    exact ⟨.positional (k - parser.options_.length), arg, hk, hm, herr⟩

/-! ## Floating point: the choices of a `float` and the tolerance of `WITHIN` -/

/-- The loop over a `float` choice array: it ends with `tmp_bool` saying whether the
parsed value passes `WITHIN` for one of the elements from `j` on. -/
theorem choices_loop_floats (fp : FloatOps) (arg : argparse_arg_t) (value : CStr)
    (l : List Nat) (ht : arg.type_ = ARGPARSE_FLOAT_TYPE)
    (hc : arg.choices_ = some (.floats l)) (num : Nat) (hnum : num ≤ l.length) :
    ∀ m j b, j + m = num →
      choices_loop fp arg value m j b =
        .ok (.ok (decide (∃ c ∈ (l.take num).drop j, fp.within (fp.strtof value) c = true)
          || (decide (m = 0) && b))) := by
  intro m
  induction m with
  | zero =>
    intro j b hj
    have : (l.take num).drop j = [] := by
      apply List.drop_eq_nil_of_le
      simp only [List.length_take]; omega
    simp [choices_loop, this]
  | succ m ih =>
    intro j b hj
    have hjl : j < l.length := by omega
    have hget : l[j]? = some l[j] := List.getElem?_eq_getElem hjl
    have hdrop : (l.take num).drop j = l[j] :: (l.take num).drop (j + 1) := by
      have hjt : j < (l.take num).length := by simp only [List.length_take]; omega
      rw [List.drop_eq_getElem_cons hjt]
      simp [List.getElem_take]
    simp only [choices_loop, ht, hc, hget]
    by_cases hw : fp.within (fp.strtof value) l[j] = true
    · simp [hw, hdrop]
    · simp only [hw, if_false]
      rw [ih (j + 1) false (by omega), hdrop]
      simp [hw]

/-- For a record with a choice set of `float`s, the loop over the choices ends with
`tmp_bool` saying whether the parsed value passes `WITHIN` for one of the choices. -/
theorem choices_loop_within (fp : FloatOps) (arg : argparse_arg_t) (value : CStr)
    (l : List Nat) (hset : has_float_choices arg l) :
    choices_loop fp arg value arg.num_choices_ 0 (arg.num_choices_ == 0) =
      .ok (.ok (decide (within_choices fp arg l (fp.strtof value)))) := by
  obtain ⟨ht, hc, hpos, hlen⟩ := hset
  have hm : decide (arg.num_choices_ = 0) = false := by
    simp only [decide_eq_false_iff_not]; omega
  rw [choices_loop_floats fp arg value l ht hc arg.num_choices_ hlen arg.num_choices_ 0 _
    (by omega)]
  simp only [List.drop_zero, hm, Bool.false_and, Bool.or_false, within_choices]

/-- The binding of a token to a `Store` record with a choice set of `float`s: the parsed
value is stored when it passes `WITHIN` for one of the choices, and `InvalidChoice` is
returned without a write otherwise. -/
theorem get_and_update_value_within (fp : FloatOps) (st : State) (ref : ArgRef) (i : Nat)
    (positional negated : Bool) (arg : argparse_arg_t) (l : List Nat) (value : CStr)
    (hd : st.parser.deref ref = some arg) (ha : arg.action_ = ARGPARSE_STORE_ACTION)
    (hv : st.parser.argv_[if positional then i else i + 1]? = some value)
    (hset : has_float_choices arg l) :
    (within_choices fp arg l (fp.strtof value) →
      get_and_update_value fp st ref i positional negated =
        .ok (ARGPARSE_NO_ERROR_,
          { parser := st.parser.assign ref { arg with count_ := arg.count_ + 1 },
            mem := st.mem.write arg.value_ (.float (fp.strtof value)) },
          if positional then i else i + 1)) ∧
    (¬ within_choices fp arg l (fp.strtof value) →
      get_and_update_value fp st ref i positional negated =
        .ok (ARGPARSE_INVALID_CHOICE_ERROR_ st.parser.argv_[i]? NO_FLAG,
          { st with parser := st.parser.assign ref { arg with count_ := arg.count_ + 1 } },
          if positional then i else i + 1)) := by
  have hloop := choices_loop_within fp arg value l hset
  have hw : coerce fp arg.type_ value = some (.float (fp.strtof value)) := by
    rw [hset.1]; rfl
  constructor
  · intro hin
    refine get_and_update_value_store fp st ref i positional negated arg value _ hd ha hv ?_ hw
    unfold choice_accepts
    rw [hloop, decide_eq_true hin]
  · intro hin
    refine get_and_update_value_rejects fp st ref i positional negated arg value hd ha hv ?_
    rw [hloop, decide_eq_false hin]

theorem F24_dvd (t : Nat) (x : Int) (h : F24 x) (hx : (2 : Int) ^ (t + 23) ≤ |x|) :
    ∃ y : Int, x = 2 ^ t * y := by
  obtain ⟨m, k, hm, hmk⟩ := h
  have hx1 : 2 ^ (t + 23) ≤ x.natAbs := by
    have : ((2 ^ (t + 23) : Nat) : Int) ≤ ((x.natAbs : Nat) : Int) := by
      rw [Int.natCast_natAbs]
      simpa using hx
    exact_mod_cast this
  have hk : t ≤ k := by
    by_contra hlt
    have hk1 : k + 1 ≤ t := by omega
    have h1 : 2 ^ k * 2 ^ 24 ≤ 2 ^ (t + 23) := by
      rw [← pow_add]
      exact Nat.pow_le_pow_right (by decide) (by omega)
    have h2 : m * 2 ^ k < 2 ^ k * 2 ^ 24 := by
      rw [Nat.mul_comm]
      exact Nat.mul_lt_mul_of_pos_left hm (Nat.two_pow_pos k)
    omega
  have h3 : (2 ^ t : Nat) ∣ x.natAbs := by
    rw [hmk]
    exact Dvd.dvd.mul_left (pow_dvd_pow 2 hk) m
  have h4 : ((2 ^ t : Nat) : Int) ∣ x := Int.natCast_dvd.mpr h3
  obtain ⟨y, hy⟩ := h4
  exact ⟨y, by simpa using hy⟩

theorem F24_common (a b : Int) (ha : F24 a) (hb : F24 b) :
    ∃ P : Int, 0 < P ∧ P ∣ a ∧ P ∣ b ∧ (|a| < 2 ^ 24 * P ∨ |b| < 2 ^ 24 * P) := by
  obtain ⟨m, k, hm, hmk⟩ := ha
  obtain ⟨n, g, hn, hng⟩ := hb
  have dvd_of : ∀ (x : Int) (m k j : Nat), x.natAbs = m * 2 ^ k → j ≤ k →
      ((2 ^ j : Nat) : Int) ∣ x := by
    intro x m k j h hj
    apply Int.natCast_dvd.mpr
    rw [h]
    exact Dvd.dvd.mul_left (pow_dvd_pow 2 hj) m
  have lt_of : ∀ (x : Int) (m k : Nat), m < 2 ^ 24 → x.natAbs = m * 2 ^ k →
      |x| < 2 ^ 24 * ((2 ^ k : Nat) : Int) := by
    intro x m k hm h
    have h1 : m * 2 ^ k < 2 ^ 24 * 2 ^ k :=
      Nat.mul_lt_mul_of_pos_right hm (Nat.two_pow_pos k)
    have h2 : (|x| : Int) = ((m * 2 ^ k : Nat) : Int) := by
      rw [← h, Int.natCast_natAbs]
    rw [h2]
    have h3 : ((m * 2 ^ k : Nat) : Int) < ((2 ^ 24 * 2 ^ k : Nat) : Int) := by
      exact_mod_cast h1
    simpa using h3
  have hpos : ∀ j : Nat, (0 : Int) < ((2 ^ j : Nat) : Int) := by
    intro j
    exact_mod_cast Nat.two_pow_pos j
  by_cases hkg : k ≤ g
  · exact ⟨((2 ^ k : Nat) : Int), hpos k, dvd_of a m k k hmk (le_refl _),
      dvd_of b n g k hng hkg, Or.inl (lt_of a m k hm hmk)⟩
  · exact ⟨((2 ^ g : Nat) : Int), hpos g, dvd_of a m k g hmk (by omega),
      dvd_of b n g g hng (le_refl _), Or.inr (lt_of b n g hn hng)⟩

set_option maxRecDepth 100000 in
theorem within_upper_core (a b R : Int) (ha : F24 a) (hb : F24 b)
    (h1 : 2 ^ 53 * |R - (b + EPS149)| ≤ |b + EPS149|)
    (h2 : a ≤ b + EPS149 → a ≤ R) :
    a ≤ R ↔ 100000 * (a - b) ≤ 2 ^ 149 := by
  unfold EPS149 at h1 h2
  constructor
  · intro hle
    by_contra hgt
    obtain ⟨P, hP, hPa, hPb, hmin⟩ := F24_common a b ha hb
    have hs : 0 < a - b := by omega
    have hPs : P ≤ a - b := Int.le_of_dvd hs (Int.dvd_sub hPa hPb)
    have d108 := F24_dvd 108 
    have d83 := F24_dvd 83
    simp only [abs_eq_max_neg] at h1 hmin d108 d83
    by_cases hsmall : |a| < 2 ^ 131 ∨ |b| < 2 ^ 131
    · simp only [abs_eq_max_neg] at hsmall
      rcases hsmall with hA | hB
      · obtain ⟨b', hb'⟩ := d108 b hb (by omega)
        obtain ⟨a', ha'⟩ := d83 a ha (by omega)
        omega
      · obtain ⟨a', ha'⟩ := d108 a ha (by omega)
        have hu : R - (b + 0x14F8B588E368F1 * 2 ^ 80) ≤ 2 ^ 81 := by omega
        have hb106 : (2 : Int) ^ (83 + 23) ≤ max b (-b) := by
          by_contra hlt
          have h3 : -(2 : Int) ^ 106 < b ∧ b < 2 ^ 106 := by omega
          have h4 : 0x14F8B588E368F1 * 2 ^ 80 - 2 ^ 80 - 2 ^ 106 < 2 ^ 108 * a' := by omega
          have h5 : 2 ^ 108 * a' < 0x14F8B588E368F1 * 2 ^ 80 + 2 ^ 81 + 2 ^ 106 + 1 := by omega
          omega
        obtain ⟨b', hb'⟩ := d83 b hb hb106
        omega
    · simp only [abs_eq_max_neg] at hsmall
      obtain ⟨a', ha'⟩ := d108 a ha (by omega)
      obtain ⟨b', hb'⟩ := d108 b hb (by omega)
      omega
  · intro hle
    apply h2
    omega

theorem bit_length_aux_spec : ∀ (fuel n : Nat), n < 2 ^ fuel → n ≠ 0 →
    2 ^ (bit_length_aux fuel n - 1) ≤ n ∧ n < 2 ^ bit_length_aux fuel n ∧
      0 < bit_length_aux fuel n := by
  intro fuel
  induction fuel with
  | zero => intro n h hn; simp at h; omega
  | succ fuel ih =>
    intro n h hn
    simp only [bit_length_aux, hn, if_false]
    by_cases h2 : n / 2 = 0
    · have h1 : n = 1 := by omega
      subst h1
      cases fuel <;> simp [bit_length_aux]
    · have hlt : n / 2 < 2 ^ fuel := by
        rw [pow_succ] at h
        omega
      obtain ⟨h3, h4, h5⟩ := ih (n / 2) hlt h2
      refine ⟨?_, ?_, by omega⟩
      · simp only [Nat.add_sub_cancel]
        have : 2 ^ bit_length_aux fuel (n / 2) = 2 ^ (bit_length_aux fuel (n / 2) - 1) * 2 := by
          rw [← pow_succ]; congr 1; omega
        omega
      · rw [pow_succ]; omega

/-- The number of binary digits of a positive number `n`: `2 ^ (l - 1) ≤ n < 2 ^ l`. -/
theorem bit_length_spec (n : Nat) (hn : n ≠ 0) :
    2 ^ (bit_length n - 1) ≤ n ∧ n < 2 ^ bit_length n ∧ 0 < bit_length n :=
  bit_length_aux_spec n n (Nat.lt_two_pow n) hn

theorem bit_length_le (n k : Nat) (h : n < 2 ^ k) : bit_length n ≤ k := by
  by_cases hn : n = 0
  · subst hn
    have : bit_length 0 = 0 := rfl
    omega
  · obtain ⟨h1, _, h3⟩ := bit_length_spec n hn
    by_contra hlt
    have : 2 ^ k ≤ 2 ^ (bit_length n - 1) := Nat.pow_le_pow_right (by decide) (by omega)
    omega

theorem rne_div_bounds (N D : Nat) (hD : 0 < D) :
    N / D ≤ rne_div N D ∧ rne_div N D ≤ N / D + 1 ∧
      2 * (rne_div N D * D) ≤ 2 * N + D ∧ 2 * N ≤ 2 * (rne_div N D * D) + D ∧
      (N % D = 0 → rne_div N D = N / D) := by
  have hdm := Nat.div_add_mod N D
  have hmod := Nat.mod_lt N hD
  have hmul : D * (N / D) = N / D * D := Nat.mul_comm _ _
  unfold rne_div
  split
  · rename_i h
    refine ⟨by omega, by omega, ?_, ?_, ?_⟩
    · rw [Nat.add_mul]; omega
    · rw [Nat.add_mul]; omega
    · intro h0; rw [h0] at h; omega
  · rename_i h
    refine ⟨by omega, by omega, ?_, ?_, fun _ => rfl⟩
    · omega
    · have : ¬ 2 * (N % D) > D := fun h1 => h (Or.inl h1)
      omega

theorem rne_div_one (N : Nat) : rne_div N 1 = N := by
  have := (rne_div_bounds N 1 (by decide)).2.2.2.2 (Nat.mod_one N)
  simpa using this

/-- The sum of two `double`s that are multiples of `2 ^ (-149)` and far from the
overflow threshold: the rounding returns a finite datum whose value is the rounded
integer. -/
theorem round_dyadic_binary64 (neg : Bool) (M t : Nat) (hM : M ≠ 0)
    (hlen : t + bit_length M ≤ 1000) :
    ∃ (n : Nat) (q : Int), round_dyadic binary64 neg M ((t : Int) - 149) = .fin neg n q ∧
      -201 ≤ q ∧ n * 2 ^ (q + 201).toNat = round53 M * 2 ^ (t + 52) := by
  obtain ⟨hlo, hhi, hpos⟩ := bit_length_spec M hM
  have hq : max ((t : Int) - 149 + (bit_length M : Int) - ((53 : Nat) : Int)) (-1074) =
      (t : Int) + bit_length M - 202 := by omega
  have fin_of : ∀ (n : Nat) (q : Int), n < 2 ^ 54 → q ≤ 900 →
      FP.finish binary64 neg n q = .fin neg n q := by
    intro n q hn hq
    have := bit_length_le n 54 hn
    unfold FP.finish binary64
    simp only
    rw [if_neg (by omega)]
  unfold round_dyadic
  simp only [hM, if_false, binary64, hq]
  by_cases hb : bit_length M ≤ 53
  · have e1 : pow2 ((t : Int) - 149 - ((t : Int) + bit_length M - 202)) =
        2 ^ (53 - bit_length M) := by
      unfold pow2; congr 1; omega
    have e2 : pow2 ((t : Int) + bit_length M - 202 - ((t : Int) - 149)) = 1 := by
      unfold pow2
      have : ((t : Int) + bit_length M - 202 - ((t : Int) - 149)).toNat = 0 := by omega
      rw [this]; rfl
    rw [e1, e2, rne_div_one]
    have hn : M * 2 ^ (53 - bit_length M) < 2 ^ 54 := by
      have h1 : M * 2 ^ (53 - bit_length M) < 2 ^ bit_length M * 2 ^ (53 - bit_length M) :=
        Nat.mul_lt_mul_of_pos_right hhi (Nat.two_pow_pos _)
      rw [← pow_add] at h1
      have h2 : 2 ^ (bit_length M + (53 - bit_length M)) ≤ 2 ^ 54 :=
        Nat.pow_le_pow_right (by decide) (by omega)
      omega
    refine ⟨_, _, fin_of _ _ hn (by omega), by omega, ?_⟩
    have e3 : ((t : Int) + bit_length M - 202 + 201).toNat + (53 - bit_length M) = t + 52 := by
      omega
    rw [round53, if_pos hb, Nat.mul_assoc, ← pow_add, Nat.add_comm, e3]
  · have e1 : pow2 ((t : Int) - 149 - ((t : Int) + bit_length M - 202)) = 1 := by
      unfold pow2
      have : ((t : Int) - 149 - ((t : Int) + bit_length M - 202)).toNat = 0 := by omega
      rw [this]; rfl
    have e2 : pow2 ((t : Int) + bit_length M - 202 - ((t : Int) - 149)) =
        2 ^ (bit_length M - 53) := by
      unfold pow2; congr 1; omega
    rw [e1, e2, Nat.mul_one]
    obtain ⟨_, hup, _⟩ := rne_div_bounds M (2 ^ (bit_length M - 53)) (Nat.two_pow_pos _)
    have hdiv : M / 2 ^ (bit_length M - 53) < 2 ^ 53 := by
      rw [Nat.div_lt_iff_lt_mul (Nat.two_pow_pos _), ← pow_add]
      have : 53 + (bit_length M - 53) = bit_length M := by omega
      rw [this]; exact hhi
    refine ⟨_, _, fin_of _ _ (by omega) (by omega), by omega, ?_⟩
    have e3 : ((t : Int) + bit_length M - 202 + 201).toNat = bit_length M - 53 + (t + 52) := by
      omega
    rw [round53, if_neg hb, e3, pow_add, Nat.mul_assoc]

/-- The error of the rounding to 53 bits is at most `2 ^ (-53)` of the number. -/
theorem round53_error (M : Nat) :
    2 ^ 53 * round53 M ≤ (2 ^ 53 + 1) * M ∧ (2 ^ 53 - 1) * M ≤ 2 ^ 53 * round53 M := by
  unfold round53
  split
  · omega
  · rename_i hb
    have hM : M ≠ 0 := by
      intro h0; subst h0
      have : bit_length 0 = 0 := rfl
      omega
    obtain ⟨hlo, _, _⟩ := bit_length_spec M hM
    obtain ⟨_, _, h3, h4, _⟩ := rne_div_bounds M (2 ^ (bit_length M - 53)) (Nat.two_pow_pos _)
    have hp : 2 ^ (bit_length M - 1) = 2 ^ 52 * 2 ^ (bit_length M - 53) := by
      rw [← pow_add]; congr 1; omega
    generalize rne_div M (2 ^ (bit_length M - 53)) * 2 ^ (bit_length M - 53) = r at h3 h4 ⊢
    generalize 2 ^ (bit_length M - 53) = D at h3 h4 hp
    omega

/-- A number with 24 significant bits that is at least `2 ^ j * 2 ^ 23` is a multiple
of `2 ^ j`. -/
theorem nat24_dvd (m k j : Nat) (hm : m < 2 ^ 24) (h : 2 ^ j * 2 ^ 23 ≤ m * 2 ^ k) :
    ∃ A, m * 2 ^ k = A * 2 ^ j := by
  have hk : j ≤ k := by
    by_contra hlt
    have h1 : 2 ^ k * 2 ^ 24 ≤ 2 ^ j * 2 ^ 23 := by
      rw [← pow_add, ← pow_add]
      exact Nat.pow_le_pow_right (by decide) (by omega)
    have h2 : m * 2 ^ k < 2 ^ k * 2 ^ 24 := by
      rw [Nat.mul_comm]
      exact Nat.mul_lt_mul_of_pos_left hm (Nat.two_pow_pos k)
    omega
  refine ⟨m * 2 ^ (k - j), ?_⟩
  rw [Nat.mul_assoc, ← pow_add]
  congr 2; omega

/-- A number with 24 significant bits that is not above `M * 2 ^ t` is not above the
rounded `M` times `2 ^ t`, and one that is not below is not below. -/
theorem round53_monotone (M t m k : Nat) (hm : m < 2 ^ 24) :
    (m * 2 ^ k ≤ M * 2 ^ t → m * 2 ^ k ≤ round53 M * 2 ^ t) ∧
    (M * 2 ^ t ≤ m * 2 ^ k → round53 M * 2 ^ t ≤ m * 2 ^ k) := by
  unfold round53
  split
  · exact ⟨id, id⟩
  · rename_i hb
    have hM : M ≠ 0 := by
      intro h0; subst h0
      have : bit_length 0 = 0 := rfl
      omega
    obtain ⟨hlo, _, _⟩ := bit_length_spec M hM
    have hDpos : 0 < 2 ^ (bit_length M - 53) := Nat.two_pow_pos _
    obtain ⟨h1, h2, _, _, h5⟩ := rne_div_bounds M (2 ^ (bit_length M - 53)) hDpos
    have hp : 2 ^ (bit_length M - 1) = 2 ^ 52 * 2 ^ (bit_length M - 53) := by
      rw [← pow_add]; congr 1; omega
    have hdm := Nat.div_add_mod M (2 ^ (bit_length M - 53))
    have hmod := Nat.mod_lt M hDpos
    have htpos : 0 < 2 ^ t := Nat.two_pow_pos _
    -- the numbers from `2 ^ (l - 1) * 2 ^ t` on are multiples of `D * 2 ^ t`
    have hdvd : 2 ^ (bit_length M - 1) * 2 ^ t ≤ m * 2 ^ k →
        ∃ A, m * 2 ^ k = A * (2 ^ (bit_length M - 53) * 2 ^ t) := by
      intro hge
      have e1 : 2 ^ (bit_length M - 53) * 2 ^ t = 2 ^ (bit_length M - 53 + t) :=
        (pow_add 2 _ _).symm
      rw [e1]
      apply nat24_dvd m k _ hm
      have e2 : 2 ^ (bit_length M - 53 + t) * 2 ^ 23 ≤ 2 ^ (bit_length M - 1) * 2 ^ t := by
        rw [← pow_add, ← pow_add]
        exact Nat.pow_le_pow_right (by decide) (by omega)
      exact le_trans e2 hge
    generalize rne_div M (2 ^ (bit_length M - 53)) = r at h1 h2 h5 ⊢
    generalize 2 ^ (bit_length M - 1) = B at hlo hp hdvd
    generalize 2 ^ (bit_length M - 53) = D at hDpos h1 h2 h5 hp hdm hmod hdvd ⊢
    generalize hf : M / D = f at h1 h2 h5 hdm
    have hfD : f * D ≤ M := by rw [Nat.mul_comm]; omega
    have hf52 : 2 ^ 52 ≤ f := by
      by_contra hlt
      have : D * (f + 1) ≤ D * 2 ^ 52 := Nat.mul_le_mul_left D (by omega)
      rw [Nat.mul_add] at this
      omega
    constructor
    · intro hle
      by_cases hge : B * 2 ^ t ≤ m * 2 ^ k
      · obtain ⟨A, hA⟩ := hdvd hge
        rw [hA] at hle ⊢
        have h6 : A * D ≤ M := by
          rw [← Nat.mul_assoc] at hle
          exact Nat.le_of_mul_le_mul_right hle htpos
        have h7 : A ≤ f := by
          rw [← hf]
          exact (Nat.le_div_iff_mul_le hDpos).2 h6
        rw [← Nat.mul_assoc]
        exact Nat.mul_le_mul_right _ (Nat.mul_le_mul_right _ (le_trans h7 h1))
      · have h8 : B * 2 ^ t ≤ r * D * 2 ^ t := by
          apply Nat.mul_le_mul_right
          rw [hp]
          exact Nat.mul_le_mul_right _ (le_trans hf52 h1)
        omega
    · intro hle
      have hge : B * 2 ^ t ≤ m * 2 ^ k := le_trans (Nat.mul_le_mul_right _ hlo) hle
      obtain ⟨A, hA⟩ := hdvd hge
      rw [hA] at hle ⊢
      have h6 : M ≤ A * D := by
        rw [← Nat.mul_assoc] at hle
        exact Nat.le_of_mul_le_mul_right hle htpos
      have h7 : r ≤ A := by
        by_cases hz : M % D = 0
        · rw [h5 hz]
          by_contra hlt
          have : (A + 1) * D ≤ f * D := Nat.mul_le_mul_right D (by omega)
          rw [Nat.add_mul] at this
          omega
        · by_contra hlt
          have : A * D ≤ f * D := Nat.mul_le_mul_right D (by omega)
          have hfD2 : f * D + M % D = M := by rw [Nat.mul_comm]; omega
          omega
      rw [← Nat.mul_assoc]
      exact Nat.mul_le_mul_right _ (Nat.mul_le_mul_right _ h7)

theorem pow2_add (a b : Int) (ha : 0 ≤ a) (hb : 0 ≤ b) : pow2 (a + b) = pow2 a * pow2 b := by
  unfold pow2
  rw [← pow_add]
  congr 1
  omega

theorem pow2_natCast (k : Nat) : pow2 (k : Int) = 2 ^ k := by
  unfold pow2
  simp

theorem pow2_pos (k : Int) : 0 < pow2 k := Nat.two_pow_pos _

/-- The scaled integer of a number at a finer scale. -/
theorem scaled_shift (s : Bool) (m : Nat) (e q Q : Int) (h1 : Q ≤ q) (h2 : q ≤ e) :
    FP.scaled s m e Q = FP.scaled s m e q * (pow2 (q - Q) : Int) := by
  have h3 : pow2 (e - Q) = pow2 (e - q) * pow2 (q - Q) := by
    rw [← pow2_add _ _ (by omega) (by omega)]
    congr 1
    omega
  unfold FP.scaled
  rw [h3]
  split
  · push_cast; ring
  · push_cast; ring

/-- The comparison of two finite data is that of their scaled integers, at any common
scale. -/
theorem f64_le_fin (s t : Bool) (m n : Nat) (e g Q : Int) (h1 : Q ≤ e) (h2 : Q ≤ g) :
    f64_le (.fin s m e) (.fin t n g) = decide (FP.scaled s m e Q ≤ FP.scaled t n g Q) := by
  unfold f64_le
  rw [scaled_shift s m e (min e g) Q (by omega) (by omega),
    scaled_shift t n g (min e g) Q (by omega) (by omega)]
  have hpos : (0 : Int) < (pow2 (min e g - Q) : Int) := by
    exact_mod_cast pow2_pos _
  simp only [decide_eq_decide]
  exact (mul_le_mul_right hpos).symm

/-- The datum of a bit pattern, when it is finite, has less than 24 bits and an exponent
from -149 to 104. -/
theorem decode32_fin (bits : Nat) (s : Bool) (m : Nat) (e : Int)
    (h : decode32 bits = .fin s m e) : m < 2 ^ 24 ∧ ∃ k : Nat, e = (k : Int) - 149 ∧ k ≤ 253 := by
  unfold decode32 at h
  simp only at h
  split at h
  · split at h <;> cases h
  · rename_i h255
    split at h
    · simp only [FP.fin.injEq] at h
      obtain ⟨_, hm, he⟩ := h
      have := Nat.mod_lt bits (show 0 < 2 ^ 23 by decide)
      exact ⟨by omega, 0, by omega, by omega⟩
    · rename_i h0
      simp only [FP.fin.injEq] at h
      obtain ⟨_, hm, he⟩ := h
      have := Nat.mod_lt bits (show 0 < 2 ^ 23 by decide)
      have := Nat.mod_lt (bits / 2 ^ 23) (show 0 < 256 by decide)
      exact ⟨by omega, bits / 2 ^ 23 % 256 - 1, by omega, by omega⟩

/-- The scaled integer of a number with 24 bits has 24 significant bits. -/
theorem scaled_F24 (s : Bool) (m k : Nat) (hm : m < 2 ^ 24) :
    F24 (FP.scaled s m ((k : Int) - 149) (-149)) := by
  refine ⟨m, k, hm, ?_⟩
  have h : pow2 ((k : Int) - 149 - -149) = 2 ^ k := by
    rw [show (k : Int) - 149 - -149 = (k : Int) by omega, pow2_natCast]
  unfold FP.scaled
  rw [h]
  split
  · rw [Int.natAbs_neg, Int.natAbs_ofNat]
  · rw [Int.natAbs_ofNat]

set_option maxRecDepth 100000 in
/-- No `float` is `EPSILON_FLOAT` or its negative. -/
theorem eps_sum_ne_zero (b : Int) (hF : F24 b) (se : Bool) :
    b + (if se then - EPS149 else EPS149) ≠ 0 := by
  have d108 := F24_dvd 108 b hF
  simp only [abs_eq_max_neg] at d108
  unfold EPS149
  intro h0
  cases se
  · simp only [Bool.false_eq_true, if_false] at h0
    obtain ⟨y, hy⟩ := d108 (by omega)
    omega
  · simp only [if_true] at h0
    obtain ⟨y, hy⟩ := d108 (by omega)
    omega

theorem scaled_natAbs (s : Bool) (m : Nat) (e q : Int) :
    (FP.scaled s m e q).natAbs = m * pow2 (e - q) := by
  unfold FP.scaled
  split
  · rw [Int.natAbs_neg, Int.natAbs_ofNat]
  · rw [Int.natAbs_ofNat]

/-- The bounds of `WITHIN`.  The sum of a `float` and `EPSILON_FLOAT` (with either sign)
in `double` is finite; with `T` the exact sum and `R` the rounded one, both scaled by
`2 ^ 149`, the error of `R` is at most `2 ^ (-53)` of `T`, and no `float` lies between
`T` and `R`. -/
theorem f64_add_eps (sc se : Bool) (mc kc : Nat) (hmc : mc < 2 ^ 24) (hkc : kc ≤ 253) :
    ∃ (R : Int) (neg : Bool) (n : Nat) (q : Int),
      f64_add (.fin sc mc ((kc : Int) - 149)) (.fin se 0x14F8B588E368F1 (-69)) =
        .fin neg n q ∧
      (∀ (sv : Bool) (mv kv : Nat),
        f64_le (.fin sv mv ((kv : Int) - 149)) (.fin neg n q) =
          decide (FP.scaled sv mv ((kv : Int) - 149) (-149) ≤ R)) ∧
      (∀ (sv : Bool) (mv kv : Nat),
        f64_le (.fin neg n q) (.fin sv mv ((kv : Int) - 149)) =
          decide (R ≤ FP.scaled sv mv ((kv : Int) - 149) (-149))) ∧
      2 ^ 53 * |R - (FP.scaled sc mc ((kc : Int) - 149) (-149) +
          (if se then - EPS149 else EPS149))| ≤
        |FP.scaled sc mc ((kc : Int) - 149) (-149) + (if se then - EPS149 else EPS149)| ∧
      ∀ a, F24 a →
        (a ≤ FP.scaled sc mc ((kc : Int) - 149) (-149) + (if se then - EPS149 else EPS149) →
          a ≤ R) ∧
        (FP.scaled sc mc ((kc : Int) - 149) (-149) + (if se then - EPS149 else EPS149) ≤ a →
          R ≤ a) := by
  -- the common scale of the two operands
  obtain ⟨t, ht, hq0⟩ : ∃ t : Nat, t ≤ kc ∧ t ≤ 80 ∧
      min ((kc : Int) - 149) (-69) = (t : Int) - 149 := by
    by_cases h : kc ≤ 80
    · exact ⟨kc, le_refl _, h, by omega⟩
    · exact ⟨80, by omega, le_refl _, by omega⟩
  obtain ⟨ht80, hq0⟩ := hq0
  have hb := scaled_shift sc mc ((kc : Int) - 149) ((t : Int) - 149) (-149) (by omega) (by omega)
  have he := scaled_shift se 0x14F8B588E368F1 (-69) ((t : Int) - 149) (-149) (by omega)
    (by omega)
  have hpt : pow2 ((t : Int) - 149 - -149) = 2 ^ t := by
    rw [show (t : Int) - 149 - -149 = (t : Int) by omega, pow2_natCast]
  rw [hpt] at hb he
  have heps : FP.scaled se 0x14F8B588E368F1 (-69) (-149) = if se then - EPS149 else EPS149 := by
    have h80 : pow2 (-69 - -149) = 2 ^ 80 := by
      unfold pow2
      rw [show (-69 - -149 : Int) = ((80 : Nat) : Int) by omega, Int.toNat_ofNat]
    unfold FP.scaled EPS149
    rw [h80]
    cases se <;> simp
  rw [heps] at he
  generalize hx : FP.scaled sc mc ((kc : Int) - 149) ((t : Int) - 149) +
    FP.scaled se 0x14F8B588E368F1 (-69) ((t : Int) - 149) = x
  have hT : FP.scaled sc mc ((kc : Int) - 149) (-149) + (if se then - EPS149 else EPS149) =
      x * ((2 ^ t : Nat) : Int) := by
    rw [hb, he, ← hx]; ring
  have hF := scaled_F24 sc mc kc hmc
  have h2t : (0 : Int) < ((2 ^ t : Nat) : Int) := by exact_mod_cast Nat.two_pow_pos t
  have hTne := eps_sum_ne_zero _ hF se
  rw [hT] at hTne ⊢
  have hxne : x ≠ 0 := by
    intro h0; rw [h0] at hTne; simp at hTne
  have hM : x.natAbs ≠ 0 := by omega
  have hlen : t + bit_length x.natAbs ≤ 1000 := by
    have h1 : x.natAbs ≤ mc * pow2 ((kc : Int) - 149 - ((t : Int) - 149)) +
        0x14F8B588E368F1 * pow2 (-69 - ((t : Int) - 149)) := by
      rw [← hx, ← scaled_natAbs sc, ← scaled_natAbs se]
      exact Int.natAbs_add_le _ _
    have h2 : mc * pow2 ((kc : Int) - 149 - ((t : Int) - 149)) < 2 ^ (kc + 133) := by
      have e1 : pow2 ((kc : Int) - 149 - ((t : Int) - 149)) = 2 ^ (kc - t) := by
        unfold pow2; congr 1; omega
      rw [e1]
      calc mc * 2 ^ (kc - t) < 2 ^ 24 * 2 ^ (kc - t) :=
            Nat.mul_lt_mul_of_pos_right hmc (Nat.two_pow_pos _)
        _ = 2 ^ (24 + (kc - t)) := (pow_add 2 _ _).symm
        _ ≤ 2 ^ (kc + 133) := Nat.pow_le_pow_right (by decide) (by omega)
    have h3 : 0x14F8B588E368F1 * pow2 (-69 - ((t : Int) - 149)) < 2 ^ (kc + 133) := by
      have e1 : pow2 (-69 - ((t : Int) - 149)) = 2 ^ (80 - t) := by
        unfold pow2; congr 1; omega
      rw [e1]
      calc 0x14F8B588E368F1 * 2 ^ (80 - t) < 2 ^ 53 * 2 ^ (80 - t) :=
            Nat.mul_lt_mul_of_pos_right (by decide) (Nat.two_pow_pos _)
        _ = 2 ^ (53 + (80 - t)) := (pow_add 2 _ _).symm
        _ ≤ 2 ^ (kc + 133) := Nat.pow_le_pow_right (by decide) (by omega)
    have h4 : x.natAbs < 2 ^ (kc + 134) := by
      rw [pow_succ]; omega
    have := bit_length_le _ _ h4
    omega
  obtain ⟨n, q, hround, hq, hnq⟩ := round_dyadic_binary64 (decide (x < 0)) x.natAbs t hM hlen
  have hadd : f64_add (.fin sc mc ((kc : Int) - 149)) (.fin se 0x14F8B588E368F1 (-69)) =
      .fin (decide (x < 0)) n q := by
    simp only [f64_add, hq0, hx, hxne, if_false]
    exact hround
  obtain ⟨herr1, herr2⟩ := round53_error x.natAbs
  have herr3 : 2 ^ 53 * (round53 x.natAbs * 2 ^ t) ≤ (2 ^ 53 + 1) * (x.natAbs * 2 ^ t) := by
    rw [← Nat.mul_assoc, ← Nat.mul_assoc]
    exact Nat.mul_le_mul_right _ herr1
  have herr4 : (2 ^ 53 - 1) * (x.natAbs * 2 ^ t) ≤ 2 ^ 53 * (round53 x.natAbs * 2 ^ t) := by
    rw [← Nat.mul_assoc, ← Nat.mul_assoc]
    exact Nat.mul_le_mul_right _ herr2
  have hXT : x * ((2 ^ t : Nat) : Int) =
      if x < 0 then - ((x.natAbs * 2 ^ t : Nat) : Int) else ((x.natAbs * 2 ^ t : Nat) : Int) := by
    split
    · rename_i hneg
      push_cast; rw [abs_of_neg hneg]; ring
    · rename_i hneg
      push_cast; rw [abs_of_nonneg (by omega)]
  rw [hXT]
  have hnq2 : n * 2 ^ (q + 201).toNat = round53 x.natAbs * 2 ^ t * 2 ^ 52 := by
    rw [hnq, pow_add, Nat.mul_assoc]
  have hmono := fun (m k : Nat) (hm : m < 2 ^ 24) => round53_monotone x.natAbs t m k hm
  generalize hX : x.natAbs * 2 ^ t = X at herr3 herr4 hmono ⊢
  generalize hY : round53 x.natAbs * 2 ^ t = Y at herr3 herr4 hnq2 hmono
  have h52 : pow2 (-149 - -201) = 2 ^ 52 := by
    unfold pow2
    rw [show (-149 - -201 : Int) = ((52 : Nat) : Int) by omega, Int.toNat_ofNat]
  have hR : FP.scaled (decide (x < 0)) n q (-201) =
      (if x < 0 then - (Y : Int) else (Y : Int)) * ((2 ^ 52 : Nat) : Int) := by
    have e1 : pow2 (q - -201) = 2 ^ (q + 201).toNat := by
      unfold pow2; congr 1
    unfold FP.scaled
    rw [e1, hnq2]
    by_cases hneg : x < 0
    · simp only [hneg, decide_True, if_true]; push_cast; ring
    · simp only [hneg, decide_False, Bool.false_eq_true, if_false]; push_cast; ring
  refine ⟨if x < 0 then - (Y : Int) else (Y : Int), decide (x < 0), n, q, hadd, ?_, ?_, ?_, ?_⟩
  · intro sv mv kv
    rw [f64_le_fin _ _ _ _ _ _ (-201) (by omega) (by omega), hR,
      scaled_shift sv mv ((kv : Int) - 149) (-149) (-201) (by omega) (by omega), h52]
    simp only [decide_eq_decide]
    exact mul_le_mul_right (by positivity)
  · intro sv mv kv
    rw [f64_le_fin _ _ _ _ _ _ (-201) (by omega) (by omega), hR,
      scaled_shift sv mv ((kv : Int) - 149) (-149) (-201) (by omega) (by omega), h52]
    simp only [decide_eq_decide]
    exact mul_le_mul_right (by positivity)
  · clear hmono hR hnq2 hadd hround hT hx hb he heps
    simp only [abs_eq_max_neg]
    by_cases hneg : x < 0
    · simp only [hneg, if_true]; omega
    · simp only [hneg, if_false]; omega
  · intro a ha
    obtain ⟨m, k, hm, hmk⟩ := ha
    have h3 := hmono m k hm
    clear hmono hR hnq2 hadd hround hT hx hb he heps herr3 herr4
    generalize m * 2 ^ k = A at hmk h3
    by_cases hneg : x < 0
    · simp only [hneg, if_true]; omega
    · simp only [hneg, if_false]; omega

set_option maxRecDepth 100000 in
/-- The `double` nearest to `1e-5`. -/
theorem EPSILON_FLOAT_eq : EPSILON_FLOAT = .fin false 0x14F8B588E368F1 (-69) := by
  rfl

/-- The number of a finite `float` is its scaled integer over `2 ^ 149`. -/
theorem rat_scaled (s : Bool) (m k : Nat) :
    FP.rat s m ((k : Int) - 149) =
      ((FP.scaled s m ((k : Int) - 149) (-149) : Int) : ℚ) / 2 ^ 149 := by
  have h1 : pow2 ((k : Int) - 149 - -149) = 2 ^ k := by
    rw [show (k : Int) - 149 - -149 = (k : Int) by omega, pow2_natCast]
  have h2 : (2 : ℚ) ^ ((k : Int) - 149) = 2 ^ k / 2 ^ 149 := by
    rw [zpow_sub₀ (by norm_num : (2 : ℚ) ≠ 0), zpow_natCast]
    norm_cast
  unfold FP.rat FP.scaled
  rw [h1, h2]
  split
  · push_cast; ring
  · push_cast; ring

/-- The tolerance in exact arithmetic, on the scaled integers. -/
theorem tolerance_scaled (a b : Int) :
    ((b : ℚ) / 2 ^ 149 - 1 / 100000 ≤ (a : ℚ) / 2 ^ 149 ∧
      (a : ℚ) / 2 ^ 149 ≤ (b : ℚ) / 2 ^ 149 + 1 / 100000) ↔
    (100000 * (b - a) ≤ 2 ^ 149 ∧ 100000 * (a - b) ≤ 2 ^ 149) := by
  have hp : (0 : ℚ) < 2 ^ 149 := by positivity
  have e1 : ((b : ℚ) / 2 ^ 149 - 1 / 100000 ≤ (a : ℚ) / 2 ^ 149) ↔
      ((100000 * (b - a) : Int) : ℚ) ≤ ((2 ^ 149 : Int) : ℚ) := by
    push_cast
    rw [sub_le_iff_le_add, div_add_div _ _ (ne_of_gt hp) (by norm_num : (100000 : ℚ) ≠ 0),
      div_le_div_iff₀ hp (by positivity)]
    constructor <;> intro h <;> nlinarith
  have e2 : ((a : ℚ) / 2 ^ 149 ≤ (b : ℚ) / 2 ^ 149 + 1 / 100000) ↔
      ((100000 * (a - b) : Int) : ℚ) ≤ ((2 ^ 149 : Int) : ℚ) := by
    push_cast
    rw [div_add_div _ _ (ne_of_gt hp) (by norm_num : (100000 : ℚ) ≠ 0),
      div_le_div_iff₀ hp (by positivity)]
    constructor <;> intro h <;> nlinarith
  rw [e1, e2, Int.cast_le, Int.cast_le]

theorem F24_neg (a : Int) (h : F24 a) : F24 (-a) := by
  obtain ⟨m, k, hm, hmk⟩ := h
  exact ⟨m, k, hm, by rw [Int.natAbs_neg]; exact hmk⟩

/-- The comparison of the macro `WITHIN`, computed in `double`, is the tolerance of
`1/100000` in exact arithmetic: no rounding of `tar - EPSILON_FLOAT` or of
`tar + EPSILON_FLOAT`, and not the difference between `EPSILON_FLOAT` and `1/100000`,
changes the outcome for any two `float`s. -/
theorem WITHIN_iff (val tar : Nat) : WITHIN val tar = true ↔ within_tolerance val tar := by
  unfold WITHIN within_tolerance f64_ge f64_sub
  rw [EPSILON_FLOAT_eq]
  cases hv : decode32 val with
  | nan =>
    cases ht : decode32 tar <;> simp [f64_le, f64_add, FP.negate]
  | inf s =>
    cases ht : decode32 tar with
    | nan => simp [f64_le, f64_add, FP.negate]
    | inf t => cases s <;> cases t <;> simp [f64_le, f64_add, FP.negate]
    | fin t n g =>
      obtain ⟨hn, k, hk, hk2⟩ := decode32_fin tar t n g ht
      subst hk
      obtain ⟨R1, neg1, n1, q1, hadd1, _⟩ := f64_add_eps t false n k hn hk2
      obtain ⟨R2, neg2, n2, q2, hadd2, _⟩ := f64_add_eps t true n k hn hk2
      simp only [FP.negate, Bool.not_false, hadd1, hadd2]
      cases s <;> simp [f64_le]
  | fin s m e =>
    cases ht : decode32 tar with
    | nan => simp [f64_le, f64_add, FP.negate]
    | inf t => cases t <;> simp [f64_le, f64_add, FP.negate]
    | fin t n g =>
      obtain ⟨hm, kv, hkv, _⟩ := decode32_fin val s m e hv
      obtain ⟨hn, k, hk, hk2⟩ := decode32_fin tar t n g ht
      subst hk; subst hkv
      obtain ⟨R1, neg1, n1, q1, hadd1, hle1, _, herr1, hmono1⟩ := f64_add_eps t false n k hn hk2
      obtain ⟨R2, neg2, n2, q2, hadd2, _, hle2, herr2, hmono2⟩ := f64_add_eps t true n k hn hk2
      simp only [FP.negate, Bool.not_false, hadd1, hadd2, hle1, hle2, rat_scaled,
        tolerance_scaled, Bool.and_eq_true, decide_eq_true_eq]
      have ha := scaled_F24 s m kv hm
      have hb := scaled_F24 t n k hn
      generalize FP.scaled s m ((kv : Int) - 149) (-149) = a at ha hmono1 hmono2 ⊢
      generalize FP.scaled t n ((k : Int) - 149) (-149) = b at hb herr1 herr2 hmono1 hmono2 ⊢
      simp only [Bool.false_eq_true, if_false, if_true] at herr1 herr2 hmono1 hmono2
      have hup := within_upper_core a b R1 ha hb herr1 (hmono1 a ha).1
      have hlo := within_upper_core (-a) (-b) (-R2) (F24_neg a ha) (F24_neg b hb)
        (by
          have e1 : -R2 - (-b + EPS149) = -(R2 - (b + -EPS149)) := by ring
          have e2 : -b + EPS149 = -(b + -EPS149) := by ring
          rw [e1, e2, abs_neg, abs_neg]
          exact herr2)
        (by
          intro h
          have := (hmono2 a ha).2 (by omega)
          omega)
      constructor
      · rintro ⟨h1, h2⟩
        exact ⟨by have := hlo.1 (by omega); omega, hup.1 h2⟩
      · rintro ⟨h1, h2⟩
        exact ⟨by have := hlo.2 (by omega); omega, hup.2 h2⟩

set_option maxRecDepth 100000 in
/-- The token `54.499999` is parsed as the `float` 54.5. -/
theorem strtof_54_499999 : strtof "54.499999".toList = float_of 109 2 := by
  rfl

set_option maxRecDepth 100000 in
/-- The run of the test `store_float_with_choices` on the token `54.499999`. -/
theorem float_choice_accepted :
    ∃ parser1 mem1,
      argparse_parse_args ieee
          (sample_setup ["--value", "54.499999"] [float_value_option] []) sample_float_memory
        = .ok (ARGPARSE_NO_ERROR_, parser1, mem1) ∧ mem1 1 = .float (float_of 109 2) ∧
      parser1.options_.map argparse_arg_t.count_ = [1] :=
  ⟨_, _, rfl, rfl, rfl⟩

set_option maxRecDepth 100000 in
/-- The run of the test `store_float_with_choices` on the token `54.49`. -/
theorem float_choice_rejected :
    ∃ parser1,
      argparse_parse_args ieee
          (sample_setup ["--value", "54.49"] [float_value_option] []) sample_float_memory
        = .ok (ARGPARSE_INVALID_CHOICE_ERROR_ (some "--value".toList) NO_FLAG, parser1,
            sample_float_memory) :=
  ⟨_, rfl⟩

set_option maxRecDepth 100000 in
/-- The run of the test `store_single_float_invalid_choice`. -/
theorem float_choice_between :
    ∃ parser1,
      argparse_parse_args ieee
          (sample_setup ["--value", "52.5"] [float_value_option_51_to_53] [])
          sample_float_memory
        = .ok (ARGPARSE_INVALID_CHOICE_ERROR_ (some "--value".toList) NO_FLAG, parser1,
            sample_float_memory) :=
  ⟨_, rfl⟩

/-- C28 (float choice tolerance).  The floating-point operations are those of IEEE 754:
`strtof` rounds to the nearest `float`, and `WITHIN` computes its two bounds in
`double`.  (1) For a `Store` record of type `Float32` with a choice set and a value
token whose parsed `float` is `v`: the binding stores `v` and returns no error when
`c - 1/100000 ≤ v ≤ c + 1/100000` holds in exact arithmetic for one of the choices `c`
(or `v` and `c` are the same infinity), and returns `InvalidChoice` without a write
otherwise.  (2) At a loop head of the scan whose token resolves to such an option, the
iteration stores `v` in the first case, and `argparse_parse_args` returns
`InvalidChoice` carrying the option token in the second.  (3) The comparison `WITHIN`
of the program, with its rounded bounds and the `double` nearest to `1e-5`, is that
tolerance in exact arithmetic for all `float`s.  (4) With the choices 50.0, 51.5, 53.0,
54.5, 56.0, 57.5 the token `54.499999` is parsed as 54.5 and stored, and `54.49` gives
`InvalidChoice`; with the choices 51.0, 52.0, 53.0 the token `52.5` gives
`InvalidChoice`. -/
theorem float_choice_tolerance :
    (∀ (st : State) (ref : ArgRef) (i : Nat) (positional negated : Bool)
        (arg : argparse_arg_t) (l : List Nat) (value : CStr),
      st.parser.deref ref = some arg → arg.action_ = ARGPARSE_STORE_ACTION →
      st.parser.argv_[if positional then i else i + 1]? = some value →
      has_float_choices arg l →
      ((∃ c ∈ l.take arg.num_choices_, within_tolerance (strtof value) c) →
        get_and_update_value ieee st ref i positional negated =
          .ok (ARGPARSE_NO_ERROR_,
            { parser := st.parser.assign ref { arg with count_ := arg.count_ + 1 },
              mem := st.mem.write arg.value_ (.float (strtof value)) },
            if positional then i else i + 1)) ∧
      ((¬ ∃ c ∈ l.take arg.num_choices_, within_tolerance (strtof value) c) →
        get_and_update_value ieee st ref i positional negated =
          .ok (ARGPARSE_INVALID_CHOICE_ERROR_ st.parser.argv_[i]? NO_FLAG,
            { st with parser := st.parser.assign ref { arg with count_ := arg.count_ + 1 } },
            if positional then i else i + 1))) ∧
    (∀ (parser : argument_parser_t) (mem : Memory) (visited : List Nat)
        (s : ScanState) (token value : CStr) (k : Nat) (negated : Bool)
        (arg : argparse_arg_t) (l : List Nat),
      Reaches ieee parser mem visited s → parser.argv_[s.i]? = some token →
      parser.argv_[s.i + 1]? = some value → resolves_to parser.options_ token k negated →
      parser.options_[k]? = some arg → arg.action_ = ARGPARSE_STORE_ACTION →
      has_float_choices arg l →
      ((∃ c ∈ l.take arg.num_choices_, within_tolerance (strtof value) c) →
        ∃ s1, parse_token ieee s = .ok (ARGPARSE_NO_ERROR_, s1) ∧
          s1.mem = s.mem.write arg.value_ (.float (strtof value)) ∧ s1.i = s.i + 1) ∧
      ((¬ ∃ c ∈ l.take arg.num_choices_, within_tolerance (strtof value) c) →
        ∃ parser1, argparse_parse_args ieee parser mem =
          .ok (ARGPARSE_INVALID_CHOICE_ERROR_ (some token) NO_FLAG, parser1, s.mem))) ∧
    (∀ (val tar : Nat), WITHIN val tar = true ↔ within_tolerance val tar) ∧
    (strtof "54.499999".toList = float_of 109 2 ∧
      (∃ parser1 mem1,
        argparse_parse_args ieee
            (sample_setup ["--value", "54.499999"] [float_value_option] []) sample_float_memory
          = .ok (ARGPARSE_NO_ERROR_, parser1, mem1) ∧ mem1 1 = .float (float_of 109 2) ∧
        parser1.options_.map argparse_arg_t.count_ = [1]) ∧
      (∃ parser1,
        argparse_parse_args ieee
            (sample_setup ["--value", "54.49"] [float_value_option] []) sample_float_memory
          = .ok (ARGPARSE_INVALID_CHOICE_ERROR_ (some "--value".toList) NO_FLAG, parser1,
              sample_float_memory)) ∧
      (∃ parser1,
        argparse_parse_args ieee
            (sample_setup ["--value", "52.5"] [float_value_option_51_to_53] [])
            sample_float_memory
          = .ok (ARGPARSE_INVALID_CHOICE_ERROR_ (some "--value".toList) NO_FLAG, parser1,
              sample_float_memory))) := by
  have hiff : ∀ (arg : argparse_arg_t) (l : List Nat) (v : Nat),
      within_choices ieee arg l v ↔ ∃ c ∈ l.take arg.num_choices_, within_tolerance v c := by
    intro arg l v
    unfold within_choices
    constructor
    · rintro ⟨c, hc, hw⟩
      exact ⟨c, hc, (WITHIN_iff v c).1 hw⟩
    · rintro ⟨c, hc, hw⟩
      exact ⟨c, hc, (WITHIN_iff v c).2 hw⟩
  have hbind : ∀ (st : State) (ref : ArgRef) (i : Nat) (positional negated : Bool)
        (arg : argparse_arg_t) (l : List Nat) (value : CStr),
      st.parser.deref ref = some arg → arg.action_ = ARGPARSE_STORE_ACTION →
      st.parser.argv_[if positional then i else i + 1]? = some value →
      has_float_choices arg l →
      ((∃ c ∈ l.take arg.num_choices_, within_tolerance (strtof value) c) →
        get_and_update_value ieee st ref i positional negated =
          .ok (ARGPARSE_NO_ERROR_,
            { parser := st.parser.assign ref { arg with count_ := arg.count_ + 1 },
              mem := st.mem.write arg.value_ (.float (strtof value)) },
            if positional then i else i + 1)) ∧
      ((¬ ∃ c ∈ l.take arg.num_choices_, within_tolerance (strtof value) c) →
        get_and_update_value ieee st ref i positional negated =
          .ok (ARGPARSE_INVALID_CHOICE_ERROR_ st.parser.argv_[i]? NO_FLAG,
            { st with parser := st.parser.assign ref { arg with count_ := arg.count_ + 1 } },
            if positional then i else i + 1)) := by
    intro st ref i positional negated arg l value hd ha hv hset
    obtain ⟨h1, h2⟩ := get_and_update_value_within ieee st ref i positional negated arg l value
      hd ha hv hset
    exact ⟨fun h => h1 ((hiff arg l _).2 h), fun h => h2 fun hw => h ((hiff arg l _).1 hw)⟩
  refine ⟨hbind, ?_, WITHIN_iff, strtof_54_499999, float_choice_accepted,
    float_choice_rejected, float_choice_between⟩
  intro parser mem visited s token value k negated arg l hr hv hv1 hres hk ha hset
  obtain ⟨hst, _⟩ := reaches_static ieee parser mem visited s hr
  have hargv : s.parser.argv_ = parser.argv_ := static_argv _ _ hst
  have hvs : s.parser.argv_[s.i]? = some token := by rw [hargv]; exact hv
  have hvs1 : s.parser.argv_[s.i + 1]? = some value := by rw [hargv]; exact hv1
  have hres1 : resolves_to s.parser.options_ token k negated :=
    (resolves_to_static_iff parser.options_ s.parser.options_ token k negated
      (static_options _ _ hst)).2 hres
  obtain ⟨c, hk1⟩ := reaches_option ieee parser mem visited s hr k arg hk
  have hg := hbind s.st (.option k) s.i false negated { arg with count_ := c } l value
    (by simpa [argument_parser_t.deref, ScanState.st] using hk1) ha
    (by simpa [ScanState.st] using hvs1) hset
  have hlt : s.i < s.parser.argc_ := by
    by_contra hc
    rw [List.getElem?_eq_none (not_lt.mp hc)] at hvs
    cases hvs
  constructor
  · intro hin
    rw [parse_token_resolves ieee s token k negated hvs hres1]
    simp only [bind_found, hg.1 hin, Comp.bind_ok]
    exact ⟨_, rfl, rfl, rfl⟩
  · intro hin
    have hp : ∃ s1, parse_token ieee s =
        .ok (ARGPARSE_INVALID_CHOICE_ERROR_ (some token) NO_FLAG, s1) ∧ s1.mem = s.mem := by
      rw [parse_token_resolves ieee s token k negated hvs hres1]
      simp only [bind_found, hg.2 hin, Comp.bind_ok]
      simp only [ScanState.st, hvs]
      exact ⟨_, rfl, rfl⟩
    obtain ⟨s1, hp, hmem⟩ := hp
    refine ⟨s1.parser, ?_⟩
    rw [reaches_error ieee parser mem visited s s1 _ hr hlt hp rfl, hmem]

set_option maxRecDepth 100000 in
/-- The parsed value of `54.499999` is within the tolerance of the choice 54.5. -/
theorem within_54_5 :
    ∃ c ∈ float_choices_50_to_57.take float_value_option.num_choices_,
      within_tolerance (strtof "54.499999".toList) c :=
  ⟨float_of 109 2, by decide, (WITHIN_iff _ _).1 rfl⟩

/-- The statement at the first token of the run on `--value 54.499999`: the parsed value
is within the tolerance of the choice 54.5 and is stored. -/
theorem float_choice_tolerance_witness :
    ∃ s1, parse_token ieee
        ⟨sample_setup ["--value", "54.499999"] [float_value_option] [], sample_float_memory,
          0, 0⟩ = .ok (ARGPARSE_NO_ERROR_, s1) ∧
      s1.mem = sample_float_memory.write 1 (.float (strtof "54.499999".toList)) ∧
      s1.i = 0 + 1 :=
  (float_choice_tolerance.2.1
    (sample_setup ["--value", "54.499999"] [float_value_option] []) sample_float_memory []
    ⟨sample_setup ["--value", "54.499999"] [float_value_option] [], sample_float_memory, 0, 0⟩
    "--value".toList "54.499999".toList 0 false float_value_option float_choices_50_to_57
    Reaches.start rfl rfl (by decide) rfl rfl ⟨rfl, rfl, by decide, by decide⟩).1 within_54_5

/-! ## A failed `Store` binding, and the text of an integer -/

/-- The errors of the binding of a `Store` record: `ArgumentMissingValue`,
`InvalidChoice` or `IntRangeExceeded`. -/
theorem get_and_update_value_store_errors (fp : FloatOps) (st st1 : State) (ref : ArgRef)
    (i i1 : Nat) (positional negated : Bool) (e : argparse_error_t) (arg : argparse_arg_t)
    (hd : st.parser.deref ref = some arg) (ha : arg.action_ = ARGPARSE_STORE_ACTION)
    (h : get_and_update_value fp st ref i positional negated = .ok (e, st1, i1))
    (he : is_error e = true) :
    e.error_val = ARGPARSE_ARGUMENT_MISSING_VALUE_ERROR ∨
      e.error_val = ARGPARSE_INVALID_CHOICE_ERROR ∨
      e.error_val = ARGPARSE_INT_RANGE_EXCEEDED_ERROR := by
  unfold get_and_update_value at h
  simp only [hd, ha] at h
  split at h
  · simp only [Comp.ok.injEq, Prod.mk.injEq] at h
    rw [← h.1]; exact Or.inl rfl
  · split at h
    · cases h
    · rw [Comp.bind_eq_ok] at h
      obtain ⟨r, hc, h⟩ := h
      cases r with
      | error err =>
        simp only [Comp.ok.injEq, Prod.mk.injEq] at h
        rw [← h.1]
        exact Or.inr (Or.inr (choices_loop_error_val fp _ _ _ _ _ err hc))
      | ok tmp_bool =>
        simp only at h
        split at h
        · simp only [Comp.ok.injEq, Prod.mk.injEq] at h
          rw [← h.1]; exact Or.inr (Or.inl rfl)
        · rw [Comp.bind_eq_ok] at h
          obtain ⟨⟨e2, m2⟩, hu, h⟩ := h
          simp only [Comp.ok.injEq, Prod.mk.injEq] at h
          rcases update_value_ok_or fp _ _ _ _ _ _ hu with ⟨hno, _⟩ | ⟨hr, _⟩
          · rw [← h.1, hno] at he; cases he
          · rw [← h.1, hr]; exact Or.inr (Or.inr rfl)

/-- C34 (a failed `Store` binding never writes storage).  (1) Whenever the binding of a
`Store` record returns an error, the error is `ArgumentMissingValue`, `InvalidChoice` or
`IntRangeExceeded`, the memory is what it was before the binding, and the parser is
what it was but for the count of the record, which is one higher.  (2) At a loop head
of the scan whose token resolves to a `Store` option, when the iteration returns an
error, `argparse_parse_args` returns that error with the memory of the loop head and the
count of the option one higher.  (3) After `--value 5`, the tokens `--value 99999999999`
(`IntRangeExceeded`), `--value` (`ArgumentMissingValue`) and, with the choices 1, 2, 3
and `--value 2` before, `--value 7` (`InvalidChoice`) leave the earlier value in the
storage and the count 2. -/
theorem failed_store_binding :
    (∀ (fp : FloatOps) (st st1 : State) (ref : ArgRef) (i i1 : Nat)
        (positional negated : Bool) (e : argparse_error_t) (arg : argparse_arg_t),
      st.parser.deref ref = some arg → arg.action_ = ARGPARSE_STORE_ACTION →
      get_and_update_value fp st ref i positional negated = .ok (e, st1, i1) →
      is_error e = true →
      (e.error_val = ARGPARSE_ARGUMENT_MISSING_VALUE_ERROR ∨
        e.error_val = ARGPARSE_INVALID_CHOICE_ERROR ∨
        e.error_val = ARGPARSE_INT_RANGE_EXCEEDED_ERROR) ∧
      st1.mem = st.mem ∧
      st1.parser = st.parser.assign ref { arg with count_ := arg.count_ + 1 }) ∧
    (∀ (fp : FloatOps) (parser : argument_parser_t) (mem : Memory) (visited : List Nat)
        (s s1 : ScanState) (token : CStr) (k : Nat) (negated : Bool) (arg : argparse_arg_t)
        (e : argparse_error_t),
      Reaches fp parser mem visited s → s.parser.argv_[s.i]? = some token →
      resolves_to s.parser.options_ token k negated →
      s.parser.options_[k]? = some arg → arg.action_ = ARGPARSE_STORE_ACTION →
      parse_token fp s = .ok (e, s1) → is_error e = true →
      argparse_parse_args fp parser mem =
        .ok (e, s.parser.assign (.option k) { arg with count_ := arg.count_ + 1 }, s.mem)) ∧
    (∃ parser1 mem1,
      argparse_parse_args sample_float_ops
          (sample_setup ["--value", "5", "--value", "99999999999"] [value_option] [])
          sample_memory
        = .ok (ARGPARSE_INT_RANGE_EXCEEDED_ERROR_ (some "--value".toList) 'v', parser1, mem1) ∧
      mem1 1 = .int 5 ∧ parser1.options_.map argparse_arg_t.count_ = [2]) ∧
    (∃ parser1 mem1,
      argparse_parse_args sample_float_ops
          (sample_setup ["--value", "5", "--value"] [value_option] []) sample_memory
        = .ok (ARGPARSE_ARGUMENT_MISSING_VALUE_ERROR_ (some "--value".toList) NO_FLAG, parser1,
            mem1) ∧
      mem1 1 = .int 5 ∧ parser1.options_.map argparse_arg_t.count_ = [2]) ∧
    (∃ parser1 mem1,
      argparse_parse_args sample_float_ops
          (sample_setup ["--value", "2", "--value", "7"] [value_option_with_choices] [])
          sample_memory
        = .ok (ARGPARSE_INVALID_CHOICE_ERROR_ (some "--value".toList) NO_FLAG, parser1, mem1) ∧
      mem1 1 = .int 2 ∧ parser1.options_.map argparse_arg_t.count_ = [2]) := by
  have key : ∀ (fp : FloatOps) (st st1 : State) (ref : ArgRef) (i i1 : Nat)
        (positional negated : Bool) (e : argparse_error_t) (arg : argparse_arg_t),
      st.parser.deref ref = some arg → arg.action_ = ARGPARSE_STORE_ACTION →
      get_and_update_value fp st ref i positional negated = .ok (e, st1, i1) →
      is_error e = true →
      (e.error_val = ARGPARSE_ARGUMENT_MISSING_VALUE_ERROR ∨
        e.error_val = ARGPARSE_INVALID_CHOICE_ERROR ∨
        e.error_val = ARGPARSE_INT_RANGE_EXCEEDED_ERROR) ∧
      st1.mem = st.mem ∧
      st1.parser = st.parser.assign ref { arg with count_ := arg.count_ + 1 } := by
    intro fp st st1 ref i i1 positional negated e arg hd ha h he
    obtain ⟨arg0, hd0, hp, _⟩ := get_and_update_value_footprint fp st st1 ref i i1 positional
      negated e h
    rw [hd] at hd0
    cases hd0
    exact ⟨get_and_update_value_store_errors fp st st1 ref i i1 positional negated e arg hd ha
      h he, get_and_update_value_error_mem fp st st1 ref i i1 positional negated e h he, hp⟩
  refine ⟨key, ?_, ⟨_, _, rfl, rfl, rfl⟩, ⟨_, _, rfl, rfl, rfl⟩, ⟨_, _, rfl, rfl, rfl⟩⟩
  intro fp parser mem visited s s1 token k negated arg e hr hv hres hk ha hp he
  have hlt : s.i < s.parser.argc_ := by
    by_contra hc
    rw [List.getElem?_eq_none (not_lt.mp hc)] at hv
    cases hv
  rw [reaches_error fp parser mem visited s s1 e hr hlt hp he]
  rw [parse_token_resolves fp s token k negated hv hres] at hp
  simp only [bind_found] at hp
  rw [Comp.bind_eq_ok] at hp
  obtain ⟨⟨e2, st2, i2⟩, hg, hp⟩ := hp
  simp only [Comp.ok.injEq, Prod.mk.injEq] at hp
  obtain ⟨h1, h2⟩ := hp
  subst h1
  obtain ⟨_, hm, hpar⟩ := key fp s.st st2 (.option k) s.i i2 false negated e2 arg
    (by simpa [argument_parser_t.deref, ScanState.st] using hk) ha hg he
  rw [← h2]
  simp only [ScanState.update, hm, hpar, ScanState.st]

/-- The statement at the last token of `--value 5 --value`: the binding of `--value`
finds no value, so the memory keeps the 5 of the first occurrence while the count goes
from 1 to 2. -/
theorem failed_store_binding_witness :
    ((ARGPARSE_ARGUMENT_MISSING_VALUE_ERROR_ (some "--value".toList) NO_FLAG).error_val =
        ARGPARSE_ARGUMENT_MISSING_VALUE_ERROR ∨
      (ARGPARSE_ARGUMENT_MISSING_VALUE_ERROR_ (some "--value".toList) NO_FLAG).error_val =
        ARGPARSE_INVALID_CHOICE_ERROR ∨
      (ARGPARSE_ARGUMENT_MISSING_VALUE_ERROR_ (some "--value".toList) NO_FLAG).error_val =
        ARGPARSE_INT_RANGE_EXCEEDED_ERROR) ∧
    (⟨sample_setup ["--value", "5", "--value"] [{ value_option with count_ := 2 }] [],
        sample_memory.write 1 (.int 5)⟩ : State).mem = sample_memory.write 1 (.int 5) ∧
    sample_setup ["--value", "5", "--value"] [{ value_option with count_ := 2 }] [] =
      (sample_setup ["--value", "5", "--value"] [{ value_option with count_ := 1 }] []).assign
        (.option 0) { value_option with count_ := 1 + 1 } :=
  failed_store_binding.1 sample_float_ops
    ⟨sample_setup ["--value", "5", "--value"]
      [{ value_option with count_ := 1 }] [], sample_memory.write 1 (.int 5)⟩
    ⟨sample_setup ["--value", "5", "--value"]
      [{ value_option with count_ := 2 }] [], sample_memory.write 1 (.int 5)⟩
    (.option 0) 2 2 false false
    (ARGPARSE_ARGUMENT_MISSING_VALUE_ERROR_ (some "--value".toList) NO_FLAG)
    { value_option with count_ := 1 } rfl rfl rfl rfl

/-- The binding of a value token to an `Int32` `Store` record without choices: the range
test on the result of `strtol` alone decides between `IntRangeExceeded` and the write. -/
theorem get_and_update_value_int_text (fp : FloatOps) (st : State) (ref : ArgRef) (i : Nat)
    (positional negated : Bool) (arg : argparse_arg_t) (value : CStr)
    (hd : st.parser.deref ref = some arg) (ht : arg.type_ = ARGPARSE_INT_TYPE)
    (ha : arg.action_ = ARGPARSE_STORE_ACTION) (hn : arg.num_choices_ = 0)
    (hv : st.parser.argv_[if positional then i else i + 1]? = some value) :
    get_and_update_value fp st ref i positional negated =
      if (strtol value).2 = true ∨ (strtol value).1 > INT32_MAX ∨ (strtol value).1 < INT32_MIN
      then
        .ok (ARGPARSE_INT_RANGE_EXCEEDED_ERROR_ arg.name_ arg.flag_,
          { st with parser := st.parser.assign ref { arg with count_ := arg.count_ + 1 } },
          if positional then i else i + 1)
      else
        .ok (ARGPARSE_NO_ERROR_,
          { parser := st.parser.assign ref { arg with count_ := arg.count_ + 1 },
            mem := st.mem.write arg.value_ (.int (strtol value).1) },
          if positional then i else i + 1) := by
  have hmiss : (!positional && i + 1 == st.parser.argc_) = false := by
    cases positional with
    | true => rfl
    | false =>
      simp only [Bool.false_eq_true, if_false] at hv
      have : i + 1 < st.parser.argv_.length := by
        by_contra hcn
        rw [List.getElem?_eq_none (not_lt.mp hcn)] at hv
        cases hv
      simp [argument_parser_t.argc_]; omega
  rcases arg with ⟨ty, cnt, fl, nm, v, act, hlp, req, ch, nch⟩
  simp only at ha ht hn
  subst ha; subst ht; subst hn
  unfold get_and_update_value
  simp only [hd, hmiss, Bool.false_eq_true, if_false, hv, choices_loop, Comp.bind_ok]
  by_cases hr : (strtol value).2 = true ∨ (strtol value).1 > INT32_MAX ∨
      (strtol value).1 < INT32_MIN
  · rw [if_pos hr]
    have hr1 : ((strtol value).2 || decide ((strtol value).1 > INT32_MAX) ||
        decide ((strtol value).1 < INT32_MIN)) = true := by
      simpa [or_assoc] using hr
    simp [update_value, hr1]
  · rw [if_neg hr]
    have hr1 : ((strtol value).2 || decide ((strtol value).1 > INT32_MAX) ||
        decide ((strtol value).1 < INT32_MIN)) = false := by
      simp only [not_or] at hr
      simp [hr.1, hr.2.1, hr.2.2]
    simp [update_value, hr1]

/-- The digits of base 10 at the head of a string end at a character that is no digit. -/
theorem strtol_accum_leading (ds : List Char) (c : Char) (cs : List Char)
    (h : ∀ d ∈ ds, is_digit d) (hc : ¬ is_digit c) :
    ∀ acc, strtol_accum 10 (ds ++ c :: cs) acc = strtol_accum 10 ds acc := by
  have hstop : ∀ acc, strtol_accum 10 (c :: cs) acc = acc := by
    intro acc
    have hcn : ¬ ('0' ≤ c ∧ c ≤ '9') := hc
    simp only [strtol_accum, digitVal, hcn, if_false]
    split_ifs <;> simp
  induction ds with
  | nil => intro acc; rw [List.nil_append, hstop]; rfl
  | cons d ds ih =>
    intro acc
    obtain ⟨hd, hlt⟩ := digitVal_of_is_digit d (h d (List.mem_cons_self _ _))
    simp only [List.cons_append, strtol_accum, hd, hlt, if_true]
    exact ih (fun x hx => h x (List.mem_cons_of_mem _ hx)) _

/-- The magnitude read from a decimal numeral followed by a character that is no digit
(and not the `x` of a hexadecimal prefix) is that of the numeral. -/
theorem strtol_magnitude_trailing (ds : List Char) (c : Char) (cs : List Char)
    (h : is_canonical ds) (hc : ¬ is_digit c) (hx : c ≠ 'x' ∧ c ≠ 'X') :
    strtol_magnitude (ds ++ c :: cs) = decimal_value ds := by
  obtain ⟨hne, hd, hz⟩ := h
  cases ds with
  | nil => exact absurd rfl hne
  | cons d ds1 =>
    by_cases h0 : d = '0'
    · subst h0
      have := hz rfl
      simp at this
      subst this
      have hcn : ¬ ('0' ≤ c ∧ c ≤ '9') := hc
      have hstop : strtol_accum 8 (c :: cs) 0 = 0 := by
        simp only [strtol_accum, digitVal, hcn, if_false]
        split_ifs <;> simp
      have : strtol_magnitude ('0' :: c :: cs) = strtol_accum 8 (c :: cs) 0 := by
        unfold strtol_magnitude
        split <;> simp_all
      simp only [List.cons_append, List.nil_append]
      rw [this, hstop]
      rfl
    · have key : strtol_accum 10 (d :: ds1 ++ c :: cs) 0 = decimal_value (d :: ds1) := by
        rw [strtol_accum_leading (d :: ds1) c cs hd hc 0]
        exact strtol_accum_decimal (d :: ds1) hd 0
      rw [← key]
      unfold strtol_magnitude
      split <;> simp_all

/-- `strtol` stops at the first character that is no digit: a decimal numeral followed
by such a character (not `x`) is read as the numeral. -/
theorem strtol_trailing (t : CStr) (n : Int) (c : Char) (cs : List Char)
    (h : is_decimal_numeral t n) (hc : ¬ is_digit c) (hx : c ≠ 'x' ∧ c ≠ 'X') :
    strtol (t ++ c :: cs) = strtol t := by
  have hs := strtol_signed_numeral t n h
  have key : strtol_signed ((t ++ c :: cs).dropWhile isspace) = n := by
    unfold is_decimal_numeral at h
    split at h
    · rename_i ds
      obtain ⟨hcan, hn⟩ := h
      have : List.dropWhile isspace ('-' :: ds ++ c :: cs) = '-' :: (ds ++ c :: cs) := by
        simp [List.dropWhile, isspace]
      rw [this, hn]
      simp [strtol_signed, strtol_magnitude_trailing ds c cs hcan hc hx]
    · obtain ⟨hcan, hn⟩ := h
      obtain ⟨hne, hd, hz⟩ := hcan
      cases t with
      | nil => exact absurd rfl hne
      | cons d ds1 =>
        have hdc : is_digit d := hd d (List.mem_cons_self _ _)
        have h1 : 48 ≤ d.toNat := hdc.1
        have h2 : d.toNat ≤ 57 := hdc.2
        have hsp : isspace d = false := by
          have e1 : d ≠ ' ' := by rintro rfl; revert h1; decide
          have e2 : d ≠ '\t' := by rintro rfl; revert h1; decide
          have e3 : d ≠ '\n' := by rintro rfl; revert h1; decide
          have e4 : d ≠ Char.ofNat 11 := by rintro rfl; revert h1; decide
          have e5 : d ≠ Char.ofNat 12 := by rintro rfl; revert h1; decide
          have e6 : d ≠ '\r' := by rintro rfl; revert h1; decide
          simp [isspace, e1, e2, e3, e4, e5, e6]
        have hm : d ≠ '-' := by rintro rfl; revert h1; decide
        have hp : d ≠ '+' := by rintro rfl; revert h1; decide
        have : List.dropWhile isspace (d :: ds1 ++ c :: cs) = d :: ds1 ++ c :: cs := by
          simp [List.dropWhile, hsp]
        rw [this, hn, ← strtol_magnitude_trailing (d :: ds1) c cs ⟨hne, hd, hz⟩ hc hx]
        simp only [List.cons_append]
        unfold strtol_signed
        split <;> simp_all
  unfold strtol
  rw [key, hs]

/-- A string that starts with a character that is no digit, no sign and no blank is read
as 0. -/
theorem strtol_no_digits (c : Char) (cs : List Char) (hc : ¬ is_digit c)
    (hs : c ≠ '-' ∧ c ≠ '+') (hb : isspace c = false) :
    strtol (c :: cs) = (0, false) := by
  have hcn : ¬ ('0' ≤ c ∧ c ≤ '9') := hc
  have h0 : c ≠ '0' := by
    rintro rfl
    exact hc ⟨by decide, by decide⟩
  have hstop : strtol_accum 10 (c :: cs) 0 = 0 := by
    simp only [strtol_accum, digitVal, hcn, if_false]
    split_ifs <;> simp
  have hmag : strtol_magnitude (c :: cs) = 0 := by
    rw [← hstop]
    unfold strtol_magnitude
    split <;> simp_all
  have hsig : strtol_signed (c :: cs) = 0 := by
    unfold strtol_signed
    split
    · rename_i h; simp at h; exact absurd h.1 hs.1
    · rename_i h; simp at h; exact absurd h.1 hs.2
    · simp [hmag]
  have : List.dropWhile isspace (c :: cs) = c :: cs := by
    simp [List.dropWhile, hb]
  unfold strtol
  rw [this, hsig]
  rfl

/-- C38 (malformed integer text is accepted).  For a `Store` record of type `Int32`
without choices and a value token: (1) the binding returns `IntRangeExceeded` when
`strtol` reports a range error or its result is outside the range of `int32_t`, and
otherwise stores the result of `strtol` and returns no error: there is no other
outcome; (2) a token that starts with a character that is no digit, no sign and no blank
is stored as 0; (3) a decimal numeral of a number `n` in the range of `int32_t`
followed by a character that is no digit (and not `x`, which after a lone `0`
announces a hexadecimal number) is stored as `n`.  (4) The tokens `abc` and `12abc`
store 0 and 12. -/
theorem malformed_integer_text :
    (∀ (fp : FloatOps) (st : State) (ref : ArgRef) (i : Nat) (positional negated : Bool)
        (arg : argparse_arg_t) (value : CStr),
      st.parser.deref ref = some arg → arg.type_ = ARGPARSE_INT_TYPE →
      arg.action_ = ARGPARSE_STORE_ACTION → arg.num_choices_ = 0 →
      st.parser.argv_[if positional then i else i + 1]? = some value →
      get_and_update_value fp st ref i positional negated =
        if (strtol value).2 = true ∨ (strtol value).1 > INT32_MAX ∨
            (strtol value).1 < INT32_MIN then
          .ok (ARGPARSE_INT_RANGE_EXCEEDED_ERROR_ arg.name_ arg.flag_,
            { st with parser := st.parser.assign ref { arg with count_ := arg.count_ + 1 } },
            if positional then i else i + 1)
        else
          .ok (ARGPARSE_NO_ERROR_,
            { parser := st.parser.assign ref { arg with count_ := arg.count_ + 1 },
              mem := st.mem.write arg.value_ (.int (strtol value).1) },
            if positional then i else i + 1)) ∧
    (∀ (fp : FloatOps) (st : State) (ref : ArgRef) (i : Nat) (positional negated : Bool)
        (arg : argparse_arg_t) (c : Char) (cs : List Char),
      st.parser.deref ref = some arg → arg.type_ = ARGPARSE_INT_TYPE →
      arg.action_ = ARGPARSE_STORE_ACTION → arg.num_choices_ = 0 →
      st.parser.argv_[if positional then i else i + 1]? = some (c :: cs) →
      ¬ is_digit c → c ≠ '-' ∧ c ≠ '+' → isspace c = false →
      get_and_update_value fp st ref i positional negated =
        .ok (ARGPARSE_NO_ERROR_,
          { parser := st.parser.assign ref { arg with count_ := arg.count_ + 1 },
            mem := st.mem.write arg.value_ (.int 0) },
          if positional then i else i + 1)) ∧
    (∀ (fp : FloatOps) (st : State) (ref : ArgRef) (i : Nat) (positional negated : Bool)
        (arg : argparse_arg_t) (t : CStr) (n : Int) (c : Char) (cs : List Char),
      st.parser.deref ref = some arg → arg.type_ = ARGPARSE_INT_TYPE →
      arg.action_ = ARGPARSE_STORE_ACTION → arg.num_choices_ = 0 →
      st.parser.argv_[if positional then i else i + 1]? = some (t ++ c :: cs) →
      is_decimal_numeral t n → ¬ (n > INT32_MAX ∨ n < INT32_MIN) →
      ¬ is_digit c → c ≠ 'x' ∧ c ≠ 'X' →
      get_and_update_value fp st ref i positional negated =
        .ok (ARGPARSE_NO_ERROR_,
          { parser := st.parser.assign ref { arg with count_ := arg.count_ + 1 },
            mem := st.mem.write arg.value_ (.int n) },
          if positional then i else i + 1)) ∧
    (strtol "abc".toList = (0, false) ∧ strtol "12abc".toList = (12, false) ∧
      (∃ parser1 mem1,
        argparse_parse_args sample_float_ops
            (sample_setup ["--value", "abc"] [value_option] []) sample_memory
          = .ok (ARGPARSE_NO_ERROR_, parser1, mem1) ∧ mem1 1 = .int 0 ∧
        parser1.options_.map argparse_arg_t.count_ = [1]) ∧
      (∃ parser1 mem1,
        argparse_parse_args sample_float_ops
            (sample_setup ["--value", "12abc"] [value_option] []) sample_memory
          = .ok (ARGPARSE_NO_ERROR_, parser1, mem1) ∧ mem1 1 = .int 12 ∧
        parser1.options_.map argparse_arg_t.count_ = [1])) := by
  refine ⟨get_and_update_value_int_text, ?_, ?_, rfl, rfl, ⟨_, _, rfl, rfl, rfl⟩,
    ⟨_, _, rfl, rfl, rfl⟩⟩
  · intro fp st ref i positional negated arg c cs hd ht ha hn hv hc hs hb
    rw [get_and_update_value_int_text fp st ref i positional negated arg (c :: cs) hd ht ha hn
      hv, strtol_no_digits c cs hc hs hb]
    rw [if_neg (by decide)]
  · intro fp st ref i positional negated arg t n c cs hd ht ha hn hv hnum hrange hc hx
    rw [get_and_update_value_int_text fp st ref i positional negated arg (t ++ c :: cs) hd ht
      ha hn hv, strtol_trailing t n c cs hnum hc hx,
      (range_test_numeral t n hnum).2 hrange]
    rw [if_neg]
    simpa using hrange

/-- The statement at the value token `12abc` of an `Int32` option: 12 is stored. -/
theorem malformed_integer_text_witness :
    get_and_update_value sample_float_ops
        ⟨sample_setup ["--value", "12abc"] [value_option] [], sample_memory⟩ (.option 0) 0
        false false =
      .ok (ARGPARSE_NO_ERROR_,
        { parser := (sample_setup ["--value", "12abc"] [value_option] []).assign (.option 0)
            { value_option with count_ := value_option.count_ + 1 },
          mem := sample_memory.write value_option.value_ (.int 12) },
        if false then 0 else 0 + 1) :=
  malformed_integer_text.2.2.1 sample_float_ops
    ⟨sample_setup ["--value", "12abc"] [value_option] [], sample_memory⟩ (.option 0) 0 false
    false value_option "12".toList 12 'a' "bc".toList rfl rfl rfl rfl rfl (by decide)
    (by decide) (by decide) (by decide)

/-! ## The order of the registration rules -/

/-- The kind of error of the `switch (arg->action_)`, by the rules it tests. -/
theorem check_action_rules (parser : argument_parser_t) (arg : argparse_arg_t) :
    (check_action arg (positional_of arg)).map argparse_error_t.error_val =
      if violates parser arg .action_validity then some ARGPARSE_INVALID_ACTION_ERROR
      else if violates parser arg .action_type_compatibility then
        some ARGPARSE_UNSUPPORTED_ACTION_ERROR
      else if violates parser arg .choices_permitted then
        some ARGPARSE_UNSUPPORTED_CHOICES_ERROR
      else if violates parser arg .positional_store then
        some ARGPARSE_UNSUPPORTED_ACTION_ERROR
      else if violates parser arg .required_permitted then
        some ARGPARSE_UNSUPPORTED_REQUIRE_ERROR
      else none := by
  generalize hp : positional_of arg = p
  simp only [violates, hp]
  obtain ⟨type, count, flag, name, value, action, help, required, choices, num⟩ := arg
  cases action <;> cases type <;> cases choices <;> cases required <;> cases p <;>
    simp [check_action, is_valid_action, is_boolean_action,
      ARGPARSE_UNSUPPORTED_ACTION_ERROR_, ARGPARSE_UNSUPPORTED_CHOICES_ERROR_,
      ARGPARSE_UNSUPPORTED_REQUIRE_ERROR_, ARGPARSE_INVALID_ACTION_ERROR_]

/-- No rule of the empty order is violated. -/
theorem first_violated_nil (parser : argument_parser_t) (arg : argparse_arg_t) :
    first_violated [] parser arg = none := rfl

/-- The earliest violated rule of an order is its head when the record violates it, and
the earliest of the rest otherwise. -/
theorem first_violated_cons (rule : registration_rule) (order : List registration_rule)
    (parser : argument_parser_t) (arg : argparse_arg_t) :
    first_violated (rule :: order) parser arg =
      if violates parser arg rule then some rule else first_violated order parser arg := by
  unfold first_violated
  rw [List.find?_cons]
  by_cases h : violates parser arg rule
  · rw [if_pos h, decide_eq_true h]
  · rw [if_neg h, decide_eq_false h]

/-- The earliest violated rule of `checked_order`, as a chain of tests. -/
theorem first_violated_checked (parser : argument_parser_t) (arg : argparse_arg_t) :
    first_violated checked_order parser arg =
      if violates parser arg .identity_presence then some .identity_presence
      else if violates parser arg .type_validity then some .type_validity
      else if violates parser arg .action_validity then some .action_validity
      else if violates parser arg .action_type_compatibility then
        some .action_type_compatibility
      else if violates parser arg .choices_permitted then some .choices_permitted
      else if violates parser arg .positional_store then some .positional_store
      else if violates parser arg .required_permitted then some .required_permitted
      else if violates parser arg .positional_flag_exclusivity then
        some .positional_flag_exclusivity
      else if violates parser arg .bare_prefix_name then some .bare_prefix_name
      else if violates parser arg .reserved_help then some .reserved_help
      else if violates parser arg .duplicate_identity then some .duplicate_identity
      else none := by
  unfold checked_order
  simp only [first_violated_cons, first_violated_nil]

/-- The earliest violated rule of `specified_order`, as a chain of tests. -/
theorem first_violated_specified (parser : argument_parser_t) (arg : argparse_arg_t) :
    first_violated specified_order parser arg =
      if violates parser arg .identity_presence then some .identity_presence
      else if violates parser arg .type_validity then some .type_validity
      else if violates parser arg .action_type_compatibility then
        some .action_type_compatibility
      else if violates parser arg .choices_permitted then some .choices_permitted
      else if violates parser arg .positional_flag_exclusivity then
        some .positional_flag_exclusivity
      else if violates parser arg .bare_prefix_name then some .bare_prefix_name
      else if violates parser arg .reserved_help then some .reserved_help
      else if violates parser arg .duplicate_identity then some .duplicate_identity
      else none := by
  unfold specified_order
  simp only [first_violated_cons, first_violated_nil]

/-- A record that violates none of the three tests the specification does not order:
the two orders give the same earliest rule. -/
theorem first_violated_orders (parser : argument_parser_t) (arg : argparse_arg_t)
    (h3 : ¬ violates parser arg .action_validity)
    (h6 : ¬ violates parser arg .positional_store)
    (h7 : ¬ violates parser arg .required_permitted) :
    first_violated specified_order parser arg = first_violated checked_order parser arg := by
  rw [first_violated_checked, first_violated_specified, if_neg h3, if_neg h6, if_neg h7]

/-- `argparse_add_argument` returns the error of the earliest rule of `checked_order`
that the record violates, and leaves the parser as it was; for the last rule, when the
record has no name or every record of the sequence has one. -/
theorem add_argument_first_rule (parser : argument_parser_t) (arg : argparse_arg_t)
    (rule : registration_rule)
    (h : first_violated checked_order parser arg = some rule)
    (hdef : rule = .duplicate_identity →
      arg.name_ = none ∨ all_named (sequence_of parser arg)) :
    ∃ e, argparse_add_argument parser arg = .ok (e, parser) ∧
      e.error_val = rule_error rule := by
  rw [first_violated_checked] at h
  by_cases v1 : violates parser arg .identity_presence
  · rw [if_pos v1] at h
    cases h
    have w1 : arg.flag_ = NO_FLAG ∧ (arg.name_ = none ∨ arg.name_ = some []) := v1
    exact ⟨ARGPARSE_INVALID_FLAG_OR_NAME_ERROR_ none,
      by unfold argparse_add_argument; rw [if_pos w1], rfl⟩
  rw [if_neg v1] at h
  have w1 : ¬ (arg.flag_ = NO_FLAG ∧ (arg.name_ = none ∨ arg.name_ = some [])) := v1
  by_cases v2 : violates parser arg .type_validity
  · rw [if_pos v2] at h
    cases h
    unfold argparse_add_argument
    rw [if_neg w1]
    cases ht : arg.type_ with
    | other c => exact ⟨_, rfl, rfl⟩
    | _ => simp [violates, is_valid_type, ht] at v2
  rw [if_neg v2] at h
  have h2 : is_valid_type arg.type_ = true := by
    simpa [violates] using v2
  have hk := check_action_rules parser arg
  rw [add_argument_unfold parser arg w1 h2]
  by_cases v3 : violates parser arg .action_validity
  · rw [if_pos v3] at h hk
    cases h
    obtain ⟨e, he, hv⟩ := Option.map_eq_some'.1 hk
    rw [he]
    exact ⟨e, rfl, hv⟩
  rw [if_neg v3] at h hk
  by_cases v4 : violates parser arg .action_type_compatibility
  · rw [if_pos v4] at h hk
    cases h
    obtain ⟨e, he, hv⟩ := Option.map_eq_some'.1 hk
    rw [he]
    exact ⟨e, rfl, hv⟩
  rw [if_neg v4] at h hk
  by_cases v5 : violates parser arg .choices_permitted
  · rw [if_pos v5] at h hk
    cases h
    obtain ⟨e, he, hv⟩ := Option.map_eq_some'.1 hk
    rw [he]
    exact ⟨e, rfl, hv⟩
  rw [if_neg v5] at h hk
  by_cases v6 : violates parser arg .positional_store
  · rw [if_pos v6] at h hk
    cases h
    obtain ⟨e, he, hv⟩ := Option.map_eq_some'.1 hk
    rw [he]
    exact ⟨e, rfl, hv⟩
  rw [if_neg v6] at h hk
  by_cases v7 : violates parser arg .required_permitted
  · rw [if_pos v7] at h hk
    cases h
    obtain ⟨e, he, hv⟩ := Option.map_eq_some'.1 hk
    rw [he]
    exact ⟨e, rfl, hv⟩
  rw [if_neg v7] at h hk
  have hca : check_action arg (positional_of arg) = none := Option.map_eq_none'.1 hk
  rw [hca]
  simp only
  by_cases v8 : violates parser arg .positional_flag_exclusivity
  · rw [if_pos v8] at h
    cases h
    have w8 : positional_of arg = true ∧ arg.flag_ ≠ NO_FLAG := v8
    rw [if_pos w8]
    exact ⟨_, rfl, rfl⟩
  rw [if_neg v8] at h
  have w8 : ¬ (positional_of arg = true ∧ arg.flag_ ≠ NO_FLAG) := v8
  rw [if_neg w8]
  by_cases v9 : violates parser arg .bare_prefix_name
  · rw [if_pos v9] at h
    cases h
    have w9 : (arg.name_.map List.length) = some 2 ∧ ¬ positional_of arg = true := v9
    rw [if_pos w9]
    exact ⟨_, rfl, rfl⟩
  rw [if_neg v9] at h
  have w9 : ¬ ((arg.name_.map List.length) = some 2 ∧ ¬ positional_of arg = true) := v9
  rw [if_neg w9]
  by_cases v10 : violates parser arg .reserved_help
  · rw [if_pos v10] at h
    cases h
    have w10 : arg.flag_ = 'h' ∨ arg.name_ = some "--help".toList := v10
    by_cases hf : arg.flag_ = 'h'
    · rw [if_pos hf]
      exact ⟨_, rfl, rfl⟩
    · rw [if_neg hf, if_pos (w10.resolve_left hf)]
      exact ⟨_, rfl, rfl⟩
  rw [if_neg v10] at h
  have v10a : ¬ (arg.flag_ = 'h' ∨ arg.name_ = some "--help".toList) := v10
  rw [not_or] at v10a
  rw [if_neg v10a.1, if_neg v10a.2]
  by_cases v11 : violates parser arg .duplicate_identity
  · rw [if_pos v11] at h
    cases h
    obtain ⟨added, hin, hsh⟩ := v11
    obtain ⟨e, hc, hval⟩ := check_added_list_conflict arg _ (hdef rfl) added hin hsh
    rw [hc, Comp.bind_ok]
    have herr : is_error e = true := by simp [is_error, hval]
    rw [if_pos herr]
    exact ⟨e, rfl, hval⟩
  · rw [if_neg v11] at h
    cases h

/-- C33 (first violated rule wins), with the three tests the order of the specification
leaves out.  (1) When a record violates a rule, `argparse_add_argument` returns the error
of the earliest violated rule in the order identity presence, type validity, action
validity (`InvalidAction`), action/type compatibility, choices permitted by action,
positional requires `Store` (`UnsupportedAction`), required permitted by action
(`UnsupportedRequire`), positional/flag exclusivity, bare-prefix name, reserved help,
duplicate flag/name, and the parser is left as it was; when the only violated rule is the
last one, the record has no name or every record of the sequence has one.  (2) For a
record whose action is of the enumeration, that is no positional with another action than
`Store` and is not required with another action than `Store`, this is the earliest
violated rule in the order of the specification.  (3) A record with no identity and an
invalid type yields `InvalidFlagOrName`; a `Count` record of type `Float32` with choices
yields `UnsupportedAction`; a `BooleanOptional` record of type `Bool` with choices and
flag `h` yields `UnsupportedChoices`. -/
theorem first_violated_rule :
    (∀ (parser : argument_parser_t) (arg : argparse_arg_t) (rule : registration_rule),
      first_violated checked_order parser arg = some rule →
      (rule = .duplicate_identity →
        arg.name_ = none ∨ all_named (sequence_of parser arg)) →
      ∃ e, argparse_add_argument parser arg = .ok (e, parser) ∧
        e.error_val = rule_error rule) ∧
    (∀ (parser : argument_parser_t) (arg : argparse_arg_t) (rule : registration_rule),
      ¬ violates parser arg .action_validity →
      ¬ violates parser arg .positional_store →
      ¬ violates parser arg .required_permitted →
      first_violated specified_order parser arg = some rule →
      (rule = .duplicate_identity →
        arg.name_ = none ∨ all_named (sequence_of parser arg)) →
      ∃ e, argparse_add_argument parser arg = .ok (e, parser) ∧
        e.error_val = rule_error rule) ∧
    (violates empty_registry no_identity_invalid_type .identity_presence ∧
      violates empty_registry no_identity_invalid_type .type_validity ∧
      argparse_add_argument empty_registry no_identity_invalid_type =
        .ok (ARGPARSE_INVALID_FLAG_OR_NAME_ERROR_ none, empty_registry)) ∧
    (violates empty_registry float_count_with_choices .action_type_compatibility ∧
      violates empty_registry float_count_with_choices .choices_permitted ∧
      argparse_add_argument empty_registry float_count_with_choices =
        .ok (ARGPARSE_UNSUPPORTED_ACTION_ERROR_ (some "--count".toList) 'c',
          empty_registry)) ∧
    (violates empty_registry toggle_h_with_choices .choices_permitted ∧
      violates empty_registry toggle_h_with_choices .reserved_help ∧
      argparse_add_argument empty_registry toggle_h_with_choices =
        .ok (ARGPARSE_UNSUPPORTED_CHOICES_ERROR_ (some "--hold".toList) 'h',
          empty_registry)) := by
  refine ⟨add_argument_first_rule, ?_, ⟨by decide, by decide, rfl⟩,
    ⟨by decide, by decide, rfl⟩, ⟨by decide, by decide, rfl⟩⟩
  intro parser arg rule h3 h6 h7 h hdef
  rw [first_violated_orders parser arg h3 h6 h7] at h
  exact add_argument_first_rule parser arg rule h hdef

/-- The theorem at the record of the third example: its earliest violated rule is that of
the choices, and the call returns `UnsupportedChoices`. -/
theorem first_violated_rule_witness :
    first_violated checked_order empty_registry toggle_h_with_choices =
        some .choices_permitted ∧
      ∃ e, argparse_add_argument empty_registry toggle_h_with_choices =
          .ok (e, empty_registry) ∧
        e.error_val = ARGPARSE_UNSUPPORTED_CHOICES_ERROR :=
  ⟨by decide,
    first_violated_rule.1 empty_registry toggle_h_with_choices .choices_permitted
      (by decide) (fun h => by cases h)⟩

/-- Three records that violate two rules of the order of the specification and for which
`argparse_add_argument` returns the error of neither.  A required `StoreTrue` record with
flag `h` and name `-x`: the earliest violated rule of the order is the bare-prefix name
(`InvalidFlagOrName`), the call returns `UnsupportedRequire`.  An `Int32` record with
flag `h`, name `-x` and an action outside the enumeration: the call returns
`InvalidAction`.  A `StoreTrue` record named `input` with flag `h`: the earliest violated
rule of the order is the positional/flag exclusivity (`InvalidFlagOrName`), the call
returns `UnsupportedAction`. -/
theorem first_violated_rule_counterexample :
    (first_violated specified_order empty_registry required_flag_record =
        some .bare_prefix_name ∧
      violates empty_registry required_flag_record .reserved_help ∧
      rule_error .bare_prefix_name = ARGPARSE_INVALID_FLAG_OR_NAME_ERROR ∧
      argparse_add_argument empty_registry required_flag_record =
        .ok (ARGPARSE_UNSUPPORTED_REQUIRE_ERROR_ (some "-x".toList) 'h', empty_registry)) ∧
    (first_violated specified_order empty_registry invalid_action_record =
        some .bare_prefix_name ∧
      violates empty_registry invalid_action_record .reserved_help ∧
      argparse_add_argument empty_registry invalid_action_record =
        .ok (ARGPARSE_INVALID_ACTION_ERROR_ 7, empty_registry)) ∧
    (first_violated specified_order empty_registry positional_flag_record =
        some .positional_flag_exclusivity ∧
      violates empty_registry positional_flag_record .reserved_help ∧
      rule_error .positional_flag_exclusivity = ARGPARSE_INVALID_FLAG_OR_NAME_ERROR ∧
      argparse_add_argument empty_registry positional_flag_record =
        .ok (ARGPARSE_UNSUPPORTED_ACTION_ERROR_ (some "input".toList) NO_FLAG,
          empty_registry)) :=
  ⟨⟨by decide, by decide, rfl, rfl⟩, ⟨by decide, by decide, rfl⟩,
    ⟨by decide, by decide, rfl, rfl⟩⟩

/-! ## The negated form of a toggle -/

/-- The token `--no-S` resolves to the first record named `--S` when that record is a
toggle. -/
theorem negated_resolves (options : List argparse_arg_t) (S : CStr) (k : Nat)
    (arg : argparse_arg_t) (hall : all_named options)
    (hf : first_named options ("--".toList ++ S) k) (hk : options[k]? = some arg)
    (ha : arg.action_ = ARGPARSE_BOOLEAN_OPTIONAL_ACTION) :
    resolves_to options ("--no-".toList ++ S) k true := by
  have hsw : starts_with ("--no-".toList ++ S) "--no-".toList = true := by
    simp [starts_with]
  have hdrop : ("--no-".toList ++ S).drop 5 = S := by simp
  refine ⟨by simp, by simp, by simp [starts_with], Or.inr ⟨by simp, ?_⟩⟩
  unfold find_long
  simp only [hsw, if_true, hdrop]
  have hfind : find_arg options (NAME_TO_FIND S (some "--".toList)) = .ok (some k) := by
    unfold find_arg
    rw [find_arg_from_pfx, find_arg_from_first _ options hall k 0 hf, Nat.zero_add]
  rw [hfind]
  simp only [Comp.bind_ok, is_toggle_of options k arg hk ha, if_true]

/-- The token `--no-S` resolves by its full name when no record named `--S` is a
toggle. -/
theorem negated_literal_resolves (options : List argparse_arg_t) (S : CStr) (j : Nat)
    (hall : all_named options)
    (hno : ∀ arg ∈ options, arg.name_ = some ("--".toList ++ S) →
      arg.action_ ≠ ARGPARSE_BOOLEAN_OPTIONAL_ACTION)
    (hf : first_named options ("--no-".toList ++ S) j) :
    resolves_to options ("--no-".toList ++ S) j false := by
  refine named_resolves options _ j hall hf ?_ (by simp) (by simp [starts_with]) (by simp)
  rintro ⟨_, arg, hin, hname, hact⟩
  have hdrop : ("--no-".toList ++ S).drop 5 = S := by simp
  rw [hdrop] at hname
  exact hno arg hin hname hact

/-- In a registry a record with a name is the first record of its sequence with that
name. -/
theorem registry_first_named (parser : argument_parser_t) (h : Registry parser) (k : Nat)
    (arg : argparse_arg_t) (N : CStr) (hk : parser.options_[k]? = some arg)
    (hn : arg.name_ = some N) : first_named parser.options_ N k := by
  refine ⟨by rw [hk]; exact hn, ?_⟩
  intro c hc hcn
  have hd := (registry_distinct parser h).1
  unfold distinct_identities at hd
  obtain ⟨i, hi, hci⟩ := List.getElem_of_mem hc
  rw [List.length_take] at hi
  rw [List.getElem_take] at hci
  have hklt : k < parser.options_.length := by
    rcases Nat.lt_or_ge k parser.options_.length with h1 | h1
    · exact h1
    · rw [List.getElem?_eq_none h1] at hk; cases hk
  have hik : i < k := by omega
  have := List.pairwise_iff_getElem.1 hd i k (by omega) hklt hik
  apply this
  right
  have hke : parser.options_[k] = arg := by
    rw [List.getElem?_eq_getElem hklt] at hk
    exact Option.some.inj hk
  rw [hci, hke, hcn, hn]
  exact ⟨by simp, rfl⟩

/-- A run of the test `toggle_off`, and of the same token against registries that also
hold an option literally named `--no-verbose`. -/
theorem negated_toggle_runs :
    argparse_parse_args sample_float_ops
        (sample_setup ["--no-verbose"] [verbose_toggle] []) sample_true_memory =
      .ok (ARGPARSE_NO_ERROR_,
        sample_setup ["--no-verbose"] [{ verbose_toggle with count_ := 1 }] [],
        sample_true_memory.write 1 (.bool false)) ∧
    argparse_parse_args sample_float_ops
        (sample_setup ["--no-verbose"] [no_verbose_flag, verbose_toggle] [])
        sample_true_memory =
      .ok (ARGPARSE_NO_ERROR_,
        sample_setup ["--no-verbose"]
          [no_verbose_flag, { verbose_toggle with count_ := 1 }] [],
        sample_true_memory.write 1 (.bool false)) ∧
    argparse_parse_args sample_float_ops
        (sample_setup ["--no-verbose"] [verbose_flag, no_verbose_flag] [])
        sample_true_memory =
      .ok (ARGPARSE_NO_ERROR_,
        sample_setup ["--no-verbose"]
          [verbose_flag, { no_verbose_flag with count_ := 1 }] [],
        sample_true_memory.write 2 (.bool false)) :=
  ⟨rfl, rfl, rfl⟩

/-! ## A cluster that ends at an unknown flag -/

/-- The binding of a record that takes no value. -/
theorem get_and_update_value_flag (fp : FloatOps) (st : State) (k i : Nat)
    (positional : Bool) (arg : argparse_arg_t) (hk : st.parser.options_[k]? = some arg)
    (hs : binds_without_value arg) :
    get_and_update_value fp st (.option k) i positional false =
      .ok (ARGPARSE_NO_ERROR_,
        { parser := { st.parser with
            options_ := st.parser.options_.set k { arg with count_ := arg.count_ + 1 } },
          mem := if arg.action_ = ARGPARSE_COUNT_ACTION then st.mem
            else st.mem.write arg.value_
              (.bool (arg.action_ != ARGPARSE_STORE_FALSE_ACTION)) }, i) := by
  have hd : st.parser.deref (.option k) = some arg := by
    simpa [argument_parser_t.deref] using hk
  rcases hs with ⟨ha, ht⟩ | ha
  · have hb := get_and_update_value_bool fp st (.option k) i positional false arg hd ht
    cases hact : arg.action_ with
    | ARGPARSE_STORE_TRUE_ACTION =>
      rw [hb.1 hact]; simp [argument_parser_t.assign, hact]; rfl
    | ARGPARSE_STORE_FALSE_ACTION =>
      rw [hb.2.1 hact]; simp [argument_parser_t.assign, hact]
    | ARGPARSE_BOOLEAN_OPTIONAL_ACTION =>
      rw [hb.2.2 hact]; simp [argument_parser_t.assign, hact]; rfl
    | ARGPARSE_STORE_ACTION => rw [hact] at ha; cases ha
    | ARGPARSE_COUNT_ACTION => rw [hact] at ha; cases ha
    | other c => rw [hact] at ha; cases ha
  · rw [get_and_update_value_count fp st (.option k) i positional false arg hd ha]
    simp [ha, argument_parser_t.assign]

/-- The write of a character depends on the records without their counters. -/
theorem cluster_write_static (l l1 : List argparse_arg_t)
    (h : l1.map argparse_arg_t.static = l.map argparse_arg_t.static) (mem : Memory)
    (c : Char) : cluster_write l1 mem c = cluster_write l mem c := by
  unfold cluster_write flag_record
  rw [find_arg_static l l1 _ h]
  cases hf : find_arg l (FLAG_TO_FIND c) with
  | ok r =>
    cases r with
    | none => rfl
    | some k =>
      simp only
      have hk : (l1[k]?).map argparse_arg_t.static = (l[k]?).map argparse_arg_t.static := by
        rw [← List.getElem?_map, ← List.getElem?_map, h]
      cases h1 : l1[k]? with
      | none =>
        rw [h1] at hk
        cases h2 : l[k]? with
        | none => rfl
        | some b => rw [h2] at hk; cases hk
      | some a =>
        rw [h1] at hk
        cases h2 : l[k]? with
        | none => rw [h2] at hk; cases hk
        | some b =>
          rw [h2] at hk
          simp only [Option.map_some', Option.some.injEq] at hk
          obtain ⟨_, e2, e3, _⟩ := static_fields a b hk
          simp only [e2, e3]
  | exit n => rfl
  | undef => rfl
  | diverge => rfl

/-- A cluster whose characters are all flags of records that take no value: the walk
returns without error, leaves `i`, and the memory is that after the writes of its
characters, in their order. -/
theorem group_loop_flags (fp : FloatOps) (arg_string : CStr) (cs : List Char) :
    ∀ (st : State) (i : Nat),
      (∀ c ∈ cs, ∃ k arg, flag_finds st.parser.options_ c k ∧
        st.parser.options_[k]? = some arg ∧ binds_without_value arg) →
      ∃ st1, group_loop fp arg_string cs st i = .ok (ARGPARSE_NO_ERROR_, st1, i) ∧
        st1.parser.static = st.parser.static ∧
        st1.parser.positional_args_ = st.parser.positional_args_ ∧
        st1.parser.argv_ = st.parser.argv_ ∧
        st1.mem = cs.foldl (cluster_write st.parser.options_) st.mem := by
  induction cs with
  | nil =>
    intro st i _
    exact ⟨st, rfl, rfl, rfl, rfl, rfl⟩
  | cons c rest ih =>
    intro st i hall
    obtain ⟨k, arg, hf, hk, hs⟩ := hall c (List.mem_cons_self _ _)
    have hpos : (arg.action_ != ARGPARSE_STORE_ACTION) = true := by
      rcases hs with ⟨ha, _⟩ | ha
      · cases hact : arg.action_ <;> rw [hact] at ha <;> first | rfl | cases ha
      · rw [ha]; rfl
    have hg := get_and_update_value_flag fp st k i true arg hk hs
    have hstat : (st.parser.options_.set k { arg with count_ := arg.count_ + 1 }).map
        argparse_arg_t.static = st.parser.options_.map argparse_arg_t.static :=
      static_set _ _ _ _ hk
    have hklt : k < st.parser.options_.length := by
      by_contra hcn
      rw [List.getElem?_eq_none (not_lt.mp hcn)] at hk
      cases hk
    obtain ⟨st1, hloop, h1, h2, h3, h4⟩ := ih
      { parser := { st.parser with
          options_ := st.parser.options_.set k { arg with count_ := arg.count_ + 1 } },
        mem := if arg.action_ = ARGPARSE_COUNT_ACTION then st.mem
          else st.mem.write arg.value_
            (.bool (arg.action_ != ARGPARSE_STORE_FALSE_ACTION)) } i
      (fun c' hc' => by
        obtain ⟨k', arg', hf', hk', hs'⟩ := hall c' (List.mem_cons_of_mem _ hc')
        by_cases hkk : k' = k
        · subst hkk
          rw [hk] at hk'
          cases hk'
          exact ⟨k', { arg with count_ := arg.count_ + 1 },
            (flag_finds_static _ _ _ _ hstat).mpr hf', by simp [List.getElem?_set, hklt], hs'⟩
        · exact ⟨k', arg', (flag_finds_static _ _ _ _ hstat).mpr hf',
            by simp [List.getElem?_set, Ne.symm hkk, hk'], hs'⟩)
    refine ⟨st1, ?_, ?_, ?_, ?_, ?_⟩
    · simp only [group_loop]
      unfold flag_finds at hf
      simp only [hf, Comp.bind_ok, hk, hpos, hg, is_error_no_error, Bool.false_eq_true, if_false]
      exact hloop
    · rw [h1]; simp [argument_parser_t.static, hstat]
    · rw [h2]
    · rw [h3]
    · rw [h4]
      simp only [List.foldl_cons]
      have hw : cluster_write st.parser.options_ st.mem c =
          (if arg.action_ = ARGPARSE_COUNT_ACTION then st.mem
            else st.mem.write arg.value_
              (.bool (arg.action_ != ARGPARSE_STORE_FALSE_ACTION))) := by
        unfold flag_finds at hf
        simp only [cluster_write, flag_record, hf, hk]
      rw [hw]
      congr 1
      funext m c'
      exact cluster_write_static _ _ hstat m c'

/-- The writes of the characters that do not write to an address leave it as it was. -/
theorem cluster_write_untouched (options : List argparse_arg_t) (a : Nat) (cs : List Char) :
    ∀ (mem : Memory),
      (∀ c ∈ cs, ∀ arg, flag_record options c = some arg →
        arg.action_ ≠ ARGPARSE_COUNT_ACTION → arg.value_ ≠ a) →
      cs.foldl (cluster_write options) mem a = mem a := by
  induction cs with
  | nil => intro mem _; rfl
  | cons c rest ih =>
    intro mem h
    rw [List.foldl_cons, ih _ fun c2 hc2 => h c2 (List.mem_cons_of_mem _ hc2)]
    unfold cluster_write
    cases hf : flag_record options c with
    | none => rfl
    | some arg =>
      simp only
      by_cases hc : arg.action_ = ARGPARSE_COUNT_ACTION
      · rw [if_pos hc]
      · rw [if_neg hc]
        have := h c (List.mem_cons_self _ _) arg hf hc
        simp [Memory.write, Ne.symm this]

/-- The storage of a record bound by a character of the cluster holds the value of its
action, when the characters that write to that storage all write that value. -/
theorem cluster_write_value (options : List argparse_arg_t) (cs : List Char) :
    ∀ (mem : Memory) (c : Char) (arg : argparse_arg_t), c ∈ cs →
      flag_record options c = some arg → arg.action_ ≠ ARGPARSE_COUNT_ACTION →
      (∀ c2 ∈ cs, ∀ arg2, flag_record options c2 = some arg2 →
        arg2.action_ ≠ ARGPARSE_COUNT_ACTION → arg2.value_ = arg.value_ →
        (arg2.action_ != ARGPARSE_STORE_FALSE_ACTION) =
          (arg.action_ != ARGPARSE_STORE_FALSE_ACTION)) →
      cs.foldl (cluster_write options) mem arg.value_ =
        .bool (arg.action_ != ARGPARSE_STORE_FALSE_ACTION) := by
  induction cs with
  | nil => intro mem c arg hc; cases hc
  | cons c0 rest ih =>
    intro mem c arg hc hf hne hsame
    rw [List.foldl_cons]
    by_cases hlater : ∃ c2 ∈ rest, ∃ arg2, flag_record options c2 = some arg2 ∧
        arg2.action_ ≠ ARGPARSE_COUNT_ACTION ∧ arg2.value_ = arg.value_
    · obtain ⟨c2, hc2, arg2, hf2, hne2, hv2⟩ := hlater
      rw [← hv2, ih _ c2 arg2 hc2 hf2 hne2 ?_]
      · rw [hsame c2 (List.mem_cons_of_mem _ hc2) arg2 hf2 hne2 hv2]
      · intro c3 hc3 arg3 hf3 hne3 hv3
        rw [hsame c3 (List.mem_cons_of_mem _ hc3) arg3 hf3 hne3 (hv3.trans hv2),
          hsame c2 (List.mem_cons_of_mem _ hc2) arg2 hf2 hne2 hv2]
    · rw [cluster_write_untouched options arg.value_ rest _ fun c2 hc2 arg2 hf2 hne2 hv2 =>
        hlater ⟨c2, hc2, arg2, hf2, hne2, hv2⟩]
      rcases List.mem_cons.mp hc with rfl | hin
      · simp [cluster_write, hf, hne, Memory.write]
      · exact absurd ⟨c, hin, arg, hf, hne, rfl⟩ hlater

/-- Runs of `-ax` with only `a` registered (a toggle), of `-qx` with only the
`StoreFalse` flag `q`, and of `-vvx` with only the `Count` flag `v`. -/
theorem failing_cluster_runs :
    argparse_parse_args sample_float_ops
        (sample_setup ["-ax"] [ARGPARSE_TOGGLE 'a' (some "--apple".toList) 1 none] [])
        sample_bool_memory =
      .ok (ARGPARSE_ARGUMENT_UNKNOWN_ERROR_ (some "-ax".toList),
        sample_setup ["-ax"]
          [{ ARGPARSE_TOGGLE 'a' (some "--apple".toList) 1 none with count_ := 1 }] [],
        sample_bool_memory.write 1 (.bool true)) ∧
    argparse_parse_args sample_float_ops (sample_setup ["-qx"] [no_verbose_flag] [])
        sample_true_memory =
      .ok (ARGPARSE_ARGUMENT_UNKNOWN_ERROR_ (some "-qx".toList),
        sample_setup ["-qx"] [{ no_verbose_flag with count_ := 1 }] [],
        sample_true_memory.write 2 (.bool false)) ∧
    argparse_parse_args sample_float_ops (sample_setup ["-vvx"] [verbosity_count] [])
        sample_memory =
      .ok (ARGPARSE_ARGUMENT_UNKNOWN_ERROR_ (some "-vvx".toList),
        sample_setup ["-vvx"] [{ verbosity_count with count_ := 2 }] [], sample_memory) :=
  ⟨rfl, rfl, rfl⟩

/-- The walk of a cluster, however it ends: the characters it has bound are a prefix of
the cluster (all of it when there is no error), and the count of every option has grown
by the number of bound characters that find it. -/
theorem group_loop_walked (fp : FloatOps) (arg_string : CStr) (chars : List Char) :
    ∀ (st st1 : State) (i i1 : Nat) (e : argparse_error_t),
      group_loop fp arg_string chars st i = .ok (e, st1, i1) →
      ∃ walked rest, chars = walked ++ rest ∧ (is_error e = false → rest = []) ∧
        (∀ c ∈ walked, ∃ k, flag_finds st.parser.options_ c k) ∧
        st1.parser.positional_args_ = st.parser.positional_args_ ∧
        ∀ (k : Nat) (arg : argparse_arg_t), st.parser.options_[k]? = some arg →
          st1.parser.options_[k]? = some { arg with
            count_ := arg.count_ +
              (walked.countP fun c => decide (flag_finds st.parser.options_ c k)) } := by
  induction chars with
  | nil =>
    intro st st1 i i1 e h
    simp [group_loop] at h
    obtain ⟨_, h2, _⟩ := h
    subst h2
    exact ⟨[], [], rfl, fun _ => rfl, (fun c hc => by cases hc), rfl,
      fun k arg hk => by simp [hk]⟩
  | cons c rest ih =>
    intro st st1 i i1 e h
    simp only [group_loop] at h
    rw [Comp.bind_eq_ok] at h
    obtain ⟨found, hfound, h⟩ := h
    cases found with
    | none =>
      simp at h
      obtain ⟨h1, h2, _⟩ := h
      subst h2
      refine ⟨[], c :: rest, rfl, ?_, (fun c hc => by cases hc), rfl,
        fun k arg hk => by simp [hk]⟩
      intro he
      rw [← h1] at he
      simp [is_error, ARGPARSE_ARGUMENT_UNKNOWN_ERROR_] at he
    | some k1 =>
      simp only at h
      split at h
      · cases h
      · rename_i arg1 hk1
        rw [Comp.bind_eq_ok] at h
        obtain ⟨⟨e2, st2, i2⟩, hg, h⟩ := h
        obtain ⟨f1, _⟩ := get_and_update_value_frame fp _ _ _ _ _ _ _ _ hg
        obtain ⟨arg0, hd, hp, _⟩ := get_and_update_value_footprint fp _ _ _ _ _ _ _ _ hg
        simp only [argument_parser_t.deref, hk1, Option.some.injEq] at hd
        subst hd
        have hklt : k1 < st.parser.options_.length := by
          by_contra hcn
          rw [List.getElem?_eq_none (not_lt.mp hcn)] at hk1
          cases hk1
        have hpos2 : st2.parser.positional_args_ = st.parser.positional_args_ := by
          rw [hp]; rfl
        -- the counts after the binding of the first character
        have hfirst : ∀ (k : Nat) (arg : argparse_arg_t), st.parser.options_[k]? = some arg →
            st2.parser.options_[k]? = some { arg with count_ := arg.count_ +
              ([c].countP fun c => decide (flag_finds st.parser.options_ c k)) } := by
          intro k arg hk
          by_cases hkk : k1 = k
          · subst hkk
            rw [hk] at hk1
            cases hk1
            have hc : flag_finds st.parser.options_ c k1 := hfound
            rw [hp]
            simp [argument_parser_t.assign, List.getElem?_set, hklt, hc]
          · have hc : ¬ flag_finds st.parser.options_ c k := by
              intro hcn
              unfold flag_finds at hcn
              rw [hfound] at hcn
              simp at hcn
              exact hkk hcn
            rw [hp, assign_option_ne _ _ _ _ hkk]
            simp [hc, hk]
        simp only at h
        split at h
        · rename_i herr
          simp only [Comp.ok.injEq, Prod.mk.injEq] at h
          obtain ⟨h1, h2, _⟩ := h
          subst h1 h2
          refine ⟨[c], rest, rfl, ?_, ?_, hpos2, hfirst⟩
          · intro he; rw [herr] at he; cases he
          · intro c1 hc1
            have : c1 = c := by simpa using hc1
            subst this
            exact ⟨k1, hfound⟩
        · have hopts := static_options _ _ f1
          have hff : ∀ c1 k, flag_finds st2.parser.options_ c1 k ↔
              flag_finds st.parser.options_ c1 k :=
            fun c1 k => flag_finds_static _ _ c1 k hopts
          obtain ⟨walked, rest1, hsplit, hrest, hwalk, hposw, hcount⟩ := ih _ _ _ _ _ h
          refine ⟨c :: walked, rest1, by rw [hsplit]; rfl, hrest, ?_, by rw [hposw, hpos2], ?_⟩
          · intro c1 hc1
            rcases List.mem_cons.mp hc1 with rfl | hin
            · exact ⟨k1, hfound⟩
            · obtain ⟨k, hk⟩ := hwalk c1 hin
              exact ⟨k, (hff c1 k).mp hk⟩
          · intro k arg hk
            rw [hcount k _ (hfirst k arg hk)]
            simp only [List.countP_cons, List.countP_nil, hff, Nat.zero_add,
              Option.some.injEq, argparse_arg_t.mk.injEq, true_and, and_true]
            push_cast
            ring

/-- The iteration for a token that resolves to an option, however it ends: the count of
that option has grown by 1 and no other record has changed. -/
theorem parse_token_resolved_count (fp : FloatOps) (s s1 : ScanState) (token : CStr)
    (k : Nat) (negated : Bool) (e : argparse_error_t)
    (hv : s.parser.argv_[s.i]? = some token)
    (hr : resolves_to s.parser.options_ token k negated)
    (h : parse_token fp s = .ok (e, s1)) :
    ∃ arg, s.parser.options_[k]? = some arg ∧
      s1.parser = { s.parser with
        options_ := s.parser.options_.set k { arg with count_ := arg.count_ + 1 } } := by
  rw [parse_token_resolves fp s token k negated hv hr] at h
  simp only [bind_found] at h
  rw [Comp.bind_eq_ok] at h
  obtain ⟨⟨e2, st2, i2⟩, hg, h⟩ := h
  obtain ⟨arg0, hd, hp, _⟩ := get_and_update_value_footprint fp _ _ _ _ _ _ _ _ hg
  simp only [Comp.ok.injEq, Prod.mk.injEq] at h
  refine ⟨arg0, by simpa [argument_parser_t.deref, ScanState.st] using hd, ?_⟩
  rw [← h.2]
  simp only [ScanState.update, hp]
  rfl

/-- The iteration for a token that does not start with `-`, however it ends: the count
of the positional it is matched with has grown by 1 and no other record has changed; when
there is no positional left the iteration returns `ArgumentUnknown` and no record has
changed. -/
theorem parse_token_positional_count (fp : FloatOps) (s s1 : ScanState) (token : CStr)
    (e : argparse_error_t) (hv : s.parser.argv_[s.i]? = some token)
    (hd : starts_with token "-".toList = false) (h : parse_token fp s = .ok (e, s1)) :
    (∃ arg, s.parser.positional_args_[s.positional_i]? = some arg ∧
      s1.parser = { s.parser with
        positional_args_ := s.parser.positional_args_.set s.positional_i
          { arg with count_ := arg.count_ + 1 } }) ∨
    (s.parser.positional_args_[s.positional_i]? = none ∧ s1.parser = s.parser ∧
      e = ARGPARSE_ARGUMENT_UNKNOWN_ERROR_ (some token)) := by
  rw [parse_token_no_dash fp s token hv hd] at h
  split at h
  · left
    rw [Comp.bind_eq_ok] at h
    obtain ⟨⟨e2, st2, i2⟩, hg, h⟩ := h
    obtain ⟨arg0, hd0, hp, _⟩ := get_and_update_value_footprint fp _ _ _ _ _ _ _ _ hg
    simp only [Comp.ok.injEq, Prod.mk.injEq] at h
    refine ⟨arg0, by simpa [argument_parser_t.deref, ScanState.st] using hd0, ?_⟩
    rw [← h.2]
    simp only [ScanState.update, hp]
    rfl
  · rename_i hlt
    right
    simp only [Comp.ok.injEq, Prod.mk.injEq] at h
    refine ⟨List.getElem?_eq_none (not_lt.mp hlt), ?_, h.1.symm⟩
    rw [← h.2]

/-- The test `count_multi_grouped_with_ungrouped`, and two runs whose binding fails: a
value outside the choices and a missing value. -/
theorem occurrence_counting_runs :
    argparse_parse_args sample_float_ops
        (sample_setup ["-vvv", "-v", "--verbose"] [verbosity_count] []) sample_memory =
      .ok (ARGPARSE_NO_ERROR_,
        sample_setup ["-vvv", "-v", "--verbose"] [{ verbosity_count with count_ := 5 }] [],
        sample_memory.write 1 (.int 5)) ∧
    argparse_parse_args sample_float_ops
        (sample_setup ["-v", "7"] [value_option_with_choices] []) sample_memory =
      .ok (ARGPARSE_INVALID_CHOICE_ERROR_ (some "-v".toList) NO_FLAG,
        sample_setup ["-v", "7"] [{ value_option_with_choices with count_ := 1 }] [],
        sample_memory) ∧
    argparse_parse_args sample_float_ops (sample_setup ["-v"] [value_option] [])
        sample_memory =
      .ok (ARGPARSE_ARGUMENT_MISSING_VALUE_ERROR_ (some "-v".toList) NO_FLAG,
        sample_setup ["-v"] [{ value_option with count_ := 1 }] [], sample_memory) :=
  ⟨rfl, rfl, rfl⟩

/-- C32 (occurrence counting).  (1) Every call of `get_and_update_value` that returns,
with an error or without, has added exactly 1 to the count of the record it is called on
and has changed no other record.  (2) The iteration for a token that resolves to an
option (by its flag or by a name lookup), however it ends, has added 1 to the count of
that option and changed no other record.  (3) The iteration for a token that does not
start with `-`, however it ends, has added 1 to the count of the positional it is matched
with and changed no other record (none at all when no positional is left).  (4) The
iteration for a token walked as a cluster, however it ends, has bound a prefix of its
characters (all of them when it ends without error), each of which is the flag of an
option, and the count of every option has grown by the number of bound characters that
find it; the positionals are unchanged.  (5) An iteration leaves alone every option that
its token does not hit.  (6) Whenever `argparse_parse_args` returns without error, the
count of every option has grown by the sum, over the tokens the scan has classified, of
the hits of that token: the finalisation changes no count.  (7) The test
`count_multi_grouped_with_ungrouped` gives count 5; a `Store` option whose value is
outside its choices, or has no value, has count 1 after the failed call. -/
theorem occurrence_counting :
    (∀ (fp : FloatOps) (st st1 : State) (ref : ArgRef) (i i1 : Nat)
        (positional negated : Bool) (e : argparse_error_t),
      get_and_update_value fp st ref i positional negated = .ok (e, st1, i1) →
      ∃ arg0, st.parser.deref ref = some arg0 ∧
        st1.parser = st.parser.assign ref { arg0 with count_ := arg0.count_ + 1 }) ∧
    (∀ (fp : FloatOps) (s s1 : ScanState) (token : CStr) (k : Nat) (negated : Bool)
        (e : argparse_error_t),
      s.parser.argv_[s.i]? = some token → resolves_to s.parser.options_ token k negated →
      parse_token fp s = .ok (e, s1) →
      ∃ arg, s.parser.options_[k]? = some arg ∧
        s1.parser = { s.parser with
          options_ := s.parser.options_.set k { arg with count_ := arg.count_ + 1 } }) ∧
    (∀ (fp : FloatOps) (s s1 : ScanState) (token : CStr) (e : argparse_error_t),
      s.parser.argv_[s.i]? = some token → starts_with token "-".toList = false →
      parse_token fp s = .ok (e, s1) →
      (∃ arg, s.parser.positional_args_[s.positional_i]? = some arg ∧
        s1.parser = { s.parser with
          positional_args_ := s.parser.positional_args_.set s.positional_i
            { arg with count_ := arg.count_ + 1 } }) ∨
      (s.parser.positional_args_[s.positional_i]? = none ∧ s1.parser = s.parser ∧
        e = ARGPARSE_ARGUMENT_UNKNOWN_ERROR_ (some token))) ∧
    (∀ (fp : FloatOps) (s s1 : ScanState) (token : CStr) (e : argparse_error_t),
      s.parser.argv_[s.i]? = some token → is_cluster s.parser.options_ token →
      parse_token fp s = .ok (e, s1) →
      ∃ walked rest, token.drop 1 = walked ++ rest ∧ (is_error e = false → rest = []) ∧
        (∀ c ∈ walked, ∃ k, flag_finds s.parser.options_ c k) ∧
        s1.parser.positional_args_ = s.parser.positional_args_ ∧
        ∀ (k : Nat) (arg : argparse_arg_t), s.parser.options_[k]? = some arg →
          s1.parser.options_[k]? = some { arg with
            count_ := arg.count_ +
              (walked.countP fun c => decide (flag_finds s.parser.options_ c k)) }) ∧
    (∀ (fp : FloatOps) (s s1 : ScanState) (token : CStr) (e : argparse_error_t) (k : Nat),
      s.parser.argv_[s.i]? = some token → parse_token fp s = .ok (e, s1) →
      hits s.parser.options_ token k = 0 →
      s1.parser.options_[k]? = s.parser.options_[k]?) ∧
    (∀ (fp : FloatOps) (parser parser1 : argument_parser_t) (mem mem1 : Memory)
        (error : argparse_error_t),
      argparse_parse_args fp parser mem = .ok (error, parser1, mem1) →
      is_error error = false →
      ∃ visited s, Reaches fp parser mem visited s ∧ ¬ s.i < parser.argc_ ∧
        ∀ (k : Nat) (arg : argparse_arg_t), parser.options_[k]? = some arg →
          parser1.options_[k]? = some { arg with count_ := arg.count_ +
            ((visited.map fun j =>
              hits parser.options_ (parser.argv_.getD j []) k).sum : Nat) }) ∧
    (argparse_parse_args sample_float_ops
        (sample_setup ["-vvv", "-v", "--verbose"] [verbosity_count] []) sample_memory =
      .ok (ARGPARSE_NO_ERROR_,
        sample_setup ["-vvv", "-v", "--verbose"] [{ verbosity_count with count_ := 5 }] [],
        sample_memory.write 1 (.int 5)) ∧
    argparse_parse_args sample_float_ops
        (sample_setup ["-v", "7"] [value_option_with_choices] []) sample_memory =
      .ok (ARGPARSE_INVALID_CHOICE_ERROR_ (some "-v".toList) NO_FLAG,
        sample_setup ["-v", "7"] [{ value_option_with_choices with count_ := 1 }] [],
        sample_memory) ∧
    argparse_parse_args sample_float_ops (sample_setup ["-v"] [value_option] [])
        sample_memory =
      .ok (ARGPARSE_ARGUMENT_MISSING_VALUE_ERROR_ (some "-v".toList) NO_FLAG,
        sample_setup ["-v"] [{ value_option with count_ := 1 }] [], sample_memory)) := by
  refine ⟨?_, ?_, ?_, ?_, ?_, ?_, occurrence_counting_runs⟩
  · intro fp st st1 ref i i1 positional negated e h
    obtain ⟨arg0, hd, hp, _⟩ := get_and_update_value_footprint fp _ _ _ _ _ _ _ _ h
    exact ⟨arg0, hd, hp⟩
  · intro fp s s1 token k negated e hv hr h
    exact parse_token_resolved_count fp s s1 token k negated e hv hr h
  · intro fp s s1 token e hv hd h
    exact parse_token_positional_count fp s s1 token e hv hd h
  · intro fp s s1 token e hv hcl h
    obtain ⟨hh, hd, hlen, hl⟩ := hcl
    obtain ⟨cs, rfl⟩ : ∃ cs, token = '-' :: cs := by
      cases token with
      | nil => simp [starts_with] at hd
      | cons c cs =>
        refine ⟨cs, ?_⟩
        have : '-' = c := by simpa [starts_with, List.isPrefixOf] using hd
        rw [this]
    rw [parse_token_cluster fp s cs false hv (by simpa using hlen) hh hl,
      Comp.bind_eq_ok] at h
    obtain ⟨⟨e2, st2, i2⟩, hg, h⟩ := h
    simp only [Comp.ok.injEq, Prod.mk.injEq] at h
    obtain ⟨walked, rest, hsplit, hrest, hwalk, hpos, hcount⟩ :=
      group_loop_walked fp _ cs _ _ _ _ _ hg
    refine ⟨walked, rest, by simpa using hsplit, ?_, hwalk, ?_, ?_⟩
    · rw [← h.1]; exact hrest
    · rw [← h.2]; exact hpos
    · rw [← h.2]; exact hcount
  · intro fp s s1 token e k hv h h0
    exact (parse_token_untouched fp s s1 e token h hv k h0).1
  · intro fp parser parser1 mem mem1 error h he
    obtain ⟨visited, s, hr, hdone, hall⟩ := parse_args_counts fp parser parser1 mem mem1 error
      h he
    exact ⟨visited, s, hr, hdone, fun k arg hk => (hall k arg hk).1⟩

/-- The theorem at the first iteration of the run `-v 7`, whose binding fails: the
count of the option is 1 afterwards. -/
theorem occurrence_counting_witness :
    ∃ arg, [value_option_with_choices][0]? = some arg ∧
      (sample_setup ["-v", "7"] [{ value_option_with_choices with count_ := 1 }] []) =
        { sample_setup ["-v", "7"] [value_option_with_choices] [] with
          options_ := [value_option_with_choices].set 0
            { arg with count_ := arg.count_ + 1 } } :=
  occurrence_counting.2.1 sample_float_ops
    ⟨sample_setup ["-v", "7"] [value_option_with_choices] [], sample_memory, 0, 0⟩
    ⟨sample_setup ["-v", "7"] [{ value_option_with_choices with count_ := 1 }] [],
      sample_memory, 1, 0⟩
    "-v".toList 0 false (ARGPARSE_INVALID_CHOICE_ERROR_ (some "-v".toList) NO_FLAG)
    rfl (by decide) rfl

/-! ## The value of a `Store` option -/

/-- The binding of a `Store` option that is followed by a token: the loop over the
choices and the conversion, both on the text of that token; `i` ends on it. -/
theorem get_and_update_value_store_text (fp : FloatOps) (st : State) (ref : ArgRef) (i : Nat)
    (negated : Bool) (arg : argparse_arg_t) (value : CStr)
    (hd : st.parser.deref ref = some arg) (ha : arg.action_ = ARGPARSE_STORE_ACTION)
    (hv : st.parser.argv_[i + 1]? = some value) :
    get_and_update_value fp st ref i false negated =
      (choices_loop fp arg value arg.num_choices_ 0 (arg.num_choices_ == 0)).bind fun r =>
        match r with
        | .error error =>
          .ok (error,
            { st with parser := st.parser.assign ref { arg with count_ := arg.count_ + 1 } },
            i + 1)
        | .ok tmp_bool =>
          if !tmp_bool then
            .ok (ARGPARSE_INVALID_CHOICE_ERROR_ st.parser.argv_[i]? NO_FLAG,
              { st with
                parser := st.parser.assign ref { arg with count_ := arg.count_ + 1 } },
              i + 1)
          else
            (update_value fp arg st.mem (.text value) true).bind fun (error, mem1) =>
              .ok (error,
                { parser := st.parser.assign ref { arg with count_ := arg.count_ + 1 },
                  mem := mem1 }, i + 1) := by
  have hlt : i + 1 < st.parser.argv_.length := by
    by_contra hcn
    rw [List.getElem?_eq_none (not_lt.mp hcn)] at hv
    cases hv
  have hne : (i + 1 == st.parser.argc_) = false := by
    simp only [argument_parser_t.argc_, beq_eq_false_iff_ne, ne_eq]
    omega
  rcases arg with ⟨ty, cnt, fl, nm, v, act, hlp, req, ch, nch⟩
  simp only at ha
  subst ha
  have hc1 := choices_loop_count fp
    ⟨ty, cnt, fl, nm, v, ARGPARSE_STORE_ACTION, hlp, req, ch, nch⟩ (cnt + 1) value nch 0
    (nch == 0)
  unfold get_and_update_value
  simp only [hd, Bool.not_false, Bool.true_and, hne, Bool.false_eq_true, if_false, hv, hc1]
  simp only [Nat.add_sub_cancel]
  rfl

/-- A call of `get_and_update_value` that exits does so with `EXIT_FAILURE`. -/
theorem get_and_update_value_exit (fp : FloatOps) (st : State) (ref : ArgRef) (i : Nat)
    (positional negated : Bool) (status : Nat)
    (h : get_and_update_value fp st ref i positional negated = .exit status) :
    status = 1 := by
  have hu : ∀ (arg : argparse_arg_t) (mem : Memory) (value : CValue) (string : Bool),
      update_value fp arg mem value string = .exit status → status = 1 := by
    intro arg mem value string hx
    unfold update_value at hx
    repeat' split at hx
    all_goals first | (cases hx; done) | (cases hx; rfl) |
      (simp only at hx; split at hx <;> cases hx)
  have hc : ∀ (arg : argparse_arg_t) (value : CStr) (n j : Nat) (b : Bool),
      choices_loop fp arg value n j b = .exit status → status = 1 := by
    intro arg value n
    induction n with
    | zero => intro j b hx; simp [choices_loop] at hx
    | succ n ih =>
      intro j b hx
      unfold choices_loop at hx
      repeat' split at hx
      all_goals first | exact ih _ _ hx | (cases hx; done) | (cases hx; rfl)
  unfold get_and_update_value at h
  split at h
  · cases h
  · simp only at h
    split at h
    · split at h
      · cases h
      · split at h
        · cases h
        · rename_i value _
          cases hcl : choices_loop fp _ value _ 0 _ with
          | ok r =>
            rw [hcl] at h
            simp only [Comp.bind_ok] at h
            split at h
            · cases h
            · split at h
              · cases h
              · cases hup : update_value fp _ _ (.text value) _ with
                | ok r2 => rw [hup] at h; cases h
                | exit n => rw [hup] at h; cases h; exact hu _ _ _ _ hup
                | undef => rw [hup] at h; cases h
                | diverge => rw [hup] at h; cases h
          | exit n => rw [hcl] at h; cases h; exact hc _ _ _ _ _ hcl
          | undef => rw [hcl] at h; cases h
          | diverge => rw [hcl] at h; cases h
    all_goals first
      | (cases hup : update_value fp _ _ _ _ with
          | ok r2 => rw [hup] at h; cases h
          | exit n => rw [hup] at h; cases h; exact hu _ _ _ _ hup
          | undef => rw [hup] at h; cases h
          | diverge => rw [hup] at h; cases h)
      | (cases h; done)
      | (cases h; rfl)

/-- The iteration for a token that resolves to a `Store` option and is followed by a
token `value`: the loop over the choices and the conversion, on the text of `value`. -/
theorem parse_token_store_text (fp : FloatOps) (s : ScanState) (token value : CStr)
    (k : Nat) (negated : Bool) (arg : argparse_arg_t)
    (hv : s.parser.argv_[s.i]? = some token) (hv1 : s.parser.argv_[s.i + 1]? = some value)
    (hr : resolves_to s.parser.options_ token k negated)
    (hk : s.parser.options_[k]? = some arg) (ha : arg.action_ = ARGPARSE_STORE_ACTION) :
    parse_token fp s =
      (choices_loop fp arg value arg.num_choices_ 0 (arg.num_choices_ == 0)).bind fun r =>
        match r with
        | .error error =>
          .ok (error,
            { parser := { s.parser with
                options_ := s.parser.options_.set k { arg with count_ := arg.count_ + 1 } },
              mem := s.mem, i := s.i + 1, positional_i := s.positional_i })
        | .ok tmp_bool =>
          if !tmp_bool then
            .ok (ARGPARSE_INVALID_CHOICE_ERROR_ (some token) NO_FLAG,
              { parser := { s.parser with
                  options_ := s.parser.options_.set k { arg with count_ := arg.count_ + 1 } },
                mem := s.mem, i := s.i + 1, positional_i := s.positional_i })
          else
            (update_value fp arg s.mem (.text value) true).bind fun (error, mem1) =>
              .ok (error,
                { parser := { s.parser with
                    options_ := s.parser.options_.set k
                      { arg with count_ := arg.count_ + 1 } },
                  mem := mem1, i := s.i + 1, positional_i := s.positional_i }) := by
  rw [parse_token_resolves fp s token k negated hv hr]
  have hg := get_and_update_value_store_text fp s.st (.option k) s.i negated arg value
    (by simpa [argument_parser_t.deref, ScanState.st] using hk) ha
    (by simpa [ScanState.st] using hv1)
  simp only [bind_found, hg]
  cases hcl : choices_loop fp arg value arg.num_choices_ 0 (arg.num_choices_ == 0) with
  | ok r =>
    simp only [Comp.bind_ok]
    cases r with
    | error e => rfl
    | ok b =>
      cases b
      · simp only [Bool.not_false, if_true, Comp.bind_ok, ScanState.st, hv]
        rfl
      · simp only [Bool.not_true, Bool.false_eq_true, if_false]
        cases hup : update_value fp arg s.st.mem (.text value) true with
        | ok r2 =>
          have hup2 : update_value fp arg s.mem (.text value) true = .ok r2 := hup
          rw [hup2]
          rfl
        | exit n =>
          have hup2 : update_value fp arg s.mem (.text value) true = .exit n := hup
          rw [hup2]
          rfl
        | undef =>
          have hup2 : update_value fp arg s.mem (.text value) true = .undef := hup
          rw [hup2]
          rfl
        | diverge =>
          have hup2 : update_value fp arg s.mem (.text value) true = .diverge := hup
          rw [hup2]
          rfl
  | exit n => rfl
  | undef => rfl
  | diverge => rfl

/-- That iteration, however it ends: `i` is on the value, the count of the option has
grown by 1, no other record has changed, and the memory has changed at most at the
storage of the option. -/
theorem parse_token_store_frame (fp : FloatOps) (s s1 : ScanState) (token value : CStr)
    (k : Nat) (negated : Bool) (arg : argparse_arg_t) (e : argparse_error_t)
    (hv : s.parser.argv_[s.i]? = some token) (hv1 : s.parser.argv_[s.i + 1]? = some value)
    (hr : resolves_to s.parser.options_ token k negated)
    (hk : s.parser.options_[k]? = some arg) (ha : arg.action_ = ARGPARSE_STORE_ACTION)
    (h : parse_token fp s = .ok (e, s1)) :
    s1.i = s.i + 1 ∧ s1.positional_i = s.positional_i ∧
      s1.parser = { s.parser with
        options_ := s.parser.options_.set k { arg with count_ := arg.count_ + 1 } } ∧
      ∀ a, a ≠ arg.value_ → s1.mem a = s.mem a := by
  rw [parse_token_store_text fp s token value k negated arg hv hv1 hr hk ha,
    Comp.bind_eq_ok] at h
  obtain ⟨r, _, h⟩ := h
  cases r with
  | error e1 =>
    simp only [Comp.ok.injEq, Prod.mk.injEq] at h
    rw [← h.2]
    exact ⟨rfl, rfl, rfl, fun _ _ => rfl⟩
  | ok b =>
    cases b
    · simp only [Bool.not_false, if_true, Comp.ok.injEq, Prod.mk.injEq] at h
      rw [← h.2]
      exact ⟨rfl, rfl, rfl, fun _ _ => rfl⟩
    · simp only [Bool.not_true, Bool.false_eq_true, if_false] at h
      rw [Comp.bind_eq_ok] at h
      obtain ⟨⟨e2, mem2⟩, hup, h⟩ := h
      simp only [Comp.ok.injEq, Prod.mk.injEq] at h
      rw [← h.2]
      refine ⟨rfl, rfl, rfl, ?_⟩
      intro a hne
      rcases update_value_ok_or fp arg s.mem _ _ e2 mem2 hup with ⟨_, v, hm⟩ | ⟨_, hm⟩
      · simp [hm, Memory.write, hne]
      · simp [hm]

/-- Runs in which the value of the `String` option `-v` / `--value` is the name or the
flag of the toggle `-q` / `--quiet`, or a help token. -/
theorem store_value_runs :
    argparse_parse_args sample_float_ops
        (sample_setup ["--value", "--quiet"] [string_value_option, quiet_toggle] [])
        sample_memory =
      .ok (ARGPARSE_NO_ERROR_,
        sample_setup ["--value", "--quiet"]
          [{ string_value_option with count_ := 1 }, quiet_toggle] [],
        sample_memory.write 1 (.str "--quiet".toList)) ∧
    argparse_parse_args sample_float_ops
        (sample_setup ["-v", "-h"] [string_value_option, quiet_toggle] [])
        sample_memory =
      .ok (ARGPARSE_NO_ERROR_,
        sample_setup ["-v", "-h"] [{ string_value_option with count_ := 1 }, quiet_toggle] [],
        sample_memory.write 1 (.str "-h".toList)) ∧
    argparse_parse_args sample_float_ops
        (sample_setup ["--value", "--help"] [string_value_option, quiet_toggle] [])
        sample_memory =
      .ok (ARGPARSE_NO_ERROR_,
        sample_setup ["--value", "--help"]
          [{ string_value_option with count_ := 1 }, quiet_toggle] [],
        sample_memory.write 1 (.str "--help".toList)) ∧
    argparse_parse_args sample_float_ops
        (sample_setup ["-v", "-q", "-q"] [string_value_option, quiet_toggle] [])
        sample_memory =
      .ok (ARGPARSE_NO_ERROR_,
        sample_setup ["-v", "-q", "-q"]
          [{ string_value_option with count_ := 1 }, { quiet_toggle with count_ := 1 }] [],
        (sample_memory.write 1 (.str "-q".toList)).write 2 (.bool true)) :=
  ⟨rfl, rfl, rfl, rfl⟩

/-- C35 (the value of a `Store` option is never classified).  At an iteration whose token
resolves (by its flag or by a name lookup) to a `Store` option and is followed by a token
`value`, whatever the text of `value` is: (1) the iteration is the loop over the choices
of the option and the conversion for its type, both applied to the text of `value`, and
nothing else reads `value`; (2) however the iteration ends, it leaves `i` on `value`, has
added 1 to the count of the option, has changed no other record, and has changed the
memory at most at the storage of the option; (3) it does not exit with success, as the
help does; (4) at a loop head of the scan, when it ends without error the next loop head
is on the token after `value`; (5) for a `String` option without choices it ends without
error and stores `value` itself; (6) with the `String` option `-v` / `--value` and the
toggle `-q` / `--quiet`: `--value --quiet`, `-v -h` and `--value --help` store the second
token and leave the toggle alone, and `-v -q -q` stores `-q` and binds the toggle once. -/
theorem store_value_unclassified :
    (∀ (fp : FloatOps) (s : ScanState) (token value : CStr) (k : Nat) (negated : Bool)
        (arg : argparse_arg_t),
      s.parser.argv_[s.i]? = some token → s.parser.argv_[s.i + 1]? = some value →
      resolves_to s.parser.options_ token k negated →
      s.parser.options_[k]? = some arg → arg.action_ = ARGPARSE_STORE_ACTION →
      parse_token fp s =
        (choices_loop fp arg value arg.num_choices_ 0 (arg.num_choices_ == 0)).bind fun r =>
          match r with
          | .error error =>
            .ok (error,
              { parser := { s.parser with
                  options_ := s.parser.options_.set k { arg with count_ := arg.count_ + 1 } },
                mem := s.mem, i := s.i + 1, positional_i := s.positional_i })
          | .ok tmp_bool =>
            if !tmp_bool then
              .ok (ARGPARSE_INVALID_CHOICE_ERROR_ (some token) NO_FLAG,
                { parser := { s.parser with
                    options_ := s.parser.options_.set k
                      { arg with count_ := arg.count_ + 1 } },
                  mem := s.mem, i := s.i + 1, positional_i := s.positional_i })
            else
              (update_value fp arg s.mem (.text value) true).bind fun (error, mem1) =>
                .ok (error,
                  { parser := { s.parser with
                      options_ := s.parser.options_.set k
                        { arg with count_ := arg.count_ + 1 } },
                    mem := mem1, i := s.i + 1, positional_i := s.positional_i })) ∧
    (∀ (fp : FloatOps) (s s1 : ScanState) (token value : CStr) (k : Nat) (negated : Bool)
        (arg : argparse_arg_t) (e : argparse_error_t),
      s.parser.argv_[s.i]? = some token → s.parser.argv_[s.i + 1]? = some value →
      resolves_to s.parser.options_ token k negated →
      s.parser.options_[k]? = some arg → arg.action_ = ARGPARSE_STORE_ACTION →
      parse_token fp s = .ok (e, s1) →
      s1.i = s.i + 1 ∧ s1.positional_i = s.positional_i ∧
        s1.parser = { s.parser with
          options_ := s.parser.options_.set k { arg with count_ := arg.count_ + 1 } } ∧
        ∀ a, a ≠ arg.value_ → s1.mem a = s.mem a) ∧
    (∀ (fp : FloatOps) (s : ScanState) (token value : CStr) (k : Nat) (negated : Bool)
        (arg : argparse_arg_t),
      s.parser.argv_[s.i]? = some token → s.parser.argv_[s.i + 1]? = some value →
      resolves_to s.parser.options_ token k negated →
      s.parser.options_[k]? = some arg → arg.action_ = ARGPARSE_STORE_ACTION →
      parse_token fp s ≠ .exit 0) ∧
    (∀ (fp : FloatOps) (parser : argument_parser_t) (mem : Memory) (visited : List Nat)
        (s s1 : ScanState) (token value : CStr) (k : Nat) (negated : Bool)
        (arg : argparse_arg_t) (e : argparse_error_t),
      Reaches fp parser mem visited s →
      s.parser.argv_[s.i]? = some token → s.parser.argv_[s.i + 1]? = some value →
      resolves_to s.parser.options_ token k negated →
      s.parser.options_[k]? = some arg → arg.action_ = ARGPARSE_STORE_ACTION →
      parse_token fp s = .ok (e, s1) → is_error e = false →
      Reaches fp parser mem (visited ++ [s.i]) { s1 with i := s.i + 2 }) ∧
    (∀ (fp : FloatOps) (s : ScanState) (token value : CStr) (k : Nat) (negated : Bool)
        (arg : argparse_arg_t),
      s.parser.argv_[s.i]? = some token → s.parser.argv_[s.i + 1]? = some value →
      resolves_to s.parser.options_ token k negated →
      s.parser.options_[k]? = some arg → arg.action_ = ARGPARSE_STORE_ACTION →
      arg.type_ = ARGPARSE_STRING_TYPE → arg.num_choices_ = 0 →
      parse_token fp s = .ok (ARGPARSE_NO_ERROR_,
        { parser := { s.parser with
            options_ := s.parser.options_.set k { arg with count_ := arg.count_ + 1 } },
          mem := s.mem.write arg.value_ (.str value), i := s.i + 1,
          positional_i := s.positional_i })) ∧
    (argparse_parse_args sample_float_ops
        (sample_setup ["--value", "--quiet"] [string_value_option, quiet_toggle] [])
        sample_memory =
      .ok (ARGPARSE_NO_ERROR_,
        sample_setup ["--value", "--quiet"]
          [{ string_value_option with count_ := 1 }, quiet_toggle] [],
        sample_memory.write 1 (.str "--quiet".toList)) ∧
    argparse_parse_args sample_float_ops
        (sample_setup ["-v", "-h"] [string_value_option, quiet_toggle] [])
        sample_memory =
      .ok (ARGPARSE_NO_ERROR_,
        sample_setup ["-v", "-h"] [{ string_value_option with count_ := 1 }, quiet_toggle] [],
        sample_memory.write 1 (.str "-h".toList)) ∧
    argparse_parse_args sample_float_ops
        (sample_setup ["--value", "--help"] [string_value_option, quiet_toggle] [])
        sample_memory =
      .ok (ARGPARSE_NO_ERROR_,
        sample_setup ["--value", "--help"]
          [{ string_value_option with count_ := 1 }, quiet_toggle] [],
        sample_memory.write 1 (.str "--help".toList)) ∧
    argparse_parse_args sample_float_ops
        (sample_setup ["-v", "-q", "-q"] [string_value_option, quiet_toggle] [])
        sample_memory =
      .ok (ARGPARSE_NO_ERROR_,
        sample_setup ["-v", "-q", "-q"]
          [{ string_value_option with count_ := 1 }, { quiet_toggle with count_ := 1 }] [],
        (sample_memory.write 1 (.str "-q".toList)).write 2 (.bool true))) := by
  refine ⟨parse_token_store_text, ?_, ?_, ?_, ?_, store_value_runs⟩
  · intro fp s s1 token value k negated arg e hv hv1 hr hk ha h
    exact parse_token_store_frame fp s s1 token value k negated arg e hv hv1 hr hk ha h
  · intro fp s token value k negated arg hv hv1 hr hk ha h
    rw [parse_token_resolves fp s token k negated hv hr] at h
    simp only [bind_found] at h
    cases hg : get_and_update_value fp s.st (.option k) s.i false negated with
    | ok r => rw [hg] at h; cases h
    | exit n =>
      have := get_and_update_value_exit fp _ _ _ _ _ _ hg
      rw [hg] at h
      simp only [Comp.bind_exit, Comp.exit.injEq] at h
      omega
    | undef => rw [hg] at h; cases h
    | diverge => rw [hg] at h; cases h
  · intro fp parser mem visited s s1 token value k negated arg e hr hv hv1 hres hk ha h he
    have hlt : s.i < s.parser.argc_ := by
      by_contra hcn
      rw [List.getElem?_eq_none (not_lt.mp hcn)] at hv
      cases hv
    have hi := (parse_token_store_frame fp s s1 token value k negated arg e hv hv1 hres hk
      ha h).1
    have := Reaches.next hr hlt h he
    rw [hi] at this
    exact this
  · intro fp s token value k negated arg hv hv1 hr hk ha ht hn
    refine parse_token_store fp s token value k negated arg (.str value) hv hv1 hr hk ha ?_ ?_
    · simp [choice_accepts, hn, choices_loop]
    · simp [coerce, ht]

/-- The theorem at the first iteration of the run `-v -h`: the iteration for `-v` takes
`-h` as the value. -/
theorem store_value_unclassified_witness :
    parse_token sample_float_ops
        ⟨sample_setup ["-v", "-h"] [string_value_option, quiet_toggle] [], sample_memory,
          0, 0⟩ =
      .ok (ARGPARSE_NO_ERROR_,
        { parser := { sample_setup ["-v", "-h"] [string_value_option, quiet_toggle] [] with
            options_ := [string_value_option, quiet_toggle].set 0
              { string_value_option with count_ := string_value_option.count_ + 1 } },
          mem := sample_memory.write string_value_option.value_ (.str "-h".toList),
          i := 0 + 1, positional_i := 0 }) :=
  store_value_unclassified.2.2.2.2.1 sample_float_ops
    ⟨sample_setup ["-v", "-h"] [string_value_option, quiet_toggle] [], sample_memory, 0, 0⟩
    "-v".toList "-h".toList 0 false string_value_option rfl rfl (by decide) rfl rfl rfl rfl

/-! ## The storage of `Count` records -/

/-- A finalisation of a list that returns `MissingArgument`: it has finalised, without
error, the records before the first missing one, and nothing else. -/
theorem finalise_list_stops (fp : FloatOps) (error : argparse_error_t)
    (he : error.error_val = ARGPARSE_MISSING_ARGUMENT_ERROR) :
    ∀ (l : List argparse_arg_t) (mem mem1 : Memory),
      finalise_list fp l mem = .ok (error, mem1) →
      ∃ k arg, l[k]? = some arg ∧ is_missing arg ∧
        error = ARGPARSE_MISSING_ARGUMENT_ERROR_ arg.name_ arg.flag_ ∧
        finalise_list fp (l.take k) mem = .ok (ARGPARSE_NO_ERROR_, mem1) ∧
        ∀ (j : Nat) (c : argparse_arg_t), j < k → l[j]? = some c → ¬ is_missing c := by
  intro l
  induction l with
  | nil =>
    intro mem mem1 h
    simp only [finalise_list, Comp.ok.injEq, Prod.mk.injEq] at h
    rw [← h.1] at he
    cases he
  | cons r rest ih =>
    intro mem mem1 h
    simp only [finalise_list] at h
    rw [Comp.bind_eq_ok] at h
    obtain ⟨⟨e1, m1⟩, hf, h⟩ := h
    simp only at h
    split at h
    · rename_i herr
      simp only [Comp.ok.injEq, Prod.mk.injEq] at h
      obtain ⟨h1, h2⟩ := h
      subst h1 h2
      -- the head is the missing record
      unfold finalise_arg at hf
      split at hf
      · rename_i hcount
        rcases update_value_ok_or fp r mem _ _ _ _ hf with ⟨h1, _⟩ | ⟨h1, _⟩
        · rw [h1] at herr; cases herr
        · rw [h1] at he; cases he
      · rename_i hcount
        split at hf
        · rename_i hmiss
          simp only [Comp.ok.injEq, Prod.mk.injEq] at hf
          refine ⟨0, r, by simp, ⟨hmiss.2, hcount, hmiss.1⟩, hf.1.symm, ?_,
            fun j c hj => absurd hj (Nat.not_lt_zero j)⟩
          simp [finalise_list, hf.2]
        · simp only [Comp.ok.injEq, Prod.mk.injEq] at hf
          rw [← hf.1] at herr; cases herr
    · rename_i hno
      obtain ⟨k, arg, hk, hm, hern, hfin, hbefore⟩ := ih m1 mem1 h
      refine ⟨k + 1, arg, by simpa using hk, hm, hern, ?_, ?_⟩
      swap
      · intro j c hj hjc hmc
        cases j with
        | zero =>
          simp only [List.getElem?_cons_zero, Option.some.injEq] at hjc
          subst hjc
          obtain ⟨hreq, hact, hzero⟩ := hmc
          unfold finalise_arg at hf
          rw [if_neg hact, if_pos ⟨hzero, hreq⟩] at hf
          simp only [Comp.ok.injEq, Prod.mk.injEq] at hf
          rw [← hf.1] at hno
          exact hno rfl
        | succ j =>
          rw [List.getElem?_cons_succ] at hjc
          exact hbefore j c (by omega) hjc hmc
      have he1 : e1 = ARGPARSE_NO_ERROR_ := by
        unfold finalise_arg at hf
        split at hf
        · rcases update_value_ok_or fp r mem _ _ _ _ hf with ⟨h1, _⟩ | ⟨h1, _⟩
          · exact h1
          · rw [h1] at hno; exact absurd rfl hno
        · split at hf
          · simp only [Comp.ok.injEq, Prod.mk.injEq] at hf
            rw [← hf.1] at hno; exact absurd rfl hno
          · simp only [Comp.ok.injEq, Prod.mk.injEq] at hf
            exact hf.1.symm
      simp only [List.take_succ_cons, finalise_list, hf, Comp.bind_ok, hno, if_false]
      exact hfin

/-- An error of the finalisation of a list is `MissingArgument` or `IntRangeExceeded`. -/
theorem finalise_list_error_val (fp : FloatOps) :
    ∀ (l : List argparse_arg_t) (mem mem1 : Memory) (e : argparse_error_t),
      finalise_list fp l mem = .ok (e, mem1) → is_error e = true →
      e.error_val = ARGPARSE_MISSING_ARGUMENT_ERROR ∨
        e.error_val = ARGPARSE_INT_RANGE_EXCEEDED_ERROR := by
  intro l
  induction l with
  | nil =>
    intro mem mem1 e h he
    simp only [finalise_list, Comp.ok.injEq, Prod.mk.injEq] at h
    rw [← h.1] at he
    cases he
  | cons r rest ih =>
    intro mem mem1 e h he
    simp only [finalise_list] at h
    rw [Comp.bind_eq_ok] at h
    obtain ⟨⟨e1, m1⟩, hf, h⟩ := h
    simp only at h
    split at h
    · simp only [Comp.ok.injEq, Prod.mk.injEq] at h
      obtain ⟨h1, _⟩ := h
      subst h1
      unfold finalise_arg at hf
      split at hf
      · rcases update_value_ok_or fp r mem _ _ _ _ hf with ⟨h1, _⟩ | ⟨h1, _⟩
        · rw [h1] at he; cases he
        · right; rw [h1]; rfl
      · split at hf
        · simp only [Comp.ok.injEq, Prod.mk.injEq] at hf
          left; rw [← hf.1]; rfl
        · simp only [Comp.ok.injEq, Prod.mk.injEq] at hf
          rw [← hf.1] at he; cases he
    · exact ih _ _ _ h he

/-- A run that stops at `-z` and a run that ends with `MissingArgument` for `--rate`,
with the `Count` flags `-a` before and `-b` after the required option `--rate`. -/
theorem count_storage_runs :
    argparse_parse_args sample_float_ops (sample_setup ["-a", "-z"] count_rate_count [])
        sample_memory =
      .ok (ARGPARSE_ARGUMENT_UNKNOWN_ERROR_ (some "-z".toList),
        sample_setup ["-a", "-z"]
          [{ ARGPARSE_COUNT 'a' (some "--alpha".toList) 1 none with count_ := 1 },
           ARGPARSE_OPTION_REQUIRED ARGPARSE_INT_TYPE 'r' (some "--rate".toList) 2 none,
           ARGPARSE_COUNT 'b' (some "--beta".toList) 3 none] [],
        sample_memory) ∧
    argparse_parse_args sample_float_ops (sample_setup ["-a", "-b"] count_rate_count [])
        sample_memory =
      .ok (ARGPARSE_MISSING_ARGUMENT_ERROR_ (some "--rate".toList) 'r',
        sample_setup ["-a", "-b"]
          [{ ARGPARSE_COUNT 'a' (some "--alpha".toList) 1 none with count_ := 1 },
           ARGPARSE_OPTION_REQUIRED ARGPARSE_INT_TYPE 'r' (some "--rate".toList) 2 none,
           { ARGPARSE_COUNT 'b' (some "--beta".toList) 3 none with count_ := 1 }] [],
        sample_memory.write 1 (.int 1)) :=
  ⟨rfl, rfl⟩

/-! ## The scan of two vectors that hold the same tokens -/

theorem deref_with_argv (parser : argument_parser_t) (argv : List CStr) (ref : ArgRef) :
    (parser.with_argv argv).deref ref = parser.deref ref := by
  cases ref <;> rfl

theorem assign_with_argv (parser : argument_parser_t) (argv : List CStr) (ref : ArgRef)
    (arg : argparse_arg_t) :
    (parser.with_argv argv).assign ref arg = (parser.assign ref arg).with_argv argv := by
  cases ref <;> rfl

/-- A binding as a function of what it reads of the vector: the token at `i` and, for a
`Store` option, the token at `i + 1` and the test `i + 1 == argc_`. -/
theorem get_and_update_value_reads (fp : FloatOps) (positional negated : Bool) :
    ∃ core : argparse_arg_t → Memory → Option CStr → Option CStr → Bool →
        Comp (argparse_error_t × Memory × Nat),
      ∀ (st : State) (ref : ArgRef) (i : Nat) (arg0 : argparse_arg_t),
        st.parser.deref ref = some arg0 →
        get_and_update_value fp st ref i positional negated =
          (core arg0 st.mem st.parser.argv_[i]?
            (if arg0.action_ = ARGPARSE_STORE_ACTION ∧ positional = false then
              st.parser.argv_[i + 1]? else none)
            (decide (arg0.action_ = ARGPARSE_STORE_ACTION ∧ positional = false) &&
              (i + 1 == st.parser.argc_))).bind fun (e, mem1, di) =>
            .ok (e, { parser := st.parser.assign ref { arg0 with count_ := arg0.count_ + 1 },
                      mem := mem1 }, i + di) := by
  refine ⟨fun arg0 mem t0 t1 last =>
    let arg : argparse_arg_t := { arg0 with count_ := arg0.count_ + 1 }
    let finish (value : CValue) (di : Nat) : Comp (argparse_error_t × Memory × Nat) :=
      (update_value fp arg mem value (arg.action_ == ARGPARSE_STORE_ACTION)).bind
        fun (error, mem1) => .ok (error, mem1, di)
    match arg.action_ with
    | ARGPARSE_STORE_ACTION =>
      if !positional && last then
        .ok (ARGPARSE_ARGUMENT_MISSING_VALUE_ERROR_ t0 NO_FLAG, mem, 0)
      else
        match (if positional then t0 else t1) with
        | none => .undef
        | some value =>
          (choices_loop fp arg value arg.num_choices_ 0 (arg.num_choices_ == 0)).bind
            fun r =>
              match r with
              | .error error => .ok (error, mem, if positional then 0 else 1)
              | .ok tmp_bool =>
                if !tmp_bool then
                  .ok (ARGPARSE_INVALID_CHOICE_ERROR_ t0 NO_FLAG, mem,
                    if positional then 0 else 1)
                else finish (.text value) (if positional then 0 else 1)
    | ARGPARSE_STORE_TRUE_ACTION => finish (.tmp_bool true) 0
    | ARGPARSE_STORE_FALSE_ACTION => finish (.tmp_bool false) 0
    | ARGPARSE_BOOLEAN_OPTIONAL_ACTION => finish (.tmp_bool (!negated)) 0
    | ARGPARSE_COUNT_ACTION => .ok (ARGPARSE_NO_ERROR_, mem, 0)
    | .other _ => .exit 1, ?_⟩
  intro st ref i arg0 hd
  unfold get_and_update_value
  simp only [hd]
  cases ha : arg0.action_ with
  | ARGPARSE_STORE_ACTION =>
    simp only
    cases positional with
    | true =>
      simp only [Bool.not_true, Bool.false_and, Bool.false_eq_true, if_false, if_true,
        Nat.sub_zero, and_false, decide_False]
      cases hv : st.parser.argv_[i]? with
      | none => rfl
      | some value =>
        simp only
        cases hc : choices_loop fp _ value arg0.num_choices_ 0 (arg0.num_choices_ == 0) with
        | ok r =>
          simp only [Comp.bind_ok]
          cases r with
          | error e => rfl
          | ok b =>
            cases b
            · rfl
            · simp only [Bool.not_true, Bool.false_eq_true, if_false]
              cases hu : update_value fp _ st.mem (.text value) _ with
              | ok r2 => rfl
              | exit n => rfl
              | undef => rfl
              | diverge => rfl
        | exit n => rfl
        | undef => rfl
        | diverge => rfl
    | false =>
      simp only [Bool.not_false, Bool.true_and, Bool.false_eq_true, if_false, and_self,
        decide_True, if_true]
      by_cases hm : (i + 1 == st.parser.argc_) = true
      · simp only [hm, if_true, Comp.bind_ok]
        rfl
      · simp only [hm, if_false]
        cases hv : st.parser.argv_[i + 1]? with
        | none => rfl
        | some value =>
          simp only
          cases hc : choices_loop fp _ value arg0.num_choices_ 0 (arg0.num_choices_ == 0) with
          | ok r =>
            simp only [Comp.bind_ok]
            cases r with
            | error e => rfl
            | ok b =>
              cases b
              · simp
              · simp only [Bool.not_true, Bool.false_eq_true, if_false]
                cases hu : update_value fp _ st.mem (.text value) _ with
                | ok r2 => rfl
                | exit n => rfl
                | undef => rfl
                | diverge => rfl
          | exit n => rfl
          | undef => rfl
          | diverge => rfl
  | ARGPARSE_COUNT_ACTION => rfl
  | other c => rfl
  | _ =>
    simp only
    cases hu : update_value fp _ st.mem _ _ with
    | ok r2 => rfl
    | exit n => rfl
    | undef => rfl
    | diverge => rfl

/-- A binding reads the vector at `i` and, for a `Store` option, at `i + 1`, and nowhere
else: on a vector that holds the same tokens there, at `i1` and `i1 + 1`, it does the
same. -/
theorem get_and_update_value_argv (fp : FloatOps) (st : State) (argv1 : List CStr)
    (ref : ArgRef) (i i1 : Nat) (positional negated : Bool)
    (h0 : st.parser.argv_[i]? = argv1[i1]?) (hlt : i < st.parser.argv_.length)
    (h1 : ∀ arg, st.parser.deref ref = some arg → arg.action_ = ARGPARSE_STORE_ACTION →
      positional = false → st.parser.argv_[i + 1]? = argv1[i1 + 1]?) :
    get_and_update_value fp (st.with_argv argv1) ref i1 positional negated =
      (get_and_update_value fp st ref i positional negated).bind fun (e, st2, i2) =>
        .ok (e, st2.with_argv argv1, i2 - i + i1) := by
  have hlt1 : i1 < argv1.length := by
    by_contra hcn
    rw [List.getElem?_eq_none (not_lt.mp hcn), List.getElem?_eq_getElem hlt] at h0
    cases h0
  cases hd : st.parser.deref ref with
  | none =>
    have hd1 : (st.with_argv argv1).parser.deref ref = none := by
      rw [← hd]; exact deref_with_argv _ _ _
    unfold get_and_update_value
    simp only [hd, hd1, Comp.bind_undef]
  | some arg0 =>
    have hd1 : (st.with_argv argv1).parser.deref ref = some arg0 := by
      rw [← hd]; exact deref_with_argv _ _ _
    obtain ⟨core, hcore⟩ := get_and_update_value_reads fp positional negated
    rw [hcore _ ref i1 arg0 hd1, hcore st ref i arg0 hd]
    have e0 : (st.with_argv argv1).parser.argv_[i1]? = st.parser.argv_[i]? := h0.symm
    have e1 : (if arg0.action_ = ARGPARSE_STORE_ACTION ∧ positional = false then
          (st.with_argv argv1).parser.argv_[i1 + 1]? else none) =
        (if arg0.action_ = ARGPARSE_STORE_ACTION ∧ positional = false then
          st.parser.argv_[i + 1]? else none) := by
      by_cases hn : arg0.action_ = ARGPARSE_STORE_ACTION ∧ positional = false
      · rw [if_pos hn, if_pos hn]
        exact (h1 arg0 hd hn.1 hn.2).symm
      · rw [if_neg hn, if_neg hn]
    have e2 : (decide (arg0.action_ = ARGPARSE_STORE_ACTION ∧ positional = false) &&
          (i1 + 1 == (st.with_argv argv1).parser.argc_)) =
        (decide (arg0.action_ = ARGPARSE_STORE_ACTION ∧ positional = false) &&
          (i + 1 == st.parser.argc_)) := by
      by_cases hn : arg0.action_ = ARGPARSE_STORE_ACTION ∧ positional = false
      · have hnext := h1 arg0 hd hn.1 hn.2
        simp only [hn, and_self, decide_True, Bool.true_and, State.with_argv,
          argument_parser_t.with_argv, argument_parser_t.argc_]
        by_cases hl : i + 1 < st.parser.argv_.length
        · have hl1 : i1 + 1 < argv1.length := by
            by_contra hcn
            rw [List.getElem?_eq_none (not_lt.mp hcn), List.getElem?_eq_getElem hl] at hnext
            cases hnext
          have q1 : (i + 1 == st.parser.argv_.length) = false := by
            simp only [beq_eq_false_iff_ne, ne_eq]; omega
          have q2 : (i1 + 1 == argv1.length) = false := by
            simp only [beq_eq_false_iff_ne, ne_eq]; omega
          rw [q1, q2]
        · have hl1 : ¬ i1 + 1 < argv1.length := by
            intro hcn
            rw [List.getElem?_eq_none (not_lt.mp hl), List.getElem?_eq_getElem hcn] at hnext
            cases hnext
          have q1 : (i + 1 == st.parser.argv_.length) = true := by
            simp only [beq_iff_eq]; omega
          have q2 : (i1 + 1 == argv1.length) = true := by
            simp only [beq_iff_eq]; omega
          rw [q1, q2]
      · simp only [hn, decide_False, Bool.false_and]
    rw [e0, e1, e2]
    have em : (st.with_argv argv1).mem = st.mem := rfl
    rw [em]
    cases core arg0 st.mem st.parser.argv_[i]?
        (if arg0.action_ = ARGPARSE_STORE_ACTION ∧ positional = false then
          st.parser.argv_[i + 1]? else none)
        (decide (arg0.action_ = ARGPARSE_STORE_ACTION ∧ positional = false) &&
          (i + 1 == st.parser.argc_)) with
    | ok r =>
      obtain ⟨e, mem1, di⟩ := r
      simp only [Comp.bind_ok, Comp.ok.injEq, Prod.mk.injEq, true_and]
      refine ⟨?_, by omega⟩
      simp only [State.with_argv, assign_with_argv]
    | exit n => rfl
    | undef => rfl
    | diverge => rfl

/-- The walk of a cluster on a vector that holds the same tokens from `lo` on, `d` places
earlier. -/
theorem group_loop_shift (fp : FloatOps) (arg_string : CStr) (argv1 : List CStr)
    (d lo : Nat) (cs : List Char) :
    ∀ (st : State) (i : Nat), lo + d ≤ i → i < st.parser.argv_.length →
      (∀ j, lo ≤ j → st.parser.argv_[j + d]? = argv1[j]?) →
      group_loop fp arg_string cs (st.with_argv argv1) (i - d) =
        (group_loop fp arg_string cs st i).bind fun (e, st2, i2) =>
          .ok (e, st2.with_argv argv1, i2 - d) := by
  induction cs with
  | nil => intro st i _ _ _; rfl
  | cons c rest ih =>
    intro st i hlo hlt hag
    simp only [group_loop]
    have hopt : (st.with_argv argv1).parser.options_ = st.parser.options_ := rfl
    rw [hopt]
    cases hf : find_arg st.parser.options_ (FLAG_TO_FIND c) with
    | ok found =>
      simp only [Comp.bind_ok]
      cases found with
      | none => rfl
      | some k =>
        simp only
        cases hk : st.parser.options_[k]? with
        | none => rfl
        | some arg =>
          simp only
          have e0 : st.parser.argv_[i]? = argv1[i - d]? := by
            have := hag (i - d) (by omega)
            rwa [Nat.sub_add_cancel (by omega)] at this
          have e1 : st.parser.argv_[i + 1]? = argv1[i - d + 1]? := by
            have := hag (i - d + 1) (by omega)
            rwa [show i - d + 1 + d = i + 1 by omega] at this
          rw [get_and_update_value_argv fp st argv1 (.option k) i (i - d) _ false e0 hlt
            (fun _ _ _ _ => e1)]
          cases hg : get_and_update_value fp st (.option k) i
              (arg.action_ != ARGPARSE_STORE_ACTION) false with
          | ok r =>
            obtain ⟨e2, st2, i2⟩ := r
            obtain ⟨f1, f2, _, f4⟩ := get_and_update_value_frame fp _ _ _ _ _ _ _ _ hg
            simp only [Comp.bind_ok]
            by_cases herr : is_error e2 = true
            · simp only [herr, if_true, Comp.bind_ok, Comp.ok.injEq, Prod.mk.injEq, true_and]
              omega
            · simp only [herr, if_false]
              have hargv : st2.parser.argv_ = st.parser.argv_ := static_argv _ _ f1
              have := ih st2 i2 (by omega)
                (by rw [hargv]; exact f4 hlt)
                (by rw [hargv]; exact hag)
              rw [show i2 - i + (i - d) = i2 - d by omega]
              exact this
          | exit n => rfl
          | undef => rfl
          | diverge => rfl
    | exit n => rfl
    | undef => rfl
    | diverge => rfl

/-- The code after the label `unknown` on such a vector. -/
theorem bind_found_shift (fp : FloatOps) (argv1 : List CStr) (d lo : Nat) (s : ScanState)
    (arg_string : CStr) (arg : Option ArgRef) (positional negated : Bool)
    (hlo : lo + d ≤ s.i) (hlt : s.i < s.parser.argv_.length)
    (hag : ∀ j, lo ≤ j → s.parser.argv_[j + d]? = argv1[j]?) :
    bind_found fp (s.moved argv1 d) arg_string arg positional negated =
      (bind_found fp s arg_string arg positional negated).bind fun (e, s1) =>
        .ok (e, s1.moved argv1 d) := by
  cases arg with
  | none => rfl
  | some ref =>
    simp only [bind_found]
    have e0 : s.st.parser.argv_[s.i]? = argv1[s.i - d]? := by
      have := hag (s.i - d) (by omega)
      rwa [Nat.sub_add_cancel (by omega)] at this
    have e1 : s.st.parser.argv_[s.i + 1]? = argv1[s.i - d + 1]? := by
      have := hag (s.i - d + 1) (by omega)
      rwa [show s.i - d + 1 + d = s.i + 1 by omega] at this
    have hst : (s.moved argv1 d).st = s.st.with_argv argv1 := rfl
    have hi : (s.moved argv1 d).i = s.i - d := rfl
    rw [hst, hi, get_and_update_value_argv fp s.st argv1 ref s.i (s.i - d) positional negated
      e0 hlt (fun _ _ _ _ => e1)]
    cases hg : get_and_update_value fp s.st ref s.i positional negated with
    | ok r =>
      obtain ⟨e2, st2, i2⟩ := r
      obtain ⟨_, f2, _, _⟩ := get_and_update_value_frame fp _ _ _ _ _ _ _ _ hg
      simp only [Comp.bind_ok, Comp.ok.injEq, Prod.mk.injEq, true_and]
      simp only [ScanState.moved, ScanState.update, State.with_argv]
      congr 1
      omega
    | exit n => rfl
    | undef => rfl
    | diverge => rfl

/-- An iteration of the scan on a vector that holds the same tokens from `lo` on, `d`
places earlier. -/
theorem parse_token_shift (fp : FloatOps) (argv1 : List CStr) (d lo : Nat) (s : ScanState)
    (hlo : lo + d ≤ s.i) (hlt : s.i < s.parser.argv_.length)
    (hag : ∀ j, lo ≤ j → s.parser.argv_[j + d]? = argv1[j]?) :
    parse_token fp (s.moved argv1 d) =
      (parse_token fp s).bind fun (e, s1) => .ok (e, s1.moved argv1 d) := by
  have e0 : (s.moved argv1 d).parser.argv_[(s.moved argv1 d).i]? = s.parser.argv_[s.i]? := by
    have := hag (s.i - d) (by omega)
    rw [Nat.sub_add_cancel (by omega)] at this
    exact this.symm
  unfold parse_token
  rw [e0]
  cases hv : s.parser.argv_[s.i]? with
  | none => rfl
  | some arg_string =>
    simp only
    have hopt : (s.moved argv1 d).parser.options_ = s.parser.options_ := rfl
    have hpos : (s.moved argv1 d).parser.positional_args_ = s.parser.positional_args_ := rfl
    have hpi : (s.moved argv1 d).positional_i = s.positional_i := rfl
    rw [hopt, hpos, hpi]
    by_cases h1 : arg_string = "-h".toList ∨ arg_string = "--help".toList
    · simp only [h1, if_true, Comp.bind_exit]
    · simp only [h1, if_false]
      by_cases h2 : arg_string.length = 2 ∧ starts_with arg_string "-".toList = true
      · simp only [h2, and_self, if_true]
        cases hf : find_arg s.parser.options_ (FLAG_TO_FIND (arg_string.getD 1 NO_FLAG)) with
        | ok found =>
          simp only [Comp.bind_ok]
          exact bind_found_shift fp argv1 d lo s _ _ _ _ hlo hlt hag
        | exit n => rfl
        | undef => rfl
        | diverge => rfl
      · simp only [h2, if_false]
        by_cases h3 : starts_with arg_string "-".toList = true
        · simp only [h3, if_true]
          cases hf : find_long s.parser.options_ arg_string with
          | ok found =>
            obtain ⟨arg, negated⟩ := found
            simp only [Comp.bind_ok]
            cases arg with
            | none =>
              simp only
              have hst : (s.moved argv1 d).st = s.st.with_argv argv1 := rfl
              have hi : (s.moved argv1 d).i = s.i - d := rfl
              rw [hst, hi, group_loop_shift fp arg_string argv1 d lo _ s.st s.i hlo hlt hag]
              cases hg : group_loop fp arg_string (arg_string.drop 1) s.st s.i with
              | ok r =>
                obtain ⟨e2, st2, i2⟩ := r
                simp only [Comp.bind_ok]
                rfl
              | exit n => rfl
              | undef => rfl
              | diverge => rfl
            | some k => exact bind_found_shift fp argv1 d lo s _ _ _ _ hlo hlt hag
          | exit n => rfl
          | undef => rfl
          | diverge => rfl
        · simp only [h3, Bool.false_eq_true, if_false]
          cases hf : find_arg s.parser.positional_args_ (INDEX_TO_FIND s.positional_i) with
          | ok found =>
            simp only [Comp.bind_ok]
            exact bind_found_shift fp argv1 d lo { s with positional_i := s.positional_i + 1 }
              _ _ _ _ hlo hlt hag
          | exit n => rfl
          | undef => rfl
          | diverge => rfl

/-- The rest of the scan on such a vector. -/
theorem scan_loop_shift (fp : FloatOps) (argv1 : List CStr) (d lo : Nat) :
    ∀ (fuel : Nat) (s : ScanState), lo + d ≤ s.i →
      (∀ j, lo ≤ j → s.parser.argv_[j + d]? = argv1[j]?) →
      scan_loop fp fuel (s.moved argv1 d) =
        (scan_loop fp fuel s).bind fun (e, s1) => .ok (e, s1.moved argv1 d) := by
  intro fuel
  induction fuel with
  | zero =>
    intro s hlo hag
    have hcond : ((s.moved argv1 d).i < (s.moved argv1 d).parser.argc_) ↔
        (s.i < s.parser.argc_) := by
      have := hag (s.i - d) (by omega)
      rw [Nat.sub_add_cancel (by omega)] at this
      simp only [ScanState.moved, argument_parser_t.with_argv, argument_parser_t.argc_]
      constructor
      · intro h
        by_contra hcn
        rw [List.getElem?_eq_none (not_lt.mp hcn), List.getElem?_eq_getElem h] at this
        cases this
      · intro h
        by_contra hcn
        rw [List.getElem?_eq_none (not_lt.mp hcn), List.getElem?_eq_getElem h] at this
        cases this
    simp only [scan_loop, hcond]
    split <;> rfl
  | succ fuel ih =>
    intro s hlo hag
    have hcond : ((s.moved argv1 d).i < (s.moved argv1 d).parser.argc_) ↔
        (s.i < s.parser.argc_) := by
      have := hag (s.i - d) (by omega)
      rw [Nat.sub_add_cancel (by omega)] at this
      simp only [ScanState.moved, argument_parser_t.with_argv, argument_parser_t.argc_]
      constructor
      · intro h
        by_contra hcn
        rw [List.getElem?_eq_none (not_lt.mp hcn), List.getElem?_eq_getElem h] at this
        cases this
      · intro h
        by_contra hcn
        rw [List.getElem?_eq_none (not_lt.mp hcn), List.getElem?_eq_getElem h] at this
        cases this
    simp only [scan_loop, hcond]
    by_cases hlt : s.i < s.parser.argc_
    · simp only [hlt, if_true]
      rw [parse_token_shift fp argv1 d lo s hlo hlt hag]
      cases hp : parse_token fp s with
      | ok r =>
        obtain ⟨e, s1⟩ := r
        obtain ⟨f1, f2, _⟩ := parse_token_frame fp s s1 e hp
        simp only [Comp.bind_ok]
        by_cases herr : is_error e = true
        · simp only [herr, if_true, Comp.bind_ok]
        · have hf : is_error e = false := by simpa using herr
          simp only [hf, Bool.false_eq_true, if_false]
          have hargv : s1.parser.argv_ = s.parser.argv_ := static_argv _ _ f1
          have := ih { s1 with i := s1.i + 1 } (by simp only; omega)
            (by simp only; rw [hargv]; exact hag)
          refine Eq.trans ?_ this
          congr 1
          simp only [ScanState.moved, ScanState.mk.injEq, true_and, and_true]
          omega
      | exit n => rfl
      | undef => rfl
      | diverge => rfl
    · simp only [hlt, if_false, Comp.bind_ok]

/-- A walk of a cluster that ends without error before the index `p`, on a vector that
holds the same tokens before `p`. -/
theorem group_loop_before (fp : FloatOps) (arg_string : CStr) (argv1 : List CStr) (p : Nat)
    (cs : List Char) :
    ∀ (st st2 : State) (i i2 : Nat) (e : argparse_error_t),
      group_loop fp arg_string cs st i = .ok (e, st2, i2) → is_error e = false →
      i < st.parser.argv_.length → i2 < p →
      (∀ j, j < p → st.parser.argv_[j]? = argv1[j]?) →
      group_loop fp arg_string cs (st.with_argv argv1) i =
        .ok (e, st2.with_argv argv1, i2) := by
  induction cs with
  | nil =>
    intro st st2 i i2 e h _ _ _ _
    simp only [group_loop, Comp.ok.injEq, Prod.mk.injEq] at h ⊢
    obtain ⟨h1, h2, h3⟩ := h
    subst h1 h2 h3
    exact ⟨rfl, rfl, rfl⟩
  | cons c rest ih =>
    intro st st2 i i2 e h he hlt hp hag
    simp only [group_loop] at h ⊢
    have hopt : (st.with_argv argv1).parser.options_ = st.parser.options_ := rfl
    rw [hopt]
    rw [Comp.bind_eq_ok] at h
    obtain ⟨found, hf, h⟩ := h
    rw [hf, Comp.bind_ok]
    cases found with
    | none =>
      simp only [Comp.ok.injEq, Prod.mk.injEq] at h
      rw [← h.1] at he
      cases he
    | some k =>
      simp only at h ⊢
      cases hk : st.parser.options_[k]? with
      | none => rw [hk] at h; cases h
      | some arg =>
        rw [hk] at h
        simp only at h ⊢
        rw [Comp.bind_eq_ok] at h
        obtain ⟨⟨e3, st3, i3⟩, hg, h⟩ := h
        obtain ⟨f1, f2, _, f4⟩ := get_and_update_value_frame fp _ _ _ _ _ _ _ _ hg
        simp only at h
        by_cases herr : is_error e3 = true
        · rw [if_pos herr] at h
          simp only [Comp.ok.injEq, Prod.mk.injEq] at h
          rw [← h.1, herr] at he
          cases he
        · rw [if_neg herr] at h
          obtain ⟨_, g2, _⟩ := group_loop_frame fp arg_string rest st3 st2 i3 i2 e h
          have hidx := get_and_update_value_index fp st st3 (.option k) i i3 _ false e3 arg hg
            (by simpa [argument_parser_t.deref] using hk) (by simpa using herr)
          have e0 : st.parser.argv_[i]? = argv1[i]? := hag i (by omega)
          have e1 : ∀ a, st.parser.deref (.option k) = some a →
              a.action_ = ARGPARSE_STORE_ACTION →
              (arg.action_ != ARGPARSE_STORE_ACTION) = false →
              st.parser.argv_[i + 1]? = argv1[i + 1]? := by
            intro a ha hact hpos
            have : a = arg := by
              simp only [argument_parser_t.deref, hk, Option.some.injEq] at ha
              exact ha.symm
            subst this
            rw [if_pos ⟨hact, hpos⟩] at hidx
            exact hag (i + 1) (by omega)
          rw [get_and_update_value_argv fp st argv1 (.option k) i i _ false e0 hlt e1, hg]
          simp only [Comp.bind_ok, herr, if_false, Nat.sub_add_cancel f2]
          have hargv : st3.parser.argv_ = st.parser.argv_ := static_argv _ _ f1
          exact ih st3 st2 i3 i2 e h he (by rw [hargv]; exact f4 hlt) hp
            (by rw [hargv]; exact hag)

/-- The code after the label `unknown`, when it ends without error before `p`. -/
theorem bind_found_before (fp : FloatOps) (argv1 : List CStr) (p : Nat) (s s1 : ScanState)
    (arg_string : CStr) (arg : Option ArgRef) (positional negated : Bool)
    (e : argparse_error_t)
    (h : bind_found fp s arg_string arg positional negated = .ok (e, s1))
    (he : is_error e = false) (hlt : s.i < s.parser.argv_.length) (hp : s1.i < p)
    (hag : ∀ j, j < p → s.parser.argv_[j]? = argv1[j]?) :
    bind_found fp (s.moved argv1 0) arg_string arg positional negated =
      .ok (e, s1.moved argv1 0) := by
  cases arg with
  | none =>
    simp only [bind_found, Comp.ok.injEq, Prod.mk.injEq] at h
    rw [← h.1] at he
    cases he
  | some ref =>
    simp only [bind_found] at h ⊢
    rw [Comp.bind_eq_ok] at h
    obtain ⟨⟨e3, st3, i3⟩, hg, h⟩ := h
    simp only [Comp.ok.injEq, Prod.mk.injEq] at h
    obtain ⟨h1, h2⟩ := h
    subst h1 h2
    obtain ⟨f1, f2, _, f4⟩ := get_and_update_value_frame fp _ _ _ _ _ _ _ _ hg
    have hi3 : i3 < p := hp
    have e0 : s.st.parser.argv_[s.i]? = argv1[s.i]? := hag s.i (by omega)
    have e1 : ∀ a, s.st.parser.deref ref = some a → a.action_ = ARGPARSE_STORE_ACTION →
        positional = false → s.st.parser.argv_[s.i + 1]? = argv1[s.i + 1]? := by
      intro a ha hact hpos
      have hidx := get_and_update_value_index fp s.st st3 ref s.i i3 positional negated e3 a
        hg ha he
      rw [if_pos ⟨hact, hpos⟩] at hidx
      exact hag (s.i + 1) (by omega)
    have hst : (s.moved argv1 0).st = s.st.with_argv argv1 := rfl
    have hi : (s.moved argv1 0).i = s.i := rfl
    rw [hst, hi, get_and_update_value_argv fp s.st argv1 ref s.i s.i positional negated e0 hlt
      e1, hg]
    simp only [Comp.bind_ok, Nat.sub_add_cancel f2]
    rfl

/-- An iteration of the scan that ends without error before `p`, on a vector that holds
the same tokens before `p`. -/
theorem parse_token_before (fp : FloatOps) (argv1 : List CStr) (p : Nat) (s s1 : ScanState)
    (e : argparse_error_t) (h : parse_token fp s = .ok (e, s1)) (he : is_error e = false)
    (hlt : s.i < s.parser.argv_.length) (hp : s1.i < p)
    (hag : ∀ j, j < p → s.parser.argv_[j]? = argv1[j]?) :
    parse_token fp (s.moved argv1 0) = .ok (e, s1.moved argv1 0) := by
  obtain ⟨_, f2, _⟩ := parse_token_frame fp s s1 e h
  have e0 : (s.moved argv1 0).parser.argv_[(s.moved argv1 0).i]? = s.parser.argv_[s.i]? :=
    (hag s.i (by omega)).symm
  unfold parse_token at h ⊢
  rw [e0]
  cases hv : s.parser.argv_[s.i]? with
  | none => rw [hv] at h; cases h
  | some arg_string =>
    rw [hv] at h
    simp only at h ⊢
    have hopt : (s.moved argv1 0).parser.options_ = s.parser.options_ := rfl
    have hpos : (s.moved argv1 0).parser.positional_args_ = s.parser.positional_args_ := rfl
    have hpi : (s.moved argv1 0).positional_i = s.positional_i := rfl
    rw [hopt, hpos, hpi]
    by_cases h1 : arg_string = "-h".toList ∨ arg_string = "--help".toList
    · rw [if_pos h1] at h; cases h
    · rw [if_neg h1] at h ⊢
      by_cases h2 : arg_string.length = 2 ∧ starts_with arg_string "-".toList = true
      · rw [if_pos h2] at h ⊢
        rw [Comp.bind_eq_ok] at h
        obtain ⟨found, hf, h⟩ := h
        rw [hf, Comp.bind_ok]
        exact bind_found_before fp argv1 p s s1 _ _ _ _ e h he hlt hp hag
      · rw [if_neg h2] at h ⊢
        by_cases h3 : starts_with arg_string "-".toList = true
        · rw [if_pos h3] at h ⊢
          rw [Comp.bind_eq_ok] at h
          obtain ⟨⟨arg, negated⟩, hf, h⟩ := h
          rw [hf, Comp.bind_ok]
          cases arg with
          | none =>
            simp only at h ⊢
            rw [Comp.bind_eq_ok] at h
            obtain ⟨⟨e3, st3, i3⟩, hg, h⟩ := h
            simp only [Comp.ok.injEq, Prod.mk.injEq] at h
            obtain ⟨q1, q2⟩ := h
            subst q1 q2
            have hst : (s.moved argv1 0).st = s.st.with_argv argv1 := rfl
            have hi : (s.moved argv1 0).i = s.i := rfl
            rw [hst, hi, group_loop_before fp arg_string argv1 p _ s.st st3 s.i i3 e3 hg he hlt
              hp hag]
            rfl
          | some k => exact bind_found_before fp argv1 p s s1 _ _ _ _ e h he hlt hp hag
        · rw [if_neg h3] at h ⊢
          rw [Comp.bind_eq_ok] at h
          obtain ⟨found, hf, h⟩ := h
          rw [hf, Comp.bind_ok]
          exact bind_found_before fp argv1 p { s with positional_i := s.positional_i + 1 } s1
            _ _ _ _ e h he hlt hp hag

/-- The loop heads of the scan up to the index `p` are loop heads of the scan of a vector
that holds the same tokens before `p`. -/
theorem reaches_before (fp : FloatOps) (parser : argument_parser_t) (mem : Memory)
    (argv1 : List CStr) (p : Nat) (hag : ∀ j, j < p → parser.argv_[j]? = argv1[j]?)
    (visited : List Nat) (s : ScanState) (h : Reaches fp parser mem visited s) :
    s.i ≤ p → Reaches fp (parser.with_argv argv1) mem visited (s.moved argv1 0) := by
  induction h with
  | start => intro _; exact Reaches.start
  | @next vis s s1 e hr hlt hp he ih =>
    intro hle
    have hs := (reaches_static fp parser mem vis s hr).1
    have hargv : s.parser.argv_ = parser.argv_ := static_argv _ _ hs
    obtain ⟨_, f2, _⟩ := parse_token_frame fp s s1 e hp
    have hs1 : s1.i < p := by
      have : s1.i + 1 ≤ p := hle
      omega
    have hag2 : ∀ j, j < p → s.parser.argv_[j]? = argv1[j]? := by
      rw [hargv]; exact hag
    have hpt := parse_token_before fp argv1 p s s1 e hp he hlt hs1 hag2
    have hlt1 : (s.moved argv1 0).i < (s.moved argv1 0).parser.argc_ := by
      have e0 := hag2 s.i (by omega)
      simp only [ScanState.moved, argument_parser_t.with_argv, argument_parser_t.argc_,
        Nat.sub_zero]
      by_contra hcn
      rw [List.getElem?_eq_none (not_lt.mp hcn), List.getElem?_eq_getElem hlt] at e0
      cases e0
    exact Reaches.next (ih (by omega)) hlt1 hpt he

/-! ## The token `-` -/

/-- The iteration for the token `-`, when every option has a name and none is named `-`:
no error, and the state is left as it was. -/
theorem parse_token_lone_dash (fp : FloatOps) (s : ScanState)
    (hv : s.parser.argv_[s.i]? = some "-".toList) (hall : all_named s.parser.options_)
    (hno : ∀ arg ∈ s.parser.options_, arg.name_ ≠ some "-".toList) :
    parse_token fp s = .ok (ARGPARSE_NO_ERROR_, s) := by
  have hl : find_long s.parser.options_ "-".toList = .ok (none, false) :=
    find_long_unmatched s.parser.options_ _ hall hno (by
      rintro ⟨hsw, _⟩
      exact absurd hsw (by decide))
  rw [parse_token_cluster fp s [] false hv (by decide) (by decide) hl]
  rfl

/-- The tokens of a vector from which the element at index `pre.length` is removed. -/
theorem removed_after (pre post : List CStr) (x : CStr) (j : Nat) (h : pre.length ≤ j) :
    (pre ++ x :: post)[j + 1]? = (pre ++ post)[j]? := by
  rw [List.getElem?_append_right (by omega), List.getElem?_append_right h,
    show j + 1 - pre.length = (j - pre.length) + 1 by omega, List.getElem?_cons_succ]

theorem removed_before (pre post : List CStr) (x : CStr) (j : Nat) (h : j < pre.length) :
    (pre ++ x :: post)[j]? = (pre ++ post)[j]? := by
  rw [List.getElem?_append_left h, List.getElem?_append_left h]

/-- The call on a vector out of which a token `-` that the scan classifies is taken: the
same error, records and memory. -/
theorem parse_args_lone_dash (fp : FloatOps) (parser : argument_parser_t) (mem : Memory)
    (pre post : List CStr) (visited : List Nat) (s : ScanState)
    (hargv : parser.argv_ = pre ++ "-".toList :: post)
    (hr : Reaches fp parser mem visited s) (hi : s.i = pre.length)
    (hall : all_named parser.options_)
    (hno : ∀ arg ∈ parser.options_, arg.name_ ≠ some "-".toList) :
    argparse_parse_args fp (parser.with_argv (pre ++ post)) mem =
      (argparse_parse_args fp parser mem).bind fun (e, parser1, mem1) =>
        .ok (e, parser1.with_argv (pre ++ post), mem1) := by
  have hs := (reaches_static fp parser mem visited s hr).1
  have hsargv : s.parser.argv_ = pre ++ "-".toList :: post := by
    rw [static_argv _ _ hs, hargv]
  have hsopt : s.parser.options_.map argparse_arg_t.static =
      parser.options_.map argparse_arg_t.static := static_options _ _ hs
  have hall1 : all_named s.parser.options_ := by
    intro a ha
    obtain ⟨a0, h0, he⟩ := static_mem _ _ hsopt a ha
    obtain ⟨_, _, _, _, e5, _⟩ := static_fields a0 a he
    rw [← e5]
    exact hall a0 h0
  have hno1 : ∀ arg ∈ s.parser.options_, arg.name_ ≠ some "-".toList := by
    intro a ha
    obtain ⟨a0, h0, he⟩ := static_mem _ _ hsopt a ha
    obtain ⟨_, _, _, _, e5, _⟩ := static_fields a0 a he
    rw [← e5]
    exact hno a0 h0
  have hv : s.parser.argv_[s.i]? = some "-".toList := by
    rw [hsargv, hi, List.getElem?_append_right (le_refl _), Nat.sub_self,
      List.getElem?_cons_zero]
  have hlt : s.i < s.parser.argc_ := by
    simp only [argument_parser_t.argc_, hsargv, hi, List.length_append, List.length_cons]
    omega
  have hstep := parse_token_lone_dash fp s hv hall1 hno1
  -- the loop head after the token, and the loop head of the other vector
  have hr2 : Reaches fp parser mem (visited ++ [s.i]) { s with i := s.i + 1 } :=
    Reaches.next hr hlt hstep rfl
  have hr1 : Reaches fp (parser.with_argv (pre ++ post)) mem visited
      (s.moved (pre ++ post) 0) :=
    reaches_before fp parser mem (pre ++ post) pre.length
      (fun j hj => by rw [hargv]; exact removed_before pre post _ j hj) visited s hr
      (by omega)
  have hscan1 := reaches_scan fp _ mem visited _ hr1
  have hscan2 := reaches_scan fp parser mem _ _ hr2
  have hshift := scan_loop_shift fp (pre ++ post) 1 pre.length
    (s.parser.argc_ - (s.i + 1)) { s with i := s.i + 1 } (by simp only; omega)
    (fun j hj => by simp only; rw [hsargv]; exact removed_after pre post _ j hj)
  have hmoved : ({ s with i := s.i + 1 } : ScanState).moved (pre ++ post) 1 =
      s.moved (pre ++ post) 0 := by
    simp [ScanState.moved]
  have hfuel : (s.moved (pre ++ post) 0).parser.argc_ - (s.moved (pre ++ post) 0).i =
      s.parser.argc_ - (s.i + 1) := by
    simp only [ScanState.moved, argument_parser_t.with_argv, argument_parser_t.argc_, hsargv,
      List.length_append, List.length_cons, Nat.sub_zero]
    omega
  unfold argparse_parse_args
  rw [hscan1, hscan2, hfuel, ← hmoved, hshift]
  cases hsc : scan_loop fp (s.parser.argc_ - (s.i + 1)) { s with i := s.i + 1 } with
  | ok r =>
    obtain ⟨e, s2⟩ := r
    simp only [Comp.bind_ok]
    by_cases herr : is_error e = true
    · simp only [herr, if_true, Comp.bind_ok]
      rfl
    · simp only [herr, if_false]
      have hfin : finalise fp (s2.moved (pre ++ post) 1).parser (s2.moved (pre ++ post) 1).mem =
          finalise fp s2.parser s2.mem := rfl
      rw [hfin]
      cases hf : finalise fp s2.parser s2.mem with
      | ok r2 => rfl
      | exit n => rfl
      | undef => rfl
      | diverge => rfl
  | exit n => rfl
  | undef => rfl
  | diverge => rfl

/-- Runs with a token `-`: alone; before `--verbose`, and the same vector without it;
with an option named `-` registered; as the value of a `Store` option. -/
theorem lone_dash_runs :
    argparse_parse_args sample_float_ops (sample_setup ["-"] [verbose_toggle] [])
        sample_bool_memory =
      .ok (ARGPARSE_NO_ERROR_, sample_setup ["-"] [verbose_toggle] [], sample_bool_memory) ∧
    argparse_parse_args sample_float_ops
        (sample_setup ["-", "--verbose"] [verbose_toggle] []) sample_bool_memory =
      .ok (ARGPARSE_NO_ERROR_,
        sample_setup ["-", "--verbose"] [{ verbose_toggle with count_ := 1 }] [],
        sample_bool_memory.write 1 (.bool true)) ∧
    argparse_parse_args sample_float_ops
        (sample_setup ["--verbose"] [verbose_toggle] []) sample_bool_memory =
      .ok (ARGPARSE_NO_ERROR_,
        sample_setup ["--verbose"] [{ verbose_toggle with count_ := 1 }] [],
        sample_bool_memory.write 1 (.bool true)) ∧
    argparse_add_argument empty_registry dash_named_flag =
      .ok (ARGPARSE_NO_ERROR_, { empty_registry with options_ := [dash_named_flag] }) ∧
    argparse_parse_args sample_float_ops (sample_setup ["-"] [dash_named_flag] [])
        sample_bool_memory =
      .ok (ARGPARSE_NO_ERROR_, sample_setup ["-"] [{ dash_named_flag with count_ := 1 }] [],
        sample_bool_memory.write 2 (.bool true)) ∧
    argparse_parse_args sample_float_ops (sample_setup ["-v", "-"] [string_value_option] [])
        sample_memory =
      .ok (ARGPARSE_NO_ERROR_,
        sample_setup ["-v", "-"] [{ string_value_option with count_ := 1 }] [],
        sample_memory.write 1 (.str "-".toList)) :=
  ⟨rfl, rfl, rfl, rfl, rfl, rfl⟩

/-! ## The flag and the name of an option -/

/-- The binding of an option reads the token at `i` only to name it in an error. -/
theorem get_and_update_value_names (fp : FloatOps) (negated : Bool) :
    ∃ core : argparse_arg_t → Memory → Option CStr → Bool →
        Comp (argparse_error_t × Bool × Memory × Nat),
      ∀ (st : State) (ref : ArgRef) (i : Nat) (arg0 : argparse_arg_t),
        st.parser.deref ref = some arg0 →
        get_and_update_value fp st ref i false negated =
          (core arg0 st.mem st.parser.argv_[i + 1]? (i + 1 == st.parser.argc_)).bind
            fun (e, named, mem1, di) =>
              .ok (if named then { e with arg_name := st.parser.argv_[i]? } else e,
                { parser := st.parser.assign ref { arg0 with count_ := arg0.count_ + 1 },
                  mem := mem1 }, i + di) := by
  refine ⟨fun arg0 mem t1 last =>
    let arg : argparse_arg_t := { arg0 with count_ := arg0.count_ + 1 }
    let finish (value : CValue) (di : Nat) : Comp (argparse_error_t × Bool × Memory × Nat) :=
      (update_value fp arg mem value (arg.action_ == ARGPARSE_STORE_ACTION)).bind
        fun (error, mem1) => .ok (error, false, mem1, di)
    match arg.action_ with
    | ARGPARSE_STORE_ACTION =>
      if last then
        .ok (ARGPARSE_ARGUMENT_MISSING_VALUE_ERROR_ none NO_FLAG, true, mem, 0)
      else
        match t1 with
        | none => .undef
        | some value =>
          (choices_loop fp arg value arg.num_choices_ 0 (arg.num_choices_ == 0)).bind
            fun r =>
              match r with
              | .error error => .ok (error, false, mem, 1)
              | .ok tmp_bool =>
                if !tmp_bool then
                  .ok (ARGPARSE_INVALID_CHOICE_ERROR_ none NO_FLAG, true, mem, 1)
                else finish (.text value) 1
    | ARGPARSE_STORE_TRUE_ACTION => finish (.tmp_bool true) 0
    | ARGPARSE_STORE_FALSE_ACTION => finish (.tmp_bool false) 0
    | ARGPARSE_BOOLEAN_OPTIONAL_ACTION => finish (.tmp_bool (!negated)) 0
    | ARGPARSE_COUNT_ACTION => .ok (ARGPARSE_NO_ERROR_, false, mem, 0)
    | .other _ => .exit 1, ?_⟩
  intro st ref i arg0 hd
  unfold get_and_update_value
  simp only [hd]
  cases ha : arg0.action_ with
  | ARGPARSE_STORE_ACTION =>
    simp only [Bool.not_false, Bool.true_and, Bool.false_eq_true, if_false]
    by_cases hm : (i + 1 == st.parser.argc_) = true
    · simp only [hm, if_true, Comp.bind_ok]
      rfl
    · simp only [hm, if_false]
      cases hv : st.parser.argv_[i + 1]? with
      | none => rfl
      | some value =>
        simp only
        cases hc : choices_loop fp _ value arg0.num_choices_ 0 (arg0.num_choices_ == 0) with
        | ok r =>
          simp only [Comp.bind_ok]
          cases r with
          | error e => rfl
          | ok b =>
            cases b
            · simp [ARGPARSE_INVALID_CHOICE_ERROR_]
            · simp only [Bool.not_true, Bool.false_eq_true, if_false]
              cases hu : update_value fp _ st.mem (.text value) _ with
              | ok r2 => rfl
              | exit n => rfl
              | undef => rfl
              | diverge => rfl
        | exit n => rfl
        | undef => rfl
        | diverge => rfl
  | ARGPARSE_COUNT_ACTION => rfl
  | other c => rfl
  | _ =>
    simp only
    cases hu : update_value fp _ st.mem _ _ with
    | ok r2 => rfl
    | exit n => rfl
    | undef => rfl
    | diverge => rfl

/-- The binding of an option on a vector that differs at `i` only: it ends alike, and
when it returns, with the same error up to its name, the same records and the same
memory. -/
theorem get_and_update_value_renamed (fp : FloatOps) (st : State) (argv1 : List CStr)
    (ref : ArgRef) (i : Nat) (negated : Bool)
    (hlen : argv1.length = st.parser.argv_.length)
    (h1 : st.parser.argv_[i + 1]? = argv1[i + 1]?) :
    (∀ e st2 i2, get_and_update_value fp st ref i false negated = .ok (e, st2, i2) →
      ∃ e1, e1.error_val = e.error_val ∧
        get_and_update_value fp (st.with_argv argv1) ref i false negated =
          .ok (e1, st2.with_argv argv1, i2)) ∧
    (∀ n, get_and_update_value fp st ref i false negated = .exit n →
      get_and_update_value fp (st.with_argv argv1) ref i false negated = .exit n) ∧
    (get_and_update_value fp st ref i false negated = .undef →
      get_and_update_value fp (st.with_argv argv1) ref i false negated = .undef) ∧
    (get_and_update_value fp st ref i false negated = .diverge →
      get_and_update_value fp (st.with_argv argv1) ref i false negated = .diverge) := by
  cases hd : st.parser.deref ref with
  | none =>
    have hd1 : (st.with_argv argv1).parser.deref ref = none := by
      rw [← hd]; exact deref_with_argv _ _ _
    have hu : get_and_update_value fp st ref i false negated = .undef := by
      unfold get_and_update_value; simp only [hd]
    have hu1 : get_and_update_value fp (st.with_argv argv1) ref i false negated = .undef := by
      unfold get_and_update_value; simp only [hd1]
    rw [hu, hu1]
    refine ⟨(fun _ _ _ h => by cases h), (fun _ h => by cases h), fun _ => rfl, (fun h => by cases h)⟩
  | some arg0 =>
    have hd1 : (st.with_argv argv1).parser.deref ref = some arg0 := by
      rw [← hd]; exact deref_with_argv _ _ _
    obtain ⟨core, hcore⟩ := get_and_update_value_names fp negated
    rw [hcore _ ref i arg0 hd1, hcore st ref i arg0 hd]
    have e1 : (st.with_argv argv1).parser.argv_[i + 1]? = st.parser.argv_[i + 1]? := h1.symm
    have e2 : (i + 1 == (st.with_argv argv1).parser.argc_) = (i + 1 == st.parser.argc_) := by
      simp only [State.with_argv, argument_parser_t.with_argv, argument_parser_t.argc_, hlen]
    have em : (st.with_argv argv1).mem = st.mem := rfl
    rw [e1, e2, em]
    cases core arg0 st.mem st.parser.argv_[i + 1]? (i + 1 == st.parser.argc_) with
    | ok r =>
      obtain ⟨e, named, mem1, di⟩ := r
      simp only [Comp.bind_ok]
      refine ⟨?_, (fun _ h => by cases h), (fun h => by cases h), (fun h => by cases h)⟩
      intro e0 st2 i2 h
      simp only [Comp.ok.injEq, Prod.mk.injEq] at h
      obtain ⟨q1, q2, q3⟩ := h
      subst q1 q2 q3
      refine ⟨if named then { e with arg_name := argv1[i]? } else e, ?_, ?_⟩
      · cases named <;> rfl
      · simp only [Comp.ok.injEq, Prod.mk.injEq, and_true]
        exact ⟨rfl, by simp only [State.with_argv, assign_with_argv]⟩
    | exit n =>
      exact ⟨(fun _ _ _ h => by cases h), fun _ h => h, (fun h => by cases h), (fun h => by cases h)⟩
    | undef =>
      exact ⟨(fun _ _ _ h => by cases h), (fun _ h => by cases h), fun _ => rfl,
        (fun h => by cases h)⟩
    | diverge =>
      exact ⟨(fun _ _ _ h => by cases h), (fun _ h => by cases h), (fun h => by cases h),
        fun _ => rfl⟩

/-- A vector in which the element at index `pre.length` is replaced. -/
theorem replaced_after (pre post : List CStr) (x y : CStr) (j : Nat)
    (h : pre.length + 1 ≤ j) : (pre ++ x :: post)[j + 0]? = (pre ++ y :: post)[j]? := by
  rw [Nat.add_zero, List.getElem?_append_right (by omega),
    List.getElem?_append_right (by omega)]
  obtain ⟨m, hm⟩ : ∃ m, j - pre.length = m + 1 := ⟨j - pre.length - 1, by omega⟩
  rw [hm, List.getElem?_cons_succ, List.getElem?_cons_succ]

theorem replaced_before (pre post : List CStr) (x y : CStr) (j : Nat) (h : j < pre.length) :
    (pre ++ x :: post)[j]? = (pre ++ y :: post)[j]? := by
  rw [List.getElem?_append_left h, List.getElem?_append_left h]

/-- The call on a vector in which a token that the scan classifies and that resolves to
an option is replaced by another token that resolves to the same option, with the same
`negated`: it ends alike, with the same kind of error, the same records and the same
memory. -/
theorem parse_args_alias (fp : FloatOps) (parser : argument_parser_t) (mem : Memory)
    (pre post : List CStr) (t t1 : CStr) (k : Nat) (negated : Bool) (visited : List Nat)
    (s : ScanState) (hargv : parser.argv_ = pre ++ t :: post)
    (hr : Reaches fp parser mem visited s) (hi : s.i = pre.length)
    (hres : resolves_to parser.options_ t k negated)
    (hres1 : resolves_to parser.options_ t1 k negated) :
    outcome_kind (argparse_parse_args fp (parser.with_argv (pre ++ t1 :: post)) mem) =
      outcome_kind (argparse_parse_args fp parser mem) := by
  have hs := (reaches_static fp parser mem visited s hr).1
  have hsargv : s.parser.argv_ = pre ++ t :: post := by
    rw [static_argv _ _ hs, hargv]
  have hsopt : s.parser.options_.map argparse_arg_t.static =
      parser.options_.map argparse_arg_t.static := static_options _ _ hs
  have hresS : resolves_to s.parser.options_ t k negated :=
    resolves_to_static _ _ t k negated hsopt hres
  have hresS1 : resolves_to s.parser.options_ t1 k negated :=
    resolves_to_static _ _ t1 k negated hsopt hres1
  have hv : s.parser.argv_[s.i]? = some t := by
    rw [hsargv, hi, List.getElem?_append_right (le_refl _), Nat.sub_self,
      List.getElem?_cons_zero]
  have hv1 : (s.moved (pre ++ t1 :: post) 0).parser.argv_[(s.moved (pre ++ t1 :: post) 0).i]? =
      some t1 := by
    simp only [ScanState.moved, argument_parser_t.with_argv, Nat.sub_zero]
    rw [hi, List.getElem?_append_right (le_refl _), Nat.sub_self, List.getElem?_cons_zero]
  have hlen : (pre ++ t1 :: post).length = s.parser.argv_.length := by
    rw [hsargv]; simp
  have hlt : s.i < s.parser.argc_ := by
    simp only [argument_parser_t.argc_, hsargv, hi, List.length_append, List.length_cons]
    omega
  have hlt1 : (s.moved (pre ++ t1 :: post) 0).i <
      (s.moved (pre ++ t1 :: post) 0).parser.argc_ := by
    simp only [ScanState.moved, argument_parser_t.with_argv, argument_parser_t.argc_, hi,
      List.length_append, List.length_cons, Nat.sub_zero]
    omega
  have hr1 : Reaches fp (parser.with_argv (pre ++ t1 :: post)) mem visited
      (s.moved (pre ++ t1 :: post) 0) :=
    reaches_before fp parser mem _ pre.length
      (fun j hj => by rw [hargv]; exact replaced_before pre post _ _ j hj) visited s hr
      (by omega)
  obtain ⟨n, hn⟩ : ∃ n, s.parser.argc_ - s.i = n + 1 := ⟨s.parser.argc_ - s.i - 1, by omega⟩
  have hn1 : (s.moved (pre ++ t1 :: post) 0).parser.argc_ -
      (s.moved (pre ++ t1 :: post) 0).i = n + 1 := by
    rw [← hn]
    simp only [ScanState.moved, argument_parser_t.with_argv, argument_parser_t.argc_, hlen,
      Nat.sub_zero]
  have hscanA := reaches_scan fp parser mem visited s hr
  have hscanB := reaches_scan fp _ mem visited _ hr1
  rw [hn] at hscanA
  rw [hn1] at hscanB
  have hopt1 : (s.moved (pre ++ t1 :: post) 0).parser.options_ = s.parser.options_ := rfl
  have hptA := parse_token_resolves fp s t k negated hv hresS
  have hptB := parse_token_resolves fp (s.moved (pre ++ t1 :: post) 0) t1 k negated hv1
    (by rw [hopt1]; exact hresS1)
  have hnext : s.st.parser.argv_[s.i + 1]? = (pre ++ t1 :: post)[s.i + 1]? := by
    have := replaced_after pre post t t1 (s.i + 1) (by omega)
    rw [Nat.add_zero] at this
    rw [← this]
    exact congrArg (fun l : List CStr => l[s.i + 1]?) hsargv
  obtain ⟨gok, gexit, gundef, gdiv⟩ := get_and_update_value_renamed fp s.st
    (pre ++ t1 :: post) (.option k) s.i negated hlen hnext
  have hstB : (s.moved (pre ++ t1 :: post) 0).st = s.st.with_argv (pre ++ t1 :: post) := rfl
  have hiB : (s.moved (pre ++ t1 :: post) 0).i = s.i := rfl
  have eA : scan_loop fp (n + 1) s =
      (parse_token fp s).bind fun (e, s1) =>
        if is_error e then .ok (e, s1) else scan_loop fp n { s1 with i := s1.i + 1 } := by
    simp only [scan_loop, hlt, if_true]
  have eB : scan_loop fp (n + 1) (s.moved (pre ++ t1 :: post) 0) =
      (parse_token fp (s.moved (pre ++ t1 :: post) 0)).bind fun (e, s1) =>
        if is_error e then .ok (e, s1) else scan_loop fp n { s1 with i := s1.i + 1 } := by
    simp only [scan_loop, hlt1, if_true]
  unfold argparse_parse_args
  rw [hscanA, hscanB, eA, eB, hptA, hptB]
  simp only [bind_found, hstB, hiB]
  cases hg : get_and_update_value fp s.st (.option k) s.i false negated with
  | ok r =>
    obtain ⟨e, st2, i2⟩ := r
    obtain ⟨e1, he1, hg1⟩ := gok e st2 i2 hg
    obtain ⟨f1, f2, _⟩ := get_and_update_value_frame fp _ _ _ _ _ _ _ _ hg
    rw [hg1]
    simp only [Comp.bind_ok]
    have herr : is_error e1 = is_error e := by
      simp only [is_error, he1]
    by_cases hce : is_error e = true
    · simp only [herr, hce, if_true, Comp.bind_ok, outcome_kind, he1]
      rfl
    · simp only [herr, hce, Bool.false_eq_true, if_false]
      have hargv2 : st2.parser.argv_ = pre ++ t :: post := by
        rw [static_argv _ _ f1]; exact hsargv
      have hshift := scan_loop_shift fp (pre ++ t1 :: post) 0 (pre.length + 1) n
        { s.update st2 i2 with i := (s.update st2 i2).i + 1 }
        (by simp only [ScanState.update]; omega)
        (fun j hj => by
          simp only [ScanState.update]
          rw [hargv2]
          exact replaced_after pre post t t1 j hj)
      have hmoved : ({ s.update st2 i2 with i := (s.update st2 i2).i + 1 } : ScanState).moved
            (pre ++ t1 :: post) 0 =
          { (s.moved (pre ++ t1 :: post) 0).update (st2.with_argv (pre ++ t1 :: post)) i2 with
            i := ((s.moved (pre ++ t1 :: post) 0).update
              (st2.with_argv (pre ++ t1 :: post)) i2).i + 1 } := rfl
      rw [← hmoved, hshift]
      cases hsc : scan_loop fp n { s.update st2 i2 with i := (s.update st2 i2).i + 1 } with
      | ok r2 =>
        obtain ⟨e3, s3⟩ := r2
        simp only [Comp.bind_ok]
        by_cases herr3 : is_error e3 = true
        · simp only [herr3, if_true, Comp.bind_ok, outcome_kind]
          rfl
        · simp only [herr3, Bool.false_eq_true, if_false]
          have hfin : finalise fp (s3.moved (pre ++ t1 :: post) 0).parser
              (s3.moved (pre ++ t1 :: post) 0).mem = finalise fp s3.parser s3.mem := rfl
          rw [hfin]
          cases hf : finalise fp s3.parser s3.mem with
          | ok r3 => rfl
          | exit m => rfl
          | undef => rfl
          | diverge => rfl
      | exit m => rfl
      | undef => rfl
      | diverge => rfl
  | exit m => rw [gexit m hg]; rfl
  | undef => rw [gundef hg]; rfl
  | diverge => rw [gdiv hg]; rfl

/-- The lookup by flag ends at the first record that bears the flag. -/
theorem find_arg_from_flag_first (c : Char) (l : List argparse_arg_t) :
    ∀ (k i : Nat) (arg : argparse_arg_t), l[k]? = some arg → arg.flag_ = c →
      (∀ a ∈ l.take k, a.flag_ ≠ c) →
      find_arg_from (FLAG_TO_FIND c) l i = .ok (some (i + k)) := by
  induction l with
  | nil => intro k i arg hk; simp at hk
  | cons a rest ih =>
    intro k i arg hk hf hbefore
    simp only [find_arg_from]
    cases k with
    | zero =>
      simp only [List.getElem?_cons_zero, Option.some.injEq] at hk
      subst hk
      simp [hf]
    | succ k =>
      have hne : ¬ c = a.flag_ := by
        intro e
        exact hbefore a (by simp) e.symm
      rw [if_neg hne]
      rw [ih k (i + 1) arg (by simpa using hk) hf
        (fun b hb => hbefore b (by simp [List.take_succ_cons, hb]))]
      congr 2
      omega

/-- In a registry an option with a flag and a name is what its name resolves to, unless
the name is the negated form of a toggle, and what the token of its flag resolves to. -/
theorem registry_alias (parser : argument_parser_t) (hreg : Registry parser)
    (hall : all_named parser.options_) (k : Nat) (arg : argparse_arg_t) (N : CStr)
    (hk : parser.options_[k]? = some arg) (hf : arg.flag_ ≠ NO_FLAG)
    (hn : arg.name_ = some N) (hneg : ¬ negates_toggle parser.options_ N) :
    resolves_to parser.options_ N k false ∧
      resolves_to parser.options_ ['-', arg.flag_] k false := by
  have hin : arg ∈ parser.options_ := List.getElem?_mem hk
  obtain ⟨_, _, _, _, _, hfh, hnh⟩ := (registry_valid parser hreg).1 arg hin
  obtain ⟨hpos, hlen⟩ := registry_option_names parser hreg arg hin
  have hdash : starts_with N "-".toList = true := by
    simp only [positional_of, hn, Bool.not_eq_false'] at hpos
    exact hpos
  constructor
  · refine named_resolves parser.options_ N k hall
      (registry_first_named parser hreg k arg N hk hn) hneg ?_ hdash ?_
    · intro e; rw [e] at hn; exact hnh hn
    · intro e; rw [hn] at hlen; exact hlen (by simp [e])
  · refine ⟨?_, fun e => absurd (congrArg List.length e) (by simp),
      by simp [starts_with], Or.inl ⟨rfl, rfl, ?_⟩⟩
    · intro e
      have : arg.flag_ = 'h' := by
        have := congrArg (fun l : List Char => l.getD 1 NO_FLAG) e
        simpa using this
      exact hfh this
    · have hd := (registry_distinct parser hreg).1
      unfold distinct_identities at hd
      have hklt : k < parser.options_.length := by
        rcases Nat.lt_or_ge k parser.options_.length with h1 | h1
        · exact h1
        · rw [List.getElem?_eq_none h1] at hk; cases hk
      have hke : parser.options_[k] = arg := by
        rw [List.getElem?_eq_getElem hklt] at hk
        exact Option.some.inj hk
      have := find_arg_from_flag_first arg.flag_ parser.options_ k 0 arg hk rfl (by
        intro a ha hfa
        obtain ⟨i, hi, hai⟩ := List.getElem_of_mem ha
        rw [List.length_take] at hi
        rw [List.getElem_take] at hai
        have hik : i < k := by omega
        apply List.pairwise_iff_getElem.1 hd i k (by omega) hklt hik
        left
        rw [hai, hke]
        exact ⟨by rw [hfa]; exact hf, hfa⟩)
      rw [Nat.zero_add] at this
      exact this

/-- The test `count_multi_mixed`, the same vector with names only and with flags only,
and the two forms of an option without its value. -/
theorem flag_name_runs :
    argparse_parse_args sample_float_ops
        (sample_setup ["--verbose", "-v", "--verbose", "-v", "--verbose"] [verbosity_count] [])
        sample_memory =
      .ok (ARGPARSE_NO_ERROR_,
        sample_setup ["--verbose", "-v", "--verbose", "-v", "--verbose"]
          [{ verbosity_count with count_ := 5 }] [],
        sample_memory.write 1 (.int 5)) ∧
    outcome_kind (argparse_parse_args sample_float_ops
        (sample_setup ["--verbose", "--verbose", "--verbose", "--verbose", "--verbose"]
          [verbosity_count] []) sample_memory) =
      .ok (ARGPARSE_NO_ERROR, [{ verbosity_count with count_ := 5 }], [],
        sample_memory.write 1 (.int 5)) ∧
    outcome_kind (argparse_parse_args sample_float_ops
        (sample_setup ["-v", "-v", "-v", "-v", "-v"] [verbosity_count] []) sample_memory) =
      .ok (ARGPARSE_NO_ERROR, [{ verbosity_count with count_ := 5 }], [],
        sample_memory.write 1 (.int 5)) ∧
    argparse_parse_args sample_float_ops (sample_setup ["--value"] [value_option] [])
        sample_memory =
      .ok (ARGPARSE_ARGUMENT_MISSING_VALUE_ERROR_ (some "--value".toList) NO_FLAG,
        sample_setup ["--value"] [{ value_option with count_ := 1 }] [], sample_memory) ∧
    argparse_parse_args sample_float_ops (sample_setup ["-v"] [value_option] [])
        sample_memory =
      .ok (ARGPARSE_ARGUMENT_MISSING_VALUE_ERROR_ (some "-v".toList) NO_FLAG,
        sample_setup ["-v"] [{ value_option with count_ := 1 }] [], sample_memory) :=
  ⟨rfl, rfl, rfl, rfl, rfl⟩

/-! ## The place of the options registered by their flag alone -/

/-- A walk of `check_added` for a record with a name that ends without error has met
records with a name only. -/
theorem check_added_list_named (arg : argparse_arg_t) (l : List argparse_arg_t)
    (h : check_added_list arg l = .ok ARGPARSE_NO_ERROR_) (hn : arg.name_ ≠ none) :
    all_named l := by
  induction l with
  | nil => intro a ha; cases ha
  | cons a rest ih =>
    simp only [check_added_list] at h
    rw [Comp.bind_eq_ok] at h
    obtain ⟨e1, hc, h⟩ := h
    split at h
    · rename_i herr
      simp only [Comp.ok.injEq] at h
      rw [h] at herr; cases herr
    · intro added hadded
      rcases List.mem_cons.1 hadded with rfl | hin
      · intro hnone
        unfold check_added at hc
        split at hc
        · rename_i hno herr
          simp only [Comp.ok.injEq] at hc
          rw [← hc] at hno
          exact hno rfl
        · cases hname : arg.name_ with
          | none => exact hn hname
          | some name =>
            rw [hname, hnone] at hc
            cases hc
      · exact ih h added hin

/-- In a registry the options registered by their flag alone come last: the
registration of a record with a name compares that name with the name of every option
already there. -/
theorem registry_named_first (parser : argument_parser_t) (h : Registry parser) :
    named_first parser.options_ := by
  refine registry_induction (fun p => named_first p.options_) ?_ ?_ parser h
  · intro p ho _ k arg hk
    rw [ho] at hk
    cases hk
  · intro p arg ih _ hc
    unfold appended
    by_cases hpos : positional_of arg = true
    · rw [if_pos hpos]
      exact ih
    · rw [if_neg hpos]
      unfold sequence_of at hc
      rw [if_neg hpos] at hc
      intro k a hk hn
      change (p.options_ ++ [arg])[k]? = some a at hk
      change all_named ((p.options_ ++ [arg]).take k)
      rcases Nat.lt_or_ge k p.options_.length with hlt | hge
      · rw [List.getElem?_append_left hlt] at hk
        rw [List.take_append_of_le_length (Nat.le_of_lt hlt)]
        exact ih k a hk hn
      · rw [List.getElem?_append_right hge] at hk
        have hk0 : k - p.options_.length = 0 := by
          by_contra hne
          have : ([arg] : List argparse_arg_t)[k - p.options_.length]? = none := by
            apply List.getElem?_eq_none
            simp only [List.length_singleton]
            omega
          rw [this] at hk
          cases hk
        rw [hk0] at hk
        simp only [List.getElem?_cons_zero, Option.some.injEq] at hk
        subst hk
        have hke : k = p.options_.length := by omega
        rw [hke, List.take_left']
        · exact check_added_list_named _ _ hc hn
        · rfl

/-- The lookup of a name among records of which those before the first one with that
name have a name: it returns that record. -/
theorem find_arg_from_upto (N : CStr) (l : List argparse_arg_t) :
    ∀ (k i : Nat), all_named (l.take k) → first_named l N k →
      find_arg_from (NAME_TO_FIND N none) l i = .ok (some (i + k)) := by
  induction l with
  | nil =>
    intro k i _ hf
    obtain ⟨h1, _⟩ := hf
    simp at h1
  | cons a rest ih =>
    intro k i hall hf
    obtain ⟨h1, h2⟩ := hf
    cases k with
    | zero =>
      have h1' : a.name_ = some N := by simpa using h1
      simp only [find_arg_from, h1', beq_self_eq_true, if_true, Nat.add_zero]
    | succ k =>
      have ha : a.name_ ≠ none := hall a (by simp)
      have ha2 : a.name_ ≠ some N := h2 a (by simp)
      cases hname : a.name_ with
      | none => exact absurd hname ha
      | some cn =>
        have hne : (N == cn) = false := by
          rw [beq_eq_false_iff_ne]
          intro heq
          exact ha2 (by rw [hname, heq])
        simp only [find_arg_from, hname, hne, Bool.false_eq_true, if_false]
        rw [ih k (i + 1) (fun x hx => hall x (by
            simp only [List.take_succ_cons, List.mem_cons]
            exact Or.inr hx))
          ⟨by simpa using h1, fun x hx => h2 x (by
            simp only [List.take_succ_cons, List.mem_cons]
            exact Or.inr hx)⟩]
        congr 2
        omega

/-- In a registry the name of an option is found by the lookup of that name, whatever
options are registered by their flag alone. -/
theorem registry_name_found (parser : argument_parser_t) (hreg : Registry parser) (k : Nat)
    (arg : argparse_arg_t) (N : CStr) (hk : parser.options_[k]? = some arg)
    (hn : arg.name_ = some N) :
    find_arg parser.options_ (NAME_TO_FIND N none) = .ok (some k) := by
  unfold find_arg
  rw [find_arg_from_upto N parser.options_ k 0
    (registry_named_first parser hreg k arg hk (by rw [hn]; simp))
    (registry_first_named parser hreg k arg N hk hn), Nat.zero_add]

/-- In a registry a token that is the name of an option and does not start with `--no-`
resolves to that option. -/
theorem registry_name_resolves (parser : argument_parser_t) (hreg : Registry parser) (k : Nat)
    (arg : argparse_arg_t) (N : CStr) (hk : parser.options_[k]? = some arg)
    (hn : arg.name_ = some N) (hsw : starts_with N "--no-".toList = false) :
    resolves_to parser.options_ N k false := by
  have hin : arg ∈ parser.options_ := List.getElem?_mem hk
  obtain ⟨_, _, _, _, _, _, hnh⟩ := (registry_valid parser hreg).1 arg hin
  obtain ⟨hpos, hlen⟩ := registry_option_names parser hreg arg hin
  have hdash : starts_with N "-".toList = true := by
    simp only [positional_of, hn, Bool.not_eq_false'] at hpos
    exact hpos
  have hlen2 : N.length ≠ 2 := by
    intro e; rw [hn] at hlen; exact hlen (by simp [e])
  refine ⟨?_, ?_, hdash, Or.inr ⟨hlen2, ?_⟩⟩
  · intro e; rw [e] at hlen2; exact hlen2 rfl
  · intro e; rw [e] at hn; exact hnh hn
  · unfold find_long
    simp only [hsw, Bool.false_eq_true, if_false, Comp.bind_ok, is_toggle,
      registry_name_found parser hreg k arg N hk hn]

/-- In a registry the token `--no-S` resolves to the toggle named `--S`, with `negated`
set, whatever options are registered by their flag alone. -/
theorem registry_negated_resolves (parser : argument_parser_t) (hreg : Registry parser)
    (k : Nat) (arg : argparse_arg_t) (S : CStr) (hk : parser.options_[k]? = some arg)
    (hn : arg.name_ = some ("--".toList ++ S))
    (ha : arg.action_ = ARGPARSE_BOOLEAN_OPTIONAL_ACTION) :
    resolves_to parser.options_ ("--no-".toList ++ S) k true := by
  have hsw : starts_with ("--no-".toList ++ S) "--no-".toList = true := by
    simp [starts_with]
  have hdrop : ("--no-".toList ++ S).drop 5 = S := by simp
  refine ⟨by simp, by simp, by simp [starts_with], Or.inr ⟨by simp, ?_⟩⟩
  unfold find_long
  simp only [hsw, if_true, hdrop]
  have hfind : find_arg parser.options_ (NAME_TO_FIND S (some "--".toList)) =
      .ok (some k) := by
    have := registry_name_found parser hreg k arg _ hk hn
    unfold find_arg at this ⊢
    rw [find_arg_from_pfx]
    exact this
  rw [hfind]
  simp only [Comp.bind_ok, is_toggle_of parser.options_ k arg hk ha, if_true]

/-- In a registry the two-character token of the flag of an option resolves to that
option. -/
theorem registry_flag_resolves (parser : argument_parser_t) (hreg : Registry parser)
    (k : Nat) (arg : argparse_arg_t) (hk : parser.options_[k]? = some arg)
    (hf : arg.flag_ ≠ NO_FLAG) :
    resolves_to parser.options_ ['-', arg.flag_] k false := by
  have hin : arg ∈ parser.options_ := List.getElem?_mem hk
  obtain ⟨_, _, _, _, _, hfh, _⟩ := (registry_valid parser hreg).1 arg hin
  refine ⟨?_, fun e => absurd (congrArg List.length e) (by simp),
    by simp [starts_with], Or.inl ⟨rfl, rfl, ?_⟩⟩
  · intro e
    have : arg.flag_ = 'h' := by
      have := congrArg (fun l : List Char => l.getD 1 NO_FLAG) e
      simpa using this
    exact hfh this
  · have hd := (registry_distinct parser hreg).1
    unfold distinct_identities at hd
    have hklt : k < parser.options_.length := by
      rcases Nat.lt_or_ge k parser.options_.length with h1 | h1
      · exact h1
      · rw [List.getElem?_eq_none h1] at hk; cases hk
    have hke : parser.options_[k] = arg := by
      rw [List.getElem?_eq_getElem hklt] at hk
      exact Option.some.inj hk
    have := find_arg_from_flag_first arg.flag_ parser.options_ k 0 arg hk rfl (by
      intro a ha hfa
      obtain ⟨i, hi, hai⟩ := List.getElem_of_mem ha
      rw [List.length_take] at hi
      rw [List.getElem_take] at hai
      have hik : i < k := by omega
      apply List.pairwise_iff_getElem.1 hd i k (by omega) hklt hik
      left
      rw [hai, hke]
      exact ⟨by rw [hfa]; exact hf, hfa⟩)
    rw [Nat.zero_add] at this
    exact this

/-! ## What the scan writes -/

theorem scan_footprint_refl (parser : argument_parser_t) (mem : Memory) :
    ScanFootprint parser mem parser mem :=
  ⟨footprint_refl parser mem, fun _ h => absurd rfl h⟩

theorem scan_footprint_trans (p p1 p2 : argument_parser_t) (m m1 m2 : Memory)
    (h1 : ScanFootprint p m p1 m1) (h2 : ScanFootprint p1 m1 p2 m2) :
    ScanFootprint p m p2 m2 := by
  obtain ⟨hf1, hm1⟩ := h1
  obtain ⟨hf2, hm2⟩ := h2
  refine ⟨footprint_trans _ _ _ _ _ _ hf1 hf2, ?_⟩
  obtain ⟨hs1, hc1, _⟩ := hf1
  obtain ⟨hs2, hc2, _⟩ := hf2
  intro a ha
  by_cases hm : m1 a = m a
  · have ha2 : m2 a ≠ m1 a := by rw [hm]; exact ha
    obtain ⟨ref, arg1, arg2, hd1, hd2, hv, hlt, hact⟩ := hm2 a ha2
    obtain ⟨arg0, hd, hst⟩ := static_deref p p1 hs1 ref arg1 hd1
    refine ⟨ref, arg0, arg2, hd, hd2, ?_,
      lt_of_le_of_lt (hc1 ref arg0 arg1 hd hd1) hlt, ?_⟩
    · rw [(static_fields _ _ hst).2.2.1]; exact hv
    · rw [(static_fields _ _ hst).2.1]; exact hact
  · obtain ⟨ref, arg0, arg1, hd, hd1, hv, hlt, hact⟩ := hm1 a hm
    obtain ⟨arg2, hd2, _⟩ := static_deref p2 p1 hs2.symm ref arg1 hd1
    exact ⟨ref, arg0, arg2, hd, hd2, hv, lt_of_lt_of_le hlt (hc2 ref arg1 arg2 hd1 hd2),
      hact⟩

/-- One binding writes at most the storage of its record, and nothing when the action of
the record is `Count`. -/
theorem get_and_update_value_writes (fp : FloatOps) (st st1 : State) (ref : ArgRef)
    (i i1 : Nat) (positional negated : Bool) (e : argparse_error_t)
    (h : get_and_update_value fp st ref i positional negated = .ok (e, st1, i1)) :
    ScanFootprint st.parser st.mem st1.parser st1.mem := by
  refine ⟨get_and_update_value_bound fp st st1 ref i i1 positional negated e h, ?_⟩
  obtain ⟨arg0, hd, hp, hm⟩ := get_and_update_value_footprint fp st st1 ref i i1 positional
    negated e h
  intro a ha
  have hself := deref_assign_self st.parser ref arg0 { arg0 with count_ := arg0.count_ + 1 } hd
  refine ⟨ref, arg0, _, hd, by rw [hp]; exact hself, ?_, by simp, ?_⟩
  · rcases hm with hm | ⟨v, hm⟩
    · rw [hm] at ha; exact absurd rfl ha
    · by_contra hne
      apply ha
      rw [hm]
      have : a ≠ arg0.value_ := fun e => hne e.symm
      simp [Memory.write, this]
  · intro hact
    rw [get_and_update_value_count fp st ref i positional negated arg0 hd hact] at h
    simp only [Comp.ok.injEq, Prod.mk.injEq] at h
    apply ha
    rw [← h.2.1]

theorem group_loop_writes (fp : FloatOps) (arg_string : CStr) (chars : List Char) :
    ∀ (st st1 : State) (i i1 : Nat) (e : argparse_error_t),
      group_loop fp arg_string chars st i = .ok (e, st1, i1) →
      ScanFootprint st.parser st.mem st1.parser st1.mem := by
  induction chars with
  | nil =>
    intro st st1 i i1 e h
    simp only [group_loop, Comp.ok.injEq, Prod.mk.injEq] at h
    rw [← h.2.1]
    exact scan_footprint_refl _ _
  | cons c rest ih =>
    intro st st1 i i1 e h
    simp only [group_loop] at h
    rw [Comp.bind_eq_ok] at h
    obtain ⟨found, _, h⟩ := h
    cases found with
    | none =>
      simp only [Comp.ok.injEq, Prod.mk.injEq] at h
      rw [← h.2.1]
      exact scan_footprint_refl _ _
    | some k =>
      simp only at h
      split at h
      · cases h
      · rw [Comp.bind_eq_ok] at h
        obtain ⟨⟨e2, st2, i2⟩, hg, h⟩ := h
        have hb := get_and_update_value_writes fp st st2 _ i i2 _ _ e2 hg
        simp only at h
        split at h
        · simp only [Comp.ok.injEq, Prod.mk.injEq] at h
          rw [← h.2.1]
          exact hb
        · exact scan_footprint_trans _ _ _ _ _ _ hb (ih st2 st1 i2 i1 e h)

theorem bind_found_writes (fp : FloatOps) (s s1 : ScanState) (arg_string : CStr)
    (arg : Option ArgRef) (positional negated : Bool) (e : argparse_error_t)
    (h : bind_found fp s arg_string arg positional negated = .ok (e, s1)) :
    ScanFootprint s.parser s.mem s1.parser s1.mem := by
  cases arg with
  | none =>
    simp only [bind_found, Comp.ok.injEq, Prod.mk.injEq] at h
    rw [← h.2]
    exact scan_footprint_refl _ _
  | some ref =>
    simp only [bind_found] at h
    rw [Comp.bind_eq_ok] at h
    obtain ⟨⟨e2, st2, i2⟩, hg, h⟩ := h
    simp only [Comp.ok.injEq, Prod.mk.injEq] at h
    rw [← h.2]
    exact get_and_update_value_writes fp s.st st2 ref s.i i2 positional negated e2 hg

/-- One iteration of the scan, with an error or without, writes at most the storage of
records whose action is not `Count` and whose count it has increased. -/
theorem parse_token_writes (fp : FloatOps) (s s1 : ScanState) (e : argparse_error_t)
    (h : parse_token fp s = .ok (e, s1)) :
    ScanFootprint s.parser s.mem s1.parser s1.mem := by
  unfold parse_token at h
  split at h
  · cases h
  · split at h
    · cases h
    · split at h
      · rw [Comp.bind_eq_ok] at h
        obtain ⟨arg, _, h⟩ := h
        exact bind_found_writes fp s s1 _ _ _ _ e h
      · split at h
        · rw [Comp.bind_eq_ok] at h
          obtain ⟨⟨arg, negated⟩, _, h⟩ := h
          cases arg with
          | none =>
            simp only at h
            rw [Comp.bind_eq_ok] at h
            obtain ⟨⟨e2, st2, i2⟩, hg, h⟩ := h
            simp only [Comp.ok.injEq, Prod.mk.injEq] at h
            rw [← h.2]
            exact group_loop_writes fp _ _ s.st st2 s.i i2 e2 hg
          | some k => exact bind_found_writes fp s s1 _ _ _ _ e h
        · rw [Comp.bind_eq_ok] at h
          obtain ⟨arg, _, h⟩ := h
          exact bind_found_writes fp { s with positional_i := s.positional_i + 1 } s1 _ _ _ _ e h

/-- An iteration leaves an address alone when its token hits no option bound to the
address whose action is not `Count` and it binds no positional record bound to the
address whose action is not `Count`. -/
theorem parse_token_kept (fp : FloatOps) (s s1 : ScanState) (e : argparse_error_t)
    (token : CStr) (h : parse_token fp s = .ok (e, s1))
    (hv : s.parser.argv_[s.i]? = some token) (a : Nat)
    (ho : ∀ (k : Nat) (arg : argparse_arg_t), s.parser.options_[k]? = some arg →
      arg.value_ = a → arg.action_ ≠ ARGPARSE_COUNT_ACTION →
      hits s.parser.options_ token k = 0)
    (hp : ∀ (k : Nat) (arg : argparse_arg_t), s.parser.positional_args_[k]? = some arg →
      arg.value_ = a → arg.action_ ≠ ARGPARSE_COUNT_ACTION →
      starts_with token "-".toList = true ∨ k ≠ s.positional_i) :
    s1.mem a = s.mem a := by
  by_contra hne
  obtain ⟨ref, arg0, arg1, hd, hd1, hval, hlt, hact⟩ := (parse_token_writes fp s s1 e h).2 a hne
  cases ref with
  | option k =>
    have := (parse_token_untouched fp s s1 e token h hv k (ho k arg0 hd hval hact)).1
    rw [show s1.parser.deref (.option k) = s1.parser.options_[k]? from rfl, this,
      show s.parser.options_[k]? = s.parser.deref (.option k) from rfl, hd] at hd1
    cases hd1
    exact lt_irrefl _ hlt
  | positional k =>
    have := parse_token_positionals fp s s1 e token h hv k (hp k arg0 hd hval hact)
    rw [show s1.parser.deref (.positional k) = s1.parser.positional_args_[k]? from rfl, this,
      show s.parser.positional_args_[k]? = s.parser.deref (.positional k) from rfl, hd] at hd1
    cases hd1
    exact lt_irrefl _ hlt

/-- The iteration at a loop head of the scan leaves an address alone when the token at
that loop head hits no option bound to the address whose action is not `Count`, and the
number of tokens without `-` classified so far, that token included, does not reach the
index of a positional record bound to the address whose action is not `Count`. -/
theorem reaches_token_kept (fp : FloatOps) (parser : argument_parser_t) (mem : Memory)
    (visited : List Nat) (s s1 : ScanState) (e : argparse_error_t)
    (hr : Reaches fp parser mem visited s) (hlt : s.i < s.parser.argc_)
    (h : parse_token fp s = .ok (e, s1)) (a : Nat)
    (ho : ∀ (k : Nat) (arg : argparse_arg_t), parser.options_[k]? = some arg →
      arg.value_ = a → arg.action_ ≠ ARGPARSE_COUNT_ACTION →
      hits parser.options_ (parser.argv_.getD s.i []) k = 0)
    (hp : ∀ (k : Nat) (arg : argparse_arg_t), parser.positional_args_[k]? = some arg →
      arg.value_ = a → arg.action_ ≠ ARGPARSE_COUNT_ACTION →
      ((visited ++ [s.i]).filter (no_dash parser.argv_)).length ≤ k) :
    s1.mem a = s.mem a := by
  obtain ⟨hst, _⟩ := reaches_static fp parser mem visited s hr
  have hargv := static_argv _ _ hst
  have hopts := static_options _ _ hst
  have hv : s.parser.argv_[s.i]? = some (parser.argv_.getD s.i []) := by
    rw [hargv]
    have : s.i < parser.argv_.length := by
      rw [← hargv]; exact hlt
    simp [List.getD_eq_getElem?_getD, List.getElem?_eq_getElem this]
  refine parse_token_kept fp s s1 e _ h hv a ?_ ?_
  · intro k arg hk hval hact
    obtain ⟨c0, hc0, hcs⟩ := static_getElem parser.options_ s.parser.options_ hopts k arg hk
    obtain ⟨_, h2, h3, _⟩ := static_fields _ _ hcs
    rw [hits_static _ _ _ _ hopts]
    exact ho k c0 hc0 (by rw [h3]; exact hval) (by rw [h2]; exact hact)
  · intro k arg hk hval hact
    obtain ⟨c0, hc0, hcs⟩ := static_getElem parser.positional_args_ s.parser.positional_args_
      (static_positionals _ _ hst) k arg hk
    obtain ⟨_, h2, h3, _⟩ := static_fields _ _ hcs
    have hle := hp k c0 hc0 (by rw [h3]; exact hval) (by rw [h2]; exact hact)
    have hpi := reaches_positional_i fp parser mem visited s hr
    simp only [List.filter_append, List.length_append] at hle
    by_cases hd : no_dash parser.argv_ s.i = true
    · right
      have : ([s.i].filter (no_dash parser.argv_)).length = 1 := by
        simp [List.filter, hd]
      omega
    · left
      unfold no_dash at hd
      simpa using hd

/-- The iteration at a loop head of the scan leaves an address alone when the token at
that loop head, with the tokens classified before, matches no record that writes the
address. -/
theorem reaches_step_kept (fp : FloatOps) (parser : argument_parser_t) (mem : Memory)
    (visited : List Nat) (s s1 : ScanState) (e : argparse_error_t)
    (hr : Reaches fp parser mem visited s) (hlt : s.i < s.parser.argc_)
    (h : parse_token fp s = .ok (e, s1)) (a : Nat)
    (hun : unwritten parser a (visited ++ [s.i])) : s1.mem a = s.mem a :=
  reaches_token_kept fp parser mem visited s s1 e hr hlt h a
    (fun k arg hk hval hact => hun.1 k arg hk hval hact s.i
      (List.mem_append_right _ (List.mem_singleton_self _)))
    (fun k arg hk hval hact => hun.2 k arg hk hval hact)

theorem unwritten_init (parser : argument_parser_t) (a : Nat) (l1 l2 : List Nat)
    (h : unwritten parser a (l1 ++ l2)) : unwritten parser a l1 := by
  refine ⟨fun k arg hk hv ha j hj => h.1 k arg hk hv ha j (List.mem_append_left _ hj),
    fun k arg hk hv ha => ?_⟩
  have := h.2 k arg hk hv ha
  simp only [List.filter_append, List.length_append] at this
  omega

/-- At a loop head of the scan an address holds the object it held before the call when
the tokens classified so far match no record that writes it. -/
theorem reaches_unwritten (fp : FloatOps) (parser : argument_parser_t) (mem : Memory)
    (visited : List Nat) (s : ScanState) (h : Reaches fp parser mem visited s) (a : Nat)
    (hun : unwritten parser a visited) : s.mem a = mem a := by
  induction h with
  | start => rfl
  | @next vis s s1 e hr hlt hp he ih =>
    have := reaches_step_kept fp parser mem vis s s1 e hr hlt hp a hun
    change s1.mem a = mem a
    rw [this]
    exact ih (unwritten_init parser a vis [s.i] hun)

/-! ## The last binding of an option by a token -/

/-- A list that holds an element with a property splits at the last such element. -/
theorem last_split {α : Type} (p : α → Prop) :
    ∀ (l : List α), (∃ x ∈ l, p x) →
      ∃ pre c post, l = pre ++ c :: post ∧ p c ∧ ∀ x ∈ post, ¬ p x := by
  intro l
  induction l with
  | nil => rintro ⟨x, hx, _⟩; cases hx
  | cons a rest ih =>
    intro h
    by_cases hr : ∃ x ∈ rest, p x
    · obtain ⟨pre, c, post, hl, hc, hpost⟩ := ih hr
      exact ⟨a :: pre, c, post, by rw [hl]; rfl, hc, hpost⟩
    · obtain ⟨x, hx, hpx⟩ := h
      rcases List.mem_cons.1 hx with rfl | hin
      · exact ⟨[], x, rest, rfl, hpx, fun y hy hpy => hr ⟨y, hy, hpy⟩⟩
      · exact absurd ⟨x, hin, hpx⟩ hr

/-- The walk of a cluster leaves an address alone when none of its characters finds a
record bound to the address whose action is not `Count`. -/
theorem group_loop_kept (fp : FloatOps) (arg_string : CStr) (chars : List Char)
    (st st1 : State) (i i1 : Nat) (e : argparse_error_t)
    (h : group_loop fp arg_string chars st i = .ok (e, st1, i1)) (a : Nat)
    (hfree : ∀ c ∈ chars, ∀ (k : Nat) (arg : argparse_arg_t),
      flag_finds st.parser.options_ c k → st.parser.options_[k]? = some arg →
      arg.action_ ≠ ARGPARSE_COUNT_ACTION → arg.value_ ≠ a) :
    st1.mem a = st.mem a := by
  by_contra hne
  obtain ⟨ref, arg0, arg1, hd, hd1, hval, hlt, hact⟩ :=
    (group_loop_writes fp arg_string chars st st1 i i1 e h).2 a hne
  cases ref with
  | option k =>
    by_cases hex : ∃ c ∈ chars, flag_finds st.parser.options_ c k
    · obtain ⟨c, hc, hf⟩ := hex
      exact hfree c hc k arg0 hf hd hact hval
    · have := (group_loop_untouched fp arg_string chars st st1 i i1 e h k
        (fun c hc hf => hex ⟨c, hc, hf⟩)).1
      rw [show st1.parser.deref (.option k) = st1.parser.options_[k]? from rfl, this,
        show st.parser.options_[k]? = st.parser.deref (.option k) from rfl, hd] at hd1
      cases hd1
      exact lt_irrefl _ hlt
  | positional k =>
    have := group_loop_positionals fp arg_string chars st st1 i i1 e h
    rw [show st1.parser.deref (.positional k) = st1.parser.positional_args_[k]? from rfl, this,
      show st.parser.positional_args_[k]? = st.parser.deref (.positional k) from rfl, hd] at hd1
    cases hd1
    exact lt_irrefl _ hlt

/-- The walk of a cluster that returns no error, at one of its characters that finds an
option: the characters before it are walked, the option is bound with the index on the
last value token consumed so far, and the characters after it are walked from there. -/
theorem group_loop_at (fp : FloatOps) (arg_string : CStr) (pre : List Char)
    (c : Char) (post : List Char) (st st1 : State) (i i1 : Nat) (e : argparse_error_t)
    (k : Nat) (arg : argparse_arg_t)
    (h : group_loop fp arg_string (pre ++ c :: post) st i = .ok (e, st1, i1))
    (he : is_error e = false)
    (hf : flag_finds st.parser.options_ c k) (hk : st.parser.options_[k]? = some arg) :
    ∃ e2 st2 arg2 e3 st3 i3,
      group_loop fp arg_string pre st i =
        .ok (e2, st2, i + pre.countP (finds_store st.parser.options_)) ∧
      st2.parser.static = st.parser.static ∧
      st2.parser.options_[k]? = some arg2 ∧ arg2.static = arg.static ∧
      get_and_update_value fp st2 (.option k)
          (i + pre.countP (finds_store st.parser.options_))
          (arg2.action_ != ARGPARSE_STORE_ACTION) false = .ok (e3, st3, i3) ∧
      is_error e3 = false ∧
      group_loop fp arg_string post st3 i3 = .ok (e, st1, i1) := by
  obtain ⟨e2, st2, _, hpre, hst2, hrest⟩ := group_loop_split fp arg_string pre (c :: post)
    st st1 i i1 e h he
  have hopts := static_options _ _ hst2
  have hf2 : find_arg st2.parser.options_ (FLAG_TO_FIND c) = .ok (some k) :=
    (flag_finds_static _ _ c k hopts).mpr hf
  obtain ⟨arg2, hk2, hs2⟩ : ∃ arg2, st2.parser.options_[k]? = some arg2 ∧
      arg2.static = arg.static := by
    have := congrArg (fun l => l[k]?) hopts
    simp only [List.getElem?_map, hk, Option.map_some'] at this
    cases hk2 : st2.parser.options_[k]? with
    | none => rw [hk2] at this; cases this
    | some arg2 =>
      rw [hk2] at this
      simp only [Option.map_some', Option.some.injEq] at this
      exact ⟨arg2, rfl, this⟩
  simp only [group_loop, hf2, Comp.bind_ok, hk2] at hrest
  rw [Comp.bind_eq_ok] at hrest
  obtain ⟨⟨e3, st3, i3⟩, hg, hrest⟩ := hrest
  simp only at hrest
  split at hrest
  · rename_i herr
    simp at hrest
    rw [hrest.1] at herr
    rw [herr] at he
    cases he
  · rename_i hno
    exact ⟨e2, st2, arg2, e3, st3, i3, hpre, hst2, hk2, hs2, hg, by simpa using hno, hrest⟩

theorem chars_to_last_split (options : List argparse_arg_t) (k : Nat) (pre : List Char)
    (c : Char) (post : List Char) (hc : flag_finds options c k)
    (hpost : ∀ x ∈ post, ¬ flag_finds options x k) :
    chars_to_last options (pre ++ c :: post) k = pre ++ [c] := by
  unfold chars_to_last
  induction post using List.reverseRecOn with
  | nil =>
    exact List.rdropWhile_concat_neg _ _ _ (by simpa using hc)
  | append_singleton post x ih =>
    have : pre ++ c :: (post ++ [x]) = (pre ++ c :: post) ++ [x] := by simp
    rw [this, List.rdropWhile_concat_pos _ _ _ (by
      simpa using hpost x (by simp))]
    exact ih fun y hy => hpost y (by simp [hy])

theorem resolves_not_cluster (options : List argparse_arg_t) (token : CStr) (k : Nat)
    (negated : Bool) (h : resolves_to options token k negated) : ¬ is_cluster options token := by
  rintro ⟨_, _, hlen, hf⟩
  obtain ⟨_, _, _, ⟨hl, _⟩ | ⟨_, hf2⟩⟩ := h
  · exact hlen hl
  · rw [hf] at hf2
    simp at hf2

theorem resolves_negated_unique (options : List argparse_arg_t) (token : CStr) (k : Nat)
    (h : resolves_to options token k false) : ¬ resolves_to options token k true := by
  rintro ⟨_, _, _, ⟨_, hn, _⟩ | ⟨_, hf2⟩⟩
  · cases hn
  · obtain ⟨_, _, _, ⟨hl, _⟩ | ⟨_, hf⟩⟩ := h
    · rename_i hl2 _
      exact absurd hl (by assumption)
    · rw [hf] at hf2
      simp at hf2

/-- The last binding of an option by the iteration for a token that hits it, when the
token hits no other record bound to the same storage whose action is not `Count`: the
option is bound with the index on the last value token consumed so far and with
`negated` set exactly when the token resolves to it as a negated toggle, and what this
binding leaves in the storage of the option is there at the end of the iteration. -/
theorem parse_token_last_binding (fp : FloatOps) (s s1 : ScanState) (e : argparse_error_t)
    (token : CStr) (k : Nat) (arg : argparse_arg_t)
    (h : parse_token fp s = .ok (e, s1)) (he : is_error e = false)
    (hv : s.parser.argv_[s.i]? = some token)
    (hk : s.parser.options_[k]? = some arg)
    (hh : hits s.parser.options_ token k ≠ 0)
    (hothers : ∀ (k1 : Nat) (arg1 : argparse_arg_t), k1 ≠ k →
      s.parser.options_[k1]? = some arg1 → arg1.value_ = arg.value_ →
      arg1.action_ ≠ ARGPARSE_COUNT_ACTION → hits s.parser.options_ token k1 = 0) :
    ∃ st2 arg2 e3 st3 i3,
      st2.parser.static = s.parser.static ∧
      st2.parser.options_[k]? = some arg2 ∧ arg2.static = arg.static ∧
      get_and_update_value fp st2 (.option k)
          (s.i + values_before_last s.parser.options_ token k)
          (decide (is_cluster s.parser.options_ token) &&
            (arg.action_ != ARGPARSE_STORE_ACTION))
          (decide (resolves_to s.parser.options_ token k true)) = .ok (e3, st3, i3) ∧
      is_error e3 = false ∧ s1.mem arg.value_ = st3.mem arg.value_ := by
  have resolved : ∀ negated, resolves_to s.parser.options_ token k negated →
      decide (resolves_to s.parser.options_ token k true) = negated →
      ∃ st2 arg2 e3 st3 i3,
        st2.parser.static = s.parser.static ∧
        st2.parser.options_[k]? = some arg2 ∧ arg2.static = arg.static ∧
        get_and_update_value fp st2 (.option k)
            (s.i + values_before_last s.parser.options_ token k)
            (decide (is_cluster s.parser.options_ token) &&
              (arg.action_ != ARGPARSE_STORE_ACTION))
            (decide (resolves_to s.parser.options_ token k true)) = .ok (e3, st3, i3) ∧
        is_error e3 = false ∧ s1.mem arg.value_ = st3.mem arg.value_ := by
    intro negated hr hdec
    have hnc := resolves_not_cluster _ _ _ _ hr
    rw [parse_token_resolves fp s token k negated hv hr] at h
    simp only [bind_found] at h
    rw [Comp.bind_eq_ok] at h
    obtain ⟨⟨e3, st3, i3⟩, hg, h⟩ := h
    simp only [Comp.ok.injEq, Prod.mk.injEq] at h
    obtain ⟨h1, h2⟩ := h
    subst h1; subst h2
    refine ⟨s.st, arg, e3, st3, i3, rfl, hk, rfl, ?_, he, rfl⟩
    simp only [values_before_last, hnc, if_false, decide_False, Bool.false_and, Nat.add_zero,
      hdec]
    exact hg
  by_cases hr0 : resolves_to s.parser.options_ token k false
  · exact resolved false hr0 (by
      simpa using resolves_negated_unique _ _ _ hr0)
  · by_cases hr1 : resolves_to s.parser.options_ token k true
    · exact resolved true hr1 (by simpa using hr1)
    · have hhits : hits s.parser.options_ token k =
          if is_cluster s.parser.options_ token then
            (token.drop 1).countP fun c => decide (flag_finds s.parser.options_ c k)
          else 0 := by
        unfold hits
        rw [if_neg (by
          rintro (h0 | h0)
          · exact hr0 h0
          · exact hr1 h0)]
      by_cases hcl : is_cluster s.parser.options_ token
      · rw [hhits, if_pos hcl] at hh
        obtain ⟨hhelp, hdash, hlen, hfl⟩ := hcl
        obtain ⟨cs, rfl⟩ : ∃ cs, token = '-' :: cs := by
          cases token with
          | nil => simp [starts_with] at hdash
          | cons c cs =>
            simp only [starts_with, String.toList, List.isPrefixOf, Bool.and_true,
              beq_iff_eq] at hdash
            exact ⟨cs, by rw [hdash]⟩
        simp only [List.drop_succ_cons, List.drop_zero] at hh
        have hex : ∃ x ∈ cs, flag_finds s.parser.options_ x k := by
          by_contra hno
          apply hh
          rw [List.countP_eq_zero]
          intro x hx
          simpa using fun hf => hno ⟨x, hx, hf⟩
        obtain ⟨pre, c, post, hsplit, hc, hpost⟩ := last_split _ cs hex
        rw [parse_token_cluster fp s cs false hv (by simpa using hlen) hhelp hfl,
          Comp.bind_eq_ok] at h
        obtain ⟨⟨e1, st1, i1⟩, hg, h⟩ := h
        simp only [Comp.ok.injEq, Prod.mk.injEq] at h
        obtain ⟨h1, h2⟩ := h
        subst h1; subst h2
        rw [hsplit] at hg
        obtain ⟨e2, st2, arg2, e3, st3, i3, hpre, hst2, hk2, hs2, hgv, he3, hrest⟩ :=
          group_loop_at fp _ pre c post s.st st1 s.i i1 e1 k arg hg he hc hk
        have hst3 := (get_and_update_value_frame fp st2 st3 _ _ _ _ _ _ hgv).1
        have hopts3 : st3.parser.options_.map argparse_arg_t.static =
            s.parser.options_.map argparse_arg_t.static :=
          static_options _ _ (hst3.trans hst2)
        have hkept := group_loop_kept fp _ post st3 st1 i3 i1 e1 hrest arg.value_ (by
          intro c1 hc1 k1 arg1 hf1 hk1 hact1 hval1
          have hf1' : flag_finds s.parser.options_ c1 k1 :=
            (flag_finds_static _ _ c1 k1 hopts3).mp hf1
          by_cases hkk : k1 = k
          · subst hkk
            exact hpost c1 hc1 hf1'
          · obtain ⟨c0, hc0, hcs⟩ := static_getElem s.parser.options_ st3.parser.options_
              hopts3 k1 arg1 hk1
            obtain ⟨_, h2, h3, _⟩ := static_fields _ _ hcs
            have h0 := hothers k1 c0 hkk hc0 (by rw [h3]; exact hval1)
              (by rw [h2]; exact hact1)
            rw [hits_of_cluster _ _ k1 false hlen hdash hhelp hfl] at h0
            simp only [List.drop_succ_cons, List.drop_zero, hsplit] at h0
            rw [List.countP_eq_zero] at h0
            have := h0 c1 (by simp [hc1])
            simp at this
            exact this hf1')
        have hcl' : is_cluster s.parser.options_ ('-' :: cs) := ⟨hhelp, hdash, hlen, hfl⟩
        obtain ⟨_, ea, _⟩ := static_fields _ _ hs2
        refine ⟨st2, arg2, e3, st3, i3, hst2, hk2, hs2, ?_, he3, hkept⟩
        have hvb : values_before_last s.parser.options_ ('-' :: cs) k =
            pre.countP (finds_store s.parser.options_) := by
          simp only [values_before_last, hcl', if_true, List.drop_succ_cons, List.drop_zero]
          rw [hsplit, chars_to_last_split _ _ _ _ _ hc hpost]
          simp
        rw [hvb]
        simp only [hcl', decide_True, Bool.true_and, hr1, decide_False, ← ea]
        exact hgv
      · rw [hhits, if_neg hcl] at hh
        exact absurd rfl hh

theorem others_unset_sub (parser : argument_parser_t) (ref : ArgRef) (a : Nat)
    (l l1 : List Nat) (hsub : l1.Sublist l) (h : others_unset parser ref a l) :
    others_unset parser ref a l1 := by
  refine ⟨fun k arg hr hk hv => ⟨(h.1 k arg hr hk hv).1,
      fun j hj => (h.1 k arg hr hk hv).2 j (hsub.subset hj)⟩,
    fun k arg hr hk hv => ⟨(h.2 k arg hr hk hv).1, ?_⟩⟩
  exact le_trans (List.Sublist.length_le (hsub.filter _)) (h.2 k arg hr hk hv).2

/-- The storage of an option at a loop head of the scan, when every other record bound to
that storage is unset: it holds what the last classified token that hit the option left
there, and its initial object when no token hit the option. -/
theorem reaches_last_write (fp : FloatOps) (parser : argument_parser_t) (mem : Memory)
    (k : Nat) (a : Nat) (Q : Nat → Val → Prop)
    (hstep : ∀ (visited0 : List Nat) (s0 s1 : ScanState) (e : argparse_error_t),
      Reaches fp parser mem visited0 s0 → s0.i < s0.parser.argc_ →
      parse_token fp s0 = .ok (e, s1) → is_error e = false →
      hits parser.options_ (parser.argv_.getD s0.i []) k ≠ 0 →
      others_unset parser (.option k) a [s0.i] → Q s0.i (s1.mem a))
    (visited : List Nat) (s : ScanState) (h : Reaches fp parser mem visited s)
    (hun : others_unset parser (.option k) a visited) :
    (∀ last ∈ (occurrences parser k visited).getLast?, Q last (s.mem a)) ∧
    (occurrences parser k visited = [] → s.mem a = mem a) := by
  unfold occurrences
  induction h with
  | start => simp
  | @next visited s s1 error hr hlt hp he ih =>
    have ih := ih (others_unset_sub parser _ a _ _ (List.sublist_append_left _ _) hun)
    have hun1 := others_unset_sub parser _ a _ _ (List.sublist_append_right visited [s.i]) hun
    by_cases hh : hits parser.options_ (parser.argv_.getD s.i []) k = 0
    · have hu : s1.mem a = s.mem a := by
        refine reaches_token_kept fp parser mem visited s s1 error hr hlt hp a ?_ ?_
        · intro k1 arg1 hk1 hv1 _
          by_cases hkk : k1 = k
          · subst hkk; exact hh
          · exact (hun.1 k1 arg1 (by simpa using hkk) hk1 hv1).2 s.i
              (List.mem_append_right _ (List.mem_singleton_self _))
        · intro k1 arg1 hk1 hv1 _
          exact (hun.2 k1 arg1 (by simp) hk1 hv1).2
      simp only [List.filter_append, List.filter_cons, List.filter_nil, hh, ne_eq,
        not_true_eq_false, decide_False, Bool.false_eq_true, if_false, List.append_nil]
      exact ⟨fun last hl => by
          change Q last (s1.mem a)
          rw [hu]; exact ih.1 last hl,
        fun hn => by
          change s1.mem a = mem a
          rw [hu]; exact ih.2 hn⟩
    · have hq := hstep visited s s1 error hr hlt hp he hh hun1
      simp only [List.filter_append, List.filter_cons, List.filter_nil, hh, ne_eq,
        not_false_eq_true, decide_True, if_true]
      refine ⟨fun last hl => ?_, fun hn => ?_⟩
      · simp only [List.getLast?_append, List.getLast?_singleton, Option.mem_def] at hl
        have hl' : s.i = last := by
          simpa [Option.or] using hl
        rw [← hl']
        exact hq
      · simp at hn

theorem values_before_last_static (l l1 : List argparse_arg_t) (token : CStr) (k : Nat)
    (h : l1.map argparse_arg_t.static = l.map argparse_arg_t.static) :
    values_before_last l1 token k = values_before_last l token k := by
  unfold values_before_last chars_to_last
  have h1 : (fun c => !decide (flag_finds l1 c k)) = fun c => !decide (flag_finds l c k) := by
    funext c
    simp only [flag_finds_static l l1 c k h]
  have h2 : finds_store l1 = finds_store l := by
    funext c
    exact finds_store_static l l1 c h
  simp only [is_cluster_static l l1 token h, h1, h2]

/-- The last binding of an option by the iteration at a loop head of the scan whose token
hits it, when that token hits no other record bound to the same storage whose action is
not `Count`. -/
theorem reaches_last_binding (fp : FloatOps) (parser : argument_parser_t) (mem : Memory)
    (visited : List Nat) (s s1 : ScanState) (e : argparse_error_t) (k : Nat)
    (arg : argparse_arg_t)
    (hr : Reaches fp parser mem visited s) (hlt : s.i < s.parser.argc_)
    (hp : parse_token fp s = .ok (e, s1)) (he : is_error e = false)
    (hk : parser.options_[k]? = some arg)
    (hh : hits parser.options_ (parser.argv_.getD s.i []) k ≠ 0)
    (hun : others_unset parser (.option k) arg.value_ [s.i]) :
    ∃ st2 arg2 e3 st3 i3,
      st2.parser.static = parser.static ∧
      st2.parser.options_[k]? = some arg2 ∧ arg2.static = arg.static ∧
      get_and_update_value fp st2 (.option k)
          (s.i + values_before_last parser.options_ (parser.argv_.getD s.i []) k)
          (decide (is_cluster parser.options_ (parser.argv_.getD s.i [])) &&
            (arg.action_ != ARGPARSE_STORE_ACTION))
          (decide (resolves_to parser.options_ (parser.argv_.getD s.i []) k true)) =
        .ok (e3, st3, i3) ∧
      is_error e3 = false ∧ s1.mem arg.value_ = st3.mem arg.value_ := by
  obtain ⟨hst, _⟩ := reaches_static fp parser mem visited s hr
  have hargv := static_argv _ _ hst
  have hopts := static_options _ _ hst
  have hv : s.parser.argv_[s.i]? = some (parser.argv_.getD s.i []) := by
    rw [hargv]
    have : s.i < parser.argv_.length := by
      rw [← hargv]; exact hlt
    simp [List.getD_eq_getElem?_getD, List.getElem?_eq_getElem this]
  obtain ⟨arg0, hk0, hs0⟩ := static_getElem s.parser.options_ parser.options_ hopts.symm k arg hk
  obtain ⟨_, ea0, ev0, _⟩ := static_fields _ _ hs0
  obtain ⟨st2, arg2, e3, st3, i3, h1, h2, h3, h4, h5, h6⟩ :=
    parse_token_last_binding fp s s1 e _ k arg0 hp he hv hk0
      (by rw [hits_static _ _ _ _ hopts]; exact hh)
      (by
        intro k1 arg1 hkk hk1 hval hact
        obtain ⟨c0, hc0, hcs⟩ := static_getElem parser.options_ s.parser.options_ hopts k1
          arg1 hk1
        obtain ⟨_, e2, e3, _⟩ := static_fields _ _ hcs
        rw [hits_static _ _ _ _ hopts]
        exact (hun.1 k1 c0 (by simpa using hkk) hc0 (by rw [e3, hval, ev0])).2 s.i
          (List.mem_singleton_self _))
  refine ⟨st2, arg2, e3, st3, i3, h1.trans hst, h2, h3.trans hs0, ?_, h5, ?_⟩
  · have hd1 : decide (is_cluster s.parser.options_ (parser.argv_.getD s.i [])) =
        decide (is_cluster parser.options_ (parser.argv_.getD s.i [])) :=
      decide_eq_decide.2 (is_cluster_static _ _ _ hopts)
    have hd2 : decide (resolves_to s.parser.options_ (parser.argv_.getD s.i []) k true) =
        decide (resolves_to parser.options_ (parser.argv_.getD s.i []) k true) :=
      decide_eq_decide.2 (resolves_to_static_iff _ _ _ _ _ hopts)
    rw [values_before_last_static _ _ _ _ hopts, hd1, hd2, ea0] at h4
    exact h4
  · rw [← ev0]; exact h6

/-- The storage of a `Store` option at a loop head of the scan, when every other record
bound to that storage is unset: it holds the coerced value of the token that the last
binding of the option took, which the choices of the option admit. -/
theorem reaches_store_last (fp : FloatOps) (parser : argument_parser_t) (mem : Memory)
    (visited : List Nat) (s : ScanState) (k : Nat) (arg : argparse_arg_t)
    (hr : Reaches fp parser mem visited s) (hk : parser.options_[k]? = some arg)
    (ha : arg.action_ = ARGPARSE_STORE_ACTION)
    (hun : others_unset parser (.option k) arg.value_ visited) :
    (∀ last ∈ (occurrences parser k visited).getLast?, ∃ value,
      parser.argv_[last +
          values_before_last parser.options_ (parser.argv_.getD last []) k + 1]? =
        some value ∧
      choice_accepts fp arg value ∧ coerce fp arg.type_ value = some (s.mem arg.value_)) ∧
    (occurrences parser k visited = [] → s.mem arg.value_ = mem arg.value_) := by
  refine reaches_last_write fp parser mem k arg.value_
    (fun last v => ∃ value,
      parser.argv_[last +
          values_before_last parser.options_ (parser.argv_.getD last []) k + 1]? =
        some value ∧
      choice_accepts fp arg value ∧ coerce fp arg.type_ value = some v)
    ?_ visited s hr hun
  intro visited0 s0 s1 e hr0 hlt hp he hh hun0
  obtain ⟨st2, arg2, e3, st3, i3, hst2, hk2, hs2, hg, he3, hm⟩ :=
    reaches_last_binding fp parser mem visited0 s0 s1 e k arg hr0 hlt hp he hk hh hun0
  obtain ⟨et, ea, ev, _⟩ := static_fields _ _ hs2
  have hpos : (decide (is_cluster parser.options_ (parser.argv_.getD s0.i [])) &&
      (arg.action_ != ARGPARSE_STORE_ACTION)) = false := by
    rw [ha]; simp
  rw [hpos] at hg
  obtain ⟨value, w, hval, hc, hw, hmem, _, _⟩ := get_and_update_value_store_inv fp st2 st3 _
    _ _ _ _ e3 arg2 hg (by simpa [argument_parser_t.deref] using hk2) (ea.trans ha) he3
  simp only [Bool.false_eq_true, if_false] at hval
  rw [static_argv _ _ hst2] at hval
  refine ⟨value, hval, choice_accepts_static fp arg2 arg value hs2 hc, ?_⟩
  rw [← et, hw, hm, hmem, ← ev]
  simp [Memory.write]

/-- The storage of a `Bool` toggle at a loop head of the scan, when every other record
bound to that storage is unset: it holds false when the last token that hit the toggle
resolved to it as its negated form, and true otherwise. -/
theorem reaches_toggle_last (fp : FloatOps) (parser : argument_parser_t) (mem : Memory)
    (visited : List Nat) (s : ScanState) (k : Nat) (arg : argparse_arg_t)
    (hr : Reaches fp parser mem visited s) (hk : parser.options_[k]? = some arg)
    (ha : arg.action_ = ARGPARSE_BOOLEAN_OPTIONAL_ACTION) (ht : arg.type_ = ARGPARSE_BOOL_TYPE)
    (hun : others_unset parser (.option k) arg.value_ visited) :
    (∀ last ∈ (occurrences parser k visited).getLast?,
      s.mem arg.value_ =
        .bool (!decide (resolves_to parser.options_ (parser.argv_.getD last []) k true))) ∧
    (occurrences parser k visited = [] → s.mem arg.value_ = mem arg.value_) := by
  refine reaches_last_write fp parser mem k arg.value_
    (fun last v =>
      v = .bool (!decide (resolves_to parser.options_ (parser.argv_.getD last []) k true)))
    ?_ visited s hr hun
  intro visited0 s0 s1 e hr0 hlt hp he hh hun0
  obtain ⟨st2, arg2, e3, st3, i3, hst2, hk2, hs2, hg, he3, hm⟩ :=
    reaches_last_binding fp parser mem visited0 s0 s1 e k arg hr0 hlt hp he hk hh hun0
  obtain ⟨et, ea, ev, _⟩ := static_fields _ _ hs2
  rw [(get_and_update_value_bool fp st2 (.option k) _ _ _ arg2
    (by simpa [argument_parser_t.deref] using hk2) (et.trans ht)).2.2 (ea.trans ha)] at hg
  simp only [Comp.ok.injEq, Prod.mk.injEq] at hg
  change s1.mem arg.value_ = _
  rw [hm, ← hg.2.1, ← ev]
  simp [Memory.write]

/-- When every other record bound to the storage of a record whose action is not `Count`
has an action other than `Count`, the storage is that of no `Count` record. -/
theorem others_unset_count_free (parser : argument_parser_t) (ref : ArgRef)
    (arg : argparse_arg_t) (processed : List Nat) (hd : parser.deref ref = some arg)
    (ha : arg.action_ ≠ ARGPARSE_COUNT_ACTION)
    (hun : others_unset parser ref arg.value_ processed) :
    ∀ c ∈ parser.options_ ++ parser.positional_args_,
      c.action_ = ARGPARSE_COUNT_ACTION → c.value_ ≠ arg.value_ := by
  intro c hc hact hval
  rcases List.mem_append.1 hc with hc | hc
  · obtain ⟨k1, hk1⟩ := List.getElem?_of_mem hc
    by_cases hr : ArgRef.option k1 = ref
    · subst hr
      rw [show parser.deref (.option k1) = parser.options_[k1]? from rfl, hk1] at hd
      cases hd
      exact ha hact
    · exact (hun.1 k1 c hr hk1 hval).1 hact
  · obtain ⟨k1, hk1⟩ := List.getElem?_of_mem hc
    by_cases hr : ArgRef.positional k1 = ref
    · subst hr
      rw [show parser.deref (.positional k1) = parser.positional_args_[k1]? from rfl, hk1] at hd
      cases hd
      exact ha hact
    · exact (hun.2 k1 c hr hk1 hval).1 hact

/-! ## The storage of `Count` records and the records that share it -/

/-- A finalisation of a list that returns no error has written, in the order of the
list, the count of every `Count` record into its storage, and nothing else. -/
theorem finalise_list_writes (fp : FloatOps) (l : List argparse_arg_t) :
    ∀ (mem mem1 : Memory) (e : argparse_error_t), finalise_list fp l mem = .ok (e, mem1) →
      is_error e = false → mem1 = count_writes l mem := by
  induction l with
  | nil =>
    intro mem mem1 e h _
    simp only [finalise_list, Comp.ok.injEq, Prod.mk.injEq] at h
    rw [← h.2]
    rfl
  | cons c rest ih =>
    intro mem mem1 e h he
    simp only [finalise_list] at h
    rw [Comp.bind_eq_ok] at h
    obtain ⟨⟨e1, m1⟩, hf, h⟩ := h
    simp only at h
    split at h
    · rename_i herr
      simp only [Comp.ok.injEq, Prod.mk.injEq] at h
      rw [h.1] at herr
      rw [herr] at he
      cases he
    · rename_i hno
      have hm1 : m1 = (if c.action_ = ARGPARSE_COUNT_ACTION then
          mem.write c.value_ (.int c.count_) else mem) := by
        unfold finalise_arg at hf
        split at hf
        · rename_i hact
          rw [if_pos hact]
          exact update_value_count fp c mem m1 c.count_ e1 hf (by simpa using hno)
        · rename_i hact
          rw [if_neg hact]
          split at hf
          · simp only [Comp.ok.injEq, Prod.mk.injEq] at hf
            exact hf.2.symm
          · simp only [Comp.ok.injEq, Prod.mk.injEq] at hf
            exact hf.2.symm
      rw [ih m1 mem1 e h he, hm1]
      rfl

/-- C39 (the storage of `Count` records), as amended.  The tokens classified by the scan
are said to leave an address unwritten when they match no record bound to it whose
action is not `Count`.  (1) At every loop head of the scan an address that the tokens
classified so far leave unwritten holds what it held before the call: the binding of a
`Count` record writes nothing.  (2) When the iteration at a loop head returns an error,
`argparse_parse_args` returns that error and an address that the classified tokens, the
failing one included, leave unwritten still holds what it held before the call; (3) every
call of `argparse_parse_args` that returns an error other than `MissingArgument` and
`IntRangeExceeded` ends in this way.  (4) When `argparse_parse_args` returns
`MissingArgument`, the scan came to the end of the vector and the error names the first
missing record `r` of the options followed by the positionals; the memory is that of the
end of the scan after the writes, in their order, of the counts of the `Count` records
before `r`, and of nothing else; hence a `Count` record before `r` has its count in its
storage unless a `Count` record between it and `r` is bound to the same storage, and an
address that is the storage of no `Count` record before `r` holds what it held at the end
of the scan, which is what it held before the call when the classified tokens leave it
unwritten.  (5) With the `Count` flags `-a` before and `-b` after the required option
`--rate`: `-a -z` stops in the scan with the storage of `-a` unwritten (count 1);
`-a -b` ends with `MissingArgument`, 1 in the storage of `-a` and the storage of `-b`
unwritten (count 1). -/
theorem count_storage_finalisation :
    (∀ (fp : FloatOps) (parser : argument_parser_t) (mem : Memory) (visited : List Nat)
        (s : ScanState) (a : Nat),
      Reaches fp parser mem visited s → unwritten parser a visited → s.mem a = mem a) ∧
    (∀ (fp : FloatOps) (parser : argument_parser_t) (mem : Memory) (visited : List Nat)
        (s s1 : ScanState) (e : argparse_error_t),
      Reaches fp parser mem visited s → s.i < s.parser.argc_ →
      parse_token fp s = .ok (e, s1) → is_error e = true →
      argparse_parse_args fp parser mem = .ok (e, s1.parser, s1.mem) ∧
        ∀ a, unwritten parser a (visited ++ [s.i]) → s1.mem a = mem a) ∧
    (∀ (fp : FloatOps) (parser parser1 : argument_parser_t) (mem mem1 : Memory)
        (error : argparse_error_t),
      argparse_parse_args fp parser mem = .ok (error, parser1, mem1) →
      is_error error = true →
      error.error_val ≠ ARGPARSE_MISSING_ARGUMENT_ERROR →
      error.error_val ≠ ARGPARSE_INT_RANGE_EXCEEDED_ERROR →
      ∃ visited s s1, Reaches fp parser mem visited s ∧ s.i < s.parser.argc_ ∧
        parse_token fp s = .ok (error, s1) ∧ parser1 = s1.parser ∧ mem1 = s1.mem ∧
        ∀ a, unwritten parser a (visited ++ [s.i]) → mem1 a = mem a) ∧
    (∀ (fp : FloatOps) (parser parser1 : argument_parser_t) (mem mem1 : Memory)
        (error : argparse_error_t),
      argparse_parse_args fp parser mem = .ok (error, parser1, mem1) →
      error.error_val = ARGPARSE_MISSING_ARGUMENT_ERROR →
      ∃ visited s k r, Reaches fp parser mem visited s ∧ ¬ s.i < parser.argc_ ∧
        parser1 = s.parser ∧
        (parser1.options_ ++ parser1.positional_args_)[k]? = some r ∧ is_missing r ∧
        error = ARGPARSE_MISSING_ARGUMENT_ERROR_ r.name_ r.flag_ ∧
        (∀ (j : Nat) (c : argparse_arg_t), j < k →
          (parser1.options_ ++ parser1.positional_args_)[j]? = some c → ¬ is_missing c) ∧
        mem1 = count_writes ((parser1.options_ ++ parser1.positional_args_).take k) s.mem ∧
        (∀ (j : Nat) (c : argparse_arg_t), j < k →
          (parser1.options_ ++ parser1.positional_args_)[j]? = some c →
          c.action_ = ARGPARSE_COUNT_ACTION →
          (∀ (j1 : Nat) (c1 : argparse_arg_t), j < j1 → j1 < k →
            (parser1.options_ ++ parser1.positional_args_)[j1]? = some c1 →
            c1.action_ = ARGPARSE_COUNT_ACTION → c1.value_ ≠ c.value_) →
          mem1 c.value_ = .int c.count_) ∧
        (∀ a,
          (∀ (j : Nat) (c : argparse_arg_t), j < k →
            (parser1.options_ ++ parser1.positional_args_)[j]? = some c →
            c.action_ = ARGPARSE_COUNT_ACTION → c.value_ ≠ a) →
          mem1 a = s.mem a ∧ (unwritten parser a visited → mem1 a = mem a))) ∧
    (argparse_parse_args sample_float_ops (sample_setup ["-a", "-z"] count_rate_count [])
        sample_memory =
      .ok (ARGPARSE_ARGUMENT_UNKNOWN_ERROR_ (some "-z".toList),
        sample_setup ["-a", "-z"]
          [{ ARGPARSE_COUNT 'a' (some "--alpha".toList) 1 none with count_ := 1 },
           ARGPARSE_OPTION_REQUIRED ARGPARSE_INT_TYPE 'r' (some "--rate".toList) 2 none,
           ARGPARSE_COUNT 'b' (some "--beta".toList) 3 none] [],
        sample_memory) ∧
    argparse_parse_args sample_float_ops (sample_setup ["-a", "-b"] count_rate_count [])
        sample_memory =
      .ok (ARGPARSE_MISSING_ARGUMENT_ERROR_ (some "--rate".toList) 'r',
        sample_setup ["-a", "-b"]
          [{ ARGPARSE_COUNT 'a' (some "--alpha".toList) 1 none with count_ := 1 },
           ARGPARSE_OPTION_REQUIRED ARGPARSE_INT_TYPE 'r' (some "--rate".toList) 2 none,
           { ARGPARSE_COUNT 'b' (some "--beta".toList) 3 none with count_ := 1 }] [],
        sample_memory.write 1 (.int 1))) := by
  have stop : ∀ (fp : FloatOps) (parser : argument_parser_t) (mem : Memory)
      (visited : List Nat) (s s1 : ScanState) (e : argparse_error_t),
      Reaches fp parser mem visited s → s.i < s.parser.argc_ →
      parse_token fp s = .ok (e, s1) → is_error e = true →
      argparse_parse_args fp parser mem = .ok (e, s1.parser, s1.mem) ∧
        ∀ a, unwritten parser a (visited ++ [s.i]) → s1.mem a = mem a := by
    intro fp parser mem visited s s1 e hr hlt hp he
    refine ⟨reaches_error fp parser mem visited s s1 e hr hlt hp he, ?_⟩
    intro a hun
    rw [reaches_step_kept fp parser mem visited s s1 e hr hlt hp a hun]
    exact reaches_unwritten fp parser mem visited s hr a (unwritten_init parser a _ _ hun)
  refine ⟨fun fp parser mem visited s a hr hun =>
    reaches_unwritten fp parser mem visited s hr a hun, stop, ?_, ?_, count_storage_runs⟩
  · intro fp parser parser1 mem mem1 error h he hne1 hne2
    obtain ⟨processed, ho⟩ := outcome_complete fp parser parser1 mem mem1 error h
    cases ho with
    | @finished visited s _ _ hr hend hf =>
      rw [finalise_eq_list] at hf
      rcases finalise_list_error_val fp _ _ _ _ hf he with h1 | h1
      · exact absurd h1 hne1
      · exact absurd h1 hne2
    | @stopped visited s s1 _ hr hlt hp he1 =>
      exact ⟨visited, s, s1, hr, hlt, hp, rfl, rfl,
        (stop fp parser mem visited s s1 error hr hlt hp he1).2⟩
  · intro fp parser parser1 mem mem1 error h he
    obtain ⟨visited, s, hr, hend, hp1, hf⟩ := parse_args_missing_trace fp parser parser1 mem
      mem1 error h he
    subst hp1
    rw [finalise_eq_list] at hf
    obtain ⟨k2, r2, hk2, hm2, hern2, hfin, hklt⟩ := finalise_list_stops fp error he _ _ _ hf
    have hbefore : ∀ a,
        (∀ (j : Nat) (c : argparse_arg_t), j < k2 →
          (s.parser.options_ ++ s.parser.positional_args_)[j]? = some c →
          c.action_ = ARGPARSE_COUNT_ACTION → c.value_ ≠ a) →
        mem1 a = s.mem a := by
      intro a hb
      refine finalise_list_frame fp a _ _ _ _ hfin ?_
      intro c hin hact
      obtain ⟨j, hj, hcj⟩ := List.getElem_of_mem hin
      rw [List.length_take] at hj
      rw [List.getElem_take] at hcj
      have hjk : j < k2 := by omega
      refine hb j c hjk ?_ hact
      rw [List.getElem?_eq_getElem (by omega), hcj]
    refine ⟨visited, s, k2, r2, hr, hend, rfl, hk2, hm2, hern2, hklt,
      finalise_list_writes fp _ _ _ _ hfin rfl, ?_, ?_⟩
    · intro j c hj hjc hact hlater
      refine finalise_list_count fp _ _ _ _ hfin rfl j c ?_ hact ?_
      · rw [List.getElem?_take_of_lt hj]; exact hjc
      · intro j1 c1 hjj hj1 hact1
        by_cases hlt : j1 < k2
        · rw [List.getElem?_take_of_lt hlt] at hj1
          exact hlater j1 c1 hjj hlt hj1 hact1
        · rw [List.getElem?_eq_none (by
            rw [List.length_take]; omega)] at hj1
          cases hj1
    · intro a hb
      refine ⟨hbefore a hb, fun hun => ?_⟩
      rw [hbefore a hb]
      exact reaches_unwritten fp parser mem visited s hr a hun

/-- The theorem at the second loop head of the run `-x 5 -z` with the option `-x` stored
at 2 and the `Count` flag `-c` stored at 1: the iteration for `-z` returns
`ArgumentUnknown`; the classified tokens leave the storage of `-c` unwritten, and it
holds what it held before the call. -/
theorem count_storage_finalisation_witness :
    unwritten (sample_setup ["-x", "5", "-z"] value_and_count []) 1 ([] ++ [0] ++ [2]) ∧
    (sample_memory.write 2 (.int 5)) 1 = sample_memory 1 :=
  ⟨by decide,
    (count_storage_finalisation.2.1 sample_float_ops
      (sample_setup ["-x", "5", "-z"] value_and_count []) sample_memory ([] ++ [0])
      { (⟨sample_setup ["-x", "5", "-z"]
            [{ ARGPARSE_OPTION ARGPARSE_INT_TYPE 'x' (some "--value1".toList) 2 none with
                count_ := 1 },
             ARGPARSE_COUNT 'c' (some "--count".toList) 1 none] [],
          sample_memory.write 2 (.int 5), 1, 0⟩ : ScanState) with i := 1 + 1 }
      ⟨sample_setup ["-x", "5", "-z"]
          [{ ARGPARSE_OPTION ARGPARSE_INT_TYPE 'x' (some "--value1".toList) 2 none with
              count_ := 1 },
           ARGPARSE_COUNT 'c' (some "--count".toList) 1 none] [],
        sample_memory.write 2 (.int 5), 2, 0⟩
      (ARGPARSE_ARGUMENT_UNKNOWN_ERROR_ (some "-z".toList))
      (@Reaches.next sample_float_ops (sample_setup ["-x", "5", "-z"] value_and_count [])
        sample_memory []
        ⟨sample_setup ["-x", "5", "-z"] value_and_count [], sample_memory, 0, 0⟩
        ⟨sample_setup ["-x", "5", "-z"]
            [{ ARGPARSE_OPTION ARGPARSE_INT_TYPE 'x' (some "--value1".toList) 2 none with
                count_ := 1 },
             ARGPARSE_COUNT 'c' (some "--count".toList) 1 none] [],
          sample_memory.write 2 (.int 5), 1, 0⟩
        ARGPARSE_NO_ERROR_ Reaches.start (by decide) rfl rfl)
      (by decide) rfl rfl).2 1 (by decide)⟩

/-- C39, the claim as stated fails.  (a) With the `Store` option `-x` and the `Count`
flag `-c` bound to the same `int` (the registration accepts the two records), the parse
of `-x 5 -z` fails during the scan, with `ArgumentUnknown` for `-z`, and the storage of
the `Count` record, 9999 before the call, holds 5.  (b) With the `Count` flag `-a`
registered before the required option `--rate` and the `Count` flag `-b` after it, both
bound to the same `int`, the parse of `-a` returns `MissingArgument` for `--rate`, and the
storage of `-b`, 9999 before the call, holds 1.  (c) With both `Count` flags registered
before `--rate`, the same parse leaves 0 in the storage of `-a`, whose count is 1. -/
theorem count_storage_finalisation_counterexample :
    (argparse_add_arguments empty_registry value_and_count_shared =
      .ok (ARGPARSE_NO_ERROR_, { empty_registry with options_ := value_and_count_shared }) ∧
    argparse_parse_args sample_float_ops
        (sample_setup ["-x", "5", "-z"] value_and_count_shared []) sample_memory =
      .ok (ARGPARSE_ARGUMENT_UNKNOWN_ERROR_ (some "-z".toList),
        sample_setup ["-x", "5", "-z"]
          [{ ARGPARSE_OPTION ARGPARSE_INT_TYPE 'x' (some "--value1".toList) 1 none with
              count_ := 1 },
           ARGPARSE_COUNT 'c' (some "--count".toList) 1 none] [],
        sample_memory.write 1 (.int 5)) ∧
    (ARGPARSE_COUNT 'c' (some "--count".toList) 1 none).value_ = 1 ∧
    sample_memory 1 = .int 9999 ∧ (sample_memory.write 1 (.int 5)) 1 = .int 5) ∧
    (argparse_add_arguments empty_registry count_rate_count_shared =
      .ok (ARGPARSE_NO_ERROR_, { empty_registry with options_ := count_rate_count_shared }) ∧
    argparse_parse_args sample_float_ops
        (sample_setup ["-a"] count_rate_count_shared []) sample_memory =
      .ok (ARGPARSE_MISSING_ARGUMENT_ERROR_ (some "--rate".toList) 'r',
        sample_setup ["-a"]
          [{ ARGPARSE_COUNT 'a' (some "--alpha".toList) 1 none with count_ := 1 },
           ARGPARSE_OPTION_REQUIRED ARGPARSE_INT_TYPE 'r' (some "--rate".toList) 2 none,
           ARGPARSE_COUNT 'b' (some "--beta".toList) 1 none] [],
        sample_memory.write 1 (.int 1)) ∧
    (ARGPARSE_COUNT 'b' (some "--beta".toList) 1 none).value_ = 1 ∧
    (sample_memory.write 1 (.int 1)) 1 = .int 1) ∧
    (argparse_add_arguments empty_registry count_count_rate_shared =
      .ok (ARGPARSE_NO_ERROR_, { empty_registry with options_ := count_count_rate_shared }) ∧
    argparse_parse_args sample_float_ops
        (sample_setup ["-a"] count_count_rate_shared []) sample_memory =
      .ok (ARGPARSE_MISSING_ARGUMENT_ERROR_ (some "--rate".toList) 'r',
        sample_setup ["-a"]
          [{ ARGPARSE_COUNT 'a' (some "--alpha".toList) 1 none with count_ := 1 },
           ARGPARSE_COUNT 'b' (some "--beta".toList) 1 none,
           ARGPARSE_OPTION_REQUIRED ARGPARSE_INT_TYPE 'r' (some "--rate".toList) 2 none] [],
        (sample_memory.write 1 (.int 1)).write 1 (.int 0)) ∧
    ((sample_memory.write 1 (.int 1)).write 1 (.int 0)) 1 = .int 0) :=
  ⟨⟨rfl, rfl, rfl, rfl, rfl⟩, ⟨rfl, rfl, rfl, rfl⟩, ⟨rfl, rfl, rfl⟩⟩

/-! ## The last occurrence of a `Store` option -/

/-- A token that resolves to an option hits it once, and its binding has no value token
before it. -/
theorem resolves_hits_once (options : List argparse_arg_t) (token : CStr) (k : Nat)
    (negated : Bool) (h : resolves_to options token k negated) :
    hits options token k = 1 ∧ values_before_last options token k = 0 := by
  constructor
  · unfold hits
    rw [if_pos]
    cases negated with
    | false => exact Or.inl h
    | true => exact Or.inr h
  · unfold values_before_last
    rw [if_neg (resolves_not_cluster _ _ _ _ h)]

/-- Runs of the test `store_multi_int_override`, and of an option that occurs as a token
and as a character of a cluster. -/
theorem store_override_runs :
    (∃ parser1 mem1,
      argparse_parse_args sample_float_ops override_setup sample_memory
        = .ok (ARGPARSE_NO_ERROR_, parser1, mem1) ∧
      mem1 1 = .int 52 ∧ mem1 2 = .int 42 ∧ mem1 3 = .int 111 ∧
      parser1.options_.map argparse_arg_t.count_ = [1, 1, 2]) ∧
    (∃ parser1 mem1,
      argparse_parse_args sample_float_ops
          (sample_setup ["-b", "1", "-ab", "3"] apple_banana_carrot []) sample_memory
        = .ok (ARGPARSE_NO_ERROR_, parser1, mem1) ∧
      mem1 1 = .bool true ∧ mem1 2 = .int 3 ∧
      parser1.options_.map argparse_arg_t.count_ = [1, 2, 0]) :=
  ⟨⟨_, _, rfl, rfl, rfl, rfl, rfl⟩, ⟨_, _, rfl, rfl, rfl, rfl⟩⟩

/-- A record that alone is bound to an address: the provision on the other records bound
to it holds of any list of tokens. -/
theorem others_unset_of_sole (parser : argument_parser_t) (ref : ArgRef) (a : Nat)
    (processed : List Nat)
    (h : ∀ (ref1 : ArgRef) (arg2 : argparse_arg_t), parser.deref ref1 = some arg2 →
      arg2.value_ = a → ref1 = ref) :
    others_unset parser ref a processed :=
  ⟨fun k arg hr hk hv => absurd (h (.option k) arg hk hv) hr,
    fun k arg hr hk hv => absurd (h (.positional k) arg hk hv) hr⟩

/-- The storage of a record whose count the scan has not raised, when every other record
bound to that storage is unset: at a loop head of the scan it holds what it held before
the call. -/
theorem reaches_unset_kept (fp : FloatOps) (parser : argument_parser_t) (mem : Memory)
    (visited : List Nat) (s : ScanState) (ref : ArgRef) (arg arg1 : argparse_arg_t)
    (hr : Reaches fp parser mem visited s)
    (hd : parser.deref ref = some arg) (hd1 : s.parser.deref ref = some arg1)
    (hc : arg1.count_ ≤ arg.count_)
    (hun : others_unset parser ref arg.value_ visited) :
    s.mem arg.value_ = mem arg.value_ := by
  by_contra hne
  obtain ⟨_, _, hfoot⟩ := reaches_bound fp parser mem visited s hr
  obtain ⟨ref1, a0, a1, h0, h1, hv, hlt⟩ := hfoot arg.value_ hne
  by_cases hrr : ref1 = ref
  · subst hrr
    rw [hd] at h0
    rw [hd1] at h1
    cases h0; cases h1
    exact absurd hc (not_le.mpr hlt)
  · cases ref1 with
    | option k =>
      have hz := (hun.1 k a0 hrr h0 hv).2
      have hcnt := reaches_counts fp parser mem visited s hr k a0 h0
      have hsum : ((visited.map fun j => hits parser.options_ (parser.argv_.getD j []) k).sum
          : Nat) = 0 := by
        apply List.sum_eq_zero
        intro x hx
        obtain ⟨j, hj, rfl⟩ := List.mem_map.1 hx
        exact hz j hj
      rw [show s.parser.deref (.option k) = s.parser.options_[k]? from rfl, hcnt, hsum] at h1
      simp only [Nat.cast_zero, add_zero, Option.some.injEq] at h1
      rw [← h1] at hlt
      exact lt_irrefl _ hlt
    | positional k =>
      have hz := (hun.2 k a0 hrr h0 hv).2
      have := reaches_positional_unhit fp parser mem visited s hr k hz
      rw [show s.parser.deref (.positional k) = s.parser.positional_args_[k]? from rfl, this,
        show parser.positional_args_[k]? = parser.deref (.positional k) from rfl, h0] at h1
      cases h1
      exact lt_irrefl _ hlt

/-- A record that the lookup of a name after a prefix finds bears the prefix followed by
the name. -/
theorem find_arg_from_found_name (n p : CStr) (l : List argparse_arg_t) :
    ∀ (i j : Nat), find_arg_from (NAME_TO_FIND n (some p)) l i = .ok (some j) →
      i ≤ j ∧ ∃ a cn, l[j - i]? = some a ∧ a.name_ = some cn ∧
        starts_with cn p = true ∧ n = cn.drop p.length := by
  induction l with
  | nil => intro i j h; simp [find_arg_from] at h
  | cons a rest ih =>
    intro i j h
    simp only [find_arg_from] at h
    cases hname : a.name_ with
    | none => rw [hname] at h; cases h
    | some cn =>
      rw [hname] at h
      simp only at h
      split at h
      · rename_i hc
        simp only [Comp.ok.injEq, Option.some.injEq] at h
        subst h
        simp only [Bool.and_eq_true, beq_iff_eq] at hc
        exact ⟨le_refl _, a, cn, by simp, hname, hc.1, hc.2⟩
      · obtain ⟨hle, a1, cn1, h2, h3, h4⟩ := ih (i + 1) j h
        refine ⟨by omega, a1, cn1, ?_, h3, h4⟩
        have : j - i = (j - (i + 1)) + 1 := by omega
        rw [this, List.getElem?_cons_succ]
        exact h2

/-- A token that resolves to the record named `--S` with `negated` set is the token
`--no-S`. -/
theorem resolves_true_name (options : List argparse_arg_t) (token : CStr) (k : Nat)
    (arg : argparse_arg_t) (S : CStr) (hk : options[k]? = some arg)
    (hn : arg.name_ = some ("--".toList ++ S)) (h : resolves_to options token k true) :
    token = "--no-".toList ++ S := by
  obtain ⟨_, _, _, ⟨_, hneg, _⟩ | ⟨_, hf⟩⟩ := h
  · cases hneg
  · unfold find_long at hf
    rw [Comp.bind_eq_ok] at hf
    obtain ⟨arg1, hfirst, hf⟩ := hf
    split at hf
    · simp only [Comp.ok.injEq, Prod.mk.injEq, and_true] at hf
      subst hf
      split at hfirst
      · rename_i hsw
        unfold find_arg at hfirst
        obtain ⟨_, a, cn, h1, h2, h3, h4⟩ := find_arg_from_found_name _ _ _ _ _ hfirst
        simp only [Nat.sub_zero] at h1
        rw [hk] at h1
        cases h1
        rw [hn] at h2
        cases h2
        have hd : token.drop 5 = S := by simpa using h4
        have := List.prefix_iff_eq_append.1 (List.isPrefixOf_iff_prefix.1 hsw)
        rw [← this]
        simp only [String.toList, List.length_cons, List.length_nil] at *
        rw [hd]
      · cases hfirst
    · rw [Comp.bind_eq_ok] at hf
      obtain ⟨arg2, _, hf⟩ := hf
      simp at hf

/-- A registry with the toggle `-v` / `--verbose` and, registered after it, an option
that has a flag alone. -/
theorem toggle_and_flag_reachable :
    Registry { empty_registry with options_ := [verbose_toggle, flag_x_option] } :=
  Registry.add_arguments [verbose_toggle, flag_x_option]
    (Registry.init ["./prog".toList, []] none none)
    (rfl : argparse_add_arguments empty_registry [verbose_toggle, flag_x_option] =
      .ok (ARGPARSE_NO_ERROR_,
        { empty_registry with options_ := [verbose_toggle, flag_x_option] }))

/-- Runs of the test `toggle_on_off_on`, of the tokens of a toggle in a registry that
also holds an option with a flag alone, and of the flag token after the negated
token. -/
theorem boolean_toggle_runs :
    (∃ parser1 mem1,
      argparse_parse_args sample_float_ops
        (sample_setup ["--verbose", "--no-verbose", "--verbose"] [verbose_toggle] [])
        sample_memory = .ok (ARGPARSE_NO_ERROR_, parser1, mem1) ∧
      mem1 1 = .bool true ∧ parser1.options_.map argparse_arg_t.count_ = [3]) ∧
    (∃ parser1 mem1,
      argparse_parse_args sample_float_ops
        (sample_setup ["--verbose", "--no-verbose"] [verbose_toggle, flag_x_option] [])
        sample_bool_memory = .ok (ARGPARSE_NO_ERROR_, parser1, mem1) ∧
      mem1 1 = .bool false ∧ parser1.options_.map argparse_arg_t.count_ = [2, 0]) ∧
    (∃ parser1 mem1,
      argparse_parse_args sample_float_ops
        (sample_setup ["--no-verbose", "-v"] [verbose_toggle] [])
        sample_bool_memory = .ok (ARGPARSE_NO_ERROR_, parser1, mem1) ∧
      mem1 1 = .bool true ∧ parser1.options_.map argparse_arg_t.count_ = [2]) :=
  ⟨⟨_, _, rfl, rfl, rfl⟩, ⟨_, _, rfl, rfl, rfl⟩, ⟨_, _, rfl, rfl, rfl⟩⟩

/-- C8, the claim as stated fails: two `Count` options `-a` and `-b` bound to one `int`
are accepted by the registration, and the vector `-a -a -b` is parsed with no
error, the counts of the two records being 2 and 1; the `int` then holds 1, the count of
the option registered last, and not 2, the count of the first. -/
theorem count_action_counterexample :
    argparse_add_arguments empty_registry shared_counts =
      .ok (ARGPARSE_NO_ERROR_, { empty_registry with options_ := shared_counts }) ∧
    ∃ parser1 mem1 first,
      argparse_parse_args sample_float_ops (sample_setup ["-a", "-a", "-b"] shared_counts [])
        sample_memory = .ok (ARGPARSE_NO_ERROR_, parser1, mem1) ∧
      parser1.options_.map argparse_arg_t.count_ = [2, 1] ∧
      parser1.options_[0]? = some first ∧
      first.action_ = ARGPARSE_COUNT_ACTION ∧
      mem1 first.value_ = .int 1 ∧ mem1 first.value_ ≠ .int first.count_ :=
  ⟨rfl, _, _, _, rfl, rfl, rfl, rfl, rfl, by decide⟩
/-! ## Clusters of toggles, and the options registered by their flag alone -/

/-- C9 (grouped boolean flags).  (1) At any state of the scan whose options all have a
name, for a token `-` followed by two or more characters that is not `--help` and matches
no option name (it is the name of no option and not the negated form of a toggle), where
every character is the flag by which `find_arg` finds a `BooleanOptional` record of type
`Bool`: the iteration returns no error and consumes no further token; the count of every
option grows by the number of characters of the cluster that find it, which for the
record of a character `c` of the cluster is the number of occurrences of `c`; the
storage of each of these records holds true, and every other address is unchanged.
(2) `-abc` (and `-ab`) with distinct toggles gives each count 1 and each storage true.
(3) The defect: with two toggles registered by their flags `a` and `b` alone (the
registration accepts the two records, and `find_arg` finds each by its flag), the lookup
of the token `-ab` as a name compares it with the absent name of the first record, before
the token is read as a cluster. -/
theorem grouped_boolean_flags :
    (∀ (fp : FloatOps) (s : ScanState) (cs : List Char),
      s.parser.argv_[s.i]? = some ('-' :: cs) → 2 ≤ cs.length →
      '-' :: cs ≠ "--help".toList →
      all_named s.parser.options_ →
      (∀ arg ∈ s.parser.options_, arg.name_ ≠ some ('-' :: cs)) →
      ¬ negates_toggle s.parser.options_ ('-' :: cs) →
      (∀ c ∈ cs, ∃ k arg, flag_finds s.parser.options_ c k ∧
        s.parser.options_[k]? = some arg ∧
        arg.action_ = ARGPARSE_BOOLEAN_OPTIONAL_ACTION ∧ arg.type_ = ARGPARSE_BOOL_TYPE) →
      ∃ s1, parse_token fp s = .ok (ARGPARSE_NO_ERROR_, s1) ∧ s1.i = s.i ∧
        s1.positional_i = s.positional_i ∧
        s1.parser.positional_args_ = s.parser.positional_args_ ∧
        (∀ (k : Nat) (arg : argparse_arg_t), s.parser.options_[k]? = some arg →
          s1.parser.options_[k]? = some { arg with
            count_ := arg.count_ + (cs.countP fun c => flag_finds s.parser.options_ c k) }) ∧
        (∀ c ∈ cs, ∀ (k : Nat) (arg : argparse_arg_t), flag_finds s.parser.options_ c k →
          s.parser.options_[k]? = some arg →
          s1.parser.options_[k]? = some { arg with count_ := arg.count_ + cs.count c } ∧
          s1.mem arg.value_ = .bool true) ∧
        (∀ a, (∀ c ∈ cs, ∀ (k : Nat) (arg : argparse_arg_t),
            flag_finds s.parser.options_ c k → s.parser.options_[k]? = some arg →
            arg.value_ ≠ a) → s1.mem a = s.mem a)) ∧
    (∃ parser1 mem1,
      argparse_parse_args sample_float_ops (sample_setup ["-abc"] fruit_toggles [])
        sample_bool_memory = .ok (ARGPARSE_NO_ERROR_, parser1, mem1) ∧
      mem1 1 = .bool true ∧ mem1 2 = .bool true ∧ mem1 3 = .bool true ∧
      parser1.options_.map argparse_arg_t.count_ = [1, 1, 1]) ∧
    (∃ parser1 mem1,
      argparse_parse_args sample_float_ops (sample_setup ["-ab"] fruit_toggles [])
        sample_bool_memory = .ok (ARGPARSE_NO_ERROR_, parser1, mem1) ∧
      mem1 1 = .bool true ∧ mem1 2 = .bool true ∧ mem1 3 = .bool false ∧
      parser1.options_.map argparse_arg_t.count_ = [1, 1, 0]) ∧
    (argparse_add_arguments empty_registry flag_only_toggles =
      .ok (ARGPARSE_NO_ERROR_, { empty_registry with options_ := flag_only_toggles }) ∧
    flag_finds flag_only_toggles 'a' 0 ∧ flag_finds flag_only_toggles 'b' 1 ∧
    argparse_parse_args sample_float_ops (sample_setup ["-ab"] flag_only_toggles [])
        sample_bool_memory = .undef) := by
  refine ⟨?_, ⟨_, _, rfl, rfl, rfl, rfl, rfl⟩, ⟨_, _, rfl, rfl, rfl, rfl, rfl⟩,
    rfl, by decide, by decide, rfl⟩
  intro fp s cs hv hlen hhelp hnamed hno hneg hall
  have hf := find_long_unmatched s.parser.options_ ('-' :: cs) hnamed hno hneg
  obtain ⟨st1, hloop, _, h2, h3, h4, h5⟩ := group_loop_simple fp ('-' :: cs) cs s.st s.i
    (fun c hc => by
      obtain ⟨k, arg, hfk, hk, ha, ht⟩ := hall c hc
      exact ⟨k, arg, hfk, hk, Or.inl ⟨ha, ht⟩⟩)
  have hnc : ∀ c ∈ cs, ∀ (k : Nat) (arg : argparse_arg_t), flag_finds s.parser.options_ c k →
      s.parser.options_[k]? = some arg → arg.action_ ≠ ARGPARSE_COUNT_ACTION := by
    intro c hc k arg hfk hk
    obtain ⟨k1, arg1, hfk1, hk1, ha, _⟩ := hall c hc
    have : k1 = k := by
      unfold flag_finds at hfk hfk1
      rw [hfk] at hfk1
      simp at hfk1
      exact hfk1.symm
    subst this
    rw [hk] at hk1
    cases hk1
    rw [ha]; decide
  refine ⟨s.update st1 s.i, ?_, rfl, rfl, h2, h3, ?_, ?_⟩
  · rw [parse_token_cluster fp s cs false hv (by omega) hhelp hf, hloop]
    rfl
  · intro c hc k arg hfk hk
    refine ⟨?_, h4 c hc k arg hfk hk (hnc c hc k arg hfk hk)⟩
    have := h3 k arg hk
    simp only [ScanState.st] at this
    rw [countP_flag_finds _ cs c k hfk] at this
    exact this
  · intro a hfree
    exact h5 a (fun c hc k arg hfk hk _ => hfree c hc k arg hfk hk)

/-- The cluster statement at the token `-abc` with the three toggles of the test
`count_multi_grouped_diff`. -/
theorem grouped_boolean_flags_witness :
    ∃ s1, parse_token sample_float_ops
        ⟨sample_setup ["-abc"] fruit_toggles [], sample_bool_memory, 0, 0⟩ =
        .ok (ARGPARSE_NO_ERROR_, s1) ∧ s1.i = 0 ∧ s1.positional_i = 0 ∧
      s1.parser.positional_args_ = [] ∧
      (∀ (k : Nat) (arg : argparse_arg_t), fruit_toggles[k]? = some arg →
        s1.parser.options_[k]? = some { arg with
          count_ := arg.count_ +
            ("abc".toList.countP fun c => flag_finds fruit_toggles c k) }) ∧
      (∀ c ∈ "abc".toList, ∀ (k : Nat) (arg : argparse_arg_t), flag_finds fruit_toggles c k →
        fruit_toggles[k]? = some arg →
        s1.parser.options_[k]? = some { arg with count_ := arg.count_ + "abc".toList.count c } ∧
        s1.mem arg.value_ = .bool true) ∧
      (∀ a, (∀ c ∈ "abc".toList, ∀ (k : Nat) (arg : argparse_arg_t),
          flag_finds fruit_toggles c k → fruit_toggles[k]? = some arg → arg.value_ ≠ a) →
        s1.mem a = sample_bool_memory a) :=
  grouped_boolean_flags.1 sample_float_ops
    ⟨sample_setup ["-abc"] fruit_toggles [], sample_bool_memory, 0, 0⟩ "abc".toList
    rfl (by decide) (by decide) (by decide) (by decide) (by decide)
    (by
      intro c hc
      simp only [String.toList, List.mem_cons, List.mem_singleton, List.not_mem_nil,
        or_false] at hc
      rcases hc with rfl | rfl | rfl
      · exact ⟨0, _, by decide, rfl, rfl, rfl⟩
      · exact ⟨1, _, by decide, rfl, rfl, rfl⟩
      · exact ⟨2, _, by decide, rfl, rfl, rfl⟩)
/-! ## The negated form of a toggle, and the options registered by their flag alone -/

/-- C31 (negated-toggle precedence).  (1) For every suffix `S`, when the options all have
a name and the first option named `--S` is a `BooleanOptional` record, the token `--no-S`
resolves to it with `negated` set, whatever other options are registered, one literally
named `--no-S` included; (2) the iteration for the token then writes false to the
storage of that record (of type `Bool`), adds 1 to its count and leaves `i` on the
token; (3) in a registry built by registration calls, whatever options are registered by
their flag alone, the token `--no-S` resolves with `negated` set to the `BooleanOptional`
record named `--S`: the options with a name come first, and the lookup returns at the
record; (4) when the options all have a name and no option named `--S` has action
`BooleanOptional`, the token `--no-S` resolves to the first option named `--no-S`, with
`negated` clear; (5) the test `toggle_off`, the same token with an option named
`--no-verbose` registered before the toggle `--verbose` (the toggle is written, the other
option is not touched), and with `--verbose` a `StoreTrue` option (the option named
`--no-verbose` is bound); (6) the defect: with the option named `--no-verbose` and an
option registered by its flag alone (the registration accepts the two records), no
toggle named `--verbose` exists, and the lookup of the token `--no-verbose` compares a
name with the absent name of the second record, where the same token against the first
record alone is bound to it. -/
theorem negated_toggle_precedence :
    (∀ (options : List argparse_arg_t) (S : CStr) (k : Nat) (arg : argparse_arg_t),
      all_named options → first_named options ("--".toList ++ S) k →
      options[k]? = some arg → arg.action_ = ARGPARSE_BOOLEAN_OPTIONAL_ACTION →
      resolves_to options ("--no-".toList ++ S) k true) ∧
    (∀ (fp : FloatOps) (s : ScanState) (S : CStr) (k : Nat) (arg : argparse_arg_t),
      s.parser.argv_[s.i]? = some ("--no-".toList ++ S) →
      all_named s.parser.options_ → first_named s.parser.options_ ("--".toList ++ S) k →
      s.parser.options_[k]? = some arg →
      arg.action_ = ARGPARSE_BOOLEAN_OPTIONAL_ACTION → arg.type_ = ARGPARSE_BOOL_TYPE →
      parse_token fp s = .ok (ARGPARSE_NO_ERROR_,
        { parser := { s.parser with
            options_ := s.parser.options_.set k { arg with count_ := arg.count_ + 1 } },
          mem := s.mem.write arg.value_ (.bool false), i := s.i,
          positional_i := s.positional_i })) ∧
    (∀ (parser : argument_parser_t) (S : CStr) (k : Nat) (arg : argparse_arg_t),
      Registry parser →
      parser.options_[k]? = some arg → arg.name_ = some ("--".toList ++ S) →
      arg.action_ = ARGPARSE_BOOLEAN_OPTIONAL_ACTION →
      resolves_to parser.options_ ("--no-".toList ++ S) k true) ∧
    (∀ (options : List argparse_arg_t) (S : CStr) (j : Nat),
      all_named options →
      (∀ arg ∈ options, arg.name_ = some ("--".toList ++ S) →
        arg.action_ ≠ ARGPARSE_BOOLEAN_OPTIONAL_ACTION) →
      first_named options ("--no-".toList ++ S) j →
      resolves_to options ("--no-".toList ++ S) j false) ∧
    (argparse_parse_args sample_float_ops
        (sample_setup ["--no-verbose"] [verbose_toggle] []) sample_true_memory =
      .ok (ARGPARSE_NO_ERROR_,
        sample_setup ["--no-verbose"] [{ verbose_toggle with count_ := 1 }] [],
        sample_true_memory.write 1 (.bool false)) ∧
    argparse_parse_args sample_float_ops
        (sample_setup ["--no-verbose"] [no_verbose_flag, verbose_toggle] [])
        sample_true_memory =
      .ok (ARGPARSE_NO_ERROR_,
        sample_setup ["--no-verbose"]
          [no_verbose_flag, { verbose_toggle with count_ := 1 }] [],
        sample_true_memory.write 1 (.bool false)) ∧
    argparse_parse_args sample_float_ops
        (sample_setup ["--no-verbose"] [verbose_flag, no_verbose_flag] [])
        sample_true_memory =
      .ok (ARGPARSE_NO_ERROR_,
        sample_setup ["--no-verbose"]
          [verbose_flag, { no_verbose_flag with count_ := 1 }] [],
        sample_true_memory.write 2 (.bool false))) ∧
    (argparse_add_arguments empty_registry [no_verbose_flag, flag_x_option] =
      .ok (ARGPARSE_NO_ERROR_,
        { empty_registry with options_ := [no_verbose_flag, flag_x_option] }) ∧
    argparse_parse_args sample_float_ops
        (sample_setup ["--no-verbose"] [no_verbose_flag, flag_x_option] [])
        sample_true_memory = .undef ∧
    argparse_parse_args sample_float_ops
        (sample_setup ["--no-verbose"] [no_verbose_flag] []) sample_true_memory =
      .ok (ARGPARSE_NO_ERROR_,
        sample_setup ["--no-verbose"] [{ no_verbose_flag with count_ := 1 }] [],
        sample_true_memory.write 2 (.bool false))) := by
  refine ⟨negated_resolves, ?_, ?_, negated_literal_resolves, negated_toggle_runs,
    rfl, rfl, rfl⟩
  · intro fp s S k arg hv hall hf hk ha ht
    rw [parse_token_toggle fp s _ k true arg hv (negated_resolves _ S k arg hall hf hk ha)
      hk ha ht]
    simp [run_step, run_memory]
  · intro parser S k arg hreg hk hn ha
    exact registry_negated_resolves parser hreg k arg S hk hn ha

/-- The theorem at the registry that holds the toggle `--verbose` and, registered after
it, an option that has a flag alone: the token `--no-verbose` resolves to the toggle. -/
theorem negated_toggle_precedence_witness :
    resolves_to [verbose_toggle, flag_x_option] ("--no-".toList ++ "verbose".toList) 0 true :=
  negated_toggle_precedence.2.2.1
    { empty_registry with options_ := [verbose_toggle, flag_x_option] } "verbose".toList 0
    verbose_toggle toggle_and_flag_reachable rfl rfl rfl
/-! ## The token `-`, and the options registered by their flag alone -/

/-- C36 (a lone `-` is skipped).  For options that all have a name: (1) when no option
is named `-`, the iteration for a token that is exactly `-` returns no error and leaves
the state as it was: no record, no count and no storage changes, and the scan goes on
with the next token.  (2) When the scan of a vector comes to a loop head on such a token
(the token is classified, not consumed as the value of a `Store` option), the call on the
vector without that token ends as the call on the vector does (it returns, exits or is
undefined alike), and when they return they return the same error, the same records with
the same counts, and the same memory.  (3) `-` alone gives no error and changes nothing;
`- --verbose` and `--verbose` give the same result; an option named `-` can be registered
and the token `-` then resolves to it; after the `Store` option `-v` the token `-` is its
value.  (4) The defect: with the toggle `--verbose` and an option registered by its flag
alone (the registration accepts the two records), no option is named `-`, and the lookup
of the token `-` compares it with the absent name of the second record, where the call on
the vector without the token returns no error. -/
theorem lone_dash_skipped :
    (∀ (fp : FloatOps) (s : ScanState),
      s.parser.argv_[s.i]? = some "-".toList → all_named s.parser.options_ →
      (∀ arg ∈ s.parser.options_, arg.name_ ≠ some "-".toList) →
      parse_token fp s = .ok (ARGPARSE_NO_ERROR_, s)) ∧
    (∀ (fp : FloatOps) (parser : argument_parser_t) (mem : Memory) (pre post : List CStr)
        (visited : List Nat) (s : ScanState),
      parser.argv_ = pre ++ "-".toList :: post →
      Reaches fp parser mem visited s → s.i = pre.length →
      all_named parser.options_ →
      (∀ arg ∈ parser.options_, arg.name_ ≠ some "-".toList) →
      argparse_parse_args fp (parser.with_argv (pre ++ post)) mem =
        (argparse_parse_args fp parser mem).bind fun (e, parser1, mem1) =>
          .ok (e, parser1.with_argv (pre ++ post), mem1)) ∧
    (argparse_parse_args sample_float_ops (sample_setup ["-"] [verbose_toggle] [])
        sample_bool_memory =
      .ok (ARGPARSE_NO_ERROR_, sample_setup ["-"] [verbose_toggle] [], sample_bool_memory) ∧
    argparse_parse_args sample_float_ops
        (sample_setup ["-", "--verbose"] [verbose_toggle] []) sample_bool_memory =
      .ok (ARGPARSE_NO_ERROR_,
        sample_setup ["-", "--verbose"] [{ verbose_toggle with count_ := 1 }] [],
        sample_bool_memory.write 1 (.bool true)) ∧
    argparse_parse_args sample_float_ops
        (sample_setup ["--verbose"] [verbose_toggle] []) sample_bool_memory =
      .ok (ARGPARSE_NO_ERROR_,
        sample_setup ["--verbose"] [{ verbose_toggle with count_ := 1 }] [],
        sample_bool_memory.write 1 (.bool true)) ∧
    argparse_add_argument empty_registry dash_named_flag =
      .ok (ARGPARSE_NO_ERROR_, { empty_registry with options_ := [dash_named_flag] }) ∧
    argparse_parse_args sample_float_ops (sample_setup ["-"] [dash_named_flag] [])
        sample_bool_memory =
      .ok (ARGPARSE_NO_ERROR_, sample_setup ["-"] [{ dash_named_flag with count_ := 1 }] [],
        sample_bool_memory.write 2 (.bool true)) ∧
    argparse_parse_args sample_float_ops (sample_setup ["-v", "-"] [string_value_option] [])
        sample_memory =
      .ok (ARGPARSE_NO_ERROR_,
        sample_setup ["-v", "-"] [{ string_value_option with count_ := 1 }] [],
        sample_memory.write 1 (.str "-".toList))) ∧
    (argparse_add_arguments empty_registry [verbose_toggle, flag_x_option] =
      .ok (ARGPARSE_NO_ERROR_,
        { empty_registry with options_ := [verbose_toggle, flag_x_option] }) ∧
    (∀ arg ∈ [verbose_toggle, flag_x_option], arg.name_ ≠ some ['-']) ∧
    argparse_parse_args sample_float_ops
        (sample_setup ["-"] [verbose_toggle, flag_x_option] []) sample_bool_memory = .undef ∧
    argparse_parse_args sample_float_ops
        (sample_setup [] [verbose_toggle, flag_x_option] []) sample_bool_memory =
      .ok (ARGPARSE_NO_ERROR_, sample_setup [] [verbose_toggle, flag_x_option] [],
        sample_bool_memory)) :=
  ⟨parse_token_lone_dash, parse_args_lone_dash, lone_dash_runs, rfl, by decide, rfl, rfl⟩

/-- The theorem at the vector `- --verbose`, whose first token is classified at the
start of the scan. -/
theorem lone_dash_skipped_witness :
    argparse_parse_args sample_float_ops
        ((sample_setup ["-", "--verbose"] [verbose_toggle] []).with_argv
          ([] ++ ["--verbose".toList])) sample_bool_memory =
      (argparse_parse_args sample_float_ops
        (sample_setup ["-", "--verbose"] [verbose_toggle] []) sample_bool_memory).bind
        fun (e, parser1, mem1) =>
          .ok (e, parser1.with_argv ([] ++ ["--verbose".toList]), mem1) :=
  lone_dash_skipped.2.1 sample_float_ops
    (sample_setup ["-", "--verbose"] [verbose_toggle] []) sample_bool_memory []
    ["--verbose".toList] [] _ rfl Reaches.start rfl (by decide) (by decide)
/-! ## The flag and the name of one record, and the options registered by their flag alone -/

/-- The registry that holds the `Count` option `-v` / `--verbose` and, registered after
it, an option that has a flag alone is built by one registration call. -/
theorem count_and_flag_reachable :
    Registry { empty_registry with options_ := [verbosity_count, flag_x_option] } :=
  Registry.add_arguments [verbosity_count, flag_x_option]
    (Registry.init ["./prog".toList, []] none none)
    (rfl : argparse_add_arguments empty_registry [verbosity_count, flag_x_option] =
      .ok (ARGPARSE_NO_ERROR_,
        { empty_registry with options_ := [verbosity_count, flag_x_option] }))

/-- C40 (flag and name are aliases of one record).  (1) In a registry built by
registration calls, an option with a flag `f` and a name `N` is the record the token `N`
resolves to and the record the token `-f` resolves to, both with `negated` clear, when
`N` does not start with `--no-`, whatever options are registered by their flag alone, and
when `N` starts with `--no-`, the options all have a name and `N` is not the negated form
`--no-S` of a registered toggle `--S`.  (2) When the scan of a vector comes to a loop head
on a token `t` that resolves to an option (the token is classified, not consumed as the
value of a `Store` option), the call on the vector with `t` replaced by a token that
resolves to the same option with the same `negated` ends as the call on the vector does
(it returns, exits or is undefined alike), and when they return they return the same kind
of error, the same records with the same counts, and the same memory.  (3) So, in such a
registry, for `N` replaced by `-f` and for `-f` replaced by `N`.  (4) The test
`count_multi_mixed` gives count 5, as do the vector with the five names and the vector
with the five flags; `--value` and `-v` without a value both give `MissingValue`, each
with its own token as the name.  (5) The defect: with the option `-n` / `--no-color` and
an option registered by its flag alone (the registration accepts the two records, and no
toggle named `--color` exists), the token `-n` is bound to the first record, and the
lookup of the token `--no-color` for a toggle named `--color` compares a name with the
absent name of the second record. -/
theorem flag_name_alias :
    (∀ (parser : argument_parser_t) (k : Nat) (arg : argparse_arg_t) (N : CStr),
      Registry parser →
      (starts_with N "--no-".toList = true → all_named parser.options_) →
      parser.options_[k]? = some arg → arg.flag_ ≠ NO_FLAG → arg.name_ = some N →
      ¬ negates_toggle parser.options_ N →
      resolves_to parser.options_ N k false ∧
        resolves_to parser.options_ ['-', arg.flag_] k false) ∧
    (∀ (fp : FloatOps) (parser : argument_parser_t) (mem : Memory) (pre post : List CStr)
        (t t1 : CStr) (k : Nat) (negated : Bool) (visited : List Nat) (s : ScanState),
      parser.argv_ = pre ++ t :: post →
      Reaches fp parser mem visited s → s.i = pre.length →
      resolves_to parser.options_ t k negated →
      resolves_to parser.options_ t1 k negated →
      outcome_kind (argparse_parse_args fp (parser.with_argv (pre ++ t1 :: post)) mem) =
        outcome_kind (argparse_parse_args fp parser mem)) ∧
    (∀ (fp : FloatOps) (parser : argument_parser_t) (mem : Memory) (pre post : List CStr)
        (k : Nat) (arg : argparse_arg_t) (N : CStr) (visited : List Nat) (s : ScanState),
      Registry parser →
      (starts_with N "--no-".toList = true → all_named parser.options_) →
      parser.options_[k]? = some arg → arg.flag_ ≠ NO_FLAG → arg.name_ = some N →
      ¬ negates_toggle parser.options_ N →
      Reaches fp parser mem visited s → s.i = pre.length →
      (parser.argv_ = pre ++ N :: post →
        outcome_kind (argparse_parse_args fp
            (parser.with_argv (pre ++ ['-', arg.flag_] :: post)) mem) =
          outcome_kind (argparse_parse_args fp parser mem)) ∧
      (parser.argv_ = pre ++ ['-', arg.flag_] :: post →
        outcome_kind (argparse_parse_args fp (parser.with_argv (pre ++ N :: post)) mem) =
          outcome_kind (argparse_parse_args fp parser mem))) ∧
    (argparse_parse_args sample_float_ops
        (sample_setup ["--verbose", "-v", "--verbose", "-v", "--verbose"] [verbosity_count] [])
        sample_memory =
      .ok (ARGPARSE_NO_ERROR_,
        sample_setup ["--verbose", "-v", "--verbose", "-v", "--verbose"]
          [{ verbosity_count with count_ := 5 }] [],
        sample_memory.write 1 (.int 5)) ∧
    outcome_kind (argparse_parse_args sample_float_ops
        (sample_setup ["--verbose", "--verbose", "--verbose", "--verbose", "--verbose"]
          [verbosity_count] []) sample_memory) =
      .ok (ARGPARSE_NO_ERROR, [{ verbosity_count with count_ := 5 }], [],
        sample_memory.write 1 (.int 5)) ∧
    outcome_kind (argparse_parse_args sample_float_ops
        (sample_setup ["-v", "-v", "-v", "-v", "-v"] [verbosity_count] []) sample_memory) =
      .ok (ARGPARSE_NO_ERROR, [{ verbosity_count with count_ := 5 }], [],
        sample_memory.write 1 (.int 5)) ∧
    argparse_parse_args sample_float_ops (sample_setup ["--value"] [value_option] [])
        sample_memory =
      .ok (ARGPARSE_ARGUMENT_MISSING_VALUE_ERROR_ (some "--value".toList) NO_FLAG,
        sample_setup ["--value"] [{ value_option with count_ := 1 }] [], sample_memory) ∧
    argparse_parse_args sample_float_ops (sample_setup ["-v"] [value_option] [])
        sample_memory =
      .ok (ARGPARSE_ARGUMENT_MISSING_VALUE_ERROR_ (some "-v".toList) NO_FLAG,
        sample_setup ["-v"] [{ value_option with count_ := 1 }] [], sample_memory)) ∧
    (argparse_add_arguments empty_registry [no_color_flag, flag_x_option] =
      .ok (ARGPARSE_NO_ERROR_,
        { empty_registry with options_ := [no_color_flag, flag_x_option] }) ∧
    ¬ negates_toggle [no_color_flag, flag_x_option] "--no-color".toList ∧
    argparse_parse_args sample_float_ops
        (sample_setup ["-n"] [no_color_flag, flag_x_option] []) sample_true_memory =
      .ok (ARGPARSE_NO_ERROR_,
        sample_setup ["-n"] [{ no_color_flag with count_ := 1 }, flag_x_option] [],
        sample_true_memory.write 1 (.bool false)) ∧
    argparse_parse_args sample_float_ops
        (sample_setup ["--no-color"] [no_color_flag, flag_x_option] [])
        sample_true_memory = .undef) := by
  have key : ∀ (parser : argument_parser_t) (k : Nat) (arg : argparse_arg_t) (N : CStr),
      Registry parser →
      (starts_with N "--no-".toList = true → all_named parser.options_) →
      parser.options_[k]? = some arg → arg.flag_ ≠ NO_FLAG → arg.name_ = some N →
      ¬ negates_toggle parser.options_ N →
      resolves_to parser.options_ N k false ∧
        resolves_to parser.options_ ['-', arg.flag_] k false := by
    intro parser k arg N hreg hall hk hf hn hneg
    cases hsw : starts_with N "--no-".toList with
    | true => exact registry_alias parser hreg (hall hsw) k arg N hk hf hn hneg
    | false =>
      exact ⟨registry_name_resolves parser hreg k arg N hk hn hsw,
        registry_flag_resolves parser hreg k arg hk hf⟩
  refine ⟨key, parse_args_alias, ?_, flag_name_runs, rfl, by decide, rfl, rfl⟩
  intro fp parser mem pre post k arg N visited s hreg hall hk hf hn hneg hr hi
  obtain ⟨h1, h2⟩ := key parser k arg N hreg hall hk hf hn hneg
  exact ⟨fun hargv => parse_args_alias fp parser mem pre post N _ k false visited s hargv hr
      hi h1 h2,
    fun hargv => parse_args_alias fp parser mem pre post _ N k false visited s hargv hr
      hi h2 h1⟩
/-- The theorem at the registry that holds the `Count` option `-v` / `--verbose` and,
registered after it, an option that has a flag alone: the name and the flag both resolve
to the first record. -/
theorem flag_name_alias_witness :
    resolves_to [verbosity_count, flag_x_option] "--verbose".toList 0 false ∧
      resolves_to [verbosity_count, flag_x_option] ['-', verbosity_count.flag_] 0 false :=
  flag_name_alias.1 { empty_registry with options_ := [verbosity_count, flag_x_option] } 0
    verbosity_count "--verbose".toList count_and_flag_reachable
    (fun h => absurd h (by decide)) rfl (by decide) rfl (by decide)

end Argparse
